import Mathlib

/-!
# Table header layout (`table_header/table.go`)

A shallow embedding of the tree model, the tree-building bridge (`BuildNode`, `BuildMap`)
and the grid layout engine (`Node.TableHeader` with its local closures `lcm`, `rowsToUse`,
`width`, `getCells`, `sort`), followed by the properties proved about them.

Conventions of the embedding:

* Go `int` is the 64-bit `int` of the platforms the library is built for: a value is an
  `Int` from -2^63 to 2^63 - 1, and every sum, difference, product and quotient that the
  layout code computes is brought back into this range by `wrap` (two's complement).  The
  layout code has no overflow handling, and the specification (section 4.4) leaves
  overflow outside the design; the theorems about the layout are stated for the trees on
  which no result leaves the range (`InRange`), and the behaviour outside is shown on
  trees of a few hundred nodes.
* Go's `/` and `%` truncate towards zero: `Int.tdiv`, `Int.tmod`.
* A run-time panic (integer division by zero, index out of range, slicing past the end,
  `make` with a length that is negative or above `maxSliceLen`) is an `Except.error`
  carrying a `Fault`.
* `*Node` values are finite trees: a nil pointer, a shared child and a cycle are excluded by
  the type `Node`.
* Cells (`*Header`) are values; the closures' captured variable `mt` is passed explicitly.
-/

namespace table_header

/-! ## Tokens and the syntax tree (`token/token.go`, `parser/expr.go`) -/

/-- Source position: `type Pos int`. -/
abbrev Pos := Int

/-- Token kind: `type Token int`. -/
abbrev Token := Int

namespace token

def Illegal : Token := 0

def EOF : Token := 1

def Comment : Token := 2

def _literalBeg : Token := 3

def Ident : Token := 4

def Number : Token := 5

def String : Token := 6

def _literalEnd : Token := 7

def LParen : Token := 8

def RParen : Token := 9

def LBrack : Token := 10

def RBrack : Token := 11

def LBrace : Token := 12

def RBrace : Token := 13

def Comma : Token := 14

def Semicolon : Token := 15

def Colon : Token := 16

end token

namespace parser

mutual
/-- Expression nodes, the implementations of the interface `Expr` in `parser/expr.go`. -/
inductive Expr where
  | ArrayLit (Elements : List Expr) (LBrack RBrack : Pos)
  | BadExpr (From To : Pos)
  | Ident (Name : String) (NamePos : Pos)
  | Number (Value : String) (ValuePos : Pos)
  | SliceExpr (X : Expr) (LBrack : Pos) (Low High : Option Expr) (RBrack : Pos)
  | StringLit (Value : String) (ValuePos : Pos) (Literal : String)
  | ValuesElementLit (e : ValuesElementLit)
  | ValuesLit (v : ValuesLit)
/-- Map element: `ValuesElementLit`; a nil `Value` or `Tags` is `none`. -/
inductive ValuesElementLit where
  | mk (Key : String) (KeyPos ColonPos : Pos) (Value : Option Expr) (Tags : Option ValuesLit)
/-- Map literal: `ValuesLit`. -/
inductive ValuesLit where
  | mk (LBrace : Pos) (Elements : List ValuesElementLit) (RBrace : Pos) (BraceOpen : Token)
end

/-- Rendering of the dynamic type of an expression by the verb `%T`. -/
def Expr.typeName : Expr → String
  | .ArrayLit _ _ _ => "*parser.ArrayLit"
  | .BadExpr _ _ => "*parser.BadExpr"
  | .Ident _ _ => "*parser.Ident"
  | .Number _ _ => "*parser.Number"
  | .SliceExpr _ _ _ _ _ => "*parser.SliceExpr"
  | .StringLit _ _ _ => "*parser.StringLit"
  | .ValuesElementLit _ => "*parser.ValuesElementLit"
  | .ValuesLit _ => "*parser.ValuesLit"

end parser

/-! ## Tree model (`table.go`) -/

/-- Value of the external arbitrary-precision decimal type: coefficient and exponent. -/
structure Decimal where
  value : Int
  exp : Int
  deriving DecidableEq, Repr

/-- Dynamically typed tag value (`interface{}` as stored by `BuildMap`). -/
inductive TagValue where
  | bool (b : Bool)
  | str (s : String)
  | decimal (d : Decimal)
  | map (m : List (String × TagValue))

/-- Tag mapping `map[string]interface{}`, as an association list with unique keys. -/
abbrev TagMap := List (String × TagValue)

/-- Assignment `th[key] = v` on a tag mapping. -/
def TagMap.set : TagMap → String → TagValue → TagMap
  | [], key, v => [(key, v)]
  | (k, w) :: rest, key, v => if k = key then (k, v) :: rest else (k, w) :: TagMap.set rest key v

/-- Tree node: `type Node struct { Value; Children; Tags }`; nil `Tags` is `none`. -/
inductive Node where
  | mk (Value : String) (Children : List Node) (Tags : Option TagMap)

def Node.Value : Node → String
  | .mk v _ _ => v

def Node.Children : Node → List Node
  | .mk _ cs _ => cs

def Node.Tags : Node → Option TagMap
  | .mk _ _ t => t

/-- Layout result for one tree node: `type Header struct`. -/
structure Header where
  Value : String
  Tags : Option TagMap
  IsLeaf : Bool
  Depth : Int
  Row : Int
  Col : Int
  RowSpan : Int
  ColSpan : Int

/-- Grid result: `type TableHeader struct { Rows; NumRows; Leafs }`. -/
structure TableHeader where
  Rows : List (List Header)
  NumRows : Int
  Leafs : List Header

/-- Run-time failures of the layout code. -/
inductive Fault where
  | divideByZero
  | indexOutOfRange
  | sliceBounds
  | lenOutOfRange
  | outOfFuel
  deriving DecidableEq, Repr

deriving instance DecidableEq for Except

/-! ## Tree-building bridge (`BuildNode`, `BuildMap`) -/

mutual
/-- Function `BuildMap`; `newFromString` is the external `decimal.NewFromString`, which
returns a decimal and an error (`none` for nil). The result is the pair `(th, err)`. -/
def BuildMap (newFromString : String → Decimal × Option String) :
    parser.ValuesLit → TagMap × Option String
  | .mk _ elements _ _ => BuildMapLoop newFromString elements []
/-- The loop `for _, el := range vl.Elements` of `BuildMap`, with the map built so far. -/
def BuildMapLoop (newFromString : String → Decimal × Option String) :
    List parser.ValuesElementLit → TagMap → TagMap × Option String
  | [], th => (th, none)
  | .mk key _ _ value _ :: rest, th =>
    match value with
    | none => BuildMapLoop newFromString rest (th.set key (.bool true))
    | some (.StringLit v _ _) => BuildMapLoop newFromString rest (th.set key (.str v))
    | some (.ValuesLit t) =>
      match BuildMap newFromString t with
      | (child, none) => BuildMapLoop newFromString rest (th.set key (.map child))
      | (_, some err) => (th, some err)
    | some (.Ident name _) => BuildMapLoop newFromString rest (th.set key (.str name))
    | some (.Number v _) =>
      match newFromString v with
      | (d, none) => BuildMapLoop newFromString rest (th.set key (.decimal d))
      | (d, some err) => (th.set key (.decimal d), some err)
    | some e => (th, some ("invalid value type " ++ e.typeName))
end

/-- The tags of one element in `BuildNode`: `if el.Tags == nil { tags = nil } else
{ tags, err = BuildMap(el.Tags) }`, as the pair `(tags, err)`. -/
def buildTags (newFromString : String → Decimal × Option String) :
    Option parser.ValuesLit → Option TagMap × Option String
  | none => (none, none)
  | some tl => (some (BuildMap newFromString tl).1, (BuildMap newFromString tl).2)

/-- Statement `th.Children = append(th.Children, child)`. -/
def Node.appendChild : Node → Node → Node
  | .mk v cs tags, child => .mk v (cs ++ [child]) tags

mutual
/-- Function `BuildNode`; the result is the pair `(th, err)` of the named results, a nil
node or a nil error being `none`. -/
def BuildNode (newFromString : String → Decimal × Option String) :
    parser.ValuesLit → Option Node × Option String
  | .mk _ elements _ _ => BuildNodeLoop newFromString elements (.mk "" [] none)
/-- The loop `for _, el := range vl.Elements` of `BuildNode`, with the node built so far. -/
def BuildNodeLoop (newFromString : String → Decimal × Option String) :
    List parser.ValuesElementLit → Node → Option Node × Option String
  | [], th => (some th, none)
  | .mk key _ _ value elTags :: rest, th =>
    match buildTags newFromString elTags with
    | (_, some err) => (none, some err)
    | (tags, none) =>
      match value with
      | none => BuildNodeLoop newFromString rest (th.appendChild (.mk key [] tags))
      | some (.StringLit v _ _) =>
        BuildNodeLoop newFromString rest (th.appendChild (.mk v [] tags))
      | some (.ValuesLit t) =>
        match BuildNode newFromString t with
        | (some child, none) =>
          BuildNodeLoop newFromString rest (th.appendChild (.mk key child.Children tags))
        | (_, err) => (some th, err)
      | some (.Ident name _) =>
        BuildNodeLoop newFromString rest
          (th.appendChild (.mk key [.mk name [] none] tags))
      | some e => (some th, some ("invalid value type " ++ e.typeName))
end

/-! ## Grid layout engine (`Node.TableHeader`) -/

/-- Local closure `compare` of `sort`. -/
def compare (x y : Int) : Int :=
  if x < y then -1
  else if x == y then 0
  else 1

/-- The `less` function handed to `sort.Slice`: row first, column second. -/
def less (a b : Header) : Bool :=
  let pri := compare a.Row b.Row
  let sec := compare a.Col b.Col
  if pri != 0 then pri < 0 else sec < 0

/-- Insertion of one element in front of the first element that is not less than it. -/
def sortSliceInsert {α : Type} (lt : α → α → Bool) (x : α) : List α → List α
  | [] => [x]
  | y :: ys => if lt y x then y :: sortSliceInsert lt x ys else x :: y :: ys

/-- The library routine `sort.Slice(this, less)`, as an insertion sort: it returns a
permutation of its input in which no element is less than an earlier one. -/
def sortSlice {α : Type} (lt : α → α → Bool) : List α → List α
  | [] => []
  | x :: xs => sortSliceInsert lt x (sortSlice lt xs)

/-- Local closure `sort`. -/
def sort (this : List Header) : List Header :=
  sortSlice less this

/-- Result of an arithmetic operation on Go's `int`, taken as 64 bits wide: the
mathematical result brought back into the range from -2^63 to 2^63 - 1 by two's-complement
wrap-around. -/
def wrap (x : Int) : Int :=
  (x + 9223372036854775808) % 18446744073709551616 - 9223372036854775808

/-- Largest length with which `make([][]*Header, n)` returns: the runtime's `makeslice`
panics on a negative length and on one whose 24-byte elements need more than
`maxAlloc` = 2^48 bytes. -/
def maxSliceLen : Int := 11728124029610

/-- The loop `for b > 0 { t := b; b = a % b; a = t }` of `lcm`: the final value of `a`,
or `none` when `fuel` iterations do not bring `b` down to zero. The remainder of a
division by a positive `b` lies between `-b` and `b` and does not wrap. -/
def lcmLoop : Nat → Int → Int → Option Int
  | 0, a, b => if b > 0 then none else some a
  | fuel + 1, a, b => if b > 0 then lcmLoop fuel b (Int.tmod a b) else some a

/-- Local closure `lcm`: `c := a * b`, the loop, then `c / a`. The loop runs at most `b`
times, which is the fuel it is given. -/
def lcm (a b : Int) : Except Fault Int :=
  let c := wrap (a * b)
  match lcmLoop b.toNat a b with
  | none => .error .outOfFuel
  | some a => if a = 0 then .error .divideByZero else .ok (wrap (Int.tdiv c a))

mutual
/-- Local closure `rowsToUse`. -/
def rowsToUse : Node → Except Fault Int
  | .mk _ children _ => do
    let childrenRows ← rowsToUseLoop children (if children.length > 0 then 1 else 0)
    pure (wrap (1 + childrenRows))
/-- The loop `for _, child := range t.Children` of `rowsToUse`. -/
def rowsToUseLoop : List Node → Int → Except Fault Int
  | [], childrenRows => pure childrenRows
  | child :: rest, childrenRows => do
    let r ← rowsToUse child
    let childrenRows ← lcm childrenRows r
    rowsToUseLoop rest childrenRows
end

mutual
/-- Local closure `width`. -/
def width : Node → Int
  | .mk _ children _ => if children.length == 0 then 1 else widthLoop children 0
/-- The loop `for _, child := range t.Children` of `width`. -/
def widthLoop : List Node → Int → Int
  | [], w => w
  | child :: rest, w => widthLoop rest (wrap (w + width child))
end

mutual
/-- Local closure `getCells`; the captured `mt` is threaded through. -/
def getCells : Int → Node → Int → Int → Int → TableHeader →
    Except Fault (List Header × TableHeader)
  | depth, .mk value children tags, row, col, rowsLeft, mt => do
    let r ← rowsToUse (.mk value children tags)
    if r = 0 then throw Fault.divideByZero
    let rootRows := wrap (Int.tdiv rowsLeft r)
    let th : Header :=
      ⟨value, tags, children.length == 0, depth, row, col, rootRows, width (.mk value children tags)⟩
    let (cells, mt) ←
      getCellsLoop depth children (wrap (row + rootRows)) col (wrap (rowsLeft - rootRows)) [th] mt
    let mt := if wrap (row + 1) > mt.NumRows then { mt with NumRows := wrap (row + 1) } else mt
    let mt := if th.IsLeaf then { mt with Leafs := mt.Leafs ++ [th] } else mt
    pure (cells, mt)
/-- The loop `for _, child := range t.Children` of `getCells`, called with the depth of
the parent, the row and budget of the children, the running column and the cells so far. -/
def getCellsLoop : Int → List Node → Int → Int → Int → List Header → TableHeader →
    Except Fault (List Header × TableHeader)
  | _, [], _, _, _, cells, mt => pure (cells, mt)
  | depth, child :: rest, row, col, rowsLeft, cells, mt => do
    let (sub, mt) ← getCells (wrap (depth + 1)) child row col rowsLeft mt
    getCellsLoop depth rest row (wrap (col + width child)) rowsLeft (cells ++ sub) mt
end

/-- The loop `for _, cell := range cells { mt.Rows[cell.Row] = append(mt.Rows[cell.Row], cell) }`. -/
def groupRows : List Header → List (List Header) → Except Fault (List (List Header))
  | [], rows => pure rows
  | cell :: rest, rows =>
    if 0 ≤ cell.Row ∧ cell.Row < rows.length then
      groupRows rest (rows.modify (fun r => r ++ [cell]) cell.Row.toNat)
    else throw Fault.indexOutOfRange

/-- The cells returned by the top-level call `getCells(0, root, 0, 0, rowsToUse(root))`,
with the state `mt` it leaves behind. -/
def emit (root : Node) : Except Fault (List Header × TableHeader) := do
  let r ← rowsToUse root
  getCells 0 root 0 0 r ⟨[], 0, []⟩

/-- Method `func (root *Node) TableHeader() (mt TableHeader)`. -/
def Node.TableHeader (root : Node) : Except Fault TableHeader := do
  let (cells, mt) ← emit root
  let cells := sort cells
  if mt.NumRows < 0 ∨ mt.NumRows > maxSliceLen then throw Fault.lenOutOfRange
  let rows ← groupRows cells (List.replicate mt.NumRows.toNat [])
  if rows.length < 1 then throw Fault.sliceBounds
  pure ⟨rows.drop 1, wrap (mt.NumRows - 1), mt.Leafs⟩


/-! ## Auxiliary definitions used to state and prove the properties -/

mutual
/-- Number of grid rows a subtree needs, written with the mathematical least common
multiple: 1 for a childless node, otherwise 1 + lcm of the children's counts. -/
def rows : Node → Nat
  | .mk _ [] _ => 1
  | .mk _ (c :: cs) _ => 1 + rowsLcm (c :: cs)
/-- Least common multiple of `rows` over a list of nodes (1 for the empty list). -/
def rowsLcm : List Node → Nat
  | [] => 1
  | c :: cs => Nat.lcm (rows c) (rowsLcm cs)
end

mutual
/-- Number of grid columns of a subtree as a mathematical integer: 1 for a childless
node, otherwise the sum over the children. -/
def cols : Node → Int
  | .mk _ children _ => if children.length == 0 then 1 else colsLoop children 0
/-- Sum of `cols` over a list of nodes, added to `w`. -/
def colsLoop : List Node → Int → Int
  | [], w => w
  | child :: rest, w => colsLoop rest (w + cols child)
end

mutual
/-- Number of levels below a node: 0 for a childless node. -/
def height : Node → Nat
  | .mk _ children _ => heightList children
/-- One more than the largest `height` in a list of nodes, 0 for the empty list. -/
def heightList : List Node → Nat
  | [] => 0
  | c :: cs => max (height c + 1) (heightList cs)
end

mutual
/-- Whether `rowsToUse` stays below 2^63 on the tree: each product `a * b` that `lcm`
forms and each sum `1 + childrenRows`, the running values being written with the
mathematical least common multiple. -/
def rowsFit : Node → Bool
  | .mk v children tags =>
    rowsFitLoop children 1 && decide (rows (.mk v children tags) < 9223372036854775808)
/-- The loop of `rowsToUse` under `rowsFit`, with the running value `childrenRows`. -/
def rowsFitLoop : List Node → Nat → Bool
  | [], _ => true
  | child :: rest, childrenRows =>
    rowsFit child && decide (childrenRows * rows child < 9223372036854775808) &&
      rowsFitLoop rest (Nat.lcm childrenRows (rows child))
end

/-- The tree is within the range of the 64-bit `int`: `rowsToUse` stays below 2^63 on it
(`rowsFit`), and so do its number of columns and its number of levels. -/
def InRange (t : Node) : Prop :=
  rowsFit t = true ∧ cols t < 9223372036854775808 ∧ (height t : Int) < 9223372036854775808

instance (t : Node) : Decidable (InRange t) :=
  inferInstanceAs (Decidable (_ ∧ _ ∧ _))

/-- Arguments of a call of `getCells` on which no operation leaves the range of `int`. -/
def Safe (d : Int) (t : Node) (row col rl : Int) : Prop :=
  rowsFit t = true ∧ 0 ≤ d ∧ d + (height t : Int) < 9223372036854775808 ∧
    0 ≤ row ∧ 0 < rl ∧ row + rl < 9223372036854775808 ∧
    0 ≤ col ∧ col + cols t < 9223372036854775808

/-- Arguments of the loop of `getCells` over the children on which no operation leaves
the range of `int`. -/
def SafeList (d : Int) (cs : List Node) (row col rl : Int) : Prop :=
  (∀ c ∈ cs, rowsFit c = true) ∧ 0 ≤ d ∧ d + (heightList cs : Int) < 9223372036854775808 ∧
    0 ≤ row ∧ 0 < rl ∧ row + rl < 9223372036854775808 ∧
    0 ≤ col ∧ col + (cs.map cols).sum < 9223372036854775808


mutual
/-- Trace of `rowsToUse`: the argument pairs of every call of `lcm` made while
`rowsToUse t` runs, in call order. -/
def lcmCalls : Node → List (Int × Int)
  | .mk _ children _ => lcmCallsLoop children (if children.length > 0 then 1 else 0)
/-- Trace of the loop of `rowsToUse`, started with the running value `childrenRows`. -/
def lcmCallsLoop : List Node → Int → List (Int × Int)
  | [], _ => []
  | child :: rest, childrenRows =>
    lcmCalls child ++
      match rowsToUse child with
      | .error _ => []
      | .ok r =>
        (childrenRows, r) ::
          match lcm childrenRows r with
          | .error _ => []
          | .ok l => lcmCallsLoop rest l
end

/-- Record of one call `getCells(depth, t, row, col, rowsLeft)`: the node, the budget it
received, the cell it emitted and the calls it made for the children, in order. -/
inductive CallTree where
  | mk (t : Node) (rowsLeft : Int) (cell : Header) (kids : List CallTree)

def CallTree.t : CallTree → Node
  | .mk t _ _ _ => t

def CallTree.rowsLeft : CallTree → Int
  | .mk _ rl _ _ => rl

def CallTree.cell : CallTree → Header
  | .mk _ _ cell _ => cell

def CallTree.kids : CallTree → List CallTree
  | .mk _ _ _ kids => kids

mutual
/-- Call structure of `getCells`: the same arithmetic as `getCells`, with the row count
of the node taken from `rows`, recording the calls instead of flattening their cells. -/
def callTree : Int → Node → Int → Int → Int → CallTree
  | depth, .mk value children tags, row, col, rowsLeft =>
    let rootRows := Int.tdiv rowsLeft (rows (.mk value children tags))
    .mk (.mk value children tags) rowsLeft
      ⟨value, tags, children.length == 0, depth, row, col, rootRows, cols (.mk value children tags)⟩
      (callTreeLoop depth children (row + rootRows) col (rowsLeft - rootRows))
/-- Calls made by the loop of `getCells` over the children. -/
def callTreeLoop : Int → List Node → Int → Int → Int → List CallTree
  | _, [], _, _, _ => []
  | depth, child :: rest, row, col, rowsLeft =>
    callTree (depth + 1) child row col rowsLeft ::
      callTreeLoop depth rest row (col + cols child) rowsLeft
end

mutual
/-- Cells of a call and of all calls below it, in emission order. -/
def CallTree.cells : CallTree → List Header
  | .mk _ _ cell kids => cell :: CallTree.cellsList kids
/-- Cells of a list of calls, in emission order. -/
def CallTree.cellsList : List CallTree → List Header
  | [] => []
  | k :: ks => k.cells ++ CallTree.cellsList ks
end

mutual
/-- A call and all calls below it, in call order. -/
def CallTree.calls : CallTree → List CallTree
  | .mk t rl cell kids => .mk t rl cell kids :: CallTree.callsList kids
/-- All calls of a list of call records, in call order. -/
def CallTree.callsList : List CallTree → List CallTree
  | [] => []
  | k :: ks => k.calls ++ CallTree.callsList ks
end

/-- The call tree of the top-level call `getCells(0, root, 0, 0, rowsToUse(root))`. -/
def rootCall (root : Node) : CallTree :=
  callTree 0 root 0 0 (rows root)

/-- Whether the span `[Row, Row+RowSpan) x [Col, Col+ColSpan)` of a cell holds `(r, c)`. -/
def covers (r c : Int) (h : Header) : Bool :=
  decide (h.Row ≤ r ∧ r < h.Row + h.RowSpan ∧ h.Col ≤ c ∧ c < h.Col + h.ColSpan)

/-- Whether the span of a published cell holds `(r, c)`, rows counted from the first
published row (`Row - 1`). -/
def coversPublished (r c : Int) (h : Header) : Bool :=
  decide (h.Row - 1 ≤ r ∧ r < h.Row - 1 + h.RowSpan ∧ h.Col ≤ c ∧ c < h.Col + h.ColSpan)

mutual
/-- The childless nodes of a tree in left-to-right depth-first order. -/
def leaves : Node → List Node
  | .mk value [] tags => [.mk value [] tags]
  | .mk _ (c :: cs) _ => leavesList (c :: cs)
/-- The childless nodes of a list of trees, in order. -/
def leavesList : List Node → List Node
  | [] => []
  | c :: cs => leaves c ++ leavesList cs
end

/-- The update `if (row + 1) > mt.NumRows { mt.NumRows = row + 1 }` made for each cell. -/
def numRowsAfter (n : Int) (cells : List Header) : Int :=
  cells.foldl (fun n h => if h.Row + 1 > n then h.Row + 1 else n) n

/-- State `mt` after the calls that emitted `cells`. -/
def stateAfter (mt : TableHeader) (cells : List Header) : TableHeader :=
  ⟨mt.Rows, numRowsAfter mt.NumRows cells, mt.Leafs ++ cells.filter (fun h => h.IsLeaf)⟩

/-- The cells lie in, and cover exactly once, the rectangle of `rl` rows from `row` and
`w` columns from `col`; every span is at least one row and one column. -/
def Tiles (cells : List Header) (row col rl w : Int) : Prop :=
  (∀ h ∈ cells, row ≤ h.Row ∧ 1 ≤ h.RowSpan ∧ h.Row + h.RowSpan ≤ row + rl ∧
      col ≤ h.Col ∧ 1 ≤ h.ColSpan ∧ h.Col + h.ColSpan ≤ col + w) ∧
  (∀ r c : Int, cells.countP (covers r c)
      = if row ≤ r ∧ r < row + rl ∧ col ≤ c ∧ c < col + w then 1 else 0)

/-- Rows as built by the grouping loop from `n` empty rows: row `i` holds the cells whose
`Row` is `i`, in the order of `cells`. -/
def groupedBy (cells : List Header) (n : Nat) : List (List Header) :=
  (List.range n).map (fun (i : Nat) => cells.filter (fun h => decide (h.Row = (i : Int))))

/-- Childless node without tags. -/
def leaf (value : String) : Node := .mk value [] none

/-- A chain of `n + 1` nodes without values: each node but the last has one child. -/
def chain : Nat → Node
  | 0 => .mk "" [] none
  | n + 1 => .mk "" [chain n] none

/-- A node without value and tags over the given children. -/
def over (children : List Node) : Node := .mk "" children none

/-- A root over one chain of `p` nodes for each listed number `p`. -/
def chainTree (ps : List Nat) : Node := over (ps.map (fun p => chain (p - 1)))

/-- Tree of 239 nodes: chains of 2, 3, 5, ..., 41 nodes (the first 13 primes) under one
root. Its row count 304250263527211 is within `int` and above `maxSliceLen`. -/
def chainTree13 : Node := chainTree [2, 3, 5, 7, 11, 13, 17, 19, 23, 29, 31, 37, 41]

/-- Tree of 329 nodes: chains of 2, 3, 5, ..., 47 nodes (the first 15 primes) under one
root. Its row count 614889782588491411 is within `int` and above `maxSliceLen`. -/
def chainTree15 : Node := chainTree [2, 3, 5, 7, 11, 13, 17, 19, 23, 29, 31, 37, 41, 43, 47]

/-- Tree of 382 nodes: chains of 2, 3, 5, ..., 53 nodes (the first 16 primes) under one
root. The least common multiple of the chains' row counts is above 2^63. -/
def chainTree16 : Node :=
  chainTree [2, 3, 5, 7, 11, 13, 17, 19, 23, 29, 31, 37, 41, 43, 47, 53]

/-- Tree whose row count is 128 = 1 + (1 + lcm(2, 9, 7)). -/
def rows128 : Node := over [over [chain 1, chain 8, chain 6]]

/-- Tree whose row count is 17 = 1 + (1 + lcm(3, 5)). -/
def rows17 : Node := over [over [chain 2, chain 4]]

/-- Tree whose row count is 257 = 1 + (1 + lcm(3, 5, 17)). -/
def rows257 : Node := over [over [chain 2, chain 4, rows17]]

/-- Tree whose row count is 641 = 1 + lcm(128, 5). -/
def rows641 : Node := over [rows128, chain 4]

/-- Tree whose row count is 65537 = 1 + (1 + lcm(3, 5, 17, 257)). -/
def rows65537 : Node := over [over [chain 2, chain 4, rows17, rows257]]

/-- Tree whose row count is 6700417 = 1 + lcm(128, 3, 17449), with
17449 = 1 + lcm(8, 3, 727), 727 = 1 + lcm(2, 3, 121) and 121 = 1 + lcm(8, 3, 5). -/
def rows6700417 : Node :=
  over [rows128, chain 2,
    over [chain 7, chain 2, over [chain 1, chain 2, over [chain 7, chain 2, chain 4]]]]

/-- Tree of 164 nodes whose children have the row counts 3, 5, 17, 257, 641, 65537 and
6700417, with product 2^64 - 1. -/
def zeroTree : Node :=
  over [chain 2, chain 4, rows17, rows257, rows641, rows65537, rows6700417]

/-- Tree whose row count is 4294967298 = 1 + lcm(6700417, 641) = 2^32 + 2. -/
def rowsTwo32 : Node := over [rows6700417, rows641]

/-- Tree of 173 nodes: a root over two copies of `rowsTwo32`. The square of the children's
row count is above 2^64. -/
def squareTree : Node := over [rowsTwo32, rowsTwo32]

/-- Number of nodes of a tree. -/
def Node.size : Node → Nat
  | .mk _ children _ => 1 + sizeList children
where
  /-- Number of nodes of a list of trees. -/
  sizeList : List Node → Nat
    | [] => 0
    | c :: cs => c.size + sizeList cs

/-- Example tree: a root whose two children head chains of two and of three nodes,
`{A:a, B:{b:c}}`. -/
def unevenTree : Node :=
  .mk "" [.mk "A" [leaf "a"] none, .mk "B" [.mk "b" [leaf "c"] none] none] none

def parser.ValuesLit.Elements : parser.ValuesLit → List parser.ValuesElementLit
  | .mk _ elements _ _ => elements

/-- Syntax tree of the text `{}`: a values literal without elements. -/
def emptyLit : parser.ValuesLit :=
  .mk 1 [] 2 token.LBrace

/-- Syntax tree of the text `{a[],b:{c,d:{d1,d2:d3,d4},e},f,g:{h,i}}` of `TestParse`
(positions are offsets + 1; `BuildNode` does not look at them). -/
def testLit : parser.ValuesLit :=
  .mk 1 [
    .mk "a" 2 0 none (some (.mk 3 [] 4 token.LBrack)),
    .mk "b" 6 7 (some (.ValuesLit (.mk 8 [
      .mk "c" 9 0 none none,
      .mk "d" 11 12 (some (.ValuesLit (.mk 13 [
        .mk "d1" 14 0 none none,
        .mk "d2" 17 19 (some (.Ident "d3" 20)) none,
        .mk "d4" 23 0 none none] 25 token.LBrace))) none,
      .mk "e" 27 0 none none] 28 token.LBrace))) none,
    .mk "f" 30 0 none none,
    .mk "g" 32 33 (some (.ValuesLit (.mk 34 [
      .mk "h" 35 0 none none,
      .mk "i" 37 0 none none] 38 token.LBrace))) none] 39 token.LBrace

/-- The tree that `BuildNode` makes of `testLit`. -/
def testTree : Node :=
  .mk "" [
    .mk "a" [] (some []),
    .mk "b" [leaf "c", .mk "d" [leaf "d1", .mk "d2" [leaf "d3"] none, leaf "d4"] none, leaf "e"]
      none,
    leaf "f",
    .mk "g" [leaf "h", leaf "i"] none] none

/-- A decimal conversion that accepts nothing; the examples hold no number. -/
def noDecimal (_ : String) : Decimal × Option String :=
  (⟨0, 0⟩, some "invalid decimal")

/-- The call of `getCells` on the child `A` of `unevenTree`. -/
def unevenCallA : CallTree :=
  callTree 1 (.mk "A" [leaf "a"] none) 1 0 6

def parser.ValuesElementLit.Key : parser.ValuesElementLit → String
  | .mk key _ _ _ _ => key

def parser.ValuesElementLit.Value : parser.ValuesElementLit → Option parser.Expr
  | .mk _ _ _ value _ => value

def parser.ValuesElementLit.Tags : parser.ValuesElementLit → Option parser.ValuesLit
  | .mk _ _ _ _ tags => tags

/-- The child that `BuildNode` is said to build from one element, as far as its `Value`
and `Children` go: the four supported kinds of value. -/
def childShape (conv : String → Decimal × Option String) (el : parser.ValuesElementLit)
    (child : Node) : Prop :=
  match el.Value with
  | none => child.Value = el.Key ∧ child.Children = []
  | some (.StringLit v _ _) => child.Value = v ∧ child.Children = []
  | some (.ValuesLit t) =>
    ∃ sub, BuildNode conv t = (some sub, none) ∧ child.Value = el.Key ∧
      child.Children = sub.Children
  | some (.Ident name _) => child.Value = el.Key ∧ child.Children = [.mk name [] none]
  | some _ => False

/-- The `Tags` that the child built from one element is said to have: the mapping built
from the element's own tag block, nil without one. -/
def childTags (conv : String → Decimal × Option String) (el : parser.ValuesElementLit)
    (child : Node) : Prop :=
  match el.Tags with
  | none => child.Tags = none
  | some tl => (BuildMap conv tl).2 = none ∧ child.Tags = some (BuildMap conv tl).1

/-- An element on which `BuildNode` is said to fail: its tag block fails in `BuildMap`,
or its value is neither a string literal, a values literal nor an identifier, or its value
is a values literal holding such an element. -/
inductive NodeElementFails (conv : String → Decimal × Option String) :
    parser.ValuesElementLit → Prop where
  | tags (el : parser.ValuesElementLit) (tl : parser.ValuesLit) :
      el.Tags = some tl → (BuildMap conv tl).2 ≠ none → NodeElementFails conv el
  | value (el : parser.ValuesElementLit) (e : parser.Expr) :
      el.Value = some e → (∀ v p l, e ≠ .StringLit v p l) → (∀ t, e ≠ .ValuesLit t) →
      (∀ n p, e ≠ .Ident n p) → NodeElementFails conv el
  | nested (el : parser.ValuesElementLit) (t : parser.ValuesLit)
      (x : parser.ValuesElementLit) :
      el.Value = some (.ValuesLit t) → x ∈ t.Elements → NodeElementFails conv x →
      NodeElementFails conv el

/-- Lookup `th[key]` in a tag mapping, `none` for a key that is absent. -/
def TagMap.get (m : TagMap) (key : String) : Option TagValue :=
  List.lookup key m

/-- The value that `BuildMap` is said to store for one element. -/
def mapValue (conv : String → Decimal × Option String) (el : parser.ValuesElementLit) :
    Option TagValue :=
  match el.Value with
  | none => some (.bool true)
  | some (.StringLit v _ _) => some (.str v)
  | some (.Ident name _) => some (.str name)
  | some (.Number v _) => some (.decimal (conv v).1)
  | some (.ValuesLit t) => some (.map (BuildMap conv t).1)
  | some _ => none

/-- The last element of the list that has the given key. -/
def lastWithKey (els : List parser.ValuesElementLit) (key : String) :
    Option parser.ValuesElementLit :=
  els.reverse.find? (fun e => e.Key == key)

/-- An element on which `BuildMap` is said to fail, with the error: a Number whose
decimal conversion fails with that error, a value of another kind than string literal,
values literal, identifier and Number, or a values literal holding such an element. -/
inductive MapElementFails (conv : String → Decimal × Option String) :
    parser.ValuesElementLit → String → Prop where
  | number (el : parser.ValuesElementLit) (v : String) (p : Pos) (err : String) :
      el.Value = some (.Number v p) → (conv v).2 = some err → MapElementFails conv el err
  | value (el : parser.ValuesElementLit) (e : parser.Expr) :
      el.Value = some e → (∀ v p l, e ≠ .StringLit v p l) → (∀ t, e ≠ .ValuesLit t) →
      (∀ n p, e ≠ .Ident n p) → (∀ v p, e ≠ .Number v p) →
      MapElementFails conv el ("invalid value type " ++ e.typeName)
  | nested (el : parser.ValuesElementLit) (t : parser.ValuesLit)
      (x : parser.ValuesElementLit) (err : String) :
      el.Value = some (.ValuesLit t) → x ∈ t.Elements → MapElementFails conv x err →
      MapElementFails conv el err

/-- Tag block `[x, x:"y"]`: two elements with the same key. -/
def twiceLit : parser.ValuesLit :=
  .mk 1 [.mk "x" 2 0 none none, .mk "x" 5 6 (some (.StringLit "y" 7 "\"y\"")) none] 10
    token.LBrack

/-! ## Scanner (`parser/scanner.go`) -/

namespace parser

/-- The loop `for j, ch := range b` of `StripCR`, with the bytes `b[j:]` still to visit
(so that `b[j+1]` is the byte after the head) and the bytes `c[:i]` written so far (so
that `i` is their number and `c[i-1]` the last of them). Bytes are numbers: `'\r'` is 13,
`'*'` is 42, `'/'` is 47. -/
def StripCRLoop (comment : Bool) : List Nat → List Nat → List Nat
  | [], c => c
  | ch :: rest, c =>
    if ch ≠ 13 ∨ (comment = true ∧ c.length > 2 ∧ c.getLast? = some 42 ∧
        rest.head? = some 47) then
      StripCRLoop comment rest (c ++ [ch])
    else StripCRLoop comment rest c

/-- Function `StripCR(b []byte, comment bool) []byte`. -/
def StripCR (b : List Nat) (comment : Bool) : List Nat :=
  StripCRLoop comment b []

end parser

/-- The bytes of a text of ASCII characters. -/
def bytes (s : String) : List Nat :=
  s.toList.map Char.toNat

namespace parser

/-- Conversion `string(b)` of a byte slice: a Go string is its bytes, kept here one
character per byte. -/
def bytesString (b : List Nat) : String :=
  String.mk (b.map Char.ofNat)

/-- The text of a key between double quotes, as the scanner returns the literal of the
string token. -/
def quoteText (key : String) : String :=
  bytesString (34 :: (bytes key ++ [34]))

end parser

/-- ASCII letter or underscore, as a byte. -/
def asciiLetter (c : Nat) : Bool :=
  (97 ≤ c && c ≤ 122) || (65 ≤ c && c ≤ 90) || c == 95

/-- ASCII digit, as a byte. -/
def asciiDigit (c : Nat) : Bool :=
  48 ≤ c && c ≤ 57

/-- Plain ASCII identifier: an ASCII letter or underscore, and then ASCII letters,
digits and underscores. -/
def identKey (key : String) : Prop :=
  match bytes key with
  | [] => False
  | c :: cs => asciiLetter c = true ∧ ∀ d ∈ cs, (asciiLetter d || asciiDigit d) = true

/-- External library functions that the scanner, the parser and the expressions call,
with the part of their contract that the code relies on: `utf8.DecodeRune` (rune and width,
the width being 0 on empty input only and never more than the input, the rune read at a
byte from `0x80` on being `utf8.RuneError` or another rune from `0x80` on),
`unicode.IsLetter`, `unicode.IsDigit`, the formatting of a rune by
`fmt.Sprintf("%#U", ch)`, the conversion `string(ch)` of a rune (the one-byte text for an
ASCII rune), `strconv.Unquote` with its error dropped, as the code does, and
`strconv.Quote` (a plain ASCII identifier is quoted by putting it between double quotes,
and unquoted by taking it from between them). -/
structure Unicode where
  decodeRune : List Nat → Int × Nat
  IsLetter : Int → Bool
  IsDigit : Int → Bool
  formatU : Int → String
  runeString : Int → String
  Unquote : String → String
  Quote : String → String
  decodeRune_pos : ∀ bs : List Nat, bs ≠ [] → 1 ≤ (decodeRune bs).2
  decodeRune_le : ∀ bs : List Nat, (decodeRune bs).2 ≤ bs.length
  decodeRune_self : ∀ (b : Nat) (bs : List Nat), 0x80 ≤ b → 0x80 ≤ (decodeRune (b :: bs)).1
  runeString_ascii : ∀ ch : Int, 0 ≤ ch → ch < 128 →
    runeString ch = String.singleton (Char.ofNat ch.toNat)
  Quote_ident : ∀ key : String, identKey key → Quote key = parser.quoteText key
  Unquote_ident : ∀ key : String, identKey key → Unquote (parser.quoteText key) = key

namespace parser

/-- Modelled from the spec: `SourceFilePos`, a resolved position (the file name is left
out). -/
structure SourceFilePos where
  Offset : Int
  Line : Int
  Column : Int

deriving DecidableEq

/-- Modelled from the spec: `SourceFile` "owns a base offset, a byte length, and an
ordered, deduplicated, strictly increasing list of line-start offsets, appended
incrementally as the lexer encounters newlines" (the file name is left out). -/
structure SourceFile where
  Base : Int
  Size : Int
  Lines : List Int

deriving DecidableEq

/-- Modelled from the spec: `FileSet.AddFile` on a new file set: the first file has base 1
(the tests expect position 1 for offset 0) and its first line starts at offset 0. -/
def AddFile (size : Int) : SourceFile :=
  ⟨1, size, [0]⟩

/-- Modelled from the spec: `AddLine` appends a line start that is past the last one and
inside the file. -/
def SourceFile.AddLine (f : SourceFile) (offset : Int) : SourceFile :=
  if (match f.Lines.getLast? with
      | none => true
      | some l => decide (l < offset)) && decide (offset < f.Size) then
    { f with Lines := f.Lines ++ [offset] }
  else f

/-- Modelled from the spec: `FileSetPos` is the position of an offset, base plus offset. -/
def SourceFile.FileSetPos (f : SourceFile) (offset : Int) : Pos :=
  f.Base + offset

/-- Modelled from the spec: `Offset` is the offset of a position. -/
def SourceFile.Offset (f : SourceFile) (p : Pos) : Int :=
  p - f.Base

/-- Modelled from the spec: `Position` resolves a position to offset, line and column:
the line is the number of registered line starts at or before the offset and the column
counts from 1 at the last of them. -/
def SourceFile.Position (f : SourceFile) (p : Pos) : SourceFilePos :=
  let offset := p - f.Base
  let before := f.Lines.filter (fun l => decide (l ≤ offset))
  match before.getLast? with
  | none => ⟨offset, 0, 0⟩
  | some l => ⟨offset, before.length, offset - l + 1⟩

/-- Modelled from the spec: `Error`, a message with its resolved position. -/
structure Error where
  Pos : SourceFilePos
  Msg : String

deriving DecidableEq

/-- Modelled from the spec: `ErrorList`, the errors in the order they were added. -/
abbrev ErrorList := List Error

/-- Modelled from the spec: `ErrorList.Add` appends an error. -/
def ErrorList.Add (l : ErrorList) (pos : SourceFilePos) (msg : String) : ErrorList :=
  l ++ [⟨pos, msg⟩]

/-- Modelled from the spec: `ErrorList.Len`. -/
def ErrorList.Len (l : ErrorList) : Int :=
  l.length

/-- Modelled from the spec: `ErrorList.Sort` sorts by position (line, then column). -/
def ErrorList.Sort (l : ErrorList) : ErrorList :=
  sortSlice (fun a b : Error =>
    decide (a.Pos.Line < b.Pos.Line ∨ (a.Pos.Line = b.Pos.Line ∧ a.Pos.Column < b.Pos.Column))) l

/-- Modelled from the spec: `ErrorList.Err` is nil (`none`) for an empty list and the
list itself, as an error, otherwise. -/
def ErrorList.Err (l : ErrorList) : Option ErrorList :=
  if l.length = 0 then none else some l

/-- Byte order mark `bom = 0xFEFF`. -/
def bom : Int := 0xFEFF

/-- Mode flag `ScanComments`. -/
def ScanComments : Nat := 1

/-- Mode flag `DontInsertSemis`. -/
def DontInsertSemis : Nat := 2

/-- State `Scanner`. The current character `ch` is a rune, `-1` at the end; the offsets
are indices into `src`. The error handler is kept as the list `errors` it appends to (the
closure that `NewParser` installs appends to the parser's error list) and the flag
`errorHandler` for a handler that is not nil. -/
structure Scanner where
  file : SourceFile
  src : List Nat
  ch : Int
  offset : Nat
  readOffset : Nat
  lineOffset : Nat
  insertSemi : Bool
  errorHandler : Bool
  errors : ErrorList
  errorCount : Int
  mode : Nat

/-- Method `Scanner.error`. -/
def Scanner.error (s : Scanner) (offset : Nat) (msg : String) : Scanner :=
  let s := if s.errorHandler then
      { s with errors := s.errors.Add (s.file.Position (s.file.FileSetPos offset)) msg }
    else s
  { s with errorCount := s.errorCount + 1 }

/-- The statement `if s.ch == '\n' { s.lineOffset = s.offset; s.file.AddLine(s.offset) }`
of `next`. -/
def Scanner.addLine (s : Scanner) : Scanner :=
  if s.ch = 10 then { s with lineOffset := s.offset, file := s.file.AddLine s.offset } else s

/-- Method `Scanner.next`. -/
def Scanner.next (U : Unicode) (s : Scanner) : Scanner :=
  if s.readOffset < s.src.length then
    let s := ({ s with offset := s.readOffset } : Scanner).addLine
    let r : Int := s.src.getD s.readOffset 0
    if r = 0 then
      { s.error s.offset "illegal character NUL" with readOffset := s.readOffset + 1, ch := r }
    else if r ≥ 0x80 then
      let rw := U.decodeRune (s.src.drop s.readOffset)
      { (if rw.1 = 0xFFFD ∧ rw.2 = 1 then s.error s.offset "illegal UTF-8 encoding"
          else if rw.1 = bom ∧ s.offset > 0 then s.error s.offset "illegal byte order mark"
          else s) with readOffset := s.readOffset + rw.2, ch := rw.1 }
    else { s with readOffset := s.readOffset + 1, ch := r }
  else { ({ s with offset := s.src.length } : Scanner).addLine with ch := -1 }

/-- Function `isLetter`. -/
def isLetter (U : Unicode) (ch : Int) : Bool :=
  (97 ≤ ch && ch ≤ 122) || (65 ≤ ch && ch ≤ 90) || ch == 95 || (ch ≥ 0x80 && U.IsLetter ch)

/-- Function `isDigit`. -/
def isDigit (U : Unicode) (ch : Int) : Bool :=
  (48 ≤ ch && ch ≤ 57) || (ch ≥ 0x80 && U.IsDigit ch)

/-- Function `digitVal`. -/
def digitVal (ch : Int) : Int :=
  if 48 ≤ ch ∧ ch ≤ 57 then ch - 48
  else if 97 ≤ ch ∧ ch ≤ 102 then ch - 97 + 10
  else if 65 ≤ ch ∧ ch ≤ 70 then ch - 65 + 10
  else 16

/-- Method `Scanner.skipWhitespace`; `none` when the fuel, one unit per test of the loop
condition, runs out. -/
def Scanner.skipWhitespace (U : Unicode) : Nat → Scanner → Option Scanner
  | 0, _ => none
  | fuel + 1, s =>
    if s.ch = 32 ∨ s.ch = 9 ∨ (s.ch = 10 ∧ s.insertSemi = false) ∨ s.ch = 13 then
      Scanner.skipWhitespace U fuel (s.next U)
    else some s

/-- The loop `for isLetter(s.ch) || isDigit(s.ch) { s.next() }` of `scanIdentifier`. -/
def Scanner.scanIdentifierLoop (U : Unicode) : Nat → Scanner → Option Scanner
  | 0, _ => none
  | fuel + 1, s =>
    if isLetter U s.ch || isDigit U s.ch then Scanner.scanIdentifierLoop U fuel (s.next U)
    else some s

/-- Method `Scanner.scanIdentifier`, with the scanner it leaves. -/
def Scanner.scanIdentifier (U : Unicode) (fuel : Nat) (s : Scanner) :
    Option (String × Scanner) :=
  let offs := s.offset
  match Scanner.scanIdentifierLoop U fuel s with
  | none => none
  | some s => some (bytesString ((s.src.drop offs).take (s.offset - offs)), s)

/-- The loop `for isDigit(s.ch) { s.next() }` of `scanNumber`. -/
def Scanner.scanDigits (U : Unicode) : Nat → Scanner → Option Scanner
  | 0, _ => none
  | fuel + 1, s =>
    if isDigit U s.ch then Scanner.scanDigits U fuel (s.next U) else some s

/-- Method `Scanner.scanNumber`, with the scanner it leaves. -/
def Scanner.scanNumber (U : Unicode) (fuel : Nat) (s : Scanner) :
    Option (String × Scanner) :=
  let offs := s.offset
  match Scanner.scanDigits U fuel s with
  | none => none
  | some s =>
    match (if s.ch = 46 then Scanner.scanDigits U fuel (s.next U) else some s) with
    | none => none
    | some s => some (bytesString ((s.src.drop offs).take (s.offset - offs)), s)

/-- The loop `for n > 0` of `scanEscape` (the value `x` of the digits read, which no token
holds, is only compared with `max` at the end); the result is the scanner and whether all
`n` digits were read. -/
def Scanner.scanEscapeDigits (U : Unicode) (base : Int) : Nat → Int → Scanner →
    Scanner × Bool × Int
  | 0, x, s => (s, true, x)
  | n + 1, x, s =>
    let d := digitVal s.ch
    if d ≥ base then
      let msg := if s.ch < 0 then "escape sequence not terminated"
        else "illegal character " ++ U.formatU s.ch ++ " in escape sequence"
      (s.error s.offset msg, false, x)
    else Scanner.scanEscapeDigits U base n ((x * base + d) % 4294967296) (s.next U)

/-- Method `Scanner.scanEscape`, with the scanner it leaves. -/
def Scanner.scanEscape (U : Unicode) (quote : Int) (s : Scanner) : Bool × Scanner :=
  let offs := s.offset
  let digits (n : Nat) (base max : Int) (s : Scanner) : Bool × Scanner :=
    match Scanner.scanEscapeDigits U base n 0 s with
    | (s, false, _) => (false, s)
    | (s, true, x) =>
      if x > max ∨ (0xD800 ≤ x ∧ x < 0xE000) then
        (false, s.error offs "escape sequence is invalid Unicode code point")
      else (true, s)
  if s.ch = 97 ∨ s.ch = 98 ∨ s.ch = 102 ∨ s.ch = 110 ∨ s.ch = 114 ∨ s.ch = 116 ∨ s.ch = 118 ∨
      s.ch = 92 ∨ s.ch = quote then
    (true, s.next U)
  else if 48 ≤ s.ch ∧ s.ch ≤ 55 then digits 3 8 255 s
  else if s.ch = 120 then digits 2 16 255 (s.next U)
  else if s.ch = 117 then digits 4 16 0x10FFFF (s.next U)
  else if s.ch = 85 then digits 8 16 0x10FFFF (s.next U)
  else
    let msg := if s.ch < 0 then "escape sequence not terminated" else "unknown escape sequence"
    (false, s.error offs msg)

/-- The loop `for { ... }` of `scanString`. -/
def Scanner.scanStringLoop (U : Unicode) (chStart : Int) (offs : Nat) :
    Nat → Scanner → Option Scanner
  | 0, _ => none
  | fuel + 1, s =>
    let ch := s.ch
    if ch = 10 ∨ ch < 0 then some (s.error offs "string literal not terminated")
    else
      let s := s.next U
      if ch = chStart then some s
      else if ch = 92 then Scanner.scanStringLoop U chStart offs fuel (Scanner.scanEscape U chStart s).2
      else Scanner.scanStringLoop U chStart offs fuel s

/-- Method `Scanner.scanString`, with the scanner it leaves. -/
def Scanner.scanString (U : Unicode) (fuel : Nat) (chStart : Int) (s : Scanner) :
    Option (String × Scanner) :=
  let offs := s.offset - 1
  match Scanner.scanStringLoop U chStart offs fuel s with
  | none => none
  | some s => some (bytesString ((s.src.drop offs).take (s.offset - offs)), s)

/-- The loop `for s.ch != '\n' && s.ch >= 0` of `scanComment`, with `numCR`. -/
def Scanner.scanLineComment (U : Unicode) : Nat → Nat → Scanner → Option (Nat × Scanner)
  | 0, _, _ => none
  | fuel + 1, numCR, s =>
    if s.ch ≠ 10 ∧ s.ch ≥ 0 then
      Scanner.scanLineComment U fuel (if s.ch = 13 then numCR + 1 else numCR) (s.next U)
    else some (numCR, s)

/-- The loop `for s.ch >= 0` of `scanComment`, with `numCR`; the flag tells whether the
loop was left at `goto exit`, the comment terminated. -/
def Scanner.scanBlockComment (U : Unicode) : Nat → Nat → Scanner →
    Option (Nat × Bool × Scanner)
  | 0, _, _ => none
  | fuel + 1, numCR, s =>
    if s.ch ≥ 0 then
      let ch := s.ch
      let numCR := if ch = 13 then numCR + 1 else numCR
      let s := s.next U
      if ch = 42 ∧ s.ch = 47 then some (numCR, true, s.next U)
      else Scanner.scanBlockComment U fuel numCR s
    else some (numCR, false, s)

/-- Method `Scanner.scanComment`, with the scanner it leaves. -/
def Scanner.scanComment (U : Unicode) (fuel : Nat) (s : Scanner) : Option (String × Scanner) :=
  let offs := s.offset - 1
  let r : Option (Nat × Scanner) :=
    if s.ch = 47 then Scanner.scanLineComment U fuel 0 (s.next U)
    else
      match Scanner.scanBlockComment U fuel 0 (s.next U) with
      | none => none
      | some (numCR, true, s) => some (numCR, s)
      | some (numCR, false, s) => some (numCR, s.error offs "comment not terminated")
  match r with
  | none => none
  | some (numCR, s) =>
    let lit := (s.src.drop offs).take (s.offset - offs)
    let (lit, numCR) :=
      if numCR > 0 ∧ lit.length ≥ 2 ∧ lit.getD 1 0 = 47 ∧ lit.getD (lit.length - 1) 0 = 13 then
        (lit.take (lit.length - 1), numCR - 1)
      else (lit, numCR)
    let lit := if numCR > 0 then StripCR lit (lit.getD 1 0 == 42) else lit
    some (bytesString lit, s)

/-- The inner loop `for s.ch >= 0` of `findLineEnd`; the flag tells whether a newline was
found (`return true`). -/
def Scanner.findLineEndBlock (U : Unicode) : Nat → Scanner → Option (Bool × Scanner)
  | 0, _ => none
  | fuel + 1, s =>
    if s.ch ≥ 0 then
      let ch := s.ch
      if ch = 10 then some (true, s)
      else
        let s := s.next U
        if ch = 42 ∧ s.ch = 47 then some (false, s.next U)
        else Scanner.findLineEndBlock U fuel s
    else some (false, s)

/-- The outer loop `for s.ch == '/' || s.ch == '*'` of `findLineEnd`, with its result. -/
def Scanner.findLineEndLoop (U : Unicode) : Nat → Scanner → Option (Bool × Scanner)
  | 0, _ => none
  | fuel + 1, s =>
    if s.ch = 47 ∨ s.ch = 42 then
      if s.ch = 47 then some (true, s)
      else
        match Scanner.findLineEndBlock U (s.src.length + 2) (s.next U) with
        | none => none
        | some (true, s) => some (true, s)
        | some (false, s) =>
          match Scanner.skipWhitespace U (s.src.length + 2) s with
          | none => none
          | some s =>
            if s.ch < 0 ∨ s.ch = 10 then some (true, s)
            else if s.ch ≠ 47 then some (false, s)
            else Scanner.findLineEndLoop U fuel (s.next U)
    else some (false, s)

/-- Method `Scanner.findLineEnd`, with the scanner it leaves: the deferred function puts
the scanner back to where it was. -/
def Scanner.findLineEnd (U : Unicode) (fuel : Nat) (s : Scanner) : Option (Bool × Scanner) :=
  let offs := s.offset - 1
  match Scanner.findLineEndLoop U fuel s with
  | none => none
  | some (r, s) =>
    some (r, ({ s with ch := 47, offset := offs, readOffset := offs + 1 } : Scanner).next U)

/-- What one pass through the body of `Scan` gives: the returned token, literal and
position, or a skipped comment, after which the body runs again (`return s.Scan()`). -/
inductive ScanStep where
  | done (tok : Token) (literal : String) (pos : Pos) (s : Scanner)
  | again (s : Scanner)

/-- The body of `Scan`; each loop of the scanner gets as fuel the number of bytes of the
source and two more. -/
def Scanner.scanStep (U : Unicode) (s : Scanner) : Option ScanStep :=
  let fuel := s.src.length + 2
  match Scanner.skipWhitespace U fuel s with
  | none => none
  | some s =>
    let pos := s.file.FileSetPos s.offset
    let finish (tok : Token) (literal : String) (insertSemi : Bool) (s : Scanner) : ScanStep :=
      .done tok literal pos
        (if s.mode &&& DontInsertSemis = 0 then { s with insertSemi := insertSemi } else s)
    let ch := s.ch
    if isLetter U ch then
      match Scanner.scanIdentifier U fuel s with
      | none => none
      | some (literal, s) => some (finish token.Ident literal false s)
    else if isDigit U s.ch then
      match Scanner.scanNumber U fuel s with
      | none => none
      | some (literal, s) => some (finish token.Number literal false s)
    else
      let s := s.next U
      if ch = -1 then
        if s.insertSemi then some (.done token.Semicolon "\n" pos { s with insertSemi := false })
        else some (finish token.EOF "" false s)
      else if ch = 45 ∨ ch = 43 then
        match Scanner.scanNumber U fuel s with
        | none => none
        | some (literal, s) => some (finish token.Number (U.runeString ch ++ literal) false s)
      else if ch = 10 then some (.done token.Semicolon "\n" pos { s with insertSemi := false })
      else if ch = 34 ∨ ch = 39 then
        match Scanner.scanString U fuel ch s with
        | none => none
        | some (literal, s) => some (finish token.String literal true s)
      else if ch = 58 then some (finish token.Colon "" false s)
      else if ch = 44 then some (finish token.Comma "" false s)
      else if ch = 123 then some (finish token.LBrace "" false s)
      else if ch = 125 then some (finish token.RBrace "" true s)
      else if ch = 91 then some (finish token.LBrack "" false s)
      else if ch = 93 then some (finish token.RBrack "" true s)
      else if ch = 40 then some (finish token.LParen "" false s)
      else if ch = 41 then some (finish token.RParen "" true s)
      else if ch = 47 then
        if s.ch = 47 ∨ s.ch = 42 then
          let comment (s : Scanner) : Option ScanStep :=
            match Scanner.scanComment U fuel s with
            | none => none
            | some (comment, s) =>
              if s.mode &&& ScanComments = 0 then some (.again { s with insertSemi := false })
              else some (finish token.Comment comment false s)
          if s.insertSemi then
            match Scanner.findLineEnd U fuel s with
            | none => none
            | some (true, s) =>
              let offset := (s.file.Offset pos).toNat
              some (.done token.Semicolon "\n" pos
                { s with ch := 47, offset := offset, readOffset := offset + 1,
                         insertSemi := false })
            | some (false, s) => comment s
          else comment s
        else some (finish token.Illegal (U.runeString ch) false s)
      else
        let s := if ch ≠ bom then
            s.error (s.file.Offset pos).toNat ("illegal character " ++ U.formatU ch)
          else s
        some (finish token.Illegal (U.runeString ch) s.insertSemi s)

/-- Method `Scanner.Scan`: token, literal and position, with the scanner it leaves; the
fuel counts the passes through the body. -/
def Scanner.Scan (U : Unicode) : Nat → Scanner → Option (Token × String × Pos × Scanner)
  | 0, _ => none
  | fuel + 1, s =>
    match Scanner.scanStep U s with
    | none => none
    | some (.done tok literal pos s) => some (tok, literal, pos, s)
    | some (.again s) => Scanner.Scan U fuel s

/-- Function `NewScanner`; `none` stands for the panic on a file size that is not the
length of the source. -/
def NewScanner (U : Unicode) (file : SourceFile) (src : List Nat) (errorHandler : Bool)
    (errors : ErrorList) (mode : Nat) : Option Scanner :=
  if file.Size ≠ src.length then none
  else
    let s : Scanner := ⟨file, src, 32, 0, 0, 0, false, errorHandler, errors, 0, mode⟩
    let s := s.next U
    some (if s.ch = bom then s.next U else s)

end parser

/-! ## Parser (`token/token.go`, `parser/stmt.go`, `parser/parser.go`) -/

/-- Method `Token.String`: the entry of the table `tokens`, and `token(n)` for a token
without one. -/
def Token.String (tok : Token) : String :=
  if tok = token.Illegal then "ILLEGAL"
  else if tok = token.EOF then "EOF"
  else if tok = token.Comment then "COMMENT"
  else if tok = token.String then "STRING"
  else if tok = token.LParen then "("
  else if tok = token.RParen then ")"
  else if tok = token.LBrack then "["
  else if tok = token.RBrack then "]"
  else if tok = token.LBrace then "\x7b"
  else if tok = token.RBrace then "\x7d"
  else if tok = token.Comma then ","
  else if tok = token.Semicolon then ";"
  else if tok = token.Colon then ":"
  else "token(" ++ toString tok ++ ")"

/-- Method `Token.IsLiteral`. -/
def Token.IsLiteral (tok : Token) : Bool :=
  decide (token._literalBeg < tok ∧ tok < token._literalEnd)

namespace parser

/-- Statements of `stmt.go`. -/
inductive Stmt where
  | BadStmt (From To : Pos)
  | BlockStmt (Stmts : List Stmt) (LBrace RBrace : Pos)
  | BranchStmt (Token : Token) (TokenPos : Pos) (Label : Option Expr)
  | EmptyStmt (Semicolon : Pos) (Implicit : Bool)
  | ExprStmt (Expr : Expr)

/-- Modelled from the spec: `File`, the parsed unit: the source file and "a top-level
statement list". -/
structure File where
  InputFile : SourceFile
  Stmts : List Stmt

/-- State `Parser`, without the tracing fields (`trace` is nil) and the unused `syncPos`
and `syncCount`. The file `p.file` is the file of the scanner, the same pointer, and the
list `p.errors` is the list the scanner's error handler appends to: both are read and
written in the scanner record. -/
structure Parser where
  scanner : Scanner
  pos : Pos
  token : Token
  tokenLit : String
  exprLevel : Int

/-- Field `p.file`. -/
def Parser.file (p : Parser) : SourceFile := p.scanner.file

/-- Field `p.errors`. -/
def Parser.errors (p : Parser) : ErrorList := p.scanner.errors

/-- How a method of the parser ends: it returns a value and leaves a parser state, or it
panics with `bailout{}` in some parser state, or the fuel of the model runs out. -/
inductive Res (α : Type) where
  | ok (a : α) (p : Parser)
  | bailout (p : Parser)
  | outOfFuel

/-- Sequencing: a panic or a lack of fuel ends what follows. -/
def Res.bind {α β : Type} (r : Res α) (f : α → Parser → Res β) : Res β :=
  match r with
  | .ok a p => f a p
  | .bailout p => .bailout p
  | .outOfFuel => .outOfFuel

/-- Method `Parser.next` (tracing is off); the passes of `Scan` through its body get one
unit of fuel per byte of the source, and two more. -/
def Parser.next (U : Unicode) (p : Parser) : Res Unit :=
  match p.scanner.Scan U (p.scanner.src.length + 2) with
  | none => .outOfFuel
  | some (tok, lit, pos, s) =>
    .ok () { p with scanner := s, token := tok, tokenLit := lit, pos := pos }

/-- Method `Parser.error`. -/
def Parser.error (pos : Pos) (msg : String) (p : Parser) : Res Unit :=
  let filePos := p.file.Position pos
  let n := p.errors.length
  if n > 0 ∧ p.errors.getLast?.map (fun e => e.Pos.Line) = some filePos.Line then .ok () p
  else if n > 10 then .bailout p
  else .ok () { p with scanner := { p.scanner with errors := p.errors.Add filePos msg } }

/-- Method `Parser.errorExpected`. -/
def Parser.errorExpected (pos : Pos) (msg : String) (p : Parser) : Res Unit :=
  let msg := "expected " ++ msg
  let msg :=
    if pos = p.pos then
      if p.token = token.Semicolon ∧ p.tokenLit = "\n" then msg ++ ", found newline"
      else if Token.IsLiteral p.token then msg ++ ", found " ++ p.tokenLit
      else msg ++ ", found \x27" ++ Token.String p.token ++ "\x27"
    else msg
  Parser.error pos msg p

/-- Method `Parser.advance`; the fuel counts the tests of the loop condition. -/
def Parser.advance (U : Unicode) : Nat → Parser → Res Unit
  | 0, _ => .outOfFuel
  | fuel + 1, p =>
    if p.token ≠ token.EOF then (Parser.next U p).bind fun _ p => Parser.advance U fuel p
    else .ok () p

/-- Method `Parser.expect`. -/
def Parser.expect (U : Unicode) (tok : Token) (p : Parser) : Res Pos :=
  let pos := p.pos
  (if p.token ≠ tok then Parser.errorExpected pos ("\x27" ++ Token.String tok ++ "\x27") p
    else .ok () p).bind fun _ p =>
  (Parser.next U p).bind fun _ p => .ok pos p

/-- The loop `for _, t := range token` of `expectAny`: the token that matched, after
`p.next()`, or `none`. -/
def Parser.expectAnyLoop (U : Unicode) : List Token → Parser → Res (Option Token)
  | [], p => .ok none p
  | t :: rest, p =>
    if p.token = t then (Parser.next U p).bind fun _ p => .ok (some t) p
    else Parser.expectAnyLoop U rest p

/-- Method `Parser.expectAny`. -/
def Parser.expectAny (U : Unicode) (toks : List Token) (p : Parser) : Res (Pos × Token) :=
  let pos := p.pos
  (Parser.expectAnyLoop U toks p).bind fun r p =>
    match r with
    | some t => .ok (pos, t) p
    | none =>
      let s := toks.map (fun t => "\x27" ++ Token.String t ++ "\x27")
      (Parser.errorExpected pos (" | ".intercalate s) p).bind fun _ p => .ok (0, 0) p

/-- Method `Parser.expectComma`. -/
def Parser.expectComma (U : Unicode) (closing : Token) (want : String) (p : Parser) :
    Res Bool :=
  if p.token = token.Comma then
    (Parser.next U p).bind fun _ p =>
      if p.token = closing then
        (Parser.errorExpected p.pos want p).bind fun _ p => .ok false p
      else .ok true p
  else if p.token = token.Semicolon ∧ p.tokenLit = "\n" then
    (Parser.next U p).bind fun _ p => .ok false p
  else .ok false p

/-- Method `Parser.expectSemi`. -/
def Parser.expectSemi (U : Unicode) (fuel : Nat) (p : Parser) : Res Unit :=
  if p.token = token.RBrace then .ok () p
  else if p.token = token.Comma then
    (Parser.errorExpected p.pos "\x27;\x27" p).bind fun _ p => Parser.next U p
  else if p.token = token.Semicolon then Parser.next U p
  else (Parser.errorExpected p.pos "\x27;\x27" p).bind fun _ p => Parser.advance U fuel p

/-- Method `Parser.parseIdent`. -/
def Parser.parseIdent (U : Unicode) (p : Parser) : Res Expr :=
  let pos := p.pos
  if p.token = token.Ident then
    let name := p.tokenLit
    (Parser.next U p).bind fun _ p => .ok (.Ident name pos) p
  else (Parser.expect U token.Ident p).bind fun _ p => .ok (.Ident "_" pos) p

/-- Method `Parser.parseNumber`. -/
def Parser.parseNumber (U : Unicode) (p : Parser) : Res Expr :=
  let pos := p.pos
  if p.token = token.Number then
    let value := p.tokenLit
    (Parser.next U p).bind fun _ p => .ok (.Number value pos) p
  else (Parser.expect U token.Number p).bind fun _ p => .ok (.Number "0" pos) p

mutual
/-- Method `Parser.parseOperand`, which `parseExpr` and `parsePrimaryExpr` only call. The
fuel of the mutual methods counts the nested calls and loop rounds. -/
def Parser.parseOperand (U : Unicode) : Nat → Parser → Res Expr
  | 0, _ => .outOfFuel
  | fuel + 1, p =>
    if p.token = token.Ident then Parser.parseIdent U p
    else if p.token = token.Number then Parser.parseNumber U p
    else if p.token = token.String then
      let x := Expr.StringLit (U.Unquote p.tokenLit) p.pos p.tokenLit
      (Parser.next U p).bind fun _ p => .ok x p
    else if p.token = token.LBrace then
      (Parser.parseValuesLit U fuel token.LBrace p).bind fun v p => .ok (.ValuesLit v) p
    else
      let pos := p.pos
      (Parser.errorExpected pos "operand" p).bind fun _ p =>
      (Parser.advance U (fuel + 1) p).bind fun _ p => .ok (.BadExpr pos p.pos) p
/-- The part of `parseValuesElementLit` from the label `try` on, with the fields of the
element so far. -/
def Parser.parseValuesElementTry (U : Unicode) :
    Nat → Token → String → Pos → Option ValuesLit → Parser → Res ValuesElementLit
  | 0, _, _, _, _, _ => .outOfFuel
  | fuel + 1, braceOpen, key, keyPos, tags, p =>
    if p.token = token.Comma ∨ p.token = braceOpen + 1 then .ok (.mk key keyPos 0 none tags) p
    else if p.token ≠ braceOpen ∧
        (p.token = token.LParen ∨ p.token = token.LBrace ∨ p.token = token.LBrack) then
      (Parser.parseValuesLit U fuel p.token p).bind fun t p =>
        Parser.parseValuesElementTry U fuel braceOpen key keyPos (some t) p
    else
      (Parser.expectAny U [token.Colon, token.Comma] p).bind fun r p =>
        if r.2 = token.Colon then
          (Parser.parseOperand U fuel p).bind fun v p => .ok (.mk key keyPos r.1 (some v) tags) p
        else .ok (.mk key keyPos r.1 none tags) p
/-- Method `Parser.parseValuesElementLit`. -/
def Parser.parseValuesElementLit (U : Unicode) : Nat → Token → Parser → Res ValuesElementLit
  | 0, _, _ => .outOfFuel
  | fuel + 1, braceOpen, p =>
    let pos := p.pos
    (if p.token = token.Ident then Res.ok p.tokenLit p
      else if p.token = token.String then Res.ok (U.Unquote p.tokenLit) p
      else (Parser.errorExpected pos "map key" p).bind fun _ p => .ok "_" p).bind fun name p =>
    (Parser.next U p).bind fun _ p =>
      Parser.parseValuesElementTry U fuel braceOpen name pos none p
/-- The loop `for p.token != (open+1) && p.token != token.EOF` of `parseValuesLit`, with
the elements so far. -/
def Parser.parseValuesLitLoop (U : Unicode) :
    Nat → Token → List ValuesElementLit → Parser → Res (List ValuesElementLit)
  | 0, _, _, _ => .outOfFuel
  | fuel + 1, tokOpen, elements, p =>
    if p.token ≠ tokOpen + 1 ∧ p.token ≠ token.EOF then
      (Parser.parseValuesElementLit U fuel tokOpen p).bind fun el p =>
      (Parser.expectComma U (tokOpen + 1) "map element" p).bind fun more p =>
        if more then Parser.parseValuesLitLoop U fuel tokOpen (elements ++ [el]) p
        else .ok (elements ++ [el]) p
    else .ok elements p
/-- Method `Parser.parseValuesLit`. -/
def Parser.parseValuesLit (U : Unicode) : Nat → Token → Parser → Res ValuesLit
  | 0, _, _ => .outOfFuel
  | fuel + 1, tokOpen, p =>
    let close := tokOpen + 1
    (Parser.expect U tokOpen p).bind fun lbrace p =>
    (Parser.parseValuesLitLoop U fuel tokOpen [] { p with exprLevel := p.exprLevel + 1 }).bind
      fun elements p =>
    (Parser.expect U close { p with exprLevel := p.exprLevel - 1 }).bind fun rbrace p =>
      .ok (.mk lbrace elements rbrace tokOpen) p
end

/-- The loop `for p.token == token.Comma` of `parseExprList`, with the list so far. -/
def Parser.parseExprListLoop (U : Unicode) (n : Nat) : Nat → List Expr → Parser → Res (List Expr)
  | 0, _, _ => .outOfFuel
  | fuel + 1, list, p =>
    if p.token = token.Comma then
      (Parser.next U p).bind fun _ p =>
      (Parser.parseOperand U n p).bind fun x p => Parser.parseExprListLoop U n fuel (list ++ [x]) p
    else .ok list p

/-- Method `Parser.parseExprList`; `n` is the fuel. -/
def Parser.parseExprList (U : Unicode) (n : Nat) (p : Parser) : Res (List Expr) :=
  (Parser.parseOperand U n p).bind fun x p => Parser.parseExprListLoop U n n [x] p

/-- Method `Expr.Pos` of the expressions; for a values element `KeyPos`. -/
def Expr.Pos : Expr → Pos
  | .ArrayLit _ lbrack _ => lbrack
  | .BadExpr fr _ => fr
  | .Ident _ namePos => namePos
  | .Number _ valuePos => valuePos
  | .SliceExpr x _ _ _ _ => Expr.Pos x
  | .StringLit _ valuePos _ => valuePos
  | .ValuesElementLit (.mk _ keyPos _ _ _) => keyPos
  | .ValuesLit (.mk lbrace _ _ _) => lbrace

/-- Method `Parser.parseSimpleStmt`; `x[0]` is there because `parseExprList` returns at
least one expression (`BadStmt` stands for the index panic otherwise). -/
def Parser.parseSimpleStmt (U : Unicode) (n : Nat) (p : Parser) : Res Stmt :=
  (Parser.parseExprList U n p).bind fun x p =>
    match x with
    | [] => .ok (.BadStmt 0 0) p
    | x0 :: rest =>
      (if rest.length + 1 > 1 then Parser.errorExpected (Expr.Pos x0) "1 expression" p
        else .ok () p).bind fun _ p => .ok (.ExprStmt x0) p

/-- Method `Parser.parseStmt`. -/
def Parser.parseStmt (U : Unicode) (n : Nat) (p : Parser) : Res Stmt :=
  if p.token = token.Ident ∨ p.token = token.LBrace then
    (Parser.parseSimpleStmt U n p).bind fun s p =>
    (Parser.expectSemi U n p).bind fun _ p => .ok s p
  else if p.token = token.Semicolon then
    let s := Stmt.EmptyStmt p.pos (p.tokenLit == "\n")
    (Parser.next U p).bind fun _ p => .ok s p
  else if p.token = token.RBrace then .ok (.EmptyStmt p.pos true) p
  else
    let pos := p.pos
    (Parser.errorExpected pos "statement" p).bind fun _ p =>
    (Parser.advance U n p).bind fun _ p => .ok (.BadStmt pos p.pos) p

/-- Method `Parser.parseStmtList`, with the list so far. -/
def Parser.parseStmtList (U : Unicode) (n : Nat) : Nat → List Stmt → Parser → Res (List Stmt)
  | 0, _, _ => .outOfFuel
  | fuel + 1, list, p =>
    if p.token ≠ token.RBrace ∧ p.token ≠ token.EOF then
      (Parser.parseStmt U n p).bind fun s p => Parser.parseStmtList U n fuel (list ++ [s]) p
    else .ok list p

/-- Method `Parser.parseStmtListCount`, with the counter `q` and the list so far. -/
def Parser.parseStmtListCount (U : Unicode) (n : Nat) (c : Int) :
    Nat → Int → List Stmt → Parser → Res (List Stmt)
  | 0, _, _, _ => .outOfFuel
  | fuel + 1, q, list, p =>
    if q < c ∧ p.token ≠ token.RBrace ∧ p.token ≠ token.EOF then
      (Parser.parseStmt U n p).bind fun s p =>
        Parser.parseStmtListCount U n c fuel (q + 1) (list ++ [s]) p
    else .ok list p

/-- The fuel that the methods of a parser get: eight units per byte of the source, and
thirty-two more. -/
def Parser.fuel (p : Parser) : Nat :=
  8 * p.scanner.src.length + 32

/-- What `ParseFile` and `ParseFileC` return, with the parser they leave. -/
structure Parsed where
  file : Option File
  err : Option ErrorList
  p : Parser

/-- The deferred function of `ParseFile` and `ParseFileC`: a `bailout` panic is recovered,
the errors are sorted and `err` is set from them. -/
def Parser.deferred (r : Res (Option File)) : Option Parsed :=
  match r with
  | .ok file p =>
    let errors := ErrorList.Sort p.errors
    some ⟨file, ErrorList.Err errors, { p with scanner := { p.scanner with errors := errors } }⟩
  | .bailout p =>
    let errors := ErrorList.Sort p.errors
    some ⟨none, ErrorList.Err errors, { p with scanner := { p.scanner with errors := errors } }⟩
  | .outOfFuel => none

/-- Method `Parser.ParseFile` (tracing is off); `none` when the fuel of the model runs
out. -/
def Parser.ParseFile (U : Unicode) (p : Parser) : Option Parsed :=
  Parser.deferred
    (if ErrorList.Len p.errors > 0 then .ok none p
    else
      (Parser.parseStmtList U p.fuel p.fuel [] p).bind fun stmts p =>
        if ErrorList.Len p.errors > 0 then .ok none p
        else .ok (some ⟨p.file, stmts⟩) p)

/-- Method `Parser.ParseFileC` (tracing is off). -/
def Parser.ParseFileC (U : Unicode) (stmtCount : Int) (p : Parser) : Option Parsed :=
  Parser.deferred
    (if ErrorList.Len p.errors > 0 then .ok none p
    else
      (Parser.parseStmtListCount U p.fuel stmtCount p.fuel 0 [] p).bind fun stmts p =>
        if ErrorList.Len p.errors > 0 then .ok none p
        else .ok (some ⟨p.file, stmts⟩) p)

/-- Function `NewParser` (with a nil `trace`); `none` for the panic of `NewScanner` on a
file whose size is not the length of the source, and when the fuel of the first `Scan`
runs out. -/
def NewParser (U : Unicode) (file : SourceFile) (src : List Nat) : Option Parser :=
  match NewScanner U file src true [] 0 with
  | none => none
  | some s =>
    match Parser.next U ⟨s, 0, 0, "", 0⟩ with
    | .ok _ p => some p
    | _ => none

/-- Helper `parseSource` of the tests, as in `Parse`: a parser on a new file of the size
of the source, and `ParseFile`. -/
def parseSource (U : Unicode) (src : List Nat) : Option Parsed :=
  match NewParser U (AddFile src.length) src with
  | none => none
  | some p => p.ParseFile U

/-- The same with `ParseFileC`. -/
def parseSourceC (U : Unicode) (src : List Nat) (stmtCount : Int) : Option Parsed :=
  match NewParser U (AddFile src.length) src with
  | none => none
  | some p => p.ParseFileC U stmtCount

end parser

/-- Hexadecimal digit of a number below 16. -/
def hexDigit (n : Nat) : Char :=
  if n < 10 then Char.ofNat (48 + n) else Char.ofNat (55 + n)

/-- The library on ASCII text: every byte from `0x80` on is an illegal encoding, read as
`utf8.RuneError` with width 1, no rune from `0x80` on is a letter or a digit, a rune is
formatted as `U+003B ';'`, a quoted text without escapes is unquoted by dropping the
quotes (a single-quoted text holds one character), and a text is quoted by putting it
between double quotes (which is what `strconv.Quote` does for a text without special
characters). -/
def ascii : Unicode where
  decodeRune := fun bs => if bs.length = 0 then (0xFFFD, 0) else (0xFFFD, 1)
  IsLetter := fun _ => false
  IsDigit := fun _ => false
  formatU := fun ch =>
    let n := ch.toNat
    let hex := String.mk [hexDigit (n / 4096 % 16), hexDigit (n / 256 % 16),
      hexDigit (n / 16 % 16), hexDigit (n % 16)]
    if 32 ≤ n ∧ n < 127 then "U+" ++ hex ++ " \x27" ++ String.singleton (Char.ofNat n) ++ "\x27"
    else "U+" ++ hex
  runeString := fun ch =>
    if 0 ≤ ch ∧ ch < 128 then String.singleton (Char.ofNat ch.toNat)
    else parser.bytesString [239, 191, 189]
  Unquote := fun s =>
    match s.toList with
    | q :: rest =>
      if rest.length ≥ 1 ∧ rest.getLast? = some q ∧ (q = Char.ofNat 34 ∨ (q = Char.ofNat 39 ∧ rest.length = 2)) ∧
          rest.dropLast.all (fun c => c ≠ Char.ofNat 92 ∧ c ≠ Char.ofNat 10 ∧ c ≠ q) then
        String.mk rest.dropLast
      else ""
    | [] => ""
  Quote := fun s => parser.quoteText s
  decodeRune_pos := by
    intro bs h
    cases bs with
    | nil => exact absurd rfl h
    | cons b bs => simp
  decodeRune_le := by
    intro bs
    cases bs with
    | nil => simp
    | cons b bs => simp
  decodeRune_self := by
    intro b bs _
    simp
  runeString_ascii := by
    intro ch h1 h2
    exact if_pos ⟨h1, h2⟩
  Quote_ident := fun _ _ => rfl
  Unquote_ident := by
    intro key hk
    have hall : ∀ d ∈ bytes key, (asciiLetter d || asciiDigit d) = true := by
      unfold identKey at hk
      cases hb : bytes key with
      | nil => rw [hb] at hk; exact hk.elim
      | cons c cs =>
        rw [hb] at hk
        intro d hd
        rcases List.mem_cons.mp hd with h | h
        · rw [h, hk.1]
          rfl
        · exact hk.2 d h
    have hmap : (bytes key).map Char.ofNat = key.toList := by
      unfold bytes
      rw [List.map_map]
      have : (Char.ofNat ∘ Char.toNat) = id := by
        funext c
        exact Char.ofNat_toNat c
      rw [this, List.map_id]
    have hl : (parser.quoteText key).toList =
        Char.ofNat 34 :: (key.toList ++ [Char.ofNat 34]) := by
      unfold parser.quoteText parser.bytesString
      show List.map Char.ofNat (34 :: (bytes key ++ [34])) = _
      rw [List.map_cons, List.map_append, hmap]
      rfl
    have hchars : ∀ c ∈ key.toList,
        c ≠ Char.ofNat 92 ∧ c ≠ Char.ofNat 10 ∧ c ≠ Char.ofNat 34 := by
      intro c hc
      have := hall c.toNat (List.mem_map.mpr ⟨c, hc, rfl⟩)
      unfold asciiLetter asciiDigit at this
      simp only [Bool.or_eq_true, Bool.and_eq_true, decide_eq_true_eq, beq_iff_eq] at this
      refine ⟨fun h => ?_, fun h => ?_, fun h => ?_⟩ <;>
        (rw [h] at this; revert this; decide)
    show (match (parser.quoteText key).toList with
      | q :: rest =>
        if rest.length ≥ 1 ∧ rest.getLast? = some q ∧ (q = Char.ofNat 34 ∨ (q = Char.ofNat 39 ∧ rest.length = 2)) ∧
            rest.dropLast.all (fun c => c ≠ Char.ofNat 92 ∧ c ≠ Char.ofNat 10 ∧ c ≠ q) then
          String.mk rest.dropLast
        else ""
      | [] => "") = key
    rw [hl]
    simp only
    rw [if_pos]
    · rw [List.dropLast_concat]
      rfl
    · refine ⟨by simp, by simp, Or.inl trivial, ?_⟩
      rw [List.dropLast_concat, List.all_eq_true]
      intro c hc
      have := hchars c hc
      simp [this.1, this.2.1, this.2.2]

/-- The results of `n` successive calls of `Scan` from a scanner, without the scanners:
token, literal and position. -/
def scanList (U : Unicode) : Nat → parser.Scanner → Option (List (Token × String × Pos))
  | 0, _ => some []
  | k + 1, s =>
    match s.Scan U (s.src.length + 2) with
    | none => none
    | some (tok, lit, pos, s) => (scanList U k s).map (fun l => (tok, lit, pos) :: l)

/-- The first `n` results of `Scan` on a new scanner for the text. -/
def scanFirst (U : Unicode) (mode : Nat) (src : List Nat) (n : Nat) :
    Option (List (Token × String × Pos)) :=
  match parser.NewScanner U (parser.AddFile src.length) src true [] mode with
  | none => none
  | some s => scanList U n s

namespace parser

/-- What is left to read: the bytes after the read offset, and the current character
when there is one. -/
def Scanner.left (s : Scanner) : Nat :=
  s.src.length - s.readOffset + (if 0 ≤ s.ch then 1 else 0)

/-- Well-formed scanner: the current character is a rune or -1, an ASCII character is
one byte wide, and the read offset is inside the source or at its end, where it is when
there is no current character; the offset is not past the read offset, and an ASCII
character is the byte of the source at the offset. -/
def Scanner.WF (s : Scanner) : Prop :=
  -1 ≤ s.ch ∧ (0 ≤ s.ch → s.ch < 128 → s.readOffset = s.offset + 1) ∧
  s.readOffset ≤ s.src.length ∧ (s.ch < 0 → s.src.length ≤ s.readOffset) ∧
  s.offset ≤ s.readOffset ∧ (0 ≤ s.ch → s.ch < 128 → s.src[s.offset]? = some s.ch.toNat)

/-- What no method of the scanner changes, and how the error list grows: by appending,
one entry per counted error when there is a handler. -/
def Scanner.Frame (s t : Scanner) : Prop :=
  t.src = s.src ∧ t.mode = s.mode ∧ t.errorHandler = s.errorHandler ∧
  t.file.Base = s.file.Base ∧ t.file.Size = s.file.Size ∧
  s.errors <+: t.errors ∧ s.errorCount ≤ t.errorCount ∧
  (s.errorHandler = true →
    (t.errors.length : Int) + s.errorCount = s.errors.length + t.errorCount)

/-- The scanner `t` is the scanner `s` after some reading: well-formed, with the frame
kept, no more left to read and the same `insertSemi`. -/
def Scanner.Ext (s t : Scanner) : Prop :=
  t.WF ∧ s.Frame t ∧ t.left ≤ s.left ∧ t.insertSemi = s.insertSemi

end parser

/-- Error returned by `Parse`: the error list of `ParseFile`, or the error of
`BuildNode`. -/
inductive ParseErr where
  | list (l : parser.ErrorList)
  | build (msg : String)

/-- The loop `for _, s := range actual.Stmts` of `Parse`: `BuildNode` on the values
literal of the first expression statement that holds one; the nil results at the end of
the statements. -/
def ParseLoop (conv : String → Decimal × Option String) :
    List parser.Stmt → Option Node × Option String
  | [] => (none, none)
  | .ExprStmt (.ValuesLit vl) :: _ => BuildNode conv vl
  | _ :: rest => ParseLoop conv rest

/-- Function `Parse` on the bytes of its input; `none` when the fuel of the parser model
runs out, and for the nil dereference of `actual.Stmts` when `ParseFile` returns neither
a file nor an error. -/
def Parse (U : Unicode) (conv : String → Decimal × Option String) (input : List Nat) :
    Option (Option Node × Option ParseErr) :=
  match parser.parseSource U input with
  | none => none
  | some r =>
    match r.err with
    | some l => some (none, some (.list l))
    | none =>
      match r.file with
      | none => none
      | some actual =>
        let res := ParseLoop conv actual.Stmts
        some (res.1, res.2.map ParseErr.build)

/-- Whether a statement is an expression statement whose expression is a values
literal, and then the literal. -/
def parser.Stmt.valuesLit : parser.Stmt → Option parser.ValuesLit
  | .ExprStmt (.ValuesLit vl) => some vl
  | _ => none

/-- Whether the token opens a tag block after a key in a literal opened by `braceOpen`:
a bracket other than `braceOpen`, and not the closing bracket of the literal. -/
def opensTags (braceOpen tok : Token) : Prop :=
  tok ≠ token.Comma ∧ tok ≠ braceOpen + 1 ∧ tok ≠ braceOpen ∧
    (tok = token.LParen ∨ tok = token.LBrace ∨ tok = token.LBrack)

instance (bo tok : Token) : Decidable (opensTags bo tok) :=
  inferInstanceAs (Decidable (_ ∧ _ ∧ _ ∧ _))

namespace parser

/-- What an element keeps of the tags it had and of the tag blocks read after them, in
the order they were read: the last block, and without a block the tags it had. -/
def lastTags (tags : Option ValuesLit) (ts : List ValuesLit) : Option ValuesLit :=
  match ts.getLast? with
  | some t => some t
  | none => tags

/-- The chained tag blocks after a key of a literal opened by `braceOpen`, as the claim
words them: as long as the token opens a tag block, `parseValuesLit` reads a block at that
bracket. The result is the list of the blocks in the order they were read, with the fuel
that is left; the fuel is that of `parseValuesElementTry`, one unit per block, and a block
is read with what is left of it. -/
def Parser.tagBlocks (U : Unicode) (braceOpen : Token) :
    Nat → Parser → Res (List ValuesLit × Nat)
  | 0, p => .ok ([], 0) p
  | fuel + 1, p =>
    if opensTags braceOpen p.token then
      (Parser.parseValuesLit U fuel p.token p).bind fun t p =>
        (Parser.tagBlocks U braceOpen fuel p).bind fun r p => .ok (t :: r.1, r.2) p
    else .ok ([], fuel + 1) p

end parser

def parser.ValuesLit.BraceOpen : parser.ValuesLit → Token
  | .mk _ _ _ braceOpen => braceOpen

/-- What is compared of an element of a values literal: the key, whether a value is
there, the name of the value if it is an identifier, and the opening bracket and the keys
of the tag block. -/
structure ElementView where
  key : String
  hasValue : Bool
  ident : Option String
  tagsOpen : Option Token
  tagKeys : List String
  deriving DecidableEq

/-- The view of an element. -/
def parser.ValuesElementLit.view (el : parser.ValuesElementLit) : ElementView :=
  ⟨el.Key, el.Value.isSome,
    (match el.Value with
      | some (.Ident name _) => some name
      | _ => none),
    el.Tags.map fun t => t.BraceOpen,
    match el.Tags with
    | some t => t.Elements.map fun e => e.Key
    | none => []⟩

/-- The statements of a parse result: for each the views of the elements of its values
literal, or `none` for another statement. -/
def stmtsView (r : parser.Parsed) : Option (List (Option (List ElementView))) :=
  r.file.map fun f => f.Stmts.map fun s =>
    s.valuesLit.map fun vl => vl.Elements.map fun el => el.view

namespace parser

/-- Rank of a scanner: twice what is left to read, and one more while `insertSemi` is
set. Every `Scan` that does not return `EOF` lowers it. -/
def Scanner.rank (s : Scanner) : Nat :=
  2 * s.left + (if s.insertSemi then 1 else 0)

/-- How the flag `insertSemi` after a `Scan` that returned the token `tok` depends on the
token and on the flag before: set after a string and a closing bracket, cleared after
every other token but `Illegal`, and set after `Illegal` only if it was set before. -/
def flagRule (tok : Token) (after before : Bool) : Prop :=
  (tok = token.String ∨ tok = token.RParen ∨ tok = token.RBrack ∨ tok = token.RBrace →
    after = true) ∧
  (tok = token.Illegal → after = true → before = true) ∧
  (tok ≠ token.String → tok ≠ token.RParen → tok ≠ token.RBrack → tok ≠ token.RBrace →
    tok ≠ token.Illegal → after = false)

/-- What one pass through the body of `Scan` from the scanner `s` gives. -/
def ScanStep.Ok (s : Scanner) : ScanStep → Prop
  | .done tok lit _ t =>
    t.WF ∧ s.Frame t ∧ t.rank ≤ s.rank ∧ (tok ≠ token.EOF → t.rank < s.rank) ∧
    (tok = token.EOF → t.ch = -1 ∧ (s.mode &&& DontInsertSemis = 0 → t.insertSemi = false)) ∧
    (s.ch = -1 → s.insertSemi = false → tok = token.EOF) ∧
    (tok = token.Semicolon → lit = "\n" ∧ t.insertSemi = false) ∧
    (s.mode &&& DontInsertSemis = 0 → flagRule tok t.insertSemi s.insertSemi) ∧
    (t.insertSemi = true → s.mode &&& DontInsertSemis = 0 ∨ s.insertSemi = true)
  | .again t =>
    t.WF ∧ s.Frame t ∧ t.left < s.left ∧ t.insertSemi = false ∧ 0 ≤ s.ch ∧
    s.mode &&& ScanComments = 0

/-- What `Scan` gives from the scanner `s`: the same as one pass through its body that
returns a token. -/
def Scanner.ScanOk (s : Scanner) (r : Token × String × Pos × Scanner) : Prop :=
  ScanStep.Ok s (.done r.1 r.2.1 r.2.2.1 r.2.2.2)

end parser

namespace parser

/-- Invariant of a parser made by `NewParser`: its scanner is well-formed, in mode 0 and
with an error handler; at the token `EOF` the scanner is at the end with `insertSemi`
cleared; and the error list holds every error that the scanner counted and at most 11
more. -/
def Parser.Inv (p : Parser) : Prop :=
  p.scanner.WF ∧ p.scanner.mode = 0 ∧ p.scanner.errorHandler = true ∧
  (p.token = token.EOF → p.scanner.ch = -1 ∧ p.scanner.insertSemi = false) ∧
  0 ≤ p.scanner.errorCount ∧ (p.errors.length : Int) ≤ 11 + p.scanner.errorCount ∧
  p.scanner.errorCount ≤ p.errors.length

/-- Measure of what a parser has left to do: nothing at the token `EOF`, otherwise the
rank of its scanner and one more for the current token. -/
def Parser.mu (p : Parser) : Nat :=
  if p.token = token.EOF then 0 else p.scanner.rank + 1

/-- The parser `q` is the parser `p` after some parsing: the invariant holds, the source
is the same, the error list has grown by appending, and no more is left to do. -/
def Parser.Ext (p q : Parser) : Prop :=
  q.Inv ∧ q.scanner.src = p.scanner.src ∧ p.errors <+: q.errors ∧ q.mu ≤ p.mu

/-- A method started in the state `p` ends, not for lack of fuel: it returns in a later
state with a result that satisfies `Q`, or panics with `bailout` in a later state whose
error list holds more than 10 errors. -/
def Res.Sat {α : Type} (r : Res α) (p : Parser) (Q : α → Parser → Prop) : Prop :=
  match r with
  | .ok a q => p.Ext q ∧ Q a q
  | .bailout q => p.Ext q ∧ 10 < q.errors.length
  | .outOfFuel => False

/-- The results of `ParseFile` and `ParseFileC` from a parser that satisfies the
invariant: a file exactly when there is no error, which is when the error list is empty;
the error is the error list; the list holds every error that the scanner counted and at
most 11 more. -/
def Parsed.Good (res : Parsed) : Prop :=
  (res.file.isSome = true ↔ res.err = none) ∧ (res.err = none ↔ res.p.errors = []) ∧
  (∀ l, res.err = some l → l = res.p.errors) ∧
  (res.p.errors.length : Int) ≤ 11 + res.p.scanner.errorCount ∧
  res.p.scanner.errorCount ≤ res.p.errors.length ∧ 0 ≤ res.p.scanner.errorCount

end parser

namespace parser

mutual
/-- Method `End` of the expressions; `none` stands for the nil dereference of
`e.Value.End()` in an element without a value. The length of a text is its number of
bytes. -/
def Expr.End : Expr → Option table_header.Pos
  | .ArrayLit _ _ rbrack => some (rbrack + 1)
  | .BadExpr _ t => some t
  | .Ident name namePos => some (namePos + name.length)
  | .Number value valuePos => some (valuePos + value.length)
  | .SliceExpr _ _ _ _ rbrack => some (rbrack + 1)
  | .StringLit _ valuePos literal => some (valuePos + literal.length)
  | .ValuesElementLit e => ValuesElementLit.End e
  | .ValuesLit (.mk _ _ rbrace _) => some (rbrace + 1)
/-- Method `ValuesElementLit.End`: `e.Value.End()`. -/
def ValuesElementLit.End : ValuesElementLit → Option table_header.Pos
  | .mk _ _ _ none _ => none
  | .mk _ _ _ (some v) _ => Expr.End v
end

end parser

/-- The first element of the values literal of the first statement of a parse result. -/
def firstElement (r : parser.Parsed) : Option parser.ValuesElementLit :=
  r.file.bind fun f => f.Stmts.head?.bind fun s => s.valuesLit.bind fun vl => vl.Elements.head?

/-- The messages of the errors of a parse result. -/
def errorMsgs (r : parser.Parsed) : Option (List String) :=
  r.err.map fun l => l.map fun e => e.Msg

/-- The parser that `NewParser` returns for the text `[b]`: at the token `[`. -/
def bracketParser : parser.Parser :=
  ⟨⟨parser.AddFile 3, bytes "[b]", 98, 1, 2, 0, false, true, [], 0, 0⟩, 1, token.LBrack, "", 0⟩

/-- The parser that `NewParser` returns for the text `{a}`: at the token `{`. -/
def braceParser : parser.Parser :=
  ⟨⟨parser.AddFile 3, bytes "\x7ba\x7d", 97, 1, 2, 0, false, true, [], 0, 0⟩, 1, token.LBrace,
    "", 0⟩

/-- The values literal `{a:{b}}`, with every position 0. -/
def nestedLit : parser.ValuesLit :=
  .mk 0 [.mk "a" 0 0 (some (.ValuesLit (.mk 0 [.mk "b" 0 0 none none] 0 token.LBrace))) none]
    0 token.LBrace

/-- The scanner that `NewScanner` returns for the text `}@`, in mode 0. -/
def braceScanner : parser.Scanner :=
  ⟨parser.AddFile 2, bytes "\x7d@", 125, 0, 1, 0, false, true, [], 0, 0⟩

namespace parser

/-- The scanner `t` is reached from the scanner `s` by reading digits, up to a character
that is not a digit. -/
inductive Scanner.DigitRun (U : Unicode) : Scanner → Scanner → Prop where
  | stop (s : Scanner) : isDigit U s.ch = false → Scanner.DigitRun U s s
  | step (s t : Scanner) : isDigit U s.ch = true → Scanner.DigitRun U (s.next U) t →
      Scanner.DigitRun U s t

/-- From the scanner `a` to the scanner `t` the text is a run of digits, followed or not
by a dot and a run of digits. -/
def Scanner.NumberRun (U : Unicode) (a t : Scanner) : Prop :=
  ∃ m, Scanner.DigitRun U a m ∧
    ((m.ch ≠ 46 ∧ t = m) ∨ (m.ch = 46 ∧ Scanner.DigitRun U (m.next U) t))

/-- The text of the source from the offset `i` up to the offset `j`. -/
def sourceText (src : List Nat) (i j : Nat) : String :=
  bytesString ((src.drop i).take (j - i))

/-- The scanner with another mode. -/
def Scanner.setMode (s : Scanner) (m : Nat) : Scanner :=
  { s with mode := m }

/-- What a pass through the body of `Scan` finds before it looks at the mode: a token
other than a comment, with the value that `insertSemi` is to get; the semicolon for a
line end; or a comment. -/
inductive ScanCore where
  | token (tok : Token) (literal : String) (pos : Pos) (insertSemi : Bool) (s : Scanner)
      (h : tok ≠ table_header.token.Comment)
  | semi (pos : Pos) (s : Scanner)
  | comment (literal : String) (pos : Pos) (s : Scanner)

/-- The body of `Scan` up to the tests of the mode. -/
def Scanner.scanCore (U : Unicode) (s : Scanner) : Option ScanCore :=
  let fuel := s.src.length + 2
  match Scanner.skipWhitespace U fuel s with
  | none => none
  | some s =>
    let pos := s.file.FileSetPos s.offset
    let ch := s.ch
    if isLetter U ch then
      match Scanner.scanIdentifier U fuel s with
      | none => none
      | some (literal, s) => some (.token token.Ident literal pos false s (by decide))
    else if isDigit U s.ch then
      match Scanner.scanNumber U fuel s with
      | none => none
      | some (literal, s) => some (.token token.Number literal pos false s (by decide))
    else
      let s := s.next U
      if ch = -1 then
        if s.insertSemi then some (.semi pos { s with insertSemi := false })
        else some (.token token.EOF "" pos false s (by decide))
      else if ch = 45 ∨ ch = 43 then
        match Scanner.scanNumber U fuel s with
        | none => none
        | some (literal, s) =>
          some (.token token.Number (U.runeString ch ++ literal) pos false s (by decide))
      else if ch = 10 then some (.semi pos { s with insertSemi := false })
      else if ch = 34 ∨ ch = 39 then
        match Scanner.scanString U fuel ch s with
        | none => none
        | some (literal, s) => some (.token token.String literal pos true s (by decide))
      else if ch = 58 then some (.token token.Colon "" pos false s (by decide))
      else if ch = 44 then some (.token token.Comma "" pos false s (by decide))
      else if ch = 123 then some (.token token.LBrace "" pos false s (by decide))
      else if ch = 125 then some (.token token.RBrace "" pos true s (by decide))
      else if ch = 91 then some (.token token.LBrack "" pos false s (by decide))
      else if ch = 93 then some (.token token.RBrack "" pos true s (by decide))
      else if ch = 40 then some (.token token.LParen "" pos false s (by decide))
      else if ch = 41 then some (.token token.RParen "" pos true s (by decide))
      else if ch = 47 then
        if s.ch = 47 ∨ s.ch = 42 then
          let comment (s : Scanner) : Option ScanCore :=
            match Scanner.scanComment U fuel s with
            | none => none
            | some (comment, s) => some (.comment comment pos s)
          if s.insertSemi then
            match Scanner.findLineEnd U fuel s with
            | none => none
            | some (true, s) =>
              let offset := (s.file.Offset pos).toNat
              some (.semi pos
                { s with ch := 47, offset := offset, readOffset := offset + 1,
                         insertSemi := false })
            | some (false, s) => comment s
          else comment s
        else some (.token token.Illegal (U.runeString ch) pos false s (by decide))
      else
        let s := if ch ≠ bom then
            s.error (s.file.Offset pos).toNat ("illegal character " ++ U.formatU ch)
          else s
        some (.token token.Illegal (U.runeString ch) pos s.insertSemi s (by decide))

/-- The end of the body of `Scan`, where the mode is looked at. -/
def ScanCore.step : ScanCore → ScanStep
  | .token tok literal pos insertSemi s _ =>
    .done tok literal pos
      (if s.mode &&& DontInsertSemis = 0 then { s with insertSemi := insertSemi } else s)
  | .semi pos s => .done token.Semicolon "\n" pos s
  | .comment literal pos s =>
    if s.mode &&& ScanComments = 0 then .again { s with insertSemi := false }
    else .done token.Comment literal pos
      (if s.mode &&& DontInsertSemis = 0 then { s with insertSemi := false } else s)

/-- The result of the body of `Scan` with the scanner in another mode. -/
def ScanCore.setMode (m : Nat) : ScanCore → ScanCore
  | .token tok literal pos insertSemi s h => .token tok literal pos insertSemi (s.setMode m) h
  | .semi pos s => .semi pos (s.setMode m)
  | .comment literal pos s => .comment literal pos (s.setMode m)

/-- The scanner in the result of the body of `Scan`. -/
def ScanCore.scanner : ScanCore → Scanner
  | .token _ _ _ _ s _ => s
  | .semi _ s => s
  | .comment _ _ s => s

/-- Repeated `Scan` up to the token `EOF`, as in the loops of the tests: the
(token, literal, position) triples in order, that of `EOF` last; the fuel counts the
calls. -/
def Scanner.scanAll (U : Unicode) : Nat → Scanner → Option (List (Token × String × Pos))
  | 0, _ => none
  | fuel + 1, s =>
    match Scanner.Scan U (s.src.length + 2) s with
    | none => none
    | some (tok, literal, pos, s) =>
      if tok = token.EOF then some [(tok, literal, pos)]
      else (Scanner.scanAll U fuel s).map fun l => (tok, literal, pos) :: l

/-- The triples that a new scanner on the source gives in the mode. -/
def scanTokens (U : Unicode) (file : SourceFile) (src : List Nat) (mode : Nat) :
    Option (List (Token × String × Pos)) :=
  match NewScanner U file src true [] mode with
  | none => none
  | some s => s.scanAll U (2 * src.length + 4)

end parser

namespace parser

/-- The rune that `next` reads at an offset of the source, with its width: the byte for
an ASCII byte, what `utf8.DecodeRune` gives from the offset on otherwise, and -1 at the
end. -/
def runeAt (U : Unicode) (src : List Nat) (i : Nat) : Int × Nat :=
  if i < src.length then
    if src.getD i 0 < 128 then ((src.getD i 0 : Nat), 1) else U.decodeRune (src.drop i)
  else (-1, 0)

/-- The bytes from an offset on are read by `next` without an error: no NUL byte, and at a
byte from `0x80` on neither an illegal encoding nor a byte order mark. -/
def legalHead (U : Unicode) : List Nat → Prop
  | [] => True
  | c :: rest => c ≠ 0 ∧ (128 ≤ c →
      ¬((U.decodeRune (c :: rest)).1 = 0xFFFD ∧ (U.decodeRune (c :: rest)).2 = 1) ∧
      (U.decodeRune (c :: rest)).1 ≠ bom)

/-- The scanner `base` at the offset `i` of its source, with the flag `insertSemi`: the
current character is the rune at the offset and the read offset is after it. -/
def Scanner.atOffset (U : Unicode) (base : Scanner) (i : Nat) (b : Bool) : Scanner :=
  { base with ch := (runeAt U base.src i).1, offset := i,
              readOffset := i + (runeAt U base.src i).2, insertSemi := b }

/-- The current character of the scanner is the rune of the source at its offset, and the
read offset is after that rune: the state in which `next` leaves a scanner. -/
def Scanner.OnRune (U : Unicode) (s : Scanner) : Prop :=
  s.ch = (runeAt U s.src s.offset).1 ∧ s.readOffset = s.offset + (runeAt U s.src s.offset).2

/-- The scanner in the result of one pass through the body of `Scan`. -/
def ScanStep.state : ScanStep → Scanner
  | .done _ _ _ s => s
  | .again s => s

/-- From the offset `i` up to the offset `j` the source holds a run of digits, as `next`
reads them rune by rune, and at `j` a character that is not a digit, or the end. -/
inductive DigitsText (U : Unicode) (src : List Nat) : Nat → Nat → Prop where
  | stop (i : Nat) : isDigit U (runeAt U src i).1 = false → DigitsText U src i i
  | step (i j : Nat) : isDigit U (runeAt U src i).1 = true →
      DigitsText U src (i + (runeAt U src i).2) j → DigitsText U src i j

/-- From the offset `i` up to the offset `j` the source holds a number as the scanner
reads it: a digit at `i`, or one of the bytes `-` and `+` at `i`; from there (after the
sign) a run of digits up to `m`; and then either no dot at `m`, which is `j`, or the byte
`.` at `m` and a run of digits from `m + 1` up to `j`. -/
def NumberText (U : Unicode) (src : List Nat) (i j : Nat) : Prop :=
  ∃ k m, ((isDigit U (runeAt U src i).1 = true ∧ k = i) ∨
      ((src[i]? = some 45 ∨ src[i]? = some 43) ∧ k = i + 1)) ∧
    DigitsText U src k m ∧
    ((src[m]? ≠ some 46 ∧ j = m) ∨ (src[m]? = some 46 ∧ DigitsText U src (m + 1) j))

/-- Written identifier of the scanner, as bytes: runes that are letters, or digits after
the first rune (the flag tells whether a digit may stand here, and the text may end); an
ASCII rune is its byte, and another rune is written by bytes that `utf8.DecodeRune`
reads as this rune whatever follows, neither as an illegal encoding nor as a byte order
mark. -/
inductive IdentText (U : Unicode) : Bool → List Nat → Prop
  | nil : IdentText U true []
  | byte (d : Bool) (c : Nat) (w : List Nat) : c < 128 →
      (isLetter U c = true ∨ (d = true ∧ isDigit U c = true)) → IdentText U true w →
      IdentText U d (c :: w)
  | rune (d : Bool) (c : Nat) (bs w : List Nat) (r : Int) : 128 ≤ c →
      (∀ rest, U.decodeRune (c :: bs ++ rest) = (r, bs.length + 1)) →
      (isLetter U r = true ∨ (d = true ∧ isDigit U r = true)) → r ≠ bom →
      ¬(r = 0xFFFD ∧ bs = []) → IdentText U true w → IdentText U d (c :: bs ++ w)

/-- What ends an identifier: the end of the source, or an ASCII byte that is neither a
letter nor a digit nor NUL. -/
def stopHead (U : Unicode) : List Nat → Prop
  | [] => True
  | c :: _ => c < 128 ∧ c ≠ 0 ∧ isLetter U c = false ∧ isDigit U c = false

/-- The scanner returns the tokens with these literals, one per `Scan`, and adds no
error. -/
def Scanner.Feeds (U : Unicode) : Scanner → List (Token × String) → Prop
  | _, [] => True
  | s, (tok, lit) :: rest =>
    ∃ pos t, Scanner.Scan U (s.src.length + 2) s = some (tok, lit, pos, t) ∧
      t.errors = s.errors ∧ Scanner.Feeds U t rest

/-- Byte of a quoted text that stands for itself: an ASCII byte other than NUL, the
newline, the double quote and the backslash. -/
def plainByte (c : Nat) : Prop :=
  c < 128 ∧ c ≠ 0 ∧ c ≠ 10 ∧ c ≠ 34 ∧ c ≠ 92

end parser

namespace parser

mutual
/-- An expression with every position set to 0: what is left is compared when positions
are ignored. -/
def Expr.strip : Expr → Expr
  | .ArrayLit els _ _ => .ArrayLit (Expr.stripList els) 0 0
  | .BadExpr _ _ => .BadExpr 0 0
  | .Ident name _ => .Ident name 0
  | .Number v _ => .Number v 0
  | .SliceExpr x _ lo hi _ => .SliceExpr (Expr.strip x) 0 (Expr.stripOpt lo) (Expr.stripOpt hi) 0
  | .StringLit v _ lit => .StringLit v 0 lit
  | .ValuesElementLit e => .ValuesElementLit (ValuesElementLit.strip e)
  | .ValuesLit v => .ValuesLit (ValuesLit.strip v)
/-- The same for an expression that may be nil. -/
def Expr.stripOpt : Option Expr → Option Expr
  | none => none
  | some x => some (Expr.strip x)
/-- The same for a list of expressions. -/
def Expr.stripList : List Expr → List Expr
  | [] => []
  | x :: xs => Expr.strip x :: Expr.stripList xs
/-- The same for an element of a values literal. -/
def ValuesElementLit.strip : ValuesElementLit → ValuesElementLit
  | .mk key _ _ value tags => .mk key 0 0 (Expr.stripOpt value) (ValuesLit.stripOpt tags)
/-- The same for a values literal that may be nil. -/
def ValuesLit.stripOpt : Option ValuesLit → Option ValuesLit
  | none => none
  | some x => some (ValuesLit.strip x)
/-- The same for a list of elements. -/
def ValuesElementLit.stripList : List ValuesElementLit → List ValuesElementLit
  | [] => []
  | x :: xs => ValuesElementLit.strip x :: ValuesElementLit.stripList xs
/-- The same for a values literal. -/
def ValuesLit.strip : ValuesLit → ValuesLit
  | .mk _ els _ b => .mk 0 (ValuesElementLit.stripList els) 0 b
end

/-- The token of a key: the string token of the key in double quotes when keys are
written quoted, and the identifier otherwise. -/
def keyTok (q : Bool) (key : String) : Token × String :=
  if q then (token.String, quoteText key) else (token.Ident, key)

mutual
/-- The tokens, with their literals, of a written expression that is an identifier or a
values literal in braces without tags (no token for another expression); `q` tells
whether the keys are written in double quotes. -/
def Expr.toks (q : Bool) : Expr → List (Token × String)
  | .ArrayLit _ _ _ => []
  | .BadExpr _ _ => []
  | .Ident name _ => [(token.Ident, name)]
  | .Number _ _ => []
  | .SliceExpr _ _ _ _ _ => []
  | .StringLit _ _ _ => []
  | .ValuesElementLit _ => []
  | .ValuesLit v => ValuesLit.toks q v
/-- The tokens of the value of an element, after its colon. -/
def Expr.toksOpt (q : Bool) : Option Expr → List (Token × String)
  | none => []
  | some x => (token.Colon, "") :: Expr.toks q x
/-- The tokens of an element: the key, and the colon and the value if there is one. -/
def ValuesElementLit.toks (q : Bool) : ValuesElementLit → List (Token × String)
  | .mk key _ _ value _ => keyTok q key :: Expr.toksOpt q value
/-- The tokens of the elements after the first one, a comma before each. -/
def ValuesElementLit.toksMore (q : Bool) : List ValuesElementLit → List (Token × String)
  | [] => []
  | e :: es => (token.Comma, "") :: (ValuesElementLit.toks q e ++ ValuesElementLit.toksMore q es)
/-- The tokens of a values literal. -/
def ValuesLit.toks (q : Bool) : ValuesLit → List (Token × String)
  | .mk _ [] _ _ => [(token.LBrace, ""), (token.RBrace, "")]
  | .mk _ (e :: es) _ _ =>
    (token.LBrace, "") ::
      (ValuesElementLit.toks q e ++ ValuesElementLit.toksMore q es ++ [(token.RBrace, "")])
end

/-- The tokens of the elements of a values literal, with the commas between them. -/
def ValuesElementLit.toksList (q : Bool) : List ValuesElementLit → List (Token × String)
  | [] => []
  | e :: es => ValuesElementLit.toks q e ++ ValuesElementLit.toksMore q es

/-- A key that can be written: in double quotes, a plain ASCII identifier; without
quotes, an identifier of the scanner. -/
def keyPlain (U : Unicode) (q : Bool) (key : String) : Prop :=
  (q = true → identKey key) ∧ (q = false → IdentText U false (bytes key))

mutual
/-- Expression that is an identifier or a values literal in braces without tags whose
keys can be written and whose values are such expressions. -/
def Expr.Plain (U : Unicode) (q : Bool) : Expr → Prop
  | .ArrayLit _ _ _ => False
  | .BadExpr _ _ => False
  | .Ident name _ => IdentText U false (bytes name)
  | .Number _ _ => False
  | .SliceExpr _ _ _ _ _ => False
  | .StringLit _ _ _ => False
  | .ValuesElementLit _ => False
  | .ValuesLit v => ValuesLit.Plain U q v
/-- The same for the value of an element, which may be absent. -/
def Expr.PlainOpt (U : Unicode) (q : Bool) : Option Expr → Prop
  | none => True
  | some x => Expr.Plain U q x
/-- The same for an element. -/
def ValuesElementLit.Plain (U : Unicode) (q : Bool) : ValuesElementLit → Prop
  | .mk key _ _ value tags => tags = none ∧ keyPlain U q key ∧ Expr.PlainOpt U q value
/-- The same for a list of elements. -/
def ValuesElementLit.PlainList (U : Unicode) (q : Bool) : List ValuesElementLit → Prop
  | [] => True
  | e :: es => ValuesElementLit.Plain U q e ∧ ValuesElementLit.PlainList U q es
/-- The same for a values literal. -/
def ValuesLit.Plain (U : Unicode) (q : Bool) : ValuesLit → Prop
  | .mk _ els _ b => b = token.LBrace ∧ ValuesElementLit.PlainList U q els
end

/-- The parser is at the first of the tokens, and its scanner returns the others. -/
def Parser.On (U : Unicode) (p : Parser) : List (Token × String) → Prop
  | [] => False
  | (tok, lit) :: rest => p.token = tok ∧ p.tokenLit = lit ∧ p.scanner.Feeds U rest

/-- What the methods of the parser return, with the fuel, at the tokens of a written
expression, values literal, list of elements and element: the expression up to the
positions, with the parser left at the tokens that follow and no error added. -/
def Parser.Reads (U : Unicode) (q : Bool) (fuel : Nat) : Prop :=
  (∀ (x : Expr) (p : Parser) (rest : List (Token × String)), x.Plain U q →
    3 * (x.toks q).length ≤ fuel → rest ≠ [] → p.On U (x.toks q ++ rest) →
    ∃ y p1, Parser.parseOperand U fuel p = .ok y p1 ∧ y.strip = x.strip ∧ p1.On U rest ∧
      p1.errors = p.errors) ∧
  (∀ (v : ValuesLit) (p : Parser) (rest : List (Token × String)), v.Plain U q →
    3 * (v.toks q).length ≤ fuel + 1 → rest ≠ [] → p.On U (v.toks q ++ rest) →
    ∃ y p1, Parser.parseValuesLit U fuel token.LBrace p = .ok y p1 ∧ y.strip = v.strip ∧
      p1.On U rest ∧ p1.errors = p.errors) ∧
  (∀ (els acc : List ValuesElementLit) (p : Parser) (rest : List (Token × String)),
    ValuesElementLit.PlainList U q els →
    3 * (ValuesElementLit.toksList q els).length + 1 ≤ fuel →
    p.On U (ValuesElementLit.toksList q els ++ (token.RBrace, "") :: rest) →
    ∃ ys p1, Parser.parseValuesLitLoop U fuel token.LBrace acc p = .ok (acc ++ ys) p1 ∧
      ValuesElementLit.stripList ys = ValuesElementLit.stripList els ∧
      p1.On U ((token.RBrace, "") :: rest) ∧ p1.errors = p.errors) ∧
  (∀ (e : ValuesElementLit) (p : Parser) (rest : List (Token × String)), e.Plain U q →
    3 * (e.toks q).length ≤ fuel →
    (∃ rest1, rest = (token.Comma, "") :: rest1 ∨ rest = (token.RBrace, "") :: rest1) →
    p.On U (e.toks q ++ rest) →
    ∃ y p1, Parser.parseValuesElementLit U fuel token.LBrace p = .ok y p1 ∧
      y.strip = e.strip ∧ p1.On U rest ∧ p1.errors = p.errors)

end parser

namespace parser

/-- The bytes of a written key: between double quotes, or as it is. -/
def keyBytes (q : Bool) (key : String) : List Nat :=
  if q then 34 :: (bytes key ++ [34]) else bytes key

/-- The bytes between two written elements: a comma, and a space after it when the keys
are written in double quotes (the separator of `ValuesLit.String`). -/
def sepBytes (q : Bool) : List Nat :=
  if q then [44, 32] else [44]

mutual
/-- The bytes of a written expression that is an identifier or a values literal in braces
without tags (none for another expression). -/
def Expr.written (q : Bool) : Expr → List Nat
  | .ArrayLit _ _ _ => []
  | .BadExpr _ _ => []
  | .Ident name _ => bytes name
  | .Number _ _ => []
  | .SliceExpr _ _ _ _ _ => []
  | .StringLit _ _ _ => []
  | .ValuesElementLit _ => []
  | .ValuesLit v => ValuesLit.written q v
/-- The bytes of the value of an element, with the colon before it. -/
def Expr.writtenOpt (q : Bool) : Option Expr → List Nat
  | none => []
  | some x => 58 :: Expr.written q x
/-- The bytes of an element. -/
def ValuesElementLit.written (q : Bool) : ValuesElementLit → List Nat
  | .mk key _ _ value _ => keyBytes q key ++ Expr.writtenOpt q value
/-- The bytes of the elements after the first one, the separator before each. -/
def ValuesElementLit.writtenMore (q : Bool) : List ValuesElementLit → List Nat
  | [] => []
  | e :: es => sepBytes q ++ (ValuesElementLit.written q e ++ ValuesElementLit.writtenMore q es)
/-- The bytes of a values literal. -/
def ValuesLit.written (q : Bool) : ValuesLit → List Nat
  | .mk _ [] _ _ => [123, 125]
  | .mk _ (e :: es) _ _ =>
    123 :: (ValuesElementLit.written q e ++ ValuesElementLit.writtenMore q es ++ [125])
end

/-- What follows an element in a values literal in braces: a comma or the closing
brace. -/
def closeHead (post : List Nat) : Prop :=
  ∃ rest, post = 44 :: rest ∨ post = 125 :: rest

/-- What the scanner `base`, in mode 0, returns at an offset where a written expression,
values literal, tail of a list of elements or element with at most `n` tokens stands:
its tokens, and then what it returns after the text. -/
def Scanner.Writes (U : Unicode) (q : Bool) (base : Scanner) (n : Nat) : Prop :=
  (∀ (x : Expr) (i : Nat) (post : List Nat) (T : List (Token × String)), x.Plain U q →
    (x.toks q).length ≤ n → base.src.drop i = x.written q ++ post → closeHead post →
    (∀ b, Scanner.Feeds U (base.atOffset U (i + (x.written q).length) b) T) →
    ∀ b, Scanner.Feeds U (base.atOffset U i b) (x.toks q ++ T)) ∧
  (∀ (v : ValuesLit) (i : Nat) (post : List Nat) (T : List (Token × String)), v.Plain U q →
    (v.toks q).length ≤ n → base.src.drop i = v.written q ++ post → legalHead U post →
    Scanner.Feeds U (base.atOffset U (i + (v.written q).length) true) T →
    ∀ b, Scanner.Feeds U (base.atOffset U i b) (v.toks q ++ T)) ∧
  (∀ (es : List ValuesElementLit) (i : Nat) (post : List Nat) (T : List (Token × String)),
    ValuesElementLit.PlainList U q es → (ValuesElementLit.toksMore q es).length ≤ n →
    base.src.drop i = ValuesElementLit.writtenMore q es ++ 125 :: post → legalHead U post →
    Scanner.Feeds U
      (base.atOffset U (i + (ValuesElementLit.writtenMore q es).length + 1) true) T →
    ∀ b, Scanner.Feeds U (base.atOffset U i b)
      (ValuesElementLit.toksMore q es ++ (token.RBrace, "") :: T)) ∧
  (∀ (e : ValuesElementLit) (i : Nat) (post : List Nat) (T : List (Token × String)),
    e.Plain U q → (e.toks q).length ≤ n → base.src.drop i = e.written q ++ post →
    closeHead post →
    (∀ b, Scanner.Feeds U (base.atOffset U (i + (e.written q).length) b) T) →
    ∀ b, Scanner.Feeds U (base.atOffset U i b) (e.toks q ++ T))

end parser

/-- A written element: an identifier key, and optionally a colon and an identifier
value. -/
def elementText (e : String × Option String) : List Nat :=
  bytes e.1 ++
    match e.2 with
    | none => []
    | some v => 58 :: bytes v

/-- The text of written elements joined with commas, inside braces. -/
def elementsText (elements : List (String × Option String)) : List Nat :=
  [123] ++ List.intercalate [44] (elements.map elementText) ++ [125]

/-- The element of a values literal for a written element, with every position 0. -/
def elementLit (e : String × Option String) : parser.ValuesElementLit :=
  .mk e.1 0 0 (e.2.map fun v => parser.Expr.Ident v 0) none

/-- What is compared of the element parsed from a written element: the key, the value as
an identifier or no value, and no tags. -/
def elementView (e : String × Option String) : ElementView :=
  ⟨e.1, e.2.isSome, e.2, none, []⟩

namespace parser

mutual
/-- Method `String` of the expressions (an identifier and a number that are nodes, not
nil, give their text). -/
def Expr.String (U : Unicode) : Expr → String
  | .ArrayLit els _ _ => "[" ++ ", ".intercalate (Expr.Strings U els) ++ "]"
  | .BadExpr _ _ => "<bad expression>"
  | .Ident name _ => name
  | .Number v _ => v
  | .SliceExpr x _ lo hi _ =>
    Expr.String U x ++ "[" ++ Expr.StringOpt U lo ++ ":" ++ Expr.StringOpt U hi ++ "]"
  | .StringLit _ _ lit => lit
  | .ValuesElementLit e => ValuesElementLit.String U e
  | .ValuesLit v => ValuesLit.String U v
/-- The text of a bound of a slice expression: empty for a nil bound. -/
def Expr.StringOpt (U : Unicode) : Option Expr → String
  | none => ""
  | some x => Expr.String U x
/-- The texts of the elements of a list of expressions. -/
def Expr.Strings (U : Unicode) : List Expr → List String
  | [] => []
  | x :: xs => Expr.String U x :: Expr.Strings U xs
/-- What `ValuesElementLit.String` writes for the value: nothing for a nil value, and a
colon and the text of the value otherwise. -/
def Expr.valueString (U : Unicode) : Option Expr → String
  | none => ""
  | some x => ":" ++ Expr.String U x
/-- Method `ValuesElementLit.String`: the quoted key, the tags if any, and the value if
any. -/
def ValuesElementLit.String (U : Unicode) : ValuesElementLit → String
  | .mk key _ _ value tags =>
    U.Quote key ++ ValuesLit.StringOpt U tags ++ Expr.valueString U value
/-- The texts of the elements of a values literal. -/
def ValuesElementLit.Strings (U : Unicode) : List ValuesElementLit → List String
  | [] => []
  | e :: es => ValuesElementLit.String U e :: ValuesElementLit.Strings U es
/-- What `ValuesElementLit.String` writes for the tags: nothing for nil tags. -/
def ValuesLit.StringOpt (U : Unicode) : Option ValuesLit → String
  | none => ""
  | some t => ValuesLit.String U t
/-- Method `ValuesLit.String`. -/
def ValuesLit.String (U : Unicode) : ValuesLit → String
  | .mk _ els _ b =>
    Token.String b ++ ", ".intercalate (ValuesElementLit.Strings U els) ++ Token.String (b + 1)
end

end parser

/-! ## Properties -/

/-- Induction over a tree together with its lists of children. -/
theorem node_induct {P : Node → Prop} {Q : List Node → Prop}
    (hmk : ∀ v cs tags, Q cs → P (.mk v cs tags)) (hnil : Q [])
    (hcons : ∀ c cs, P c → Q cs → Q (c :: cs)) : (∀ t, P t) ∧ (∀ cs, Q cs) :=
  ⟨fun t => @Node.rec P Q (fun v cs tags h => hmk v cs tags h) hnil
      (fun c cs h1 h2 => hcons c cs h1 h2) t,
   fun cs => @Node.rec_1 P Q (fun v cs tags h => hmk v cs tags h) hnil
      (fun c cs h1 h2 => hcons c cs h1 h2) cs⟩

/-- The loop of `lcm` on natural numbers computes the greatest common divisor. -/
theorem lcmLoop_nat (fuel : Nat) : ∀ a b : Nat, b ≤ fuel →
    lcmLoop fuel (a : Int) (b : Int) = some ((Nat.gcd a b : Nat) : Int) := by
  induction fuel with
  | zero =>
    intro a b hb
    have : b = 0 := by omega
    subst this
    simp [lcmLoop]
  | succ n ih =>
    intro a b hb
    rcases Nat.eq_zero_or_pos b with h0 | hpos
    · subst h0
      simp [lcmLoop]
    · have hlt : a % b < b := Nat.mod_lt _ hpos
      have hb0 : (0 : Int) < (b : Int) := by exact_mod_cast hpos
      rw [lcmLoop, if_pos hb0, ← Int.ofNat_tmod, ih b (a % b) (by omega)]
      rw [Nat.gcd_comm b (a % b), ← Nat.gcd_rec, Nat.gcd_comm]

/-- The loop of `lcm` ends within `b` iterations on every pair of integers. -/
theorem lcmLoop_total (fuel : Nat) : ∀ a b : Int, b.toNat ≤ fuel →
    ∃ g, lcmLoop fuel a b = some g := by
  induction fuel with
  | zero =>
    intro a b hb
    have : ¬ b > 0 := by omega
    exact ⟨a, by simp [lcmLoop, this]⟩
  | succ n ih =>
    intro a b hb
    by_cases h : b > 0
    · rw [lcmLoop, if_pos h]
      have h1 := Int.tmod_lt_of_pos a h
      exact ih b (Int.tmod a b) (by omega)
    · exact ⟨a, by simp [lcmLoop, h]⟩

/-- The fuel given to the loop in `lcm` is enough: `lcm` never reports `outOfFuel`. -/
theorem lcm_ne_outOfFuel (a b : Int) : lcm a b ≠ .error Fault.outOfFuel := by
  obtain ⟨g, hg⟩ := lcmLoop_total b.toNat a b (Nat.le_refl _)
  simp only [lcm, hg]
  split_ifs <;> simp

/-- A value within the range of `int` is left as it is. -/
theorem wrap_eq (x : Int) (h1 : -9223372036854775808 ≤ x) (h2 : x < 9223372036854775808) :
    wrap x = x := by
  unfold wrap
  omega

/-- The result of `wrap` is within the range of `int`. -/
theorem wrap_range (x : Int) :
    -9223372036854775808 ≤ wrap x ∧ wrap x < 9223372036854775808 := by
  unfold wrap
  omega

/-- On positive arguments whose product is below 2^63, `lcm` returns the least common
multiple. -/
theorem lcm_pos (a b : Nat) (ha : 0 < a) (hab : a * b < 9223372036854775808) :
    lcm (a : Int) (b : Int) = .ok ((Nat.lcm a b : Nat) : Int) := by
  have hg : Nat.gcd a b ≠ 0 := by
    intro h
    have := Nat.gcd_eq_zero_iff.mp h
    omega
  have hg2 : ((Nat.gcd a b : Nat) : Int) ≠ 0 := by exact_mod_cast hg
  have hc : wrap ((a : Int) * (b : Int)) = ((a * b : Nat) : Int) := by
    rw [Int.ofNat_mul]
    apply wrap_eq
    · have : (0 : Int) ≤ ((a * b : Nat) : Int) := Int.ofNat_nonneg _
      rw [Int.ofNat_mul] at this
      omega
    · have : ((a * b : Nat) : Int) < 9223372036854775808 := by exact_mod_cast hab
      rw [Int.ofNat_mul] at this
      exact this
  have hq : a * b / Nat.gcd a b ≤ a * b := Nat.div_le_self _ _
  have hw : wrap (Int.tdiv ((a * b : Nat) : Int) ((Nat.gcd a b : Nat) : Int))
      = ((Nat.lcm a b : Nat) : Int) := by
    rw [← Int.ofNat_tdiv, Nat.lcm]
    have h1 : ((a * b / Nat.gcd a b : Nat) : Int) ≤ ((a * b : Nat) : Int) := by
      exact_mod_cast hq
    have h2 : ((a * b : Nat) : Int) < 9223372036854775808 := by exact_mod_cast hab
    have h3 : (0 : Int) ≤ ((a * b / Nat.gcd a b : Nat) : Int) := Int.ofNat_nonneg _
    generalize ((a * b / Nat.gcd a b : Nat) : Int) = q at h1 h3 ⊢
    generalize ((a * b : Nat) : Int) = p at h1 h2
    exact wrap_eq q (by omega) (by omega)
  simp only [lcm, Int.toNat_ofNat, lcmLoop_nat b a b (Nat.le_refl b), if_neg hg2, hc, hw]

theorem rowsLcm_pos_of (c : Node) (cs : List Node) (hc : 0 < rows c) (hcs : 0 < rowsLcm cs) :
    0 < rowsLcm (c :: cs) := by
  rw [rowsLcm]
  exact Nat.lcm_pos hc hcs

theorem rows_rowsLcm_pos : (∀ t, 0 < rows t) ∧ (∀ cs, 0 < rowsLcm cs) := by
  apply node_induct
  · intro v cs tags _
    cases cs <;> simp [rows]
  · simp [rowsLcm]
  · intro c cs hc hcs
    exact rowsLcm_pos_of c cs hc hcs

theorem rows_pos (t : Node) : 0 < rows t := rows_rowsLcm_pos.1 t

theorem rowsLcm_pos (cs : List Node) : 0 < rowsLcm cs := rows_rowsLcm_pos.2 cs

theorem rowsFit_mk (v : String) (cs : List Node) (tags : Option TagMap) :
    rowsFit (.mk v cs tags) = true ↔
      rowsFitLoop cs 1 = true ∧ rows (.mk v cs tags) < 9223372036854775808 := by
  simp [rowsFit]

theorem rowsFitLoop_cons (c : Node) (cs : List Node) (acc : Nat) :
    rowsFitLoop (c :: cs) acc = true ↔
      rowsFit c = true ∧ acc * rows c < 9223372036854775808 ∧
        rowsFitLoop cs (Nat.lcm acc (rows c)) = true := by
  simp [rowsFitLoop, and_assoc]

/-- Each node of a list that passes `rowsFitLoop` passes `rowsFit`. -/
theorem rowsFitLoop_mem (cs : List Node) : ∀ acc, rowsFitLoop cs acc = true →
    ∀ c ∈ cs, rowsFit c = true := by
  induction cs with
  | nil => intro _ _ c hc; cases hc
  | cons a cs ih =>
    intro acc h c hc
    obtain ⟨h1, _, h3⟩ := (rowsFitLoop_cons a cs acc).mp h
    rcases List.mem_cons.mp hc with e | e
    · subst e; exact h1
    · exact ih _ h3 c e

/-- The children of a node that passes `rowsFit` pass it. -/
theorem rowsFit_children (t : Node) (h : rowsFit t = true) :
    ∀ c ∈ t.Children, rowsFit c = true := by
  cases t with
  | mk v cs tags => exact rowsFitLoop_mem cs 1 ((rowsFit_mk v cs tags).mp h).1

theorem rowsFit_lt (t : Node) (h : rowsFit t = true) : rows t < 9223372036854775808 := by
  cases t with
  | mk v cs tags => exact ((rowsFit_mk v cs tags).mp h).2

theorem rowsToUse_eq_aux :
    (∀ t, rowsFit t = true → rowsToUse t = .ok ((rows t : Nat) : Int)) ∧
    (∀ cs, ∀ acc : Nat, 0 < acc → rowsFitLoop cs acc = true →
      rowsToUseLoop cs (acc : Int) = .ok ((Nat.lcm acc (rowsLcm cs) : Nat) : Int)) := by
  apply node_induct
  · intro v cs tags ih hfit
    obtain ⟨h1, h2⟩ := (rowsFit_mk v cs tags).mp hfit
    cases cs with
    | nil =>
      simp [rowsToUse, rowsToUseLoop, rows, bind, Except.bind, pure, Except.pure, wrap]
    | cons c cs =>
      have h := ih 1 (by decide) h1
      simp only [Nat.cast_one] at h
      have hw : wrap (1 + ((Nat.lcm 1 (rowsLcm (c :: cs)) : Nat) : Int))
          = ((rows (.mk v (c :: cs) tags) : Nat) : Int) := by
        have e : rows (.mk v (c :: cs) tags) = 1 + rowsLcm (c :: cs) := by simp [rows]
        rw [Nat.lcm_one_left, wrap_eq _ (by omega) (by omega), e]
        omega
      simp only [rowsToUse, List.length_cons, Nat.succ_pos, gt_iff_lt, if_true, h, bind,
        Except.bind, pure, Except.pure, hw, Nat.zero_lt_succ]
  · intro acc _ _
    simp [rowsToUseLoop, rowsLcm, pure, Except.pure]
  · intro c cs hc hcs acc hacc hfit
    obtain ⟨h1, h2, h3⟩ := (rowsFitLoop_cons c cs acc).mp hfit
    have hpos : 0 < Nat.lcm acc (rows c) := Nat.lcm_pos hacc (rows_pos c)
    simp only [rowsToUseLoop, hc h1, bind, Except.bind, lcm_pos acc (rows c) hacc h2,
      hcs _ hpos h3, rowsLcm]
    rw [Nat.lcm_assoc]

/-- On a tree that passes `rowsFit`, `rowsToUse` returns, and returns `rows`. -/
theorem rowsToUse_eq (t : Node) (h : rowsFit t = true) :
    rowsToUse t = .ok ((rows t : Nat) : Int) :=
  rowsToUse_eq_aux.1 t h

/-! ### `cols` -/

theorem colsLoop_eq (cs : List Node) : ∀ w, colsLoop cs w = w + (cs.map cols).sum := by
  induction cs with
  | nil => intro w; simp [colsLoop]
  | cons c cs ih =>
    intro w
    rw [colsLoop, ih, List.map_cons, List.sum_cons]
    omega

theorem cols_leaf (v : String) (tags : Option TagMap) : cols (.mk v [] tags) = 1 := by
  simp [cols]

theorem cols_cons (v : String) (c : Node) (cs : List Node) (tags : Option TagMap) :
    cols (.mk v (c :: cs) tags) = ((c :: cs).map cols).sum := by
  simp [cols, colsLoop_eq]

theorem cols_pos_aux :
    (∀ t, 1 ≤ cols t) ∧
    (∀ cs, 0 ≤ (cs.map cols).sum ∧ (cs ≠ [] → 1 ≤ (cs.map cols).sum)) := by
  apply node_induct
  · intro v cs tags ih
    cases cs with
    | nil => simp [cols_leaf]
    | cons c cs =>
      rw [cols_cons]
      exact ih.2 (by simp)
  · simp
  · intro c cs hc hcs
    simp only [List.map_cons, List.sum_cons]
    constructor
    · omega
    · intro _
      omega

theorem cols_pos (t : Node) : 1 ≤ cols t := cols_pos_aux.1 t

theorem colsSum_nonneg (cs : List Node) : 0 ≤ (cs.map cols).sum := (cols_pos_aux.2 cs).1

theorem cols_le_sum (cs : List Node) : ∀ c ∈ cs, cols c ≤ (cs.map cols).sum := by
  induction cs with
  | nil => intro c hc; cases hc
  | cons a cs ih =>
    intro c hc
    have ha := cols_pos a
    have hs := colsSum_nonneg cs
    simp only [List.map_cons, List.sum_cons]
    rcases List.mem_cons.mp hc with e | e
    · subst e; omega
    · have := ih c e
      omega

/-- A child has at most as many columns as its parent. -/
theorem cols_child_le (t : Node) : ∀ c ∈ t.Children, cols c ≤ cols t := by
  cases t with
  | mk v cs tags =>
    intro c hc
    cases cs with
    | nil => cases hc
    | cons a cs =>
      rw [cols_cons]
      exact cols_le_sum _ c hc

theorem width_eq_aux :
    (∀ t, cols t < 9223372036854775808 → width t = cols t) ∧
    (∀ cs, ∀ w : Int, 0 ≤ w → w + (cs.map cols).sum < 9223372036854775808 →
      widthLoop cs w = w + (cs.map cols).sum) := by
  apply node_induct
  · intro v cs tags ih h
    cases cs with
    | nil => simp [width, cols_leaf]
    | cons c cs =>
      rw [cols_cons] at h ⊢
      have := ih 0 (le_refl _) (by omega)
      simp only [width, List.length_cons, this]
      simp
  · intro w _ _
    simp [widthLoop]
  · intro c cs hc hcs w hw h
    simp only [List.map_cons, List.sum_cons] at h ⊢
    have hc1 := cols_pos c
    have hs := colsSum_nonneg cs
    rw [widthLoop, hc (by omega), wrap_eq _ (by omega) (by omega), hcs _ (by omega) (by omega)]
    omega

/-- On a tree with fewer than 2^63 columns, `width` is the number of columns. -/
theorem width_eq (t : Node) (h : cols t < 9223372036854775808) : width t = cols t :=
  width_eq_aux.1 t h

/-! ### Arguments within range -/

theorem height_mk (v : String) (cs : List Node) (tags : Option TagMap) :
    height (.mk v cs tags) = heightList cs := by
  simp [height]

theorem heightList_cons (c : Node) (cs : List Node) :
    heightList (c :: cs) = max (height c + 1) (heightList cs) := by
  simp [heightList]

/-- The share of a budget: between 0 and the budget, and below it when the node has
children. -/
theorem share_bounds (t : Node) (rl : Int) (hpos : 0 < rl) :
    0 ≤ Int.tdiv rl (rows t) ∧ Int.tdiv rl (rows t) ≤ rl ∧
      (t.Children ≠ [] → Int.tdiv rl (rows t) < rl) := by
  have hR : (0 : Int) < (rows t : Int) := by exact_mod_cast rows_pos t
  rw [Int.tdiv_eq_ediv (by omega) (by omega)]
  refine ⟨Int.ediv_nonneg (by omega) (by omega), Int.ediv_le_self _ (by omega), ?_⟩
  intro hne
  have h2 : (2 : Int) ≤ (rows t : Int) := by
    cases t with
    | mk v cs tags =>
      cases cs with
      | nil => simp [Node.Children] at hne
      | cons c cs =>
        have := rowsLcm_pos (c :: cs)
        have e : rows (.mk v (c :: cs) tags) = 1 + rowsLcm (c :: cs) := by simp [rows]
        rw [e]
        omega
  apply Int.ediv_lt_of_lt_mul (by omega)
  nlinarith

/-- The wrap-arounds in one call of `getCells` on arguments within range leave the
values as they are. -/
theorem Safe.wraps {d : Int} {t : Node} {row col rl : Int} (h : Safe d t row col rl) :
    rowsToUse t = .ok ((rows t : Nat) : Int) ∧ width t = cols t ∧
    wrap (Int.tdiv rl (rows t)) = Int.tdiv rl (rows t) ∧
    wrap (row + Int.tdiv rl (rows t)) = row + Int.tdiv rl (rows t) ∧
    wrap (rl - Int.tdiv rl (rows t)) = rl - Int.tdiv rl (rows t) ∧
    wrap (row + 1) = row + 1 := by
  obtain ⟨h1, h2, h3, h4, h5, h6, h7, h8⟩ := h
  obtain ⟨q1, q2, _⟩ := share_bounds t rl h5
  have hc := cols_pos t
  refine ⟨rowsToUse_eq t h1, width_eq t (by omega), ?_, ?_, ?_, ?_⟩
  · exact wrap_eq _ (by omega) (by omega)
  · exact wrap_eq _ (by omega) (by omega)
  · exact wrap_eq _ (by omega) (by omega)
  · exact wrap_eq _ (by omega) (by omega)

/-- The loop over the children of a call within range is within range. -/
theorem Safe.kids {d : Int} {v : String} {c : Node} {cs : List Node} {tags : Option TagMap}
    {row col rl : Int} (h : Safe d (.mk v (c :: cs) tags) row col rl) :
    SafeList d (c :: cs) (row + Int.tdiv rl (rows (.mk v (c :: cs) tags))) col
      (rl - Int.tdiv rl (rows (.mk v (c :: cs) tags))) := by
  obtain ⟨h1, h2, h3, h4, h5, h6, h7, h8⟩ := h
  obtain ⟨q1, q2, q3⟩ := share_bounds (.mk v (c :: cs) tags) rl h5
  have q4 := q3 (by simp [Node.Children])
  rw [height_mk] at h3
  rw [cols_cons] at h8
  exact ⟨rowsFit_children _ h1, h2, h3, by omega, by omega, by omega, h7, h8⟩

/-- The first call of a loop within range is within range. -/
theorem SafeList.head {d : Int} {c : Node} {cs : List Node} {row col rl : Int}
    (h : SafeList d (c :: cs) row col rl) :
    Safe (d + 1) c row col rl ∧ wrap (d + 1) = d + 1 ∧ width c = cols c ∧
      wrap (col + cols c) = col + cols c := by
  obtain ⟨h1, h2, h3, h4, h5, h6, h7, h8⟩ := h
  rw [heightList_cons] at h3
  simp only [List.map_cons, List.sum_cons] at h8
  have hs := colsSum_nonneg cs
  have hc := cols_pos c
  have hm : (height c : Int) + 1 ≤ ((max (height c + 1) (heightList cs) : Nat) : Int) := by
    have : height c + 1 ≤ max (height c + 1) (heightList cs) := Nat.le_max_left _ _
    omega
  refine ⟨⟨h1 c (List.mem_cons_self _ _), by omega, by omega, h4, h5, h6, h7, by omega⟩,
    wrap_eq _ (by omega) (by omega), width_eq c (by omega), wrap_eq _ (by omega) (by omega)⟩

/-- The rest of a loop within range is within range. -/
theorem SafeList.tail {d : Int} {c : Node} {cs : List Node} {row col rl : Int}
    (h : SafeList d (c :: cs) row col rl) : SafeList d cs row (col + cols c) rl := by
  obtain ⟨h1, h2, h3, h4, h5, h6, h7, h8⟩ := h
  rw [heightList_cons] at h3
  simp only [List.map_cons, List.sum_cons] at h8
  have hc := cols_pos c
  have hm : (heightList cs : Int) ≤ ((max (height c + 1) (heightList cs) : Nat) : Int) := by
    have : heightList cs ≤ max (height c + 1) (heightList cs) := Nat.le_max_right _ _
    omega
  exact ⟨fun k hk => h1 k (List.mem_cons_of_mem _ hk), h2, by omega, h4, h5, h6, by omega,
    by omega⟩

/-- The top-level call on a tree within range is within range. -/
theorem InRange.safe {root : Node} (h : InRange root) : Safe 0 root 0 0 (rows root) := by
  obtain ⟨h1, h2, h3⟩ := h
  have hp := rows_pos root
  have hl := rowsFit_lt root h1
  exact ⟨h1, le_refl _, by omega, le_refl _, by omega, by omega, le_refl _, by omega⟩

/-! ### `getCells` and its call tree -/

theorem numRowsAfter_append (n : Int) (a b : List Header) :
    numRowsAfter n (a ++ b) = numRowsAfter (numRowsAfter n a) b := by
  simp [numRowsAfter, List.foldl_append]

theorem numRowsAfter_comm (cells : List Header) : ∀ (n x : Int),
    numRowsAfter (if x > n then x else n) cells
      = if x > numRowsAfter n cells then x else numRowsAfter n cells := by
  induction cells with
  | nil => intro n x; simp [numRowsAfter]
  | cons h cells ih =>
    intro n x
    have e : (if h.Row + 1 > (if x > n then x else n) then h.Row + 1 else (if x > n then x else n))
        = if x > (if h.Row + 1 > n then h.Row + 1 else n) then x
          else (if h.Row + 1 > n then h.Row + 1 else n) := by
      split_ifs <;> omega
    simp only [numRowsAfter, List.foldl_cons] at ih ⊢
    rw [e, ih]

theorem stateAfter_nil (mt : TableHeader) : stateAfter mt [] = mt := by
  simp [stateAfter, numRowsAfter]

theorem stateAfter_append (mt : TableHeader) (a b : List Header) :
    stateAfter (stateAfter mt a) b = stateAfter mt (a ++ b) := by
  simp [stateAfter, numRowsAfter_append, List.filter_append]

theorem stateAfter_own (mt : TableHeader) (K : List Header) (th : Header)
    (hleaf : th.IsLeaf = true → K = []) :
    (if th.IsLeaf = true then
        { (if th.Row + 1 > (stateAfter mt K).NumRows
            then { stateAfter mt K with NumRows := th.Row + 1 } else stateAfter mt K) with
          Leafs := (if th.Row + 1 > (stateAfter mt K).NumRows
            then { stateAfter mt K with NumRows := th.Row + 1 } else stateAfter mt K).Leafs ++ [th] }
      else
        (if th.Row + 1 > (stateAfter mt K).NumRows
            then { stateAfter mt K with NumRows := th.Row + 1 } else stateAfter mt K))
      = stateAfter mt (th :: K) := by
  have hn : numRowsAfter mt.NumRows (th :: K)
      = if th.Row + 1 > numRowsAfter mt.NumRows K then th.Row + 1
        else numRowsAfter mt.NumRows K := by
    rw [← numRowsAfter_comm]
    simp [numRowsAfter]
  cases hl : th.IsLeaf with
  | true =>
    have hK := hleaf hl
    subst hK
    simp only [stateAfter, hn, List.filter_cons, hl, if_true, List.filter_nil, List.append_nil]
    split_ifs <;> rfl
  | false =>
    simp only [stateAfter, hn, List.filter_cons, hl, Bool.false_eq_true, if_false]
    split_ifs <;> rfl

theorem getCells_eq_aux :
    (∀ t, ∀ d row col rl mt, Safe d t row col rl → getCells d t row col rl mt
        = .ok ((callTree d t row col rl).cells, stateAfter mt (callTree d t row col rl).cells)) ∧
    (∀ cs, ∀ d row col rl acc mt, SafeList d cs row col rl →
      getCellsLoop d cs row col rl acc mt
        = .ok (acc ++ CallTree.cellsList (callTreeLoop d cs row col rl),
            stateAfter mt (CallTree.cellsList (callTreeLoop d cs row col rl)))) := by
  apply node_induct
  · intro v cs tags ih d row col rl mt hs
    have hr : ((rows (.mk v cs tags) : Nat) : Int) ≠ 0 := by
      have := rows_pos (.mk v cs tags)
      omega
    obtain ⟨w1, w2, w3, w4, w5, w6⟩ := hs.wraps
    have hloop : ∀ acc mt, getCellsLoop d cs (row + Int.tdiv rl (rows (.mk v cs tags))) col
        (rl - Int.tdiv rl (rows (.mk v cs tags))) acc mt
        = .ok (acc ++ CallTree.cellsList (callTreeLoop d cs
              (row + Int.tdiv rl (rows (.mk v cs tags))) col
              (rl - Int.tdiv rl (rows (.mk v cs tags)))),
            stateAfter mt (CallTree.cellsList (callTreeLoop d cs
              (row + Int.tdiv rl (rows (.mk v cs tags))) col
              (rl - Int.tdiv rl (rows (.mk v cs tags)))))) := by
      intro acc mt
      cases cs with
      | nil =>
        simp [getCellsLoop, callTreeLoop, CallTree.cellsList, stateAfter_nil, pure, Except.pure]
      | cons c cs => exact ih d _ col _ acc mt hs.kids
    simp only [getCells, w1, bind, Except.bind, hr, if_false, w2, w3, w4, w5, w6, hloop, pure,
      Except.pure, callTree, CallTree.cells, List.singleton_append]
    congr 2
    refine stateAfter_own mt _ ⟨v, tags, cs.length == 0, d, row, col, _, _⟩ ?_
    intro hl
    cases cs with
    | nil => simp [callTreeLoop, CallTree.cellsList]
    | cons c cs => simp at hl
  · intro d row col rl acc mt _
    simp [getCellsLoop, callTreeLoop, CallTree.cellsList, stateAfter_nil, pure, Except.pure]
  · intro c cs hc hcs d row col rl acc mt hs
    obtain ⟨s1, s2, s3, s4⟩ := hs.head
    simp only [getCellsLoop, s2, s3, s4, hc _ _ _ _ _ s1, bind, Except.bind, hcs _ _ _ _ _ _ hs.tail,
      callTreeLoop, CallTree.cellsList, List.append_assoc, stateAfter_append]

/-- On arguments within range `getCells` returns: its cells are those of its call tree. -/
theorem getCells_eq (t : Node) (d row col rl : Int) (mt : TableHeader)
    (h : Safe d t row col rl) :
    getCells d t row col rl mt
      = .ok ((callTree d t row col rl).cells, stateAfter mt (callTree d t row col rl).cells) :=
  getCells_eq_aux.1 t d row col rl mt h

theorem emit_eq (root : Node) (h : InRange root) :
    emit root = .ok ((rootCall root).cells, stateAfter ⟨[], 0, []⟩ (rootCall root).cells) := by
  simp [emit, rowsToUse_eq root h.1, bind, Except.bind, getCells_eq _ _ _ _ _ _ h.safe, rootCall]

/-! ### Row budgets -/

theorem rows_dvd_rowsLcm (cs : List Node) : ∀ c ∈ cs, rows c ∣ rowsLcm cs := by
  induction cs with
  | nil => intro c hc; cases hc
  | cons a cs ih =>
    intro c hc
    rw [rowsLcm]
    rcases List.mem_cons.mp hc with h | h
    · subst h
      exact Nat.dvd_lcm_left _ _
    · exact Nat.dvd_trans (ih c h) (Nat.dvd_lcm_right _ _)

/-- Exact division of the budget: the row span is positive and gives back the budget. -/
theorem budget_own (t : Node) (rl : Int) (hpos : 0 < rl) (hdvd : ((rows t : Nat) : Int) ∣ rl) :
    1 ≤ Int.tdiv rl (rows t) ∧ Int.tdiv rl (rows t) * (rows t : Int) = rl := by
  have hR : (0 : Int) < (rows t : Int) := by exact_mod_cast rows_pos t
  have h2 : Int.tdiv rl (rows t) * (rows t : Int) = rl := Int.tdiv_mul_cancel hdvd
  refine ⟨?_, h2⟩
  by_contra hlt
  have : Int.tdiv rl (rows t) * (rows t : Int) ≤ 0 :=
    Int.mul_nonpos_of_nonpos_of_nonneg (by omega) (by omega)
  omega

/-- The budget handed to the children is positive and a multiple of each child's count. -/
theorem budget_kids (v : String) (c : Node) (cs : List Node) (tags : Option TagMap) (rl : Int)
    (hpos : 0 < rl) (hdvd : ((rows (.mk v (c :: cs) tags) : Nat) : Int) ∣ rl) :
    0 < rl - Int.tdiv rl (rows (.mk v (c :: cs) tags)) ∧
    ∀ k ∈ c :: cs, ((rows k : Nat) : Int) ∣ rl - Int.tdiv rl (rows (.mk v (c :: cs) tags)) := by
  obtain ⟨h1, h2⟩ := budget_own _ rl hpos hdvd
  have hL : 0 < rowsLcm (c :: cs) := rowsLcm_pos _
  have hR : ((rows (.mk v (c :: cs) tags) : Nat) : Int) = 1 + (rowsLcm (c :: cs) : Int) := by
    simp [rows]
  generalize Int.tdiv rl (rows (.mk v (c :: cs) tags)) = q at h1 h2 ⊢
  rw [hR] at h2
  have h3 : rl - q = q * (rowsLcm (c :: cs) : Int) := by
    rw [← h2]; ring
  have hLi : (0 : Int) < (rowsLcm (c :: cs) : Int) := by exact_mod_cast hL
  constructor
  · rw [h3]
    exact Int.mul_pos (by omega) hLi
  · intro k hk
    rw [h3]
    have : ((rows k : Nat) : Int) ∣ (rowsLcm (c :: cs) : Int) := by
      exact_mod_cast rows_dvd_rowsLcm (c :: cs) k hk
    exact Dvd.dvd.mul_left this q

/-! ### Tiling -/

theorem tiles_nil (row col rl : Int) : Tiles [] row col rl 0 := by
  constructor
  · intro h hh; cases hh
  · intro r c
    have : ¬ (row ≤ r ∧ r < row + rl ∧ col ≤ c ∧ c < col + 0) := by omega
    rw [if_neg this]
    rfl

theorem tiles_append (a b : List Header) (row col rl w1 w2 : Int) (hw1 : 0 ≤ w1) (hw2 : 0 ≤ w2)
    (ha : Tiles a row col rl w1) (hb : Tiles b row (col + w1) rl w2) :
    Tiles (a ++ b) row col rl (w1 + w2) := by
  constructor
  · intro h hh
    rcases List.mem_append.mp hh with h1 | h1
    · have := ha.1 h h1
      omega
    · have := hb.1 h h1
      omega
  · intro r c
    rw [List.countP_append, ha.2 r c, hb.2 r c]
    split_ifs <;> omega

theorem tiles_cons (th : Header) (kids : List Header) (row col rl w : Int)
    (h1 : th.Row = row) (h2 : th.Col = col) (h3 : th.ColSpan = w) (h4 : 1 ≤ th.RowSpan)
    (h5 : th.RowSpan ≤ rl) (hw : 1 ≤ w)
    (hk : Tiles kids (row + th.RowSpan) col (rl - th.RowSpan) (if th.RowSpan = rl then 0 else w)) :
    Tiles (th :: kids) row col rl w := by
  constructor
  · intro h hh
    rcases List.mem_cons.mp hh with e | e
    · subst e
      omega
    · have := hk.1 h e
      split_ifs at this <;> omega
  · intro r c
    rw [List.countP_cons, hk.2 r c]
    simp only [covers, decide_eq_true_eq]
    split_ifs <;> omega

theorem tiles_aux :
    (∀ t, ∀ d row col rl, 0 < rl → ((rows t : Nat) : Int) ∣ rl →
      Tiles (callTree d t row col rl).cells row col rl (cols t)) ∧
    (∀ cs, ∀ d row col rl, 0 < rl → (∀ k ∈ cs, ((rows k : Nat) : Int) ∣ rl) →
      Tiles (CallTree.cellsList (callTreeLoop d cs row col rl)) row col rl (cs.map cols).sum) := by
  apply node_induct
  · intro v cs tags ih d row col rl hpos hdvd
    obtain ⟨hq1, hq2⟩ := budget_own _ rl hpos hdvd
    simp only [callTree, CallTree.cells]
    cases cs with
    | nil =>
      have hq : Int.tdiv rl (rows (.mk v [] tags)) = rl := by
        simp [rows]
      refine tiles_cons _ _ row col rl _ rfl rfl rfl hq1 (by simp only; omega) (cols_pos _) ?_
      simp only [callTreeLoop, CallTree.cellsList, hq, if_true]
      exact tiles_nil _ _ _
    | cons c cs =>
      obtain ⟨hk1, hk2⟩ := budget_kids v c cs tags rl hpos hdvd
      have hne : Int.tdiv rl (rows (.mk v (c :: cs) tags)) ≠ rl := by omega
      refine tiles_cons _ _ row col rl _ rfl rfl rfl hq1 (by simp only; omega) (cols_pos _) ?_
      simp only [hne, if_false, cols_cons]
      exact ih d _ col _ hk1 hk2
  · intro d row col rl _ _
    simp only [callTreeLoop, CallTree.cellsList, List.map_nil, List.sum_nil]
    exact tiles_nil _ _ _
  · intro c cs hc hcs d row col rl hpos hdvd
    simp only [callTreeLoop, CallTree.cellsList, List.map_cons, List.sum_cons]
    refine tiles_append _ _ row col rl _ _ (by have := cols_pos c; omega) (colsSum_nonneg cs)
      (hc (d + 1) row col rl hpos (hdvd c (List.mem_cons_self _ _))) ?_
    exact hcs d row (col + cols c) rl hpos (fun k hk => hdvd k (List.mem_cons_of_mem _ hk))

/-- The cells of the top-level call tile the grid of `rows root` rows and `cols root`
columns. -/
theorem tiles_root (root : Node) : Tiles (rootCall root).cells 0 0 (rows root) (cols root) :=
  tiles_aux.1 root 0 0 0 (rows root) (by exact_mod_cast rows_pos root) (dvd_refl _)

/-! ### `sort` -/

theorem less_iff (a b : Header) :
    less a b = true ↔ a.Row < b.Row ∨ (a.Row = b.Row ∧ a.Col < b.Col) := by
  by_cases h1 : a.Row < b.Row <;> by_cases h2 : a.Row = b.Row <;>
    by_cases h3 : a.Col < b.Col <;> by_cases h4 : a.Col = b.Col <;>
    simp [less, compare, h1, h2, h3, h4]

theorem sortSliceInsert_perm {α : Type} (lt : α → α → Bool) (x : α) (l : List α) :
    List.Perm (sortSliceInsert lt x l) (x :: l) := by
  induction l with
  | nil => simp [sortSliceInsert]
  | cons y ys ih =>
    simp only [sortSliceInsert]
    split_ifs
    · exact (List.Perm.cons y ih).trans (List.Perm.swap x y ys)
    · exact List.Perm.refl _

theorem sortSlice_perm {α : Type} (lt : α → α → Bool) (l : List α) :
    List.Perm (sortSlice lt l) l := by
  induction l with
  | nil => simp [sortSlice]
  | cons x xs ih =>
    simp only [sortSlice]
    exact (sortSliceInsert_perm lt x _).trans (List.Perm.cons x ih)

theorem sortSliceInsert_sorted (x : Header) (l : List Header)
    (hl : l.Pairwise (fun a b => less b a = false)) :
    (sortSliceInsert less x l).Pairwise (fun a b => less b a = false) := by
  induction l with
  | nil => simp [sortSliceInsert]
  | cons y ys ih =>
    rw [List.pairwise_cons] at hl
    simp only [sortSliceInsert]
    split_ifs with h
    · rw [List.pairwise_cons]
      refine ⟨?_, ih hl.2⟩
      intro z hz
      rcases List.mem_cons.mp ((sortSliceInsert_perm less x ys).subset hz) with e | e
      · subst e
        have h1 := (less_iff y z).mp h
        cases h2 : less z y with
        | false => rfl
        | true =>
          have := (less_iff z y).mp h2
          omega
      · exact hl.1 z e
    · rw [List.pairwise_cons]
      refine ⟨?_, List.pairwise_cons.mpr hl⟩
      intro z hz
      have hyx : ¬ (y.Row < x.Row ∨ (y.Row = x.Row ∧ y.Col < x.Col)) :=
        fun hc => h ((less_iff y x).mpr hc)
      rcases List.mem_cons.mp hz with e | e
      · subst e
        simpa using h
      · have h1 := hl.1 z e
        have hzy : ¬ (z.Row < y.Row ∨ (z.Row = y.Row ∧ z.Col < y.Col)) := by
          intro hc
          rw [(less_iff z y).mpr hc] at h1
          cases h1
        cases h2 : less z x with
        | false => rfl
        | true =>
          have := (less_iff z x).mp h2
          omega

theorem sort_perm (cells : List Header) : List.Perm (sort cells) cells :=
  sortSlice_perm less cells

theorem sort_sorted (cells : List Header) :
    (sort cells).Pairwise (fun a b => less b a = false) := by
  unfold sort
  induction cells with
  | nil => simp [sortSlice]
  | cons x xs ih =>
    simp only [sortSlice]
    exact sortSliceInsert_sorted x _ ih

/-! ### `NumRows` -/

theorem numRowsAfter_ge (cells : List Header) : ∀ n : Int,
    n ≤ numRowsAfter n cells ∧ ∀ h ∈ cells, h.Row + 1 ≤ numRowsAfter n cells := by
  induction cells with
  | nil => intro n; simp [numRowsAfter]
  | cons x xs ih =>
    intro n
    simp only [numRowsAfter, List.foldl_cons] at ih ⊢
    have h1 := ih (if x.Row + 1 > n then x.Row + 1 else n)
    constructor
    · have := h1.1
      split_ifs at this ⊢ <;> omega
    · intro h hh
      rcases List.mem_cons.mp hh with e | e
      · subst e
        have := h1.1
        split_ifs at this ⊢ <;> omega
      · exact h1.2 h e

theorem numRowsAfter_attained (cells : List Header) : ∀ n : Int,
    numRowsAfter n cells = n ∨ ∃ h ∈ cells, numRowsAfter n cells = h.Row + 1 := by
  induction cells with
  | nil => intro n; simp [numRowsAfter]
  | cons x xs ih =>
    intro n
    simp only [numRowsAfter, List.foldl_cons] at ih ⊢
    rcases ih (if x.Row + 1 > n then x.Row + 1 else n) with h | ⟨h, hh, e⟩
    · rw [h]
      by_cases hx : x.Row + 1 > n
      · right
        exact ⟨x, List.mem_cons_self _ _, by simp [hx]⟩
      · left
        simp [hx]
    · right
      exact ⟨h, List.mem_cons_of_mem _ hh, e⟩

/-! ### Grouping into rows -/

theorem groupRows_ok (cells : List Header) : ∀ rows : List (List Header),
    (∀ h ∈ cells, 0 ≤ h.Row ∧ h.Row < rows.length) →
    ∃ res, groupRows cells rows = .ok res ∧ res.length = rows.length ∧
      ∀ i : Nat, res[i]? =
        (rows[i]?).map (fun r => r ++ cells.filter (fun h => decide (h.Row = (i : Int)))) := by
  induction cells with
  | nil =>
    intro rows _
    exact ⟨rows, by simp [groupRows, pure, Except.pure], rfl, by simp⟩
  | cons cell rest ih =>
    intro rows hb
    have hc := hb cell (List.mem_cons_self _ _)
    obtain ⟨res, h1, h2, h3⟩ := ih (rows.modify (fun r => r ++ [cell]) cell.Row.toNat)
      (by
        intro h hh
        simpa using hb h (List.mem_cons_of_mem _ hh))
    refine ⟨res, ?_, by simpa using h2, ?_⟩
    · simp only [groupRows, hc, and_self, if_true, h1]
    · intro i
      rw [h3 i, List.getElem?_modify]
      cases hi : rows[i]? with
      | none => simp
      | some r =>
        simp only [Option.map_some', Functor.map, Option.map]
        congr 1
        by_cases hk : cell.Row.toNat = i
        · have : cell.Row = (i : Int) := by omega
          simp [hk, this]
        · have : ¬ cell.Row = (i : Int) := by omega
          simp [hk, this]

theorem groupRows_replicate (cells : List Header) (n : Nat)
    (hb : ∀ h ∈ cells, 0 ≤ h.Row ∧ h.Row < n) :
    groupRows cells (List.replicate n []) = .ok (groupedBy cells n) := by
  obtain ⟨res, h1, h2, h3⟩ := groupRows_ok cells (List.replicate n []) (by simpa using hb)
  rw [h1]
  congr 1
  apply List.ext_getElem?
  intro i
  rw [h3 i]
  by_cases hi : i < n
  · simp only [groupedBy, List.getElem?_map, List.getElem?_range hi, List.getElem?_replicate,
      hi, if_true, Option.map_some', List.nil_append]
  · have hn : (List.range n)[i]? = none := List.getElem?_eq_none (by simpa using hi)
    simp only [groupedBy, List.getElem?_map, hn, List.getElem?_replicate, hi, if_false,
      Option.map_none']

/-! ### `Node.TableHeader` -/

theorem rootCall_cells (root : Node) :
    (rootCall root).cells = (rootCall root).cell :: CallTree.cellsList (rootCall root).kids := by
  cases root with
  | mk v cs tags => simp [rootCall, callTree, CallTree.cells, CallTree.cell, CallTree.kids]

theorem rootCall_cell (root : Node) :
    (rootCall root).cell
      = ⟨root.Value, root.Tags, root.Children.length == 0, 0, 0, 0, 1, cols root⟩ := by
  cases root with
  | mk v cs tags =>
    have h : ((rows (.mk v cs tags) : Nat) : Int) ≠ 0 := by
      have := rows_pos (.mk v cs tags)
      omega
    simp [rootCall, callTree, CallTree.cell, Node.Value, Node.Tags, Node.Children,
      Int.tdiv_self h]

/-- Number of rows counted by `getCells` before the final decrement. -/
theorem numRows_bounds (root : Node) :
    1 ≤ numRowsAfter 0 (rootCall root).cells ∧
    numRowsAfter 0 (rootCall root).cells ≤ rows root ∧
    (∀ h ∈ (rootCall root).cells, 0 ≤ h.Row ∧ h.Row + 1 ≤ numRowsAfter 0 (rootCall root).cells) ∧
    (∃ h ∈ (rootCall root).cells, numRowsAfter 0 (rootCall root).cells = h.Row + 1) := by
  have hge := numRowsAfter_ge (rootCall root).cells 0
  have htl := tiles_root root
  have hroot : (rootCall root).cell ∈ (rootCall root).cells := by
    rw [rootCall_cells]
    exact List.mem_cons_self _ _
  have h1 : 1 ≤ numRowsAfter 0 (rootCall root).cells := by
    have := hge.2 _ hroot
    rw [rootCall_cell] at this
    simpa using this
  have hatt : ∃ h ∈ (rootCall root).cells, numRowsAfter 0 (rootCall root).cells = h.Row + 1 := by
    rcases numRowsAfter_attained (rootCall root).cells 0 with h | h
    · omega
    · exact h
  refine ⟨h1, ?_, ?_, hatt⟩
  · obtain ⟨h, hh, e⟩ := hatt
    have := htl.1 h hh
    omega
  · intro h hh
    have := htl.1 h hh
    have := hge.2 h hh
    omega

/-- On a tree within range whose row count `make` accepts, the method `TableHeader`
returns; its result in closed form. -/
theorem TableHeader_eq (root : Node) (h : InRange root) (hm : (rows root : Int) ≤ maxSliceLen) :
    root.TableHeader = .ok
      ⟨(groupedBy (sort (rootCall root).cells)
          (numRowsAfter 0 (rootCall root).cells).toNat).drop 1,
        numRowsAfter 0 (rootCall root).cells - 1,
        (rootCall root).cells.filter (fun h => h.IsLeaf)⟩ := by
  obtain ⟨h1, h2, h3, _⟩ := numRows_bounds root
  have hneg : ¬ (numRowsAfter 0 (rootCall root).cells < 0 ∨
      numRowsAfter 0 (rootCall root).cells > maxSliceLen) := by omega
  have hl := rowsFit_lt root h.1
  have hw : wrap (numRowsAfter 0 (rootCall root).cells - 1)
      = numRowsAfter 0 (rootCall root).cells - 1 := wrap_eq _ (by omega) (by omega)
  have hb : ∀ h ∈ sort (rootCall root).cells,
      0 ≤ h.Row ∧ h.Row < ((numRowsAfter 0 (rootCall root).cells).toNat : Int) := by
    intro h hh
    have := h3 h ((sort_perm _).subset hh)
    omega
  have hlen : ¬ (groupedBy (sort (rootCall root).cells)
      (numRowsAfter 0 (rootCall root).cells).toNat).length < 1 := by
    simp only [groupedBy, List.length_map, List.length_range]
    omega
  simp only [Node.TableHeader, emit_eq root h, bind, Except.bind, stateAfter, hneg, if_false,
    groupRows_replicate _ _ hb, hlen, pure, Except.pure, List.nil_append, hw]

/-! ### Published cells -/

theorem modify_flatten_perm (x : Header) : ∀ (rows : List (List Header)) (k : Nat),
    k < rows.length →
    List.Perm (rows.modify (fun r => r ++ [x]) k).flatten (x :: rows.flatten) := by
  intro rows
  induction rows with
  | nil => intro k hk; simp at hk
  | cons r rs ih =>
    intro k hk
    cases k with
    | zero =>
      simp only [List.modify_zero_cons, List.flatten_cons, List.append_assoc,
        List.singleton_append]
      exact List.perm_middle
    | succ k =>
      simp only [List.modify_succ_cons, List.flatten_cons]
      have h := ih k (by simpa using hk)
      exact (List.Perm.append_left r h).trans List.perm_middle

theorem groupRows_perm (cells : List Header) : ∀ rows res : List (List Header),
    groupRows cells rows = .ok res → List.Perm res.flatten (rows.flatten ++ cells) := by
  induction cells with
  | nil =>
    intro rows res h
    simp only [groupRows, pure, Except.pure, Except.ok.injEq] at h
    subst h
    simp
  | cons cell rest ih =>
    intro rows res h
    by_cases hc : 0 ≤ cell.Row ∧ cell.Row < rows.length
    · simp only [groupRows, hc, and_self, if_true] at h
      have h1 := ih _ res h
      have h2 := modify_flatten_perm cell rows cell.Row.toNat (by omega)
      exact (h1.trans (List.Perm.append_right rest h2)).trans List.perm_middle.symm
    · simp [groupRows, hc, throw, throwThe, MonadExceptOf.throw] at h

theorem groupedBy_perm (cells : List Header) (n : Nat)
    (hb : ∀ h ∈ cells, 0 ≤ h.Row ∧ h.Row < n) :
    List.Perm (groupedBy cells n).flatten cells := by
  have := groupRows_perm cells _ _ (groupRows_replicate cells n hb)
  simpa using this

/-- The cells below the root tile the rows after the root's row. -/
theorem tiles_kids (root : Node) :
    Tiles (CallTree.cellsList (rootCall root).kids) 1 0 ((rows root : Int) - 1) (cols root) := by
  cases root with
  | mk v cs tags =>
    cases cs with
    | nil =>
      simp only [rootCall, callTree, CallTree.kids, callTreeLoop, CallTree.cellsList]
      constructor
      · intro h hh; cases hh
      · intro r c
        have : ¬ (1 ≤ r ∧ r < 1 + (((rows (.mk v [] tags) : Nat) : Int) - 1) ∧ 0 ≤ c ∧
            c < 0 + cols (.mk v [] tags)) := by
          simp [rows]
          omega
        rw [if_neg this]
        rfl
    | cons c cs =>
      have hR : (0 : Int) < (rows (.mk v (c :: cs) tags) : Int) := by
        exact_mod_cast rows_pos _
      obtain ⟨hk1, hk2⟩ := budget_kids v c cs tags _ hR (dvd_refl _)
      have hq : Int.tdiv (rows (.mk v (c :: cs) tags) : Int) (rows (.mk v (c :: cs) tags) : Int)
          = 1 := Int.tdiv_self (by omega)
      rw [hq] at hk1 hk2
      have := tiles_aux.2 (c :: cs) 0 (0 + 1) 0 _ hk1 hk2
      simp only [rootCall, callTree, CallTree.kids, hq, cols_cons]
      simpa using this

theorem filter_row_zero (root : Node) :
    (rootCall root).cells.filter (fun h => decide (h.Row = ((0 : Nat) : Int)))
      = [(rootCall root).cell] := by
  rw [rootCall_cells, List.filter_cons]
  have h0 : (rootCall root).cell.Row = 0 := by rw [rootCall_cell]
  simp only [h0, Nat.cast_zero, decide_True, if_true]
  congr 1
  rw [List.filter_eq_nil_iff]
  intro h hh
  have := (tiles_kids root).1 h hh
  simp only [decide_eq_true_eq]
  omega

/-- The published rows hold, up to order, the cells emitted below the root. -/
theorem published_perm (root : Node) :
    List.Perm
      ((groupedBy (sort (rootCall root).cells)
        (numRowsAfter 0 (rootCall root).cells).toNat).drop 1).flatten
      (CallTree.cellsList (rootCall root).kids) := by
  obtain ⟨h1, _, h3, _⟩ := numRows_bounds root
  have hb : ∀ h ∈ sort (rootCall root).cells,
      0 ≤ h.Row ∧ h.Row < ((numRowsAfter 0 (rootCall root).cells).toNat : Int) := by
    intro h hh
    have := h3 h ((sort_perm _).subset hh)
    omega
  have hp := (groupedBy_perm _ _ hb).trans (sort_perm _)
  obtain ⟨m, hm⟩ : ∃ m, (numRowsAfter 0 (rootCall root).cells).toNat = m + 1 :=
    ⟨(numRowsAfter 0 (rootCall root).cells).toNat - 1, by omega⟩
  rw [hm] at hp ⊢
  have h0 : (sort (rootCall root).cells).filter (fun h => decide (h.Row = ((0 : Nat) : Int)))
      = [(rootCall root).cell] := by
    have := (sort_perm (rootCall root).cells).filter (fun h => decide (h.Row = ((0 : Nat) : Int)))
    rw [filter_row_zero] at this
    exact List.perm_singleton.mp this
  simp only [groupedBy, List.range_succ_eq_map, List.map_cons, h0, List.drop_succ_cons,
    List.drop_zero, List.flatten_cons, List.singleton_append] at hp ⊢
  exact (hp.trans (List.Perm.of_eq (rootCall_cells root))).cons_inv

theorem covers_published (r c : Int) (h : Header) :
    coversPublished r c h = covers (r + 1) c h := by
  simp only [coversPublished, covers, decide_eq_decide]
  omega

/-! ### Call records -/

theorem callTree_t (d : Int) (t : Node) (row col rl : Int) : (callTree d t row col rl).t = t := by
  cases t with
  | mk v cs tags => simp [callTree, CallTree.t]

theorem callTree_rowsLeft (d : Int) (t : Node) (row col rl : Int) :
    (callTree d t row col rl).rowsLeft = rl := by
  cases t with
  | mk v cs tags => simp [callTree, CallTree.rowsLeft]

theorem callTree_cell (d : Int) (t : Node) (row col rl : Int) :
    (callTree d t row col rl).cell
      = ⟨t.Value, t.Tags, t.Children.length == 0, d, row, col, Int.tdiv rl (rows t), cols t⟩ := by
  cases t with
  | mk v cs tags => simp [callTree, CallTree.cell, Node.Value, Node.Tags, Node.Children]

theorem callTree_kids (d : Int) (t : Node) (row col rl : Int) :
    (callTree d t row col rl).kids
      = callTreeLoop d t.Children (row + Int.tdiv rl (rows t)) col (rl - Int.tdiv rl (rows t)) := by
  cases t with
  | mk v cs tags => simp [callTree, CallTree.kids, Node.Children]

theorem callTree_calls (d : Int) (t : Node) (row col rl : Int) :
    (callTree d t row col rl).calls
      = callTree d t row col rl :: CallTree.callsList (callTree d t row col rl).kids := by
  cases t with
  | mk v cs tags => simp [callTree, CallTree.calls, CallTree.kids]

theorem calls_cells_aux :
    (∀ t, ∀ d row col rl, (callTree d t row col rl).calls.map CallTree.cell
        = (callTree d t row col rl).cells) ∧
    (∀ cs, ∀ d row col rl, (CallTree.callsList (callTreeLoop d cs row col rl)).map CallTree.cell
        = CallTree.cellsList (callTreeLoop d cs row col rl)) := by
  apply node_induct
  · intro v cs tags ih d row col rl
    simp only [callTree, CallTree.calls, CallTree.cells, List.map_cons, CallTree.cell, ih]
  · intro d row col rl
    simp [callTreeLoop, CallTree.callsList, CallTree.cellsList]
  · intro c cs hc hcs d row col rl
    simp only [callTreeLoop, CallTree.callsList, CallTree.cellsList, List.map_append, hc, hcs]

/-- Every call emitted exactly its own cell, in call order. -/
theorem calls_cells (root : Node) :
    (rootCall root).calls.map CallTree.cell = (rootCall root).cells :=
  calls_cells_aux.1 root 0 0 0 _

/-- Every recorded call is a call of `getCells` on a positive budget that the row count
of its node divides. -/
theorem calls_budget_aux :
    (∀ t, ∀ d row col rl, 0 < rl → ((rows t : Nat) : Int) ∣ rl →
      ∀ call ∈ (callTree d t row col rl).calls, ∃ d1 row1 col1 rl1,
        call = callTree d1 call.t row1 col1 rl1 ∧ 0 < rl1 ∧ ((rows call.t : Nat) : Int) ∣ rl1) ∧
    (∀ cs, ∀ d row col rl, 0 < rl → (∀ k ∈ cs, ((rows k : Nat) : Int) ∣ rl) →
      ∀ call ∈ CallTree.callsList (callTreeLoop d cs row col rl), ∃ d1 row1 col1 rl1,
        call = callTree d1 call.t row1 col1 rl1 ∧ 0 < rl1 ∧ ((rows call.t : Nat) : Int) ∣ rl1) := by
  apply node_induct
  · intro v cs tags ih d row col rl hpos hdvd call hcall
    rw [callTree_calls] at hcall
    rcases List.mem_cons.mp hcall with e | e
    · subst e
      exact ⟨d, row, col, rl, by rw [callTree_t], hpos, by rw [callTree_t]; exact hdvd⟩
    · rw [callTree_kids] at e
      cases cs with
      | nil => simp [Node.Children, callTreeLoop, CallTree.callsList] at e
      | cons c cs =>
        obtain ⟨hk1, hk2⟩ := budget_kids v c cs tags rl hpos hdvd
        exact ih d _ col _ hk1 hk2 call e
  · intro d row col rl _ _ call hcall
    simp [callTreeLoop, CallTree.callsList] at hcall
  · intro c cs hc hcs d row col rl hpos hdvd call hcall
    simp only [callTreeLoop, CallTree.callsList] at hcall
    rcases List.mem_append.mp hcall with e | e
    · exact hc (d + 1) row col rl hpos (hdvd c (List.mem_cons_self _ _)) call e
    · exact hcs d row _ rl hpos (fun k hk => hdvd k (List.mem_cons_of_mem _ hk)) call e

theorem calls_budget (root : Node) : ∀ call ∈ (rootCall root).calls, ∃ d1 row1 col1 rl1,
    call = callTree d1 call.t row1 col1 rl1 ∧ 0 < rl1 ∧ ((rows call.t : Nat) : Int) ∣ rl1 :=
  calls_budget_aux.1 root 0 0 0 _ (by exact_mod_cast rows_pos root) (dvd_refl _)

/-- Every call recorded below a call within range is within range. -/
theorem calls_safe_aux :
    (∀ t, ∀ d row col rl, Safe d t row col rl →
      ∀ call ∈ (callTree d t row col rl).calls, ∃ d1 row1 col1 rl1,
        call = callTree d1 call.t row1 col1 rl1 ∧ Safe d1 call.t row1 col1 rl1) ∧
    (∀ cs, ∀ d row col rl, SafeList d cs row col rl →
      ∀ call ∈ CallTree.callsList (callTreeLoop d cs row col rl), ∃ d1 row1 col1 rl1,
        call = callTree d1 call.t row1 col1 rl1 ∧ Safe d1 call.t row1 col1 rl1) := by
  apply node_induct
  · intro v cs tags ih d row col rl hs call hcall
    rw [callTree_calls] at hcall
    rcases List.mem_cons.mp hcall with e | e
    · subst e
      exact ⟨d, row, col, rl, by rw [callTree_t], by rw [callTree_t]; exact hs⟩
    · rw [callTree_kids] at e
      cases cs with
      | nil => simp [Node.Children, callTreeLoop, CallTree.callsList] at e
      | cons c cs => exact ih d _ col _ hs.kids call e
  · intro d row col rl _ call hcall
    simp [callTreeLoop, CallTree.callsList] at hcall
  · intro c cs hc hcs d row col rl hs call hcall
    simp only [callTreeLoop, CallTree.callsList] at hcall
    rcases List.mem_append.mp hcall with e | e
    · exact hc (d + 1) row col rl hs.head.1 call e
    · exact hcs d row _ rl hs.tail call e

theorem calls_safe (root : Node) (h : InRange root) :
    ∀ call ∈ (rootCall root).calls, ∃ d1 row1 col1 rl1,
      call = callTree d1 call.t row1 col1 rl1 ∧ Safe d1 call.t row1 col1 rl1 :=
  calls_safe_aux.1 root 0 0 0 _ h.safe

/-- The node of every call recorded for a tree within range passes `rowsFit` and has
fewer than 2^63 columns. -/
theorem calls_fit (root : Node) (h : InRange root) :
    ∀ call ∈ (rootCall root).calls,
      rowsFit call.t = true ∧ cols call.t < 9223372036854775808 := by
  intro call hcall
  obtain ⟨d1, row1, col1, rl1, _, hs⟩ := calls_safe root h call hcall
  obtain ⟨h1, _, _, _, _, _, h7, h8⟩ := hs
  exact ⟨h1, by omega⟩

/-- Every recorded call of a tree within range is a call of `getCells`: run on the
recorded node with the recorded depth, row, column and budget, `getCells` returns the
cells of the record. -/
theorem calls_getCells (root : Node) (h : InRange root) : ∀ call ∈ (rootCall root).calls, ∀ mt,
    getCells call.cell.Depth call.t call.cell.Row call.cell.Col call.rowsLeft mt
      = .ok (call.cells, stateAfter mt call.cells) := by
  intro call hcall mt
  obtain ⟨d1, row1, col1, rl1, e, hs⟩ := calls_safe root h call hcall
  generalize call.t = t at e hs
  subst e
  simp only [callTree_cell, callTree_rowsLeft]
  exact getCells_eq t d1 row1 col1 rl1 mt hs

/-! ### `rowsToUse` and `lcm` -/

theorem foldr_lcm_dvd_iff (ks : List Nat) (m : Nat) :
    ks.foldr Nat.lcm 1 ∣ m ↔ ∀ k ∈ ks, k ∣ m := by
  induction ks with
  | nil => simp
  | cons k ks ih =>
    simp only [List.foldr_cons, List.mem_cons, forall_eq_or_imp, ← ih]
    exact Nat.lcm_dvd_iff

theorem rowsLcm_eq_foldr (cs : List Node) : rowsLcm cs = (cs.map rows).foldr Nat.lcm 1 := by
  induction cs with
  | nil => simp [rowsLcm]
  | cons c cs ih => simp [rowsLcm, ih]

theorem forall2_rowsToUse (cs : List Node) (h : ∀ c ∈ cs, rowsFit c = true) :
    List.Forall₂ (fun c k => rowsToUse c = .ok ((k : Nat) : Int)) cs (cs.map rows) := by
  induction cs with
  | nil => exact List.Forall₂.nil
  | cons c cs ih =>
    exact List.Forall₂.cons (rowsToUse_eq c (h c (List.mem_cons_self _ _)))
      (ih (fun k hk => h k (List.mem_cons_of_mem _ hk)))

theorem lcmCalls_pos_aux :
    (∀ t, rowsFit t = true → ∀ p ∈ lcmCalls t, ∃ a b : Nat, p = ((a : Int), (b : Int)) ∧
      0 < a ∧ 0 < b ∧ a * b < 9223372036854775808) ∧
    (∀ cs, ∀ acc : Nat, 0 < acc → rowsFitLoop cs acc = true →
      ∀ p ∈ lcmCallsLoop cs (acc : Int),
        ∃ a b : Nat, p = ((a : Int), (b : Int)) ∧ 0 < a ∧ 0 < b ∧
          a * b < 9223372036854775808) := by
  apply node_induct
  · intro v cs tags ih hfit p hp
    cases cs with
    | nil => simp [lcmCalls, lcmCallsLoop] at hp
    | cons c cs =>
      simp only [lcmCalls, List.length_cons, gt_iff_lt, Nat.zero_lt_succ, if_true] at hp
      exact ih 1 (by decide) ((rowsFit_mk _ _ _).mp hfit).1 p (by simpa using hp)
  · intro acc _ _ p hp
    simp [lcmCallsLoop] at hp
  · intro c cs hc hcs acc hacc hfit p hp
    obtain ⟨h1, h2, h3⟩ := (rowsFitLoop_cons c cs acc).mp hfit
    simp only [lcmCallsLoop, rowsToUse_eq c h1, lcm_pos acc (rows c) hacc h2] at hp
    rcases List.mem_append.mp hp with e | e
    · exact hc h1 p e
    · rcases List.mem_cons.mp e with e | e
      · exact ⟨acc, rows c, e, hacc, rows_pos c, h2⟩
      · exact hcs _ (Nat.lcm_pos hacc (rows_pos c)) h3 p e

/-- The helper `lcm` does divide by zero on arguments that `rowsToUse` never passes. -/
theorem lcm_zero_zero : lcm 0 0 = .error Fault.divideByZero := by
  decide

theorem lcmCalls_unevenTree :
    lcmCalls unevenTree = [(1, 1), (1, 2), (1, 1), (1, 2), (2, 3)] := by
  decide

/-! ### Spans -/

/-! ### Children of a call -/

theorem callTreeLoop_t (cs : List Node) : ∀ d row col rl : Int,
    (callTreeLoop d cs row col rl).map CallTree.t = cs := by
  induction cs with
  | nil => intro d row col rl; simp [callTreeLoop]
  | cons c cs ih =>
    intro d row col rl
    simp [callTreeLoop, callTree_t, ih]

theorem callTreeLoop_colSpan (cs : List Node) : ∀ d row col rl : Int,
    (callTreeLoop d cs row col rl).map (fun k => k.cell.ColSpan) = cs.map cols := by
  induction cs with
  | nil => intro d row col rl; simp [callTreeLoop]
  | cons c cs ih =>
    intro d row col rl
    simp [callTreeLoop, callTree_cell, ih]

theorem callTreeLoop_row (cs : List Node) : ∀ d row col rl : Int,
    ∀ k ∈ callTreeLoop d cs row col rl, k.cell.Row = row ∧ k.cell.Depth = d + 1 := by
  induction cs with
  | nil => intro d row col rl k hk; simp [callTreeLoop] at hk
  | cons c cs ih =>
    intro d row col rl k hk
    simp only [callTreeLoop, List.mem_cons] at hk
    rcases hk with e | e
    · subst e
      simp [callTree_cell]
    · exact ih d row _ rl k e

theorem callTreeLoop_head_col (cs : List Node) (d row col rl : Int) :
    ∀ k ∈ (callTreeLoop d cs row col rl).head?, k.cell.Col = col := by
  cases cs with
  | nil => simp [callTreeLoop]
  | cons c cs => simp [callTreeLoop, callTree_cell]

theorem callTreeLoop_chain (cs : List Node) : ∀ d row col rl : Int,
    List.Chain' (fun a b : CallTree => b.cell.Col = a.cell.Col + a.cell.ColSpan)
      (callTreeLoop d cs row col rl) := by
  induction cs with
  | nil => intro d row col rl; simp [callTreeLoop]
  | cons c cs ih =>
    intro d row col rl
    simp only [callTreeLoop]
    rw [List.chain'_cons']
    refine ⟨?_, ih d row _ rl⟩
    intro k hk
    rw [callTreeLoop_head_col cs d row _ rl k hk, callTree_cell]

/-- Induction over a call tree together with its lists of calls. -/
theorem callTree_induct {P : CallTree → Prop} {Q : List CallTree → Prop}
    (hmk : ∀ t rl cell kids, Q kids → P (.mk t rl cell kids)) (hnil : Q [])
    (hcons : ∀ k ks, P k → Q ks → Q (k :: ks)) : (∀ T, P T) ∧ (∀ Ts, Q Ts) :=
  ⟨fun T => @CallTree.rec P Q (fun t rl cell kids h => hmk t rl cell kids h) hnil
      (fun k ks h1 h2 => hcons k ks h1 h2) T,
   fun Ts => @CallTree.rec_1 P Q (fun t rl cell kids h => hmk t rl cell kids h) hnil
      (fun k ks h1 h2 => hcons k ks h1 h2) Ts⟩

theorem CallTree.mem_calls_self (T : CallTree) : T ∈ T.calls := by
  cases T with
  | mk t rl cell kids => simp [CallTree.calls]

theorem CallTree.mem_callsList (Ts : List CallTree) : ∀ k ∈ Ts, k ∈ CallTree.callsList Ts := by
  induction Ts with
  | nil => intro k hk; cases hk
  | cons T Ts ih =>
    intro k hk
    simp only [CallTree.callsList]
    rcases List.mem_cons.mp hk with e | e
    · subst e
      exact List.mem_append_left _ (CallTree.mem_calls_self k)
    · exact List.mem_append_right _ (ih k e)

theorem CallTree.kids_mem_calls_aux :
    (∀ T : CallTree, ∀ call ∈ T.calls, ∀ k ∈ call.kids, k ∈ T.calls) ∧
    (∀ Ts : List CallTree, ∀ call ∈ CallTree.callsList Ts, ∀ k ∈ call.kids,
      k ∈ CallTree.callsList Ts) := by
  apply callTree_induct
  · intro t rl cell kids ih call hcall k hk
    simp only [CallTree.calls] at hcall ⊢
    rcases List.mem_cons.mp hcall with e | e
    · subst e
      exact List.mem_cons_of_mem _ (CallTree.mem_callsList kids k hk)
    · exact List.mem_cons_of_mem _ (ih call e k hk)
  · intro call hcall
    simp [CallTree.callsList] at hcall
  · intro T Ts hT hTs call hcall k hk
    simp only [CallTree.callsList] at hcall ⊢
    rcases List.mem_append.mp hcall with e | e
    · exact List.mem_append_left _ (hT call e k hk)
    · exact List.mem_append_right _ (hTs call e k hk)

/-- Shape of a recorded call: it is the call tree of a call of `getCells`. -/
theorem calls_shape (root : Node) : ∀ call ∈ (rootCall root).calls, ∃ d1 row1 col1 rl1,
    call = callTree d1 call.t row1 col1 rl1 := by
  intro call hcall
  obtain ⟨d1, row1, col1, rl1, e, _, _⟩ := calls_budget root call hcall
  exact ⟨d1, row1, col1, rl1, e⟩

theorem callTreeLoop_last_col (cs : List Node) : ∀ d row col rl : Int,
    ∀ k ∈ (callTreeLoop d cs row col rl).getLast?,
      k.cell.Col + k.cell.ColSpan = col + (cs.map cols).sum := by
  induction cs with
  | nil => intro d row col rl k hk; simp [callTreeLoop] at hk
  | cons c cs ih =>
    intro d row col rl k hk
    cases cs with
    | nil =>
      simp only [callTreeLoop, List.getLast?_singleton, Option.mem_def, Option.some.injEq] at hk
      subst hk
      simp [callTree_cell]
    | cons c2 cs =>
      have h := ih d row (col + cols c) rl k
      simp only [callTreeLoop, List.getLast?_cons_cons] at hk h
      rw [h hk]
      simp only [List.map_cons, List.sum_cons]
      omega

/-! ### Rows of the result -/

/-- Cells that tile a rectangle have pairwise different `(Row, Col)`. -/
theorem tiles_keys_distinct (cells : List Header) (row col rl w : Int)
    (ht : Tiles cells row col rl w) :
    cells.Pairwise (fun a b => ¬ (a.Row = b.Row ∧ a.Col = b.Col)) := by
  have hspan : ∀ h ∈ cells, 1 ≤ h.RowSpan ∧ 1 ≤ h.ColSpan := by
    intro h hh
    have := ht.1 h hh
    omega
  have hcnt : ∀ r c : Int, cells.countP (covers r c) ≤ 1 := by
    intro r c
    rw [ht.2 r c]
    split_ifs <;> omega
  clear ht
  induction cells with
  | nil => exact List.Pairwise.nil
  | cons a l ih =>
    rw [List.pairwise_cons]
    constructor
    · intro b hb hkey
      have ha := hspan a (List.mem_cons_self _ _)
      have hb1 := hspan b (List.mem_cons_of_mem _ hb)
      have h1 : covers a.Row a.Col a = true := by
        simp only [covers, decide_eq_true_eq]
        omega
      have h2 : covers a.Row a.Col b = true := by
        simp only [covers, decide_eq_true_eq]
        omega
      have h3 : 0 < l.countP (covers a.Row a.Col) := List.countP_pos_iff.mpr ⟨b, hb, h2⟩
      have h4 := hcnt a.Row a.Col
      rw [List.countP_cons, if_pos h1] at h4
      omega
    · apply ih
      · intro h hh
        exact hspan h (List.mem_cons_of_mem _ hh)
      · intro r c
        have := hcnt r c
        rw [List.countP_cons] at this
        omega

/-- The sorted cells are in strictly increasing `(Row, Col)` order. -/
theorem sort_strict (root : Node) :
    (sort (rootCall root).cells).Pairwise
      (fun a b => a.Row < b.Row ∨ (a.Row = b.Row ∧ a.Col < b.Col)) := by
  have h1 := sort_sorted (rootCall root).cells
  have h2 : (sort (rootCall root).cells).Pairwise
      (fun a b => ¬ (a.Row = b.Row ∧ a.Col = b.Col)) := by
    refine (List.Perm.pairwise_iff ?_ (sort_perm _)).mpr
      (tiles_keys_distinct _ _ _ _ _ (tiles_root root))
    intro a b h hc
    exact h ⟨hc.1.symm, hc.2.symm⟩
  refine (h1.and h2).imp ?_
  intro a b h
  have h3 : ¬ (b.Row < a.Row ∨ (b.Row = a.Row ∧ b.Col < a.Col)) := by
    intro hc
    have := (less_iff b a).mpr hc
    rw [h.1] at this
    cases this
  have h4 := h.2
  omega

theorem rows_getElem (root : Node) (i : Nat) (row : List Header)
    (h : ((groupedBy (sort (rootCall root).cells)
        (numRowsAfter 0 (rootCall root).cells).toNat).drop 1)[i]? = some row) :
    row = (sort (rootCall root).cells).filter (fun h => decide (h.Row = ((i : Nat) : Int) + 1)) := by
  simp only [groupedBy, List.getElem?_drop, List.getElem?_map] at h
  cases hr : (List.range (numRowsAfter 0 (rootCall root).cells).toNat)[1 + i]? with
  | none => simp [hr] at h
  | some j =>
    have hj : j = 1 + i := by
      have := List.getElem?_eq_some_iff.mp hr
      obtain ⟨hlt, e⟩ := this
      simpa using e.symm
    subst hj
    simp only [hr, Option.map_some', Option.some.injEq] at h
    rw [← h]
    congr 1
    funext x
    congr 1
    simp only [Nat.cast_add, Nat.cast_one, eq_iff_iff]
    constructor <;> intro <;> omega

/-- Below a call, every cell starts after the row of the call's own cell. -/
theorem kids_rows_below (t : Node) (d row col rl : Int) (hpos : 0 < rl)
    (hdvd : ((rows t : Nat) : Int) ∣ rl) :
    ∀ h ∈ CallTree.cellsList (callTree d t row col rl).kids, row + 1 ≤ h.Row := by
  intro h hh
  rw [callTree_kids] at hh
  cases t with
  | mk v cs tags =>
    cases cs with
    | nil => simp [Node.Children, callTreeLoop, CallTree.cellsList] at hh
    | cons c cs =>
      obtain ⟨hk1, hk2⟩ := budget_kids v c cs tags rl hpos hdvd
      have hq := (budget_own _ rl hpos hdvd).1
      have := (tiles_aux.2 (c :: cs) d _ col _ hk1 hk2).1 h hh
      omega

theorem callTree_cells (d : Int) (t : Node) (row col rl : Int) :
    (callTree d t row col rl).cells
      = (callTree d t row col rl).cell :: CallTree.cellsList (callTree d t row col rl).kids := by
  cases t with
  | mk v cs tags => simp [callTree, CallTree.cells, CallTree.cell, CallTree.kids]

/-- Among the cells emitted by the loop over the children, those in the children's row
are the children's own cells, in order. -/
theorem loop_filter_row (cs : List Node) : ∀ d row col rl : Int, 0 < rl →
    (∀ k ∈ cs, ((rows k : Nat) : Int) ∣ rl) →
    (CallTree.cellsList (callTreeLoop d cs row col rl)).filter (fun h => decide (h.Row = row))
      = (callTreeLoop d cs row col rl).map CallTree.cell := by
  induction cs with
  | nil => intro d row col rl _ _; simp [callTreeLoop, CallTree.cellsList]
  | cons c cs ih =>
    intro d row col rl hpos hdvd
    have hc := hdvd c (List.mem_cons_self _ _)
    simp only [callTreeLoop, CallTree.cellsList, List.filter_append, List.map_cons,
      ih d row _ rl hpos (fun k hk => hdvd k (List.mem_cons_of_mem _ hk))]
    rw [callTree_cells, List.filter_cons]
    have h0 : (callTree (d + 1) c row col rl).cell.Row = row := by rw [callTree_cell]
    have h1 : (CallTree.cellsList (callTree (d + 1) c row col rl).kids).filter
        (fun h => decide (h.Row = row)) = [] := by
      rw [List.filter_eq_nil_iff]
      intro h hh
      have := kids_rows_below c (d + 1) row col rl hpos hc h hh
      simp only [decide_eq_true_eq]
      omega
    simp [h0, h1]

theorem loop_cols_increasing (cs : List Node) : ∀ d row col rl : Int,
    (∀ k ∈ callTreeLoop d cs row col rl, col ≤ k.cell.Col) ∧
    ((callTreeLoop d cs row col rl).map CallTree.cell).Pairwise (fun a b => a.Col < b.Col) := by
  induction cs with
  | nil => intro d row col rl; simp [callTreeLoop]
  | cons c cs ih =>
    intro d row col rl
    obtain ⟨h1, h2⟩ := ih d row (col + cols c) rl
    have hw := cols_pos c
    simp only [callTreeLoop, List.mem_cons, forall_eq_or_imp, List.map_cons, List.pairwise_cons,
      List.mem_map, forall_exists_index, and_imp, forall_apply_eq_imp_iff₂]
    refine ⟨⟨by rw [callTree_cell], ?_⟩, ?_, h2⟩
    · intro k hk
      have := h1 k hk
      omega
    · intro k hk
      have := h1 k hk
      rw [callTree_cell]
      simp only
      omega

theorem rootCall_kids (root : Node) :
    (rootCall root).kids = callTreeLoop 0 root.Children 1 0 ((rows root : Int) - 1) := by
  have h : ((rows root : Nat) : Int) ≠ 0 := by
    have := rows_pos root
    omega
  rw [rootCall, callTree_kids, Int.tdiv_self h]
  simp

theorem rootCall_kids_budget (root : Node) (hne : root.Children ≠ []) :
    0 < (rows root : Int) - 1 ∧ ∀ k ∈ root.Children, ((rows k : Nat) : Int) ∣ (rows root : Int) - 1 := by
  cases root with
  | mk v cs tags =>
    cases cs with
    | nil => simp [Node.Children] at hne
    | cons c cs =>
      have hR : (0 : Int) < (rows (.mk v (c :: cs) tags) : Int) := by
        exact_mod_cast rows_pos _
      have := budget_kids v c cs tags _ hR (dvd_refl _)
      rw [Int.tdiv_self (by omega)] at this
      exact this

/-- The emitted cells of row 1 are the cells of the root's children, in order. -/
theorem cells_filter_row_one (root : Node) (hne : root.Children ≠ []) :
    (rootCall root).cells.filter (fun h => decide (h.Row = 1))
      = (rootCall root).kids.map CallTree.cell := by
  obtain ⟨h1, h2⟩ := rootCall_kids_budget root hne
  rw [rootCall_cells, List.filter_cons]
  have h0 : ¬ (rootCall root).cell.Row = 1 := by rw [rootCall_cell]; simp
  simp only [h0, decide_False, Bool.false_eq_true, if_false]
  rw [rootCall_kids]
  exact loop_filter_row root.Children 0 1 0 _ h1 h2

theorem pairwise_col_eq_of_perm (a b : List Header) (hp : List.Perm a b)
    (ha : a.Pairwise (fun x y => x.Col < y.Col)) (hb : b.Pairwise (fun x y => x.Col < y.Col)) :
    a = b := by
  haveI : IsAntisymm Header (fun x y => x.Col < y.Col) :=
    ⟨fun x y h1 h2 => absurd h1 (by omega)⟩
  exact List.eq_of_perm_of_sorted hp ha hb

theorem sort_filter_row (root : Node) (j : Int) :
    ((sort (rootCall root).cells).filter (fun h => decide (h.Row = j))).Pairwise
      (fun a b => a.Col < b.Col) := by
  have h := (sort_strict root).filter (fun h => decide (h.Row = j))
  rw [List.pairwise_iff_forall_sublist] at h ⊢
  intro a b hab
  have h1 := h hab
  have ha : a.Row = j := by
    have := hab.subset (List.mem_cons_self a [b])
    simpa using (List.mem_filter.mp this).2
  have hb : b.Row = j := by
    have := hab.subset (List.mem_cons_of_mem a (List.mem_cons_self b []))
    simpa using (List.mem_filter.mp this).2
  omega

/-- The first published row holds the cells of the root's children, in order. -/
theorem first_row (root : Node) (hne : root.Children ≠ []) :
    ((groupedBy (sort (rootCall root).cells)
        (numRowsAfter 0 (rootCall root).cells).toNat).drop 1).head?
      = some ((rootCall root).kids.map CallTree.cell) := by
  obtain ⟨_, _, h3, _⟩ := numRows_bounds root
  have hK := cells_filter_row_one root hne
  -- some cell lies in row 1, so there are at least two rows before the first is dropped
  have hex : ∃ h ∈ (rootCall root).cells, h.Row = 1 := by
    have hkne : (rootCall root).kids.map CallTree.cell ≠ [] := by
      rw [rootCall_kids]
      cases hc : root.Children with
      | nil => exact absurd hc hne
      | cons c cs => simp [callTreeLoop]
    rw [← hK] at hkne
    obtain ⟨h, hh⟩ := List.exists_mem_of_ne_nil _ hkne
    have := List.mem_filter.mp hh
    exact ⟨h, this.1, by simpa using this.2⟩
  obtain ⟨h, hh, hrow⟩ := hex
  have hn := (h3 h hh).2
  have hlen : 0 < ((groupedBy (sort (rootCall root).cells)
      (numRowsAfter 0 (rootCall root).cells).toNat).drop 1).length := by
    simp only [groupedBy, List.length_drop, List.length_map, List.length_range]
    omega
  rw [List.head?_eq_getElem?]
  have hsome := List.getElem?_eq_getElem hlen
  have := rows_getElem root 0 _ hsome
  rw [hsome, this]
  congr 1
  apply pairwise_col_eq_of_perm
  · have hp := (sort_perm (rootCall root).cells).filter (fun h => decide (h.Row = 1))
    rw [hK] at hp
    simpa using hp
  · exact sort_filter_row root _
  · rw [rootCall_kids]
    exact (loop_cols_increasing _ _ _ _ _).2

/-! ### Leaves -/

theorem leafs_forall2_aux :
    (∀ t, ∀ d row col rl,
      List.Forall₂ (fun (h : Header) (n : Node) =>
          h.Value = n.Value ∧ h.Tags = n.Tags ∧ h.IsLeaf = true ∧ n.Children = [])
        ((callTree d t row col rl).cells.filter (fun h => h.IsLeaf)) (leaves t)) ∧
    (∀ cs, ∀ d row col rl,
      List.Forall₂ (fun (h : Header) (n : Node) =>
          h.Value = n.Value ∧ h.Tags = n.Tags ∧ h.IsLeaf = true ∧ n.Children = [])
        ((CallTree.cellsList (callTreeLoop d cs row col rl)).filter (fun h => h.IsLeaf))
        (leavesList cs)) := by
  apply node_induct
  · intro v cs tags ih d row col rl
    cases cs with
    | nil =>
      simp [callTree, CallTree.cells, callTreeLoop, CallTree.cellsList, leaves, Node.Value,
        Node.Tags, Node.Children]
    | cons c cs =>
      have := ih d (row + Int.tdiv rl (rows (.mk v (c :: cs) tags))) col
        (rl - Int.tdiv rl (rows (.mk v (c :: cs) tags)))
      simpa [callTree, CallTree.cells, leaves] using this
  · intro d row col rl
    simp [callTreeLoop, CallTree.cellsList, leavesList]
  · intro c cs hc hcs d row col rl
    simp only [callTreeLoop, CallTree.cellsList, leavesList, List.filter_append]
    exact List.rel_append (hc _ _ _ _) (hcs _ _ _ _)

theorem forall2_map_value (l : List Header) (ns : List Node)
    (h : List.Forall₂ (fun (h : Header) (n : Node) =>
      h.Value = n.Value ∧ h.Tags = n.Tags ∧ h.IsLeaf = true ∧ n.Children = []) l ns) :
    l.map Header.Value = ns.map Node.Value := by
  induction h with
  | nil => rfl
  | cons hd _ ih => simp [hd.1, ih]

theorem loop_cells_forall2 (cs : List Node) : ∀ d row col rl : Int,
    List.Forall₂
      (fun (h : Header) (c : Node) => h.Value = c.Value ∧ h.Tags = c.Tags ∧
        h.IsLeaf = (c.Children.length == 0) ∧ h.Depth = d + 1 ∧ h.Row = row ∧
        h.ColSpan = cols c)
      ((callTreeLoop d cs row col rl).map CallTree.cell) cs := by
  induction cs with
  | nil => intro d row col rl; simp [callTreeLoop]
  | cons c cs ih =>
    intro d row col rl
    simp only [callTreeLoop, List.map_cons]
    refine List.Forall₂.cons ?_ (ih d row _ rl)
    rw [callTree_cell]
    simp

/-- When the root has children, the first published row is the list of their cells. -/
theorem first_row_children (root : Node) (hne : root.Children ≠ []) :
    ∃ row0, ((groupedBy (sort (rootCall root).cells)
        (numRowsAfter 0 (rootCall root).cells).toNat).drop 1).head? = some row0 ∧
      List.Forall₂
        (fun (h : Header) (c : Node) => h.Value = c.Value ∧ h.Tags = c.Tags ∧
          h.IsLeaf = (c.Children.length == 0) ∧ h.Depth = 0 + 1 ∧ h.Row = 1 ∧
          h.ColSpan = cols c)
        row0 root.Children := by
  refine ⟨_, first_row root hne, ?_⟩
  rw [rootCall_kids]
  exact loop_cells_forall2 _ _ _ _ _

/-! ### Width of the root -/

theorem appendChild_children (th child : Node) :
    (th.appendChild child).Children = th.Children ++ [child] := by
  cases th with
  | mk v cs tags => simp [Node.appendChild, Node.Children]

/-- The loop of `BuildNode` never returns a nil node together with a nil error. -/
theorem BuildNodeLoop_ne_nil (conv : String → Decimal × Option String)
    (els : List parser.ValuesElementLit) : ∀ th : Node,
    BuildNodeLoop conv els th ≠ (none, none) := by
  induction els with
  | nil => intro th; simp [BuildNodeLoop]
  | cons el els ih =>
    intro th
    rcases el with ⟨key, kp, cp, value, elTags⟩
    rw [BuildNodeLoop]
    generalize buildTags conv elTags = bt
    obtain ⟨m, e⟩ := bt
    cases e with
    | some err => simp
    | none =>
      simp only
      cases value with
      | none => exact ih _
      | some x =>
        cases x with
        | ValuesLit t =>
          simp only
          generalize BuildNode conv t = bn
          obtain ⟨n, e⟩ := bn
          cases n <;> cases e <;> simp [ih]
        | StringLit v _ _ => exact ih _
        | Ident n _ => exact ih _
        | _ => simp

theorem BuildNode_ne_nil (conv : String → Decimal × Option String) (vl : parser.ValuesLit) :
    BuildNode conv vl ≠ (none, none) := by
  rcases vl with ⟨lb, els, rb, bo⟩
  rw [BuildNode]
  exact BuildNodeLoop_ne_nil conv els _

/-- A successful step of the loop of `BuildNode` appends one child and goes on. -/
theorem BuildNodeLoop_step (conv : String → Decimal × Option String)
    (el : parser.ValuesElementLit) (els : List parser.ValuesElementLit) (th res : Node)
    (h : BuildNodeLoop conv (el :: els) th = (some res, none)) :
    ∃ child, BuildNodeLoop conv els (th.appendChild child) = (some res, none) := by
  rcases el with ⟨key, kp, cp, value, elTags⟩
  rw [BuildNodeLoop] at h
  generalize buildTags conv elTags = bt at h
  obtain ⟨m, e⟩ := bt
  cases e with
  | some err => simp at h
  | none =>
    simp only at h
    cases value with
    | none => exact ⟨_, h⟩
    | some x =>
      cases x with
      | ValuesLit t =>
        simp only at h
        have hn := BuildNode_ne_nil conv t
        generalize BuildNode conv t = bn at h hn
        obtain ⟨n, e⟩ := bn
        cases n <;> cases e <;> simp at h hn
        exact ⟨_, h⟩
      | StringLit v _ _ => exact ⟨_, h⟩
      | Ident n _ => exact ⟨_, h⟩
      | _ => simp at h

/-- A successful `BuildNode` loop appends one child per element. -/
theorem BuildNodeLoop_length (conv : String → Decimal × Option String)
    (els : List parser.ValuesElementLit) : ∀ th res : Node,
    BuildNodeLoop conv els th = (some res, none) →
    res.Children.length = th.Children.length + els.length := by
  induction els with
  | nil =>
    intro th res h
    simp only [BuildNodeLoop, Prod.mk.injEq, Option.some.injEq, and_true] at h
    subst h
    simp
  | cons el els ih =>
    intro th res h
    obtain ⟨child, hc⟩ := BuildNodeLoop_step conv el els th res h
    have := ih _ _ hc
    simp only [appendChild_children, List.length_append, List.length_singleton] at this
    simp only [List.length_cons]
    omega

theorem BuildNode_length (conv : String → Decimal × Option String) (vl : parser.ValuesLit)
    (root : Node) (h : BuildNode conv vl = (some root, none)) :
    root.Children.length = vl.Elements.length := by
  rcases vl with ⟨lb, els, rb, bo⟩
  rw [BuildNode] at h
  simpa [Node.Children, parser.ValuesLit.Elements] using BuildNodeLoop_length conv els _ _ h

theorem forall2_colSpan_sum (l : List Header) (cs : List Node)
    (h : List.Forall₂ (fun (h : Header) (c : Node) => h.Value = c.Value ∧ h.Tags = c.Tags ∧
      h.IsLeaf = (c.Children.length == 0) ∧ h.Depth = 0 + 1 ∧ h.Row = 1 ∧ h.ColSpan = cols c)
      l cs) :
    (l.map Header.ColSpan).sum = (cs.map cols).sum := by
  induction h with
  | nil => rfl
  | cons hd _ ih => simp [hd.2.2.2.2.2, ih]

theorem testTree_children_ne : testTree.Children ≠ [] := by
  simp [testTree, Node.Children]

theorem unevenCallA_mem : unevenCallA ∈ (rootCall unevenTree).calls :=
  .tail _ (.head _)

theorem rootCall_unevenTree_kids_ne : (rootCall unevenTree).t.Children ≠ [] := by
  simp [rootCall, callTree_t, unevenTree, Node.Children]

/-! ### Leaf cells -/

theorem rows_leaf (v : String) (tags : Option TagMap) : rows (.mk v [] tags) = 1 := by
  simp [rows]

/-- In every recorded call the row of the cell plus the budget of the call is the sum
for the call at the top. -/
theorem calls_row_budget_aux :
    (∀ t, ∀ d row col rl, ∀ call ∈ (callTree d t row col rl).calls,
        call.cell.Row + call.rowsLeft = row + rl) ∧
    (∀ cs, ∀ d row col rl, ∀ call ∈ CallTree.callsList (callTreeLoop d cs row col rl),
        call.cell.Row + call.rowsLeft = row + rl) := by
  apply node_induct
  · intro v cs tags ih d row col rl call hcall
    rw [callTree_calls] at hcall
    rcases List.mem_cons.mp hcall with e | e
    · subst e
      rw [callTree_cell, callTree_rowsLeft]
    · rw [callTree_kids] at e
      have := ih d _ col _ call e
      omega
  · intro d row col rl call hcall
    simp [callTreeLoop, CallTree.callsList] at hcall
  · intro c cs hc hcs d row col rl call hcall
    simp only [callTreeLoop, CallTree.callsList] at hcall
    rcases List.mem_append.mp hcall with e | e
    · exact hc (d + 1) row col rl call e
    · exact hcs d row _ rl call e

/-- The cell of a call on a childless node spans the whole budget of the call. -/
theorem leaf_call_rowSpan (root : Node) : ∀ call ∈ (rootCall root).calls,
    call.cell.IsLeaf = true → call.cell.Row + call.cell.RowSpan = (rows root : Int) := by
  intro call hcall hleaf
  have hsum := calls_row_budget_aux.1 root 0 0 0 (rows root) call hcall
  obtain ⟨d1, row1, col1, rl1, e⟩ := calls_shape root call hcall
  generalize call.t = t at e
  subst e
  rw [callTree_cell] at hleaf hsum ⊢
  rw [callTree_rowsLeft] at hsum
  cases t with
  | mk v cs tags =>
    cases cs with
    | cons c cs => simp [Node.Children] at hleaf
    | nil =>
      simp only [rows_leaf, Nat.cast_one, Int.tdiv_one]
      simpa using hsum

theorem loop_leaf_cells_forall2 (cs : List Node) : ∀ d row col rl : Int,
    List.Forall₂
      (fun (h : Header) (c : Node) => h.Value = c.Value ∧
        (c.Children = [] → h.IsLeaf = true ∧ h.ColSpan = 1 ∧ h.Row = row ∧ h.RowSpan = rl))
      ((callTreeLoop d cs row col rl).map CallTree.cell) cs := by
  induction cs with
  | nil => intro d row col rl; simp [callTreeLoop]
  | cons c cs ih =>
    intro d row col rl
    simp only [callTreeLoop, List.map_cons]
    refine List.Forall₂.cons ?_ (ih d row _ rl)
    rw [callTree_cell]
    refine ⟨rfl, ?_⟩
    intro hc
    cases c with
    | mk v ks tags =>
      simp only [Node.Children] at hc
      subst hc
      simp [Node.Children, cols_leaf, rows_leaf]

/-! ### `BuildNode` -/

theorem buildTags_ok (conv : String → Decimal × Option String) (elTags : Option parser.ValuesLit)
    (m : Option TagMap) :
    buildTags conv elTags = (m, none) →
    match elTags with
    | none => m = none
    | some tl => (BuildMap conv tl).2 = none ∧ m = some (BuildMap conv tl).1 := by
  intro h
  cases elTags with
  | none =>
    simp only [buildTags, Prod.mk.injEq, and_true] at h
    exact h.symm
  | some tl =>
    simp only [buildTags, Prod.mk.injEq] at h
    exact ⟨h.2, h.1.symm⟩

/-- A successful step of the loop of `BuildNode` appends the child described by
`childShape` and `childTags` and goes on. -/
theorem BuildNodeLoop_step_child (conv : String → Decimal × Option String)
    (el : parser.ValuesElementLit) (els : List parser.ValuesElementLit) (th res : Node)
    (h : BuildNodeLoop conv (el :: els) th = (some res, none)) :
    ∃ child, BuildNodeLoop conv els (th.appendChild child) = (some res, none) ∧
      childShape conv el child ∧ childTags conv el child := by
  rcases el with ⟨key, kp, cp, value, elTags⟩
  rw [BuildNodeLoop] at h
  have hbt := buildTags_ok conv elTags
  generalize buildTags conv elTags = bt at h hbt
  obtain ⟨m, e⟩ := bt
  cases e with
  | some err => simp at h
  | none =>
    have hm := hbt m rfl
    have htags : ∀ v cs, childTags conv (.mk key kp cp value elTags) (.mk v cs m) := by
      intro v cs
      cases elTags with
      | none => simpa [childTags, parser.ValuesElementLit.Tags, Node.Tags] using hm
      | some tl => simpa [childTags, parser.ValuesElementLit.Tags, Node.Tags] using hm
    simp only at h
    cases value with
    | none =>
      exact ⟨_, h, by simp [childShape, parser.ValuesElementLit.Value,
        parser.ValuesElementLit.Key, Node.Value, Node.Children], htags _ _⟩
    | some x =>
      cases x with
      | ValuesLit t =>
        simp only at h
        have hn := BuildNode_ne_nil conv t
        generalize hbn : BuildNode conv t = bn at h hn
        obtain ⟨n, e⟩ := bn
        cases n <;> cases e <;> simp at h hn
        exact ⟨_, h, ⟨_, hbn, rfl, rfl⟩, htags _ _⟩
      | StringLit v _ _ =>
        exact ⟨_, h, by simp [childShape, parser.ValuesElementLit.Value,
          parser.ValuesElementLit.Key, Node.Value, Node.Children], htags _ _⟩
      | Ident n _ =>
        exact ⟨_, h, by simp [childShape, parser.ValuesElementLit.Value,
          parser.ValuesElementLit.Key, Node.Value, Node.Children], htags _ _⟩
      | _ => simp at h

theorem appendChild_value (th child : Node) : (th.appendChild child).Value = th.Value := by
  cases th with
  | mk v cs tags => simp [Node.appendChild, Node.Value]

theorem appendChild_tags (th child : Node) : (th.appendChild child).Tags = th.Tags := by
  cases th with
  | mk v cs tags => simp [Node.appendChild, Node.Tags]

/-- A successful loop of `BuildNode` keeps the node's `Value` and `Tags` and appends, in
order, one child per element, each as `childShape` and `childTags` describe. -/
theorem BuildNodeLoop_children (conv : String → Decimal × Option String)
    (els : List parser.ValuesElementLit) : ∀ th res : Node,
    BuildNodeLoop conv els th = (some res, none) →
    res.Value = th.Value ∧ res.Tags = th.Tags ∧
    ∃ new, res.Children = th.Children ++ new ∧
      List.Forall₂ (fun child el => childShape conv el child ∧ childTags conv el child)
        new els := by
  induction els with
  | nil =>
    intro th res h
    simp only [BuildNodeLoop, Prod.mk.injEq, Option.some.injEq, and_true] at h
    subst h
    exact ⟨rfl, rfl, [], by simp, List.Forall₂.nil⟩
  | cons el els ih =>
    intro th res h
    obtain ⟨child, hc, hs, ht⟩ := BuildNodeLoop_step_child conv el els th res h
    obtain ⟨h1, h2, new, h3, h4⟩ := ih _ _ hc
    rw [appendChild_value] at h1
    rw [appendChild_tags] at h2
    rw [appendChild_children] at h3
    exact ⟨h1, h2, child :: new, by simpa using h3, List.Forall₂.cons ⟨hs, ht⟩ h4⟩

theorem BuildNode_children (conv : String → Decimal × Option String) (vl : parser.ValuesLit)
    (root : Node) (h : BuildNode conv vl = (some root, none)) :
    root.Value = "" ∧ root.Tags = none ∧
    List.Forall₂ (fun child el => childShape conv el child ∧ childTags conv el child)
      root.Children vl.Elements := by
  rcases vl with ⟨lb, els, rb, bo⟩
  rw [BuildNode] at h
  obtain ⟨h1, h2, new, h3, h4⟩ := BuildNodeLoop_children conv els _ _ h
  have h5 : root.Children = new := h3
  rw [h5]
  exact ⟨h1, h2, h4⟩

/-- One step of the loop of `BuildNode`: either it returns an error, whatever elements
follow, or it appends a child and goes on with the elements that follow. -/
theorem BuildNodeLoop_cons (conv : String → Decimal × Option String)
    (el : parser.ValuesElementLit) (th : Node) :
    ((BuildNodeLoop conv [el] th).2 ≠ none ∧
      ∀ els, BuildNodeLoop conv (el :: els) th = BuildNodeLoop conv [el] th) ∨
    (∃ child, ∀ els,
      BuildNodeLoop conv (el :: els) th = BuildNodeLoop conv els (th.appendChild child)) := by
  rcases el with ⟨key, kp, cp, value, elTags⟩
  generalize hbt : buildTags conv elTags = bt
  obtain ⟨m, e⟩ := bt
  cases e with
  | some err =>
    left
    refine ⟨?_, fun els => ?_⟩
    · rw [BuildNodeLoop, hbt]
      simp
    · rw [BuildNodeLoop, hbt]
      simp only
      rw [BuildNodeLoop, hbt]
  | none =>
    cases value with
    | none =>
      right
      refine ⟨.mk key [] m, fun els => ?_⟩
      rw [BuildNodeLoop, hbt]
    | some x =>
      cases x with
      | ValuesLit t =>
        have hn := BuildNode_ne_nil conv t
        generalize hbn : BuildNode conv t = bn at hn
        obtain ⟨n, e⟩ := bn
        cases n with
        | none =>
          cases e with
          | none => simp at hn
          | some err =>
            left
            refine ⟨?_, fun els => ?_⟩
            · rw [BuildNodeLoop, hbt]
              simp [hbn]
            · rw [BuildNodeLoop, hbt]
              simp only [hbn]
              rw [BuildNodeLoop, hbt]
              simp only [hbn]
        | some child =>
          cases e with
          | none =>
            right
            refine ⟨.mk key child.Children m, fun els => ?_⟩
            rw [BuildNodeLoop, hbt]
            simp only [hbn]
          | some err =>
            left
            refine ⟨?_, fun els => ?_⟩
            · rw [BuildNodeLoop, hbt]
              simp [hbn]
            · rw [BuildNodeLoop, hbt]
              simp only [hbn]
              rw [BuildNodeLoop, hbt]
              simp only [hbn]
      | StringLit v _ _ =>
        right
        refine ⟨.mk v [] m, fun els => ?_⟩
        rw [BuildNodeLoop, hbt]
      | Ident n _ =>
        right
        refine ⟨.mk key [.mk n [] none] m, fun els => ?_⟩
        rw [BuildNodeLoop, hbt]
      | _ =>
        left
        refine ⟨?_, fun els => ?_⟩
        · rw [BuildNodeLoop, hbt]
          simp
        · rw [BuildNodeLoop, hbt]
          simp only
          rw [BuildNodeLoop, hbt]

/-- An element that fails makes the loop of `BuildNode` return an error when it is
reached. -/
theorem BuildNodeLoop_head_fails (conv : String → Decimal × Option String)
    (el : parser.ValuesElementLit) (hf : NodeElementFails conv el) :
    ∀ th, (BuildNodeLoop conv [el] th).2 ≠ none := by
  induction hf with
  | tags el tl h1 h2 =>
    intro th
    rcases el with ⟨key, kp, cp, value, elTags⟩
    simp only [parser.ValuesElementLit.Tags] at h1
    subst h1
    rw [BuildNodeLoop]
    simp only [buildTags]
    generalize BuildMap conv tl = bm at h2
    obtain ⟨m, e⟩ := bm
    cases e with
    | none => simp at h2
    | some err => simp
  | value el e h1 h2 h3 h4 =>
    intro th
    rcases el with ⟨key, kp, cp, value, elTags⟩
    simp only [parser.ValuesElementLit.Value] at h1
    subst h1
    rw [BuildNodeLoop]
    generalize buildTags conv elTags = bt
    obtain ⟨m, e'⟩ := bt
    cases e' with
    | some err => simp
    | none =>
      cases e with
      | ValuesLit t => exact absurd rfl (h3 t)
      | StringLit v p l => exact absurd rfl (h2 v p l)
      | Ident n p => exact absurd rfl (h4 n p)
      | _ => simp
  | nested el t x h1 h2 _ ih =>
    intro th
    rcases el with ⟨key, kp, cp, value, elTags⟩
    simp only [parser.ValuesElementLit.Value] at h1
    subst h1
    have hsub : (BuildNode conv t).2 ≠ none := by
      rcases t with ⟨lb, els, rb, bo⟩
      rw [BuildNode]
      simp only [parser.ValuesLit.Elements] at h2
      generalize (Node.mk "" [] none) = th0
      induction els generalizing th0 with
      | nil => simp at h2
      | cons y ys ihy =>
        rcases BuildNodeLoop_cons conv y th0 with ⟨hy, hys⟩ | ⟨child, hys⟩
        · rw [hys]
          exact hy
        · rw [hys]
          rcases List.mem_cons.mp h2 with e | e
          · subst e
            have := ih th0
            rw [hys, BuildNodeLoop] at this
            exact absurd rfl this
          · exact ihy e _
    rw [BuildNodeLoop]
    generalize buildTags conv elTags = bt
    obtain ⟨m, e'⟩ := bt
    cases e' with
    | some err => simp
    | none =>
      simp only
      generalize BuildNode conv t = bn at hsub
      obtain ⟨n, e⟩ := bn
      cases n <;> cases e <;> simp at hsub ⊢

/-- When `BuildNode` returns an error, some element of the literal fails. -/
theorem BuildNode_error_fails (conv : String → Decimal × Option String) (vl : parser.ValuesLit) :
    (BuildNode conv vl).2 ≠ none → ∃ el ∈ vl.Elements, NodeElementFails conv el := by
  refine BuildNode.induct conv
    (fun vl => (BuildNode conv vl).2 ≠ none → ∃ el ∈ vl.Elements, NodeElementFails conv el)
    (fun els th => (BuildNodeLoop conv els th).2 ≠ none → ∃ el ∈ els, NodeElementFails conv el)
    ?_ ?_ ?_ ?_ ?_ ?_ ?_ ?_ ?_ vl
  · intro lb els rb bo ih h
    rw [BuildNode] at h
    exact ih h
  · intro th h
    rw [BuildNodeLoop] at h
    exact absurd rfl h
  · intro key kp cp value elTags rest th fst err hbt _
    cases elTags with
    | none => simp [buildTags] at hbt
    | some tl =>
      simp only [buildTags, Prod.mk.injEq] at hbt
      exact ⟨_, List.mem_cons_self _ _, .tags _ tl rfl (by rw [hbt.2]; simp)⟩
  · intro key kp cp elTags rest th tags hbt ih h
    rw [BuildNodeLoop, hbt] at h
    obtain ⟨el, hel, hf⟩ := ih h
    exact ⟨el, List.mem_cons_of_mem _ hel, hf⟩
  · intro key kp cp elTags rest th tags hbt v p l ih h
    rw [BuildNodeLoop, hbt] at h
    obtain ⟨el, hel, hf⟩ := ih h
    exact ⟨el, List.mem_cons_of_mem _ hel, hf⟩
  · intro key kp cp elTags rest th tags hbt t child hbn _ ih h
    rw [BuildNodeLoop, hbt] at h
    simp only [hbn] at h
    obtain ⟨el, hel, hf⟩ := ih h
    exact ⟨el, List.mem_cons_of_mem _ hel, hf⟩
  · intro key kp cp elTags rest th tags hbt t fst err hne hbn ih _
    have herr : (BuildNode conv t).2 ≠ none := by
      rw [hbn]
      intro he
      simp only at he
      subst he
      cases fst with
      | none => exact BuildNode_ne_nil conv t hbn
      | some child => exact hne child rfl rfl
    obtain ⟨x, hx, hf⟩ := ih herr
    exact ⟨_, List.mem_cons_self _ _, .nested _ t x rfl hx hf⟩
  · intro key kp cp elTags rest th tags hbt n p ih h
    rw [BuildNodeLoop, hbt] at h
    obtain ⟨el, hel, hf⟩ := ih h
    exact ⟨el, List.mem_cons_of_mem _ hel, hf⟩
  · intro key kp cp elTags rest th tags hbt e h1 h2 h3 _
    exact ⟨_, List.mem_cons_self _ _, .value _ e rfl (fun v p l he => h1 v p l he)
      (fun t he => h2 t he) (fun n p he => h3 n p he)⟩

/-- The loop of `BuildNode` stops at an element that fails: the elements after it do not
enter the result. -/
theorem BuildNodeLoop_stops (conv : String → Decimal × Option String)
    (e : parser.ValuesElementLit) (hf : NodeElementFails conv e)
    (post : List parser.ValuesElementLit) (pre : List parser.ValuesElementLit) :
    ∀ th, BuildNodeLoop conv (pre ++ e :: post) th = BuildNodeLoop conv (pre ++ [e]) th ∧
      (BuildNodeLoop conv (pre ++ e :: post) th).2 ≠ none := by
  induction pre with
  | nil =>
    intro th
    have h := BuildNodeLoop_head_fails conv e hf th
    rcases BuildNodeLoop_cons conv e th with ⟨_, hys⟩ | ⟨child, hys⟩
    · simp only [List.nil_append]
      rw [hys]
      exact ⟨rfl, h⟩
    · rw [hys, BuildNodeLoop] at h
      exact absurd rfl h
  | cons y ys ih =>
    intro th
    simp only [List.cons_append]
    rcases BuildNodeLoop_cons conv y th with ⟨hy, hys⟩ | ⟨child, hys⟩
    · rw [hys, hys (ys ++ [e])]
      exact ⟨rfl, hy⟩
    · rw [hys, hys (ys ++ [e])]
      exact ih _

/-! ### `BuildMap` -/

theorem TagMap.get_cons (a : String) (w : TagValue) (rest : TagMap) (k : String) :
    TagMap.get ((a, w) :: rest) k = if k = a then some w else TagMap.get rest k := by
  by_cases h : k = a
  · simp [TagMap.get, List.lookup, h]
  · have hb : (k == a) = false := by simpa using h
    simp [TagMap.get, List.lookup, hb, h]

theorem TagMap.get_set (m : TagMap) (key : String) (v : TagValue) (k : String) :
    (m.set key v).get k = if k = key then some v else m.get k := by
  induction m with
  | nil =>
    rw [TagMap.set, TagMap.get_cons]
  | cons p rest ih =>
    obtain ⟨a, w⟩ := p
    rw [TagMap.set]
    by_cases ha : a = key
    · subst ha
      simp only [if_true, TagMap.get_cons]
      split_ifs <;> rfl
    · simp only [ha, if_false, TagMap.get_cons, ih]
      by_cases hka : k = a
      · have : ¬ k = key := fun e => ha (hka.symm.trans e)
        subst hka
        simp [this]
      · simp [hka]

/-- One step of the loop of `BuildMap`: either it returns an error, whatever elements
follow, or it stores the value of the element under its key and goes on. -/
theorem BuildMapLoop_cons (conv : String → Decimal × Option String)
    (el : parser.ValuesElementLit) (th : TagMap) :
    ((BuildMapLoop conv [el] th).2 ≠ none ∧
      ∀ els, BuildMapLoop conv (el :: els) th = BuildMapLoop conv [el] th) ∨
    (∃ v, mapValue conv el = some v ∧ ∀ els,
      BuildMapLoop conv (el :: els) th = BuildMapLoop conv els (th.set el.Key v)) := by
  rcases el with ⟨key, kp, cp, value, elTags⟩
  cases value with
  | none =>
    right
    refine ⟨.bool true, rfl, fun els => ?_⟩
    rw [BuildMapLoop]
    rfl
  | some x =>
    cases x with
    | ValuesLit t =>
      generalize hbn : BuildMap conv t = bn
      obtain ⟨n, e⟩ := bn
      cases e with
      | none =>
        right
        refine ⟨.map n, by simp [mapValue, parser.ValuesElementLit.Value, hbn], fun els => ?_⟩
        rw [BuildMapLoop]
        simp only [hbn]
        rfl
      | some err =>
        left
        refine ⟨?_, fun els => ?_⟩
        · rw [BuildMapLoop]
          simp [hbn]
        · rw [BuildMapLoop]
          simp only [hbn]
          rw [BuildMapLoop]
          simp only [hbn]
    | StringLit v _ _ =>
      right
      refine ⟨.str v, rfl, fun els => ?_⟩
      rw [BuildMapLoop]
      rfl
    | Ident n _ =>
      right
      refine ⟨.str n, rfl, fun els => ?_⟩
      rw [BuildMapLoop]
      rfl
    | Number v _ =>
      generalize hc : conv v = c
      obtain ⟨d, e⟩ := c
      cases e with
      | none =>
        right
        refine ⟨.decimal d, by simp [mapValue, parser.ValuesElementLit.Value, hc], fun els => ?_⟩
        rw [BuildMapLoop]
        simp only [hc]
        rfl
      | some err =>
        left
        refine ⟨?_, fun els => ?_⟩
        · rw [BuildMapLoop]
          simp [hc]
        · rw [BuildMapLoop]
          simp only [hc]
          rw [BuildMapLoop]
          simp only [hc]
    | _ =>
      left
      refine ⟨?_, fun els => ?_⟩
      · rw [BuildMapLoop] <;> simp
      · rw [BuildMapLoop, BuildMapLoop] <;> simp

theorem lastWithKey_cons (el : parser.ValuesElementLit) (els : List parser.ValuesElementLit)
    (k : String) :
    lastWithKey (el :: els) k
      = match lastWithKey els k with
        | some e => some e
        | none => if k = el.Key then some el else none := by
  simp only [lastWithKey, List.reverse_cons, List.find?_append]
  cases h : List.find? (fun e => e.Key == k) els.reverse with
  | some e => simp
  | none =>
    by_cases hk : k = el.Key
    · simp [hk]
    · have : ¬ el.Key = k := fun e => hk e.symm
      simp [hk, this]

/-- When the loop of `BuildMap` succeeds, every key holds the value of the last element
that has it, and the keys of no element hold what they held before. -/
theorem BuildMapLoop_get (conv : String → Decimal × Option String)
    (els : List parser.ValuesElementLit) : ∀ (th m : TagMap),
    BuildMapLoop conv els th = (m, none) →
    ∀ k, m.get k = match lastWithKey els k with
      | some el => mapValue conv el
      | none => th.get k := by
  induction els with
  | nil =>
    intro th m h k
    rw [BuildMapLoop] at h
    simp only [Prod.mk.injEq, and_true] at h
    subst h
    rfl
  | cons el els ih =>
    intro th m h k
    rcases BuildMapLoop_cons conv el th with ⟨hy, hys⟩ | ⟨v, hv, hys⟩
    · rw [hys] at h
      rw [h] at hy
      exact absurd rfl hy
    · rw [hys] at h
      rw [ih _ _ h k, lastWithKey_cons]
      cases lastWithKey els k with
      | some e => rfl
      | none =>
        simp only [TagMap.get_set]
        by_cases hk : k = el.Key
        · simp [hk, hv]
        · simp [hk]

theorem lastWithKey_isSome (els : List parser.ValuesElementLit) (k : String) :
    (lastWithKey els k).isSome ↔ k ∈ els.map parser.ValuesElementLit.Key := by
  simp only [lastWithKey, List.find?_isSome, List.mem_reverse, List.mem_map, beq_iff_eq]

theorem lastWithKey_mem (els : List parser.ValuesElementLit) (k : String)
    (el : parser.ValuesElementLit) (h : lastWithKey els k = some el) :
    el ∈ els ∧ el.Key = k := by
  have h1 := List.mem_of_find?_eq_some h
  have h2 := List.find?_some h
  exact ⟨List.mem_reverse.mp h1, by simpa using h2⟩

/-- When the loop of `BuildMap` succeeds, no element stored an unsupported value. -/
theorem BuildMapLoop_values (conv : String → Decimal × Option String)
    (els : List parser.ValuesElementLit) : ∀ (th m : TagMap),
    BuildMapLoop conv els th = (m, none) → ∀ el ∈ els, (mapValue conv el).isSome := by
  induction els with
  | nil => intro th m _ el hel; simp at hel
  | cons y ys ih =>
    intro th m h el hel
    rcases BuildMapLoop_cons conv y th with ⟨hy, hys⟩ | ⟨v, hv, hys⟩
    · rw [hys] at h
      rw [h] at hy
      exact absurd rfl hy
    · rw [hys] at h
      rcases List.mem_cons.mp hel with e | e
      · subst e
        simp [hv]
      · exact ih _ _ h el e

/-- An element that fails makes the loop of `BuildMap` return its error when it is
reached. -/
theorem BuildMapLoop_head_fails (conv : String → Decimal × Option String)
    (el : parser.ValuesElementLit) (err : String) (hf : MapElementFails conv el err) :
    ∀ th, (BuildMapLoop conv [el] th).2 ≠ none := by
  induction hf with
  | number el v p err h1 h2 =>
    intro th
    rcases el with ⟨key, kp, cp, value, elTags⟩
    simp only [parser.ValuesElementLit.Value] at h1
    subst h1
    rw [BuildMapLoop]
    generalize conv v = c at h2
    obtain ⟨d, e⟩ := c
    simp only at h2
    subst h2
    simp
  | value el e h1 h2 h3 h4 h5 =>
    intro th
    rcases el with ⟨key, kp, cp, value, elTags⟩
    simp only [parser.ValuesElementLit.Value] at h1
    subst h1
    cases e with
    | ValuesLit t => exact absurd rfl (h3 t)
    | StringLit v p l => exact absurd rfl (h2 v p l)
    | Ident n p => exact absurd rfl (h4 n p)
    | Number v p => exact absurd rfl (h5 v p)
    | _ => rw [BuildMapLoop] <;> simp
  | nested el t x err h1 h2 _ ih =>
    intro th
    rcases el with ⟨key, kp, cp, value, elTags⟩
    simp only [parser.ValuesElementLit.Value] at h1
    subst h1
    have hsub : (BuildMap conv t).2 ≠ none := by
      rcases t with ⟨lb, els, rb, bo⟩
      rw [BuildMap]
      simp only [parser.ValuesLit.Elements] at h2
      generalize ([] : TagMap) = th0
      induction els generalizing th0 with
      | nil => simp at h2
      | cons y ys ihy =>
        rcases BuildMapLoop_cons conv y th0 with ⟨hy, hys⟩ | ⟨v, _, hys⟩
        · rw [hys]
          exact hy
        · rw [hys]
          rcases List.mem_cons.mp h2 with e | e
          · subst e
            have := ih th0
            rw [hys, BuildMapLoop] at this
            exact absurd rfl this
          · exact ihy e _
    rw [BuildMapLoop]
    generalize BuildMap conv t = bn at hsub
    obtain ⟨n, e⟩ := bn
    cases e <;> simp at hsub ⊢

/-- When `BuildMap` returns an error, it is the error of an element that fails. -/
theorem BuildMap_error_fails (conv : String → Decimal × Option String) (vl : parser.ValuesLit) :
    ∀ err, (BuildMap conv vl).2 = some err →
      ∃ el ∈ vl.Elements, MapElementFails conv el err := by
  refine BuildMap.induct conv
    (fun vl => ∀ err, (BuildMap conv vl).2 = some err →
      ∃ el ∈ vl.Elements, MapElementFails conv el err)
    (fun els th => ∀ err, (BuildMapLoop conv els th).2 = some err →
      ∃ el ∈ els, MapElementFails conv el err)
    ?_ ?_ ?_ ?_ ?_ ?_ ?_ ?_ ?_ ?_ vl
  · intro lb els rb bo ih err h
    rw [BuildMap] at h
    exact ih err h
  · intro th err h
    rw [BuildMapLoop] at h
    simp at h
  · intro key kp cp elTags rest th ih err h
    rw [BuildMapLoop] at h
    obtain ⟨el, hel, hf⟩ := ih err h
    exact ⟨el, List.mem_cons_of_mem _ hel, hf⟩
  · intro key kp cp elTags rest th v p l ih err h
    rw [BuildMapLoop] at h
    obtain ⟨el, hel, hf⟩ := ih err h
    exact ⟨el, List.mem_cons_of_mem _ hel, hf⟩
  · intro key kp cp elTags rest th t child hbn _ ih err h
    rw [BuildMapLoop] at h
    simp only [hbn] at h
    obtain ⟨el, hel, hf⟩ := ih err h
    exact ⟨el, List.mem_cons_of_mem _ hel, hf⟩
  · intro key kp cp elTags rest th t fst e hbn ih err h
    rw [BuildMapLoop] at h
    simp only [hbn, Option.some.injEq] at h
    subst h
    obtain ⟨x, hx, hf⟩ := ih e (by rw [hbn])
    exact ⟨_, List.mem_cons_self _ _, .nested _ t x e rfl hx hf⟩
  · intro key kp cp elTags rest th n p ih err h
    rw [BuildMapLoop] at h
    obtain ⟨el, hel, hf⟩ := ih err h
    exact ⟨el, List.mem_cons_of_mem _ hel, hf⟩
  · intro key kp cp elTags rest th v p d hc ih err h
    rw [BuildMapLoop] at h
    simp only [hc] at h
    obtain ⟨el, hel, hf⟩ := ih err h
    exact ⟨el, List.mem_cons_of_mem _ hel, hf⟩
  · intro key kp cp elTags rest th v p d e hc err h
    rw [BuildMapLoop] at h
    simp only [hc, Option.some.injEq] at h
    subst h
    exact ⟨_, List.mem_cons_self _ _, .number _ v p e rfl (by rw [hc])⟩
  · intro key kp cp elTags rest th e h1 h2 h3 h4 err h
    rw [BuildMapLoop] at h
    · simp only [Option.some.injEq] at h
      subst h
      exact ⟨_, List.mem_cons_self _ _, .value _ e rfl (fun v p l he => h1 v p l he)
        (fun t he => h2 t he) (fun n p he => h3 n p he) (fun v p he => h4 v p he)⟩
    · exact h1
    · exact h2
    · exact h3
    · exact h4

/-- The loop of `BuildMap` returns an error when some element fails. -/
theorem BuildMapLoop_fails (conv : String → Decimal × Option String)
    (e : parser.ValuesElementLit) (err : String) (hf : MapElementFails conv e err)
    (els : List parser.ValuesElementLit) (he : e ∈ els) :
    ∀ th, (BuildMapLoop conv els th).2 ≠ none := by
  induction els with
  | nil => simp at he
  | cons y ys ih =>
    intro th
    rcases BuildMapLoop_cons conv y th with ⟨hy, hys⟩ | ⟨v, _, hys⟩
    · rw [hys]
      exact hy
    · rw [hys]
      rcases List.mem_cons.mp he with e1 | e1
      · subst e1
        have := BuildMapLoop_head_fails conv e err hf th
        rw [hys, BuildMapLoop] at this
        exact absurd rfl this
      · exact ih e1 _

/-! ### `StripCR` -/

/-- The written bytes stay, and what the loop of `StripCR` adds is a sublist of the bytes
it visits that holds all of them other than `'\r'`. -/
theorem StripCRLoop_spec (comment : Bool) (rest : List Nat) : ∀ c : List Nat,
    ∃ t, parser.StripCRLoop comment rest c = c ++ t ∧ List.Sublist t rest ∧
      t.filter (fun x => decide (x ≠ 13)) = rest.filter (fun x => decide (x ≠ 13)) := by
  induction rest with
  | nil => intro c; exact ⟨[], by simp [parser.StripCRLoop], List.Sublist.refl _, rfl⟩
  | cons ch rest ih =>
    intro c
    rw [parser.StripCRLoop]
    split_ifs with hk
    · obtain ⟨t, h1, h2, h3⟩ := ih (c ++ [ch])
      refine ⟨ch :: t, by rw [h1]; simp, h2.cons₂ ch, ?_⟩
      simp only [List.filter_cons, h3]
    · obtain ⟨t, h1, h2, h3⟩ := ih c
      have hch : ch = 13 := by
        by_contra hne
        exact hk (Or.inl hne)
      refine ⟨t, h1, h2.cons ch, ?_⟩
      rw [h3, hch]
      simp

/-- With `comment = false` the loop of `StripCR` adds the visited bytes other than
`'\r'`. -/
theorem StripCRLoop_false (rest : List Nat) : ∀ c : List Nat,
    parser.StripCRLoop false rest c = c ++ rest.filter (fun x => decide (x ≠ 13)) := by
  induction rest with
  | nil => intro c; simp [parser.StripCRLoop]
  | cons ch rest ih =>
    intro c
    rw [parser.StripCRLoop]
    by_cases hch : ch = 13
    · simp [hch, ih]
    · simp [hch, ih]

/-- After a written `'*'` past the opening, the next written byte is `'/'` only when the
next visited byte is: a `'\r'` before a `'/'` is kept. -/
theorem StripCRLoop_after_star (rest : List Nat) : ∀ (c o2 : List Nat),
    2 < c.length → c.getLast? = some 42 →
    parser.StripCRLoop true rest c = c ++ 47 :: o2 →
    ∃ r2, rest = 47 :: r2 ∧ parser.StripCRLoop true r2 (c ++ [47]) = c ++ 47 :: o2 := by
  induction rest with
  | nil =>
    intro c o2 _ _ h
    rw [parser.StripCRLoop] at h
    have := congrArg List.length h
    simp at this
  | cons ch rest ih =>
    intro c o2 hlen hlast h
    rw [parser.StripCRLoop] at h
    split_ifs at h with hk
    · obtain ⟨t, h1, _, _⟩ := StripCRLoop_spec true rest (c ++ [ch])
      have h2 : c ++ ch :: t = c ++ 47 :: o2 := by
        rw [← h, h1]
        simp
      have h3 := List.append_cancel_left h2
      have hch : ch = 47 := (List.cons.inj h3).1
      subst hch
      exact ⟨rest, rfl, h⟩
    · exfalso
      have hch : ch = 13 := by
        by_contra hne
        exact hk (Or.inl hne)
      obtain ⟨r2, hr, _⟩ := ih c o2 hlen hlast h
      apply hk
      right
      exact ⟨rfl, hlen, hlast, by rw [hr]; rfl⟩

/-- An occurrence of `*/` in the output of the loop of `StripCR` that starts at index 2
or later, and past the bytes already written, is an occurrence of `*/` in the bytes
visited, and the output after it is made from the bytes after it. -/
theorem StripCRLoop_star_slash (rest : List Nat) : ∀ (c o1 o2 : List Nat),
    parser.StripCRLoop true rest c = o1 ++ 42 :: 47 :: o2 → c.length ≤ o1.length →
    2 ≤ o1.length →
    ∃ r1 r2, rest = r1 ++ 42 :: 47 :: r2 ∧
      c.filter (fun x => decide (x ≠ 13)) ++ r1.filter (fun x => decide (x ≠ 13))
        = o1.filter (fun x => decide (x ≠ 13)) ∧
      parser.StripCRLoop true r2 (o1 ++ [42, 47]) = o1 ++ 42 :: 47 :: o2 := by
  induction rest with
  | nil =>
    intro c o1 o2 h hlen _
    rw [parser.StripCRLoop] at h
    have := congrArg List.length h
    simp at this
    omega
  | cons ch rest ih =>
    intro c o1 o2 h hlen h2
    rw [parser.StripCRLoop] at h
    split_ifs at h with hk
    · by_cases hc : (c ++ [ch]).length ≤ o1.length
      · obtain ⟨r1, r2, e1, e2, e3⟩ := ih (c ++ [ch]) o1 o2 h hc h2
        refine ⟨ch :: r1, r2, by rw [e1]; rfl, ?_, e3⟩
        rw [← e2]
        simp [List.filter_cons]
        split_ifs <;> simp
      · have hl : c.length = o1.length := by
          simp at hc
          omega
        obtain ⟨t, h1, _, _⟩ := StripCRLoop_spec true rest (c ++ [ch])
        have h3 : c ++ ch :: t = o1 ++ 42 :: 47 :: o2 := by
          rw [← h, h1]
          simp
        obtain ⟨e1, e2⟩ := List.append_inj h3 hl
        subst e1
        obtain ⟨e3, e4⟩ := List.cons.inj e2
        subst e3
        have h4 : parser.StripCRLoop true rest (c ++ [42]) = (c ++ [42]) ++ 47 :: o2 := by
          rw [h]
          simp
        obtain ⟨r2, hr, h5⟩ := StripCRLoop_after_star rest (c ++ [42]) o2
          (by simp; omega) (by simp) h4
        refine ⟨[], r2, by rw [hr]; rfl, by simp, ?_⟩
        rw [← h]
        rw [hr, parser.StripCRLoop]
        simp
    · have hch : ch = 13 := by
        by_contra hne
        exact hk (Or.inl hne)
      obtain ⟨r1, r2, e1, e2, e3⟩ := ih c o1 o2 h hlen h2
      refine ⟨ch :: r1, r2, by rw [e1]; rfl, ?_, e3⟩
      rw [← e2, hch]
      simp

/-- The output of `StripCR` on a text that starts with `/*` and ends with `*/` starts
with `/*` and ends with `*/`. -/
theorem StripCR_block (m : List Nat) (comment : Bool) :
    ∃ o, parser.StripCR (47 :: 42 :: (m ++ [42, 47])) comment = 47 :: 42 :: (o ++ [42, 47]) := by
  obtain ⟨t, h1, h2, h3⟩ := StripCRLoop_spec comment (m ++ [42, 47]) [47, 42]
  have hout : parser.StripCR (47 :: 42 :: (m ++ [42, 47])) comment = 47 :: 42 :: t := by
    rw [parser.StripCR, parser.StripCRLoop]
    simp only [show ((47 : Nat) ≠ 13 ∨ _) = True from by simp, if_true]
    rw [parser.StripCRLoop]
    simp only [show ((42 : Nat) ≠ 13 ∨ _) = True from by simp, if_true]
    rw [List.nil_append, List.cons_append, List.nil_append, h1]
    rfl
  obtain ⟨t1, t2, e, s1, s2⟩ := List.sublist_append_iff.mp h2
  subst e
  have hlen := congrArg List.length h3
  simp only [List.filter_append, List.length_append] at hlen
  have hl1 := (s1.filter (fun x => decide (x ≠ 13))).length_le
  have hl2 := s2.length_le
  have hl3 : (t2.filter (fun x => decide (x ≠ 13))).length ≤ t2.length := List.length_filter_le _ _
  have hl4 : (List.filter (fun x => decide (x ≠ 13)) [42, 47]).length = 2 := by decide
  have hl5 : ([42, 47] : List Nat).length = 2 := rfl
  have ht2 : t2 = [42, 47] := s2.eq_of_length_le (by omega)
  subst ht2
  exact ⟨t1, hout⟩

/-! ### The scanner reads on -/

namespace parser

theorem Scanner.Frame.same (s : Scanner) : s.Frame s :=
  ⟨rfl, rfl, rfl, rfl, rfl, List.prefix_refl _, le_refl _, fun _ => by omega⟩

theorem Scanner.Frame.comp {s t u : Scanner} (h1 : s.Frame t) (h2 : t.Frame u) : s.Frame u := by
  obtain ⟨a1, a2, a3, a4, a5, a6, a7, a8⟩ := h1
  obtain ⟨b1, b2, b3, b4, b5, b6, b7, b8⟩ := h2
  refine ⟨b1.trans a1, b2.trans a2, b3.trans a3, b4.trans a4, b5.trans a5, a6.trans b6,
    a7.trans b7, fun h => ?_⟩
  have := a8 h
  have := b8 (a3.trans h)
  omega

theorem Scanner.Ext.start {s : Scanner} (h : s.WF) : s.Ext s :=
  ⟨h, Scanner.Frame.same s, le_refl _, rfl⟩

theorem Scanner.Ext.chain {s t u : Scanner} (h1 : s.Ext t) (h2 : t.Ext u) : s.Ext u :=
  ⟨h2.1, h1.2.1.comp h2.2.1, h2.2.2.1.trans h1.2.2.1, h2.2.2.2.trans h1.2.2.2⟩

theorem Scanner.error_frame (s : Scanner) (offset : Nat) (msg : String) :
    s.Frame (s.error offset msg) ∧ (s.error offset msg).ch = s.ch ∧
    (s.error offset msg).offset = s.offset ∧ (s.error offset msg).readOffset = s.readOffset ∧
    (s.error offset msg).insertSemi = s.insertSemi ∧ (s.error offset msg).file = s.file := by
  unfold Scanner.error
  by_cases h : s.errorHandler = true
  · rw [if_pos h]
    refine ⟨⟨rfl, rfl, rfl, rfl, rfl, ?_, ?_, ?_⟩, rfl, rfl, rfl, rfl, rfl⟩
    · exact List.prefix_append _ _
    · show s.errorCount ≤ s.errorCount + 1
      omega
    · intro _
      show ((s.errors ++ [_]).length : Int) + s.errorCount = s.errors.length + (s.errorCount + 1)
      simp
      omega
  · rw [if_neg h]
    refine ⟨⟨rfl, rfl, rfl, rfl, rfl, List.prefix_refl _, ?_, ?_⟩, rfl, rfl, rfl, rfl, rfl⟩
    · show s.errorCount ≤ s.errorCount + 1
      omega
    · intro h'
      exact absurd h' h

theorem Scanner.error_ext (s : Scanner) (offset : Nat) (msg : String) (h : s.WF) :
    s.Ext (s.error offset msg) := by
  obtain ⟨h1, h2, h3, h4, h5, _⟩ := Scanner.error_frame s offset msg
  refine ⟨?_, h1, ?_, h5⟩
  · unfold Scanner.WF
    rw [h2, h3, h4, h1.1]
    exact h
  · unfold Scanner.left
    rw [h2, h4, h1.1]

theorem SourceFile.AddLine_base (f : SourceFile) (offset : Int) :
    (f.AddLine offset).Base = f.Base ∧ (f.AddLine offset).Size = f.Size := by
  unfold SourceFile.AddLine
  split_ifs <;> exact ⟨rfl, rfl⟩

theorem Scanner.addLine_facts (s : Scanner) :
    s.Frame s.addLine ∧ s.addLine.ch = s.ch ∧ s.addLine.offset = s.offset ∧
    s.addLine.readOffset = s.readOffset ∧ s.addLine.insertSemi = s.insertSemi := by
  unfold Scanner.addLine
  split_ifs
  · exact ⟨⟨rfl, rfl, rfl, (SourceFile.AddLine_base _ _).1, (SourceFile.AddLine_base _ _).2,
      List.prefix_refl _, le_refl _, fun _ => by simp⟩, rfl, rfl, rfl, rfl⟩
  · exact ⟨⟨rfl, rfl, rfl, rfl, rfl, List.prefix_refl _, le_refl _, fun _ => by simp⟩,
      rfl, rfl, rfl, rfl⟩

theorem Scanner.next_aux (s u : Scanner) (ro w : Nat) (r : Int) (hf : s.Frame u)
    (ho : u.offset = s.readOffset) (hro : ro = s.readOffset)
    (hi : u.insertSemi = s.insertSemi) (h1 : s.readOffset < s.src.length) (hw : 1 ≤ w)
    (hr : 0 ≤ r) (hascii : r < 128 → w = 1) (hle : ro + w ≤ s.src.length)
    (hb : r < 128 → s.src[s.readOffset]? = some r.toNat) :
    ({ u with readOffset := ro + w, ch := r } : Scanner).WF ∧
    s.Frame ({ u with readOffset := ro + w, ch := r } : Scanner) ∧
    ({ u with readOffset := ro + w, ch := r } : Scanner).insertSemi = s.insertSemi ∧
    ({ u with readOffset := ro + w, ch := r } : Scanner).left
      + (if 0 ≤ s.ch then 1 else 0) ≤ s.left ∧
    ({ u with readOffset := ro + w, ch := r } : Scanner).offset = s.readOffset ∧
    0 ≤ ({ u with readOffset := ro + w, ch := r } : Scanner).ch := by
  refine ⟨⟨?_, ?_, ?_, ?_, ?_, ?_⟩, ?_, hi, ?_, ho, hr⟩
  · show -1 ≤ r
    omega
  · intro _ h
    show ro + w = u.offset + 1
    rw [hascii h, ho, hro]
  · show ro + w ≤ u.src.length
    rw [hf.1]
    exact hle
  · intro h
    have h' : r < 0 := h
    omega
  · show u.offset ≤ ro + w
    omega
  · intro _ h
    show u.src[u.offset]? = some r.toNat
    rw [hf.1, ho]
    exact hb h
  · exact ⟨hf.1, hf.2.1, hf.2.2.1, hf.2.2.2.1, hf.2.2.2.2.1, hf.2.2.2.2.2.1, hf.2.2.2.2.2.2.1,
      hf.2.2.2.2.2.2.2⟩
  · unfold Scanner.left
    show u.src.length - (ro + w) + (if 0 ≤ r then 1 else 0) + _ ≤ _
    rw [if_pos hr, hf.1, hro]
    omega

theorem Scanner.next_facts (U : Unicode) (s : Scanner) (h0 : s.readOffset ≤ s.src.length) :
    (s.next U).WF ∧ s.Frame (s.next U) ∧ (s.next U).insertSemi = s.insertSemi ∧
    (s.next U).left + (if 0 ≤ s.ch then 1 else 0) ≤ s.left ∧
    (s.next U).offset = min s.readOffset s.src.length ∧
    (s.readOffset < s.src.length → 0 ≤ (s.next U).ch) ∧
    (s.src.length ≤ s.readOffset → (s.next U).ch = -1 ∧ (s.next U).readOffset = s.readOffset) := by
  unfold Scanner.next
  by_cases h1 : s.readOffset < s.src.length
  · rw [if_pos h1]
    have hmin : min s.readOffset s.src.length = s.readOffset := by omega
    obtain ⟨f1, f2, f3, f4, f5⟩ :=
      Scanner.addLine_facts ({ s with offset := s.readOffset } : Scanner)
    have f0 : s.Frame ({ s with offset := s.readOffset } : Scanner) :=
      ⟨rfl, rfl, rfl, rfl, rfl, List.prefix_refl _, le_refl _, fun _ => by simp⟩
    replace f1 := f0.comp f1
    dsimp only at f1 f2 f3 f4 f5 ⊢
    generalize ({ s with offset := s.readOffset } : Scanner).addLine = t at f1 f2 f3 f4 f5 ⊢
    rw [hmin]
    have key : ∀ (u : Scanner) (w : Nat) (r : Int), t.Frame u → u.offset = t.offset →
        u.insertSemi = t.insertSemi → 1 ≤ w → 0 ≤ r →
        (r < 128 → w = 1) → t.readOffset + w ≤ s.src.length →
        (r < 128 → s.src[s.readOffset]? = some r.toNat) →
        ({ u with readOffset := t.readOffset + w, ch := r } : Scanner).WF ∧
        s.Frame ({ u with readOffset := t.readOffset + w, ch := r } : Scanner) ∧
        ({ u with readOffset := t.readOffset + w, ch := r } : Scanner).insertSemi
          = s.insertSemi ∧
        ({ u with readOffset := t.readOffset + w, ch := r } : Scanner).left
          + (if 0 ≤ s.ch then 1 else 0) ≤ s.left ∧
        ({ u with readOffset := t.readOffset + w, ch := r } : Scanner).offset = s.readOffset ∧
        (s.readOffset < s.src.length →
          0 ≤ ({ u with readOffset := t.readOffset + w, ch := r } : Scanner).ch) ∧
        (s.src.length ≤ s.readOffset →
          ({ u with readOffset := t.readOffset + w, ch := r } : Scanner).ch = -1 ∧
          ({ u with readOffset := t.readOffset + w, ch := r } : Scanner).readOffset
            = s.readOffset) := by
      intro u w r hu1 hu2 hu4 hw hr hascii hle hb
      obtain ⟨a1, a2, a3, a4, a5, a6⟩ := Scanner.next_aux s u t.readOffset w r (f1.comp hu1)
        (hu2.trans f3) f4 (hu4.trans f5) h1 hw hr hascii hle hb
      exact ⟨a1, a2, a3, a4, a5, fun _ => a6, fun h => absurd h1 (by omega)⟩
    have hne : t.src.drop t.readOffset ≠ [] := by
      intro h
      have := congrArg List.length h
      rw [List.length_drop, f1.1, f4] at this
      simp at this
      omega
    have hnn : (0 : Int) ≤ ((t.src.getD t.readOffset 0 : Nat) : Int) := Int.ofNat_nonneg _
    have hget : s.src[s.readOffset]? = some ((t.src.getD t.readOffset 0 : Nat) : Int).toNat := by
      rw [Int.toNat_ofNat, f1.1, f4, List.getD_eq_getElem?_getD,
        List.getElem?_eq_getElem h1]
      rfl
    by_cases hr0 : ((t.src.getD t.readOffset 0 : Nat) : Int) = 0
    · rw [if_pos hr0]
      obtain ⟨e1, e2, e3, e4, e5, _⟩ := Scanner.error_frame t t.offset "illegal character NUL"
      exact key _ 1 _ e1 e3 e5 (le_refl _) hnn (fun _ => rfl) (by rw [f4]; omega)
        (fun _ => hget)
    rw [if_neg hr0]
    by_cases hr1 : ((t.src.getD t.readOffset 0 : Nat) : Int) ≥ 0x80
    · rw [if_pos hr1]
      have hge : (0x80 : Int) ≤ (U.decodeRune (t.src.drop t.readOffset)).1 := by
        cases hd : t.src.drop t.readOffset with
        | nil => exact absurd hd hne
        | cons b bs =>
          apply U.decodeRune_self
          have hb : t.src.getD t.readOffset 0 = b := by
            rw [List.getD_eq_getElem?_getD, ← List.head?_drop, hd]
            rfl
          rw [hb] at hr1
          exact_mod_cast hr1
      have hu : ∀ u : Scanner, t.Frame u → u.offset = t.offset → u.insertSemi = t.insertSemi →
          _ := fun u a b c => key u (U.decodeRune (t.src.drop t.readOffset)).2
            (U.decodeRune (t.src.drop t.readOffset)).1 a b c (U.decodeRune_pos _ hne)
            (by omega) (fun h => absurd h (by omega))
            (by
              have := U.decodeRune_le (t.src.drop t.readOffset)
              have hl : (t.src.drop t.readOffset).length = s.src.length - t.readOffset := by
                rw [List.length_drop, f1.1]
              omega)
            (fun h => absurd h (by omega))
      by_cases hr2 : (U.decodeRune (t.src.drop t.readOffset)).1 = 0xFFFD ∧
          (U.decodeRune (t.src.drop t.readOffset)).2 = 1
      · rw [if_pos hr2]
        obtain ⟨e1, e2, e3, e4, e5, _⟩ := Scanner.error_frame t t.offset "illegal UTF-8 encoding"
        exact hu _ e1 e3 e5
      rw [if_neg hr2]
      by_cases hr3 : (U.decodeRune (t.src.drop t.readOffset)).1 = bom ∧ t.offset > 0
      · rw [if_pos hr3]
        obtain ⟨e1, e2, e3, e4, e5, _⟩ := Scanner.error_frame t t.offset "illegal byte order mark"
        exact hu _ e1 e3 e5
      rw [if_neg hr3]
      exact hu _ (Scanner.Frame.same t) rfl rfl
    rw [if_neg hr1]
    exact key _ 1 _ (Scanner.Frame.same t) rfl rfl (le_refl _) hnn (fun _ => rfl)
      (by rw [f4]; omega) (fun _ => hget)
  · rw [if_neg h1]
    have hmin : min s.readOffset s.src.length = s.src.length := by omega
    obtain ⟨f1, f2, f3, f4, f5⟩ :=
      Scanner.addLine_facts ({ s with offset := s.src.length } : Scanner)
    have f0 : s.Frame ({ s with offset := s.src.length } : Scanner) :=
      ⟨rfl, rfl, rfl, rfl, rfl, List.prefix_refl _, le_refl _, fun _ => by simp⟩
    replace f1 := f0.comp f1
    dsimp only at f1 f2 f3 f4 f5 ⊢
    generalize ({ s with offset := s.src.length } : Scanner).addLine = t at f1 f2 f3 f4 f5 ⊢
    rw [hmin]
    refine ⟨⟨?_, ?_, ?_, ?_, ?_, ?_⟩, ?_, f5, ?_, f3, fun h => absurd h h1, fun _ => ⟨rfl, f4⟩⟩
    · show (-1 : Int) ≤ -1
      omega
    · intro h
      have h' : (0 : Int) ≤ -1 := h
      omega
    · show t.readOffset ≤ t.src.length
      rw [f4, f1.1]
      exact h0
    · intro _
      show t.src.length ≤ t.readOffset
      rw [f4, f1.1]
      omega
    · show t.offset ≤ t.readOffset
      rw [f3, f4]
      show s.src.length ≤ s.readOffset
      omega
    · intro h
      have h' : (0 : Int) ≤ -1 := h
      omega
    · exact ⟨f1.1, f1.2.1, f1.2.2.1, f1.2.2.2.1, f1.2.2.2.2.1, f1.2.2.2.2.2.1, f1.2.2.2.2.2.2.1,
        f1.2.2.2.2.2.2.2⟩
    · unfold Scanner.left
      show t.src.length - t.readOffset + (if (0 : Int) ≤ -1 then 1 else 0) + _ ≤ _
      rw [f1.1, f4]
      simp

theorem Scanner.next_ext (U : Unicode) (s : Scanner) (h : s.WF) : s.Ext (s.next U) := by
  obtain ⟨h1, h2, h3, h4, _⟩ := Scanner.next_facts U s h.2.2.1
  exact ⟨h1, h2, by omega, h3⟩

theorem Scanner.next_left_lt (U : Unicode) (s : Scanner) (hwf : s.WF) (h : 0 ≤ s.ch) :
    (s.next U).left < s.left := by
  obtain ⟨_, _, _, h4, _⟩ := Scanner.next_facts U s hwf.2.2.1
  rw [if_pos h] at h4
  omega

theorem Scanner.skipWhitespace_spec (U : Unicode) : ∀ (fuel : Nat) (s : Scanner), s.WF →
    s.left + 1 ≤ fuel → ∃ t, Scanner.skipWhitespace U fuel s = some t ∧ s.Ext t ∧
      ¬ (t.ch = 32 ∨ t.ch = 9 ∨ (t.ch = 10 ∧ t.insertSemi = false) ∨ t.ch = 13) := by
  intro fuel
  induction fuel with
  | zero => intro s _ h; omega
  | succ fuel ih =>
    intro s hwf hfuel
    rw [Scanner.skipWhitespace]
    by_cases hc : s.ch = 32 ∨ s.ch = 9 ∨ (s.ch = 10 ∧ s.insertSemi = false) ∨ s.ch = 13
    · rw [if_pos hc]
      have hnn : 0 ≤ s.ch := by omega
      have hlt := Scanner.next_left_lt U s hwf hnn
      have hext := Scanner.next_ext U s hwf
      obtain ⟨t, h1, h2, h3⟩ := ih (s.next U) hext.1 (by omega)
      exact ⟨t, h1, hext.chain h2, h3⟩
    · rw [if_neg hc]
      exact ⟨s, rfl, Scanner.Ext.start hwf, hc⟩

theorem isLetter_nonneg (U : Unicode) (ch : Int) (h : isLetter U ch = true) : 65 ≤ ch := by
  simp only [isLetter, Bool.or_eq_true, Bool.and_eq_true, decide_eq_true_eq, beq_iff_eq] at h
  omega

theorem isDigit_nonneg (U : Unicode) (ch : Int) (h : isDigit U ch = true) : 48 ≤ ch := by
  simp only [isDigit, Bool.or_eq_true, Bool.and_eq_true, decide_eq_true_eq] at h
  omega

theorem Scanner.scanIdentifierLoop_spec (U : Unicode) : ∀ (fuel : Nat) (s : Scanner), s.WF →
    s.left + 1 ≤ fuel → ∃ t, Scanner.scanIdentifierLoop U fuel s = some t ∧ s.Ext t ∧
      ((isLetter U s.ch || isDigit U s.ch) = true → t.left < s.left) := by
  intro fuel
  induction fuel with
  | zero => intro s _ h; omega
  | succ fuel ih =>
    intro s hwf hfuel
    rw [Scanner.scanIdentifierLoop]
    by_cases hc : (isLetter U s.ch || isDigit U s.ch) = true
    · rw [if_pos hc]
      have hnn : 0 ≤ s.ch := by
        rcases Bool.or_eq_true _ _ ▸ hc with h | h
        · have := isLetter_nonneg U _ h
          omega
        · have := isDigit_nonneg U _ h
          omega
      have hlt := Scanner.next_left_lt U s hwf hnn
      have hext := Scanner.next_ext U s hwf
      obtain ⟨t, h1, h2, _⟩ := ih (s.next U) hext.1 (by omega)
      exact ⟨t, h1, hext.chain h2, fun _ => lt_of_le_of_lt h2.2.2.1 hlt⟩
    · rw [if_neg hc]
      exact ⟨s, rfl, Scanner.Ext.start hwf, fun h => absurd h hc⟩

theorem Scanner.scanDigits_spec (U : Unicode) : ∀ (fuel : Nat) (s : Scanner), s.WF →
    s.left + 1 ≤ fuel → ∃ t, Scanner.scanDigits U fuel s = some t ∧ s.Ext t ∧
      (isDigit U s.ch = true → t.left < s.left) := by
  intro fuel
  induction fuel with
  | zero => intro s _ h; omega
  | succ fuel ih =>
    intro s hwf hfuel
    rw [Scanner.scanDigits]
    by_cases hc : isDigit U s.ch = true
    · rw [if_pos hc]
      have hnn : 0 ≤ s.ch := by
        have := isDigit_nonneg U _ hc
        omega
      have hlt := Scanner.next_left_lt U s hwf hnn
      have hext := Scanner.next_ext U s hwf
      obtain ⟨t, h1, h2, _⟩ := ih (s.next U) hext.1 (by omega)
      exact ⟨t, h1, hext.chain h2, fun _ => lt_of_le_of_lt h2.2.2.1 hlt⟩
    · rw [if_neg hc]
      exact ⟨s, rfl, Scanner.Ext.start hwf, fun h => absurd h hc⟩

end parser

namespace parser

theorem Scanner.left_le (s : Scanner) : s.left ≤ s.src.length + 1 := by
  unfold Scanner.left
  split_ifs <;> omega

theorem Scanner.scanIdentifier_spec (U : Unicode) (fuel : Nat) (s : Scanner) (hwf : s.WF)
    (hfuel : s.left + 1 ≤ fuel) :
    ∃ r, Scanner.scanIdentifier U fuel s = some r ∧ s.Ext r.2 ∧
      ((isLetter U s.ch || isDigit U s.ch) = true → r.2.left < s.left) := by
  obtain ⟨t, h1, h2, h3⟩ := Scanner.scanIdentifierLoop_spec U fuel s hwf hfuel
  simp only [Scanner.scanIdentifier, h1]
  exact ⟨_, rfl, h2, h3⟩

theorem Scanner.scanNumber_spec (U : Unicode) (fuel : Nat) (s : Scanner) (hwf : s.WF)
    (hfuel : s.left + 1 ≤ fuel) :
    ∃ r, Scanner.scanNumber U fuel s = some r ∧ s.Ext r.2 ∧
      (isDigit U s.ch = true → r.2.left < s.left) := by
  obtain ⟨t, h1, h2, h3⟩ := Scanner.scanDigits_spec U fuel s hwf hfuel
  by_cases hdot : t.ch = 46
  · have hext := Scanner.next_ext U t h2.1
    obtain ⟨u, g1, g2, _⟩ := Scanner.scanDigits_spec U fuel (t.next U) hext.1
      (by have := hext.2.2.1; have := h2.2.2.1; omega)
    simp only [Scanner.scanNumber, h1, hdot, if_true, g1]
    refine ⟨_, rfl, h2.chain (hext.chain g2), fun h => ?_⟩
    have := h3 h
    have := g2.2.2.1
    have := hext.2.2.1
    show u.left < s.left
    omega
  · simp only [Scanner.scanNumber, h1, hdot, if_false]
    exact ⟨_, rfl, h2, h3⟩

theorem Scanner.scanEscapeDigits_spec (U : Unicode) (base : Int) : ∀ (n : Nat) (x : Int)
    (s : Scanner), s.WF → s.Ext (Scanner.scanEscapeDigits U base n x s).1 := by
  intro n
  induction n with
  | zero =>
    intro x s hwf
    exact Scanner.Ext.start hwf
  | succ n ih =>
    intro x s hwf
    rw [Scanner.scanEscapeDigits]
    dsimp only
    split_ifs
    · exact Scanner.error_ext s _ _ hwf
    · exact Scanner.error_ext s _ _ hwf
    · exact (Scanner.next_ext U s hwf).chain (ih _ _ (Scanner.next_ext U s hwf).1)

theorem Scanner.scanEscape_spec (U : Unicode) (quote : Int) (s : Scanner) (hwf : s.WF) :
    s.Ext (Scanner.scanEscape U quote s).2 := by
  have hd : ∀ (n : Nat) (base max : Int) (t : Scanner), s.Ext t →
      s.Ext (match Scanner.scanEscapeDigits U base n 0 t with
        | (t, false, _) => (false, t)
        | (t, true, x) =>
          if x > max ∨ (0xD800 ≤ x ∧ x < 0xE000) then
            (false, t.error s.offset "escape sequence is invalid Unicode code point")
          else (true, t)).2 := by
    intro n base max t ht
    have h := Scanner.scanEscapeDigits_spec U base n 0 t ht.1
    generalize Scanner.scanEscapeDigits U base n 0 t = r at h
    obtain ⟨u, b, x⟩ := r
    cases b with
    | false => exact ht.chain h
    | true =>
      dsimp only
      split_ifs
      · exact ht.chain (h.chain (Scanner.error_ext u _ _ h.1))
      · exact ht.chain h
  unfold Scanner.scanEscape
  dsimp only
  split_ifs
  · exact Scanner.next_ext U s hwf
  · exact hd _ _ _ _ (Scanner.Ext.start hwf)
  · exact hd _ _ _ _ (Scanner.next_ext U s hwf)
  · exact hd _ _ _ _ (Scanner.next_ext U s hwf)
  · exact hd _ _ _ _ (Scanner.next_ext U s hwf)
  · exact Scanner.error_ext s _ _ hwf
  · exact Scanner.error_ext s _ _ hwf

theorem Scanner.scanStringLoop_spec (U : Unicode) (chStart : Int) (offs : Nat) :
    ∀ (fuel : Nat) (s : Scanner), s.WF → s.left + 1 ≤ fuel →
      ∃ t, Scanner.scanStringLoop U chStart offs fuel s = some t ∧ s.Ext t := by
  intro fuel
  induction fuel with
  | zero => intro s _ h; omega
  | succ fuel ih =>
    intro s hwf hfuel
    rw [Scanner.scanStringLoop]
    dsimp only
    by_cases hc : s.ch = 10 ∨ s.ch < 0
    · rw [if_pos hc]
      exact ⟨_, rfl, Scanner.error_ext s _ _ hwf⟩
    · rw [if_neg hc]
      have hnn : 0 ≤ s.ch := by omega
      have hlt := Scanner.next_left_lt U s hwf hnn
      have hext := Scanner.next_ext U s hwf
      split_ifs
      · exact ⟨_, rfl, hext⟩
      · have he := Scanner.scanEscape_spec U chStart (s.next U) hext.1
        obtain ⟨t, h1, h2⟩ := ih _ he.1 (by have := he.2.2.1; omega)
        exact ⟨t, h1, hext.chain (he.chain h2)⟩
      · obtain ⟨t, h1, h2⟩ := ih _ hext.1 (by omega)
        exact ⟨t, h1, hext.chain h2⟩

theorem Scanner.scanString_spec (U : Unicode) (fuel : Nat) (chStart : Int) (s : Scanner)
    (hwf : s.WF) (hfuel : s.left + 1 ≤ fuel) :
    ∃ r, Scanner.scanString U fuel chStart s = some r ∧ s.Ext r.2 := by
  obtain ⟨t, h1, h2⟩ := Scanner.scanStringLoop_spec U chStart (s.offset - 1) fuel s hwf hfuel
  simp only [Scanner.scanString, h1]
  exact ⟨_, rfl, h2⟩

theorem Scanner.scanLineComment_spec (U : Unicode) : ∀ (fuel numCR : Nat) (s : Scanner),
    s.WF → s.left + 1 ≤ fuel →
      ∃ r, Scanner.scanLineComment U fuel numCR s = some r ∧ s.Ext r.2 := by
  intro fuel
  induction fuel with
  | zero => intro _ s _ h; omega
  | succ fuel ih =>
    intro numCR s hwf hfuel
    rw [Scanner.scanLineComment]
    by_cases hc : s.ch ≠ 10 ∧ s.ch ≥ 0
    · rw [if_pos hc]
      have hlt := Scanner.next_left_lt U s hwf hc.2
      have hext := Scanner.next_ext U s hwf
      obtain ⟨t, h1, h2⟩ := ih (if s.ch = 13 then numCR + 1 else numCR) _ hext.1 (by omega)
      exact ⟨t, h1, hext.chain h2⟩
    · rw [if_neg hc]
      exact ⟨_, rfl, Scanner.Ext.start hwf⟩

theorem Scanner.scanBlockComment_spec (U : Unicode) : ∀ (fuel numCR : Nat) (s : Scanner),
    s.WF → s.left + 1 ≤ fuel →
      ∃ r, Scanner.scanBlockComment U fuel numCR s = some r ∧ s.Ext r.2.2 := by
  intro fuel
  induction fuel with
  | zero => intro _ s _ h; omega
  | succ fuel ih =>
    intro numCR s hwf hfuel
    rw [Scanner.scanBlockComment]
    by_cases hc : s.ch ≥ 0
    · rw [if_pos hc]
      dsimp only
      have hlt := Scanner.next_left_lt U s hwf hc
      have hext := Scanner.next_ext U s hwf
      generalize (if s.ch = 13 then numCR + 1 else numCR) = n1
      by_cases hs : s.ch = 42 ∧ (s.next U).ch = 47
      · rw [if_pos hs]
        exact ⟨_, rfl, hext.chain (Scanner.next_ext U _ hext.1)⟩
      · rw [if_neg hs]
        obtain ⟨t, h1, h2⟩ := ih n1 _ hext.1 (by omega)
        exact ⟨t, h1, hext.chain h2⟩
    · rw [if_neg hc]
      exact ⟨_, rfl, Scanner.Ext.start hwf⟩

theorem Scanner.scanComment_spec (U : Unicode) (fuel : Nat) (s : Scanner) (hwf : s.WF)
    (hfuel : s.left + 1 ≤ fuel) :
    ∃ r, Scanner.scanComment U fuel s = some r ∧ s.Ext r.2 := by
  have hext := Scanner.next_ext U s hwf
  have hf : (s.next U).left + 1 ≤ fuel := by have := hext.2.2.1; omega
  unfold Scanner.scanComment
  dsimp only
  by_cases hc : s.ch = 47
  · rw [if_pos hc]
    obtain ⟨r, h1, h2⟩ := Scanner.scanLineComment_spec U fuel 0 _ hext.1 hf
    rw [h1]
    obtain ⟨numCR, t⟩ := r
    exact ⟨_, rfl, hext.chain h2⟩
  · rw [if_neg hc]
    obtain ⟨r, h1, h2⟩ := Scanner.scanBlockComment_spec U fuel 0 _ hext.1 hf
    rw [h1]
    obtain ⟨numCR, b, t⟩ := r
    cases b with
    | true => exact ⟨_, rfl, hext.chain h2⟩
    | false => exact ⟨_, rfl, hext.chain (h2.chain (Scanner.error_ext t _ _ h2.1))⟩

theorem Scanner.findLineEndBlock_spec (U : Unicode) : ∀ (fuel : Nat) (s : Scanner),
    s.WF → s.left + 1 ≤ fuel →
      ∃ r, Scanner.findLineEndBlock U fuel s = some r ∧ s.Ext r.2 := by
  intro fuel
  induction fuel with
  | zero => intro s _ h; omega
  | succ fuel ih =>
    intro s hwf hfuel
    rw [Scanner.findLineEndBlock]
    by_cases hc : s.ch ≥ 0
    · rw [if_pos hc]
      dsimp only
      have hlt := Scanner.next_left_lt U s hwf hc
      have hext := Scanner.next_ext U s hwf
      by_cases hn : s.ch = 10
      · rw [if_pos hn]
        exact ⟨_, rfl, Scanner.Ext.start hwf⟩
      · rw [if_neg hn]
        by_cases hs : s.ch = 42 ∧ (s.next U).ch = 47
        · rw [if_pos hs]
          exact ⟨_, rfl, hext.chain (Scanner.next_ext U _ hext.1)⟩
        · rw [if_neg hs]
          obtain ⟨t, h1, h2⟩ := ih _ hext.1 (by omega)
          exact ⟨t, h1, hext.chain h2⟩
    · rw [if_neg hc]
      exact ⟨_, rfl, Scanner.Ext.start hwf⟩

theorem Scanner.Ext.left_fuel {s t : Scanner} (_ : s.Ext t) : t.left + 1 ≤ t.src.length + 2 := by
  have := Scanner.left_le t
  omega

theorem Scanner.findLineEndLoop_spec (U : Unicode) : ∀ (fuel : Nat) (s : Scanner),
    s.WF → s.left + 1 ≤ fuel →
      ∃ r, Scanner.findLineEndLoop U fuel s = some r ∧ s.Ext r.2 := by
  intro fuel
  induction fuel with
  | zero => intro s _ h; omega
  | succ fuel ih =>
    intro s hwf hfuel
    rw [Scanner.findLineEndLoop]
    by_cases hc : s.ch = 47 ∨ s.ch = 42
    · rw [if_pos hc]
      by_cases h47 : s.ch = 47
      · rw [if_pos h47]
        exact ⟨_, rfl, Scanner.Ext.start hwf⟩
      · rw [if_neg h47]
        have hnn : 0 ≤ s.ch := by omega
        have hlt := Scanner.next_left_lt U s hwf hnn
        have hext := Scanner.next_ext U s hwf
        obtain ⟨r, h1, h2⟩ := Scanner.findLineEndBlock_spec U (s.src.length + 2) (s.next U)
          hext.1 (by have := hext.left_fuel; rw [hext.2.1.1] at this; exact this)
        rw [h1]
        obtain ⟨b, t⟩ := r
        cases b with
        | true => exact ⟨_, rfl, hext.chain h2⟩
        | false =>
          dsimp only
          obtain ⟨u, g1, g2, _⟩ := Scanner.skipWhitespace_spec U (t.src.length + 2) t h2.1
            h2.left_fuel
          rw [g1]
          dsimp only
          have hsu : s.Ext u := hext.chain (h2.chain g2)
          by_cases hc1 : u.ch < 0 ∨ u.ch = 10
          · rw [if_pos hc1]
            exact ⟨_, rfl, hsu⟩
          · rw [if_neg hc1]
            by_cases hc2 : u.ch ≠ 47
            · rw [if_pos hc2]
              exact ⟨_, rfl, hsu⟩
            · rw [if_neg hc2]
              have hun := Scanner.next_ext U u g2.1
              have h2l : t.left ≤ (s.next U).left := h2.2.2.1
              obtain ⟨v, k1, k2⟩ := ih (u.next U) hun.1
                (by
                  have := hun.2.2.1
                  have := g2.2.2.1
                  omega)
              exact ⟨v, k1, hsu.chain (hun.chain k2)⟩
    · rw [if_neg hc]
      exact ⟨_, rfl, Scanner.Ext.start hwf⟩

/-- After `findLineEnd` the scanner is where it was: on the character after the `/` that
starts at the offset before. -/
theorem Scanner.findLineEnd_spec (U : Unicode) (fuel : Nat) (s : Scanner) (hwf : s.WF)
    (hfuel : s.left + 1 ≤ fuel) (ho : 1 ≤ s.offset) (hle : s.offset ≤ s.src.length) :
    ∃ r, Scanner.findLineEnd U fuel s = some r ∧ r.2.WF ∧ s.Frame r.2 ∧
      r.2.insertSemi = s.insertSemi ∧ r.2.left ≤ s.src.length - s.offset := by
  obtain ⟨r, h1, h2⟩ := Scanner.findLineEndLoop_spec U fuel s hwf hfuel
  unfold Scanner.findLineEnd
  dsimp only
  rw [h1]
  obtain ⟨b, t⟩ := r
  dsimp only
  have h2t : s.Ext t := h2
  have hro : s.offset - 1 + 1 = s.offset := by omega
  generalize hu : ({ t with ch := 47, offset := s.offset - 1, readOffset := s.offset - 1 + 1 }
    : Scanner) = u
  have hfr : t.Frame u := by
    rw [← hu]
    exact ⟨rfl, rfl, rfl, rfl, rfl, List.prefix_refl _, le_refl _, fun _ => by simp⟩
  have hur : u.readOffset = s.offset := by rw [← hu]; exact hro
  have huc : u.ch = 47 := by rw [← hu]
  have hui : u.insertSemi = t.insertSemi := by rw [← hu]
  have hus : u.src = s.src := hfr.1.trans h2t.2.1.1
  obtain ⟨n1, n2, n3, n4, _⟩ := Scanner.next_facts U u (by rw [hur, hus]; exact hle)
  refine ⟨_, rfl, n1, h2t.2.1.comp (hfr.comp n2), n3.trans (hui.trans h2t.2.2.2), ?_⟩
  have hl : u.left = s.src.length - s.offset + 1 := by
    unfold Scanner.left
    rw [hur, huc, hus]
    simp
  rw [hl, huc] at n4
  simp only [show (0 : Int) ≤ 47 from by omega, if_true] at n4
  show (Scanner.next U u).left ≤ _
  omega

end parser

/-! ### Uniqueness of the sorted cells -/

/-- A list in which no element is less than an earlier one and whose keys `(Row, Col)`
are pairwise different is in strictly increasing order. -/
theorem strict_of_sorted_distinct (l : List Header)
    (h1 : l.Pairwise (fun a b => less b a = false))
    (h2 : l.Pairwise (fun a b => ¬ (a.Row = b.Row ∧ a.Col = b.Col))) :
    l.Pairwise (fun a b => a.Row < b.Row ∨ (a.Row = b.Row ∧ a.Col < b.Col)) := by
  refine (h1.and h2).imp ?_
  intro a b h
  have h3 : ¬ (b.Row < a.Row ∨ (b.Row = a.Row ∧ b.Col < a.Col)) := by
    intro hc
    have := (less_iff b a).mpr hc
    rw [h.1] at this
    cases this
  have h4 := h.2
  omega

/-- Two strictly increasing lists with the same elements are equal. -/
theorem strict_perm_unique (l1 l2 : List Header) (hp : List.Perm l1 l2)
    (h1 : l1.Pairwise (fun a b => a.Row < b.Row ∨ (a.Row = b.Row ∧ a.Col < b.Col)))
    (h2 : l2.Pairwise (fun a b => a.Row < b.Row ∨ (a.Row = b.Row ∧ a.Col < b.Col))) :
    l1 = l2 := by
  haveI : IsAntisymm Header (fun a b => a.Row < b.Row ∨ (a.Row = b.Row ∧ a.Col < b.Col)) :=
    ⟨fun a b h1 h2 => by exfalso; omega⟩
  exact List.eq_of_perm_of_sorted hp h1 h2

/-! ### Columns of the leaves -/

theorem leaf_cols_aux :
    (∀ t, ∀ d row col rl,
      ((callTree d t row col rl).cells.filter (fun h => h.IsLeaf)).map
          (fun h => (h.Col, h.ColSpan))
        = (List.range (cols t).toNat).map (fun (i : Nat) => (col + (i : Int), (1 : Int)))) ∧
    (∀ cs, ∀ d row col rl,
      ((CallTree.cellsList (callTreeLoop d cs row col rl)).filter (fun h => h.IsLeaf)).map
          (fun h => (h.Col, h.ColSpan))
        = (List.range ((cs.map cols).sum).toNat).map
            (fun (i : Nat) => (col + (i : Int), (1 : Int)))) := by
  apply node_induct
  · intro v cs tags ih d row col rl
    cases cs with
    | nil =>
      simp [callTree, CallTree.cells, callTreeLoop, CallTree.cellsList, cols_leaf,
        List.range_succ]
    | cons c cs =>
      have := ih d (row + Int.tdiv rl (rows (.mk v (c :: cs) tags))) col
        (rl - Int.tdiv rl (rows (.mk v (c :: cs) tags)))
      rw [cols_cons]
      simpa [callTree, CallTree.cells] using this
  · intro d row col rl
    simp [callTreeLoop, CallTree.cellsList]
  · intro c cs hc hcs d row col rl
    have hw := cols_pos c
    have hs := colsSum_nonneg cs
    simp only [callTreeLoop, CallTree.cellsList, List.filter_append, List.map_append, hc, hcs,
      List.map_cons, List.sum_cons]
    have e : (cols c + (cs.map cols).sum).toNat
        = (cols c).toNat + ((cs.map cols).sum).toNat := by omega
    rw [e, List.range_add, List.map_append, List.map_map]
    congr 1
    apply List.map_congr_left
    intro i _
    simp only [Function.comp]
    have : (((cols c).toNat + i : Nat) : Int) = cols c + i := by omega
    rw [this]
    congr 1
    omega

/-- The leaf cells of the top-level call have the columns `0, 1, ...` below the cols
of the root, each one column wide. -/
theorem leaf_cols (root : Node) :
    ((rootCall root).cells.filter (fun h => h.IsLeaf)).map (fun h => (h.Col, h.ColSpan))
      = (List.range (cols root).toNat).map (fun (i : Nat) => ((i : Int), (1 : Int))) := by
  have := leaf_cols_aux.1 root 0 0 0 (rows root)
  simpa [rootCall] using this

/-! ### Widths of the children -/

/-- A child of a tree with fewer than 2^63 columns has fewer than 2^63 columns. -/
theorem cols_children_lt (root : Node) (h : cols root < 9223372036854775808) :
    ∀ c ∈ root.Children, cols c < 9223372036854775808 := by
  intro c hc
  have := cols_child_le root c hc
  omega

theorem map_width_eq (cs : List Node) (h : ∀ c ∈ cs, cols c < 9223372036854775808) :
    cs.map width = cs.map cols :=
  List.map_congr_left (fun c hc => width_eq c (h c hc))

theorem forall2_width (l : List Header) (cs : List Node)
    (hc : ∀ c ∈ cs, cols c < 9223372036854775808)
    (h : List.Forall₂ (fun (h : Header) (c : Node) => h.Value = c.Value ∧ h.Tags = c.Tags ∧
      h.IsLeaf = (c.Children.length == 0) ∧ h.Depth = 0 + 1 ∧ h.Row = 1 ∧ h.ColSpan = cols c)
      l cs) :
    List.Forall₂ (fun (h : Header) (c : Node) => h.Value = c.Value ∧ h.Tags = c.Tags ∧
      h.IsLeaf = (c.Children.length == 0) ∧ h.Depth = 0 + 1 ∧ h.Row = 1 ∧ h.ColSpan = width c)
      l cs := by
  induction h with
  | nil => exact List.Forall₂.nil
  | cons hab _ ih =>
    refine List.Forall₂.cons ?_ (ih (fun c hc1 => hc c (List.mem_cons_of_mem _ hc1)))
    obtain ⟨h1, h2, h3, h4, h5, h6⟩ := hab
    exact ⟨h1, h2, h3, h4, h5, by rw [width_eq _ (hc _ (List.mem_cons_self _ _))]; exact h6⟩

/-! ### Results read off an evaluation -/

/-- A computation on which a check of the returned value evaluates to `true` returns a
value that passes the check. -/
theorem ok_of_check {ε α : Type} (x : Except ε α) (P : α → Bool)
    (h : (match x with
      | .ok a => P a
      | .error _ => false) = true) : ∃ a, x = .ok a ∧ P a = true := by
  cases x with
  | error e => simp at h
  | ok a => exact ⟨a, rfl, h⟩

/-- A computation on which the check for a given failure evaluates to `true` fails in
that way. -/
theorem error_of_check {α : Type} (x : Except Fault α) (f : Fault)
    (h : (match x with
      | .ok _ => false
      | .error e => decide (e = f)) = true) : x = .error f := by
  cases x with
  | error e => exact congrArg Except.error (of_decide_eq_true h)
  | ok a => simp at h

/-! ### `Parse` -/

theorem ParseLoop_none (conv : String → Decimal × Option String) (stmts : List parser.Stmt)
    (h : ∀ s ∈ stmts, s.valuesLit = none) : ParseLoop conv stmts = (none, none) := by
  induction stmts with
  | nil => rfl
  | cons s rest ih =>
    have hs := h s (List.mem_cons_self _ _)
    have hr := ih (fun t ht => h t (List.mem_cons_of_mem _ ht))
    cases s with
    | ExprStmt e =>
      cases e with
      | ValuesLit vl => simp [parser.Stmt.valuesLit] at hs
      | _ => simpa [ParseLoop] using hr
    | _ => simpa [ParseLoop] using hr

theorem ParseLoop_first (conv : String → Decimal × Option String) (pre : List parser.Stmt)
    (vl : parser.ValuesLit) (post : List parser.Stmt) (h : ∀ s ∈ pre, s.valuesLit = none) :
    ParseLoop conv (pre ++ .ExprStmt (.ValuesLit vl) :: post) = BuildNode conv vl := by
  induction pre with
  | nil => simp [ParseLoop]
  | cons s rest ih =>
    have hs := h s (List.mem_cons_self _ _)
    have hr := ih (fun t ht => h t (List.mem_cons_of_mem _ ht))
    cases s with
    | ExprStmt e =>
      cases e with
      | ValuesLit vl => simp [parser.Stmt.valuesLit] at hs
      | _ => simpa [ParseLoop] using hr
    | _ => simpa [ParseLoop] using hr

theorem Stmt.valuesLit_isSome (s : parser.Stmt) (h : s.valuesLit.isSome = true) :
    ∃ vl, s = .ExprStmt (.ValuesLit vl) := by
  cases s with
  | ExprStmt e =>
    cases e with
    | ValuesLit vl => exact ⟨vl, rfl⟩
    | _ => simp [parser.Stmt.valuesLit] at h
  | _ => simp [parser.Stmt.valuesLit] at h

/-! ### Tag blocks -/

/-- At a bracket of the kind of the enclosing literal no tag block is read: the parser
reports that it expected a colon or a comma, and the element keeps its tags. -/
theorem parseValuesElementTry_same (U : Unicode) (fuel : Nat) (bo : Token) (key : String)
    (kp : Pos) (tags : Option parser.ValuesLit) (p : parser.Parser)
    (hb : bo = token.LParen ∨ bo = token.LBrace ∨ bo = token.LBrack) (h : p.token = bo) :
    parser.Parser.parseValuesElementTry U (fuel + 1) bo key kp tags p
      = (parser.Parser.errorExpected p.pos "\x27:\x27 | \x27,\x27" p).bind
          fun _ q => .ok (.mk key kp 0 none tags) q := by
  have h1 : ¬ (p.token = token.Comma ∨ p.token = bo + 1) := by
    rw [h]
    rcases hb with hb | hb | hb <;> rw [hb] <;> decide
  have h2 : ¬ (p.token ≠ bo ∧
      (p.token = token.LParen ∨ p.token = token.LBrace ∨ p.token = token.LBrack)) :=
    fun c => c.1 h
  have h3 : p.token ≠ token.Colon := by
    rw [h]
    rcases hb with hb | hb | hb <;> rw [hb] <;> decide
  have h4 : p.token ≠ token.Comma := fun c => h1 (Or.inl c)
  rw [parser.Parser.parseValuesElementTry, if_neg h1, if_neg h2]
  simp only [parser.Parser.expectAny, parser.Parser.expectAnyLoop, if_neg h3, if_neg h4,
    parser.Res.bind]
  have hs : " | ".intercalate ([token.Colon, token.Comma].map
      (fun t => "\x27" ++ Token.String t ++ "\x27")) = "\x27:\x27 | \x27,\x27" := by decide
  rw [hs]
  cases parser.Parser.errorExpected p.pos "\x27:\x27 | \x27,\x27" p with
  | ok a q =>
    simp only [parser.Res.bind]
    rw [if_neg (by decide)]
  | bailout q => rfl
  | outOfFuel => rfl

theorem lastTags_cons (tags : Option parser.ValuesLit) (t : parser.ValuesLit)
    (ts : List parser.ValuesLit) :
    parser.lastTags tags (t :: ts) = parser.lastTags (some t) ts := by
  unfold parser.lastTags
  cases ts with
  | nil => rfl
  | cons a l =>
    rw [List.getLast?_cons_cons]
    cases h : (a :: l).getLast? with
    | none => simp at h
    | some x => rfl

theorem lastTags_concat (tags : Option parser.ValuesLit) (ts : List parser.ValuesLit)
    (t : parser.ValuesLit) : parser.lastTags tags (ts ++ [t]) = some t := by
  unfold parser.lastTags
  rw [List.getLast?_concat]

/-- The part of `parseValuesElementLit` from the label `try` on reads the chained tag
blocks and goes on, where no tag block follows, with the last of them as the tags. -/
theorem parseValuesElementTry_blocks (U : Unicode) (bo : Token) (key : String) (kp : Pos) :
    ∀ (fuel : Nat) (tags : Option parser.ValuesLit) (p : parser.Parser),
    parser.Parser.parseValuesElementTry U fuel bo key kp tags p
      = (parser.Parser.tagBlocks U bo fuel p).bind fun r q =>
          parser.Parser.parseValuesElementTry U r.2 bo key kp (parser.lastTags tags r.1) q := by
  intro fuel
  induction fuel with
  | zero =>
    intro tags p
    simp only [parser.Parser.tagBlocks, parser.Res.bind, parser.Parser.parseValuesElementTry]
  | succ fuel ih =>
    intro tags p
    by_cases ho : opensTags bo p.token
    · have h1 : ¬ (p.token = token.Comma ∨ p.token = bo + 1) := fun c =>
        c.elim (fun c => ho.1 c) (fun c => ho.2.1 c)
      have h2 : p.token ≠ bo ∧
          (p.token = token.LParen ∨ p.token = token.LBrace ∨ p.token = token.LBrack) :=
        ⟨ho.2.2.1, ho.2.2.2⟩
      rw [parser.Parser.parseValuesElementTry, if_neg h1, if_pos h2, parser.Parser.tagBlocks,
        if_pos ho]
      cases parser.Parser.parseValuesLit U fuel p.token p with
      | ok t q =>
        simp only [parser.Res.bind]
        rw [ih (some t) q]
        cases parser.Parser.tagBlocks U bo fuel q with
        | ok r q1 =>
          simp only [parser.Res.bind]
          rw [lastTags_cons]
        | bailout q1 => rfl
        | outOfFuel => rfl
      | bailout q => rfl
      | outOfFuel => rfl
    · rw [parser.Parser.tagBlocks, if_neg ho]
      rfl

/-- Where no tag block opens, the element returned has the key and the tags given. -/
theorem parseValuesElementTry_final (U : Unicode) (fuel : Nat) (bo : Token) (key : String)
    (kp : Pos) (tags : Option parser.ValuesLit) (p : parser.Parser)
    (el : parser.ValuesElementLit) (p1 : parser.Parser) (hno : ¬ opensTags bo p.token)
    (h : parser.Parser.parseValuesElementTry U fuel bo key kp tags p = .ok el p1) :
    el.Key = key ∧ el.Tags = tags := by
  cases fuel with
  | zero => simp [parser.Parser.parseValuesElementTry] at h
  | succ fuel =>
    rw [parser.Parser.parseValuesElementTry] at h
    by_cases h1 : p.token = token.Comma ∨ p.token = bo + 1
    · rw [if_pos h1] at h
      injection h with h2 h3
      subst h2
      exact ⟨rfl, rfl⟩
    · rw [if_neg h1] at h
      have h2 : ¬ (p.token ≠ bo ∧
          (p.token = token.LParen ∨ p.token = token.LBrace ∨ p.token = token.LBrack)) :=
        fun c => hno ⟨fun e => h1 (Or.inl e), fun e => h1 (Or.inr e), c.1, c.2⟩
      rw [if_neg h2] at h
      cases hx : parser.Parser.expectAny U [token.Colon, token.Comma] p with
      | ok r q =>
        rw [hx] at h
        simp only [parser.Res.bind] at h
        by_cases hc : r.2 = token.Colon
        · rw [if_pos hc] at h
          cases ho : parser.Parser.parseOperand U fuel q with
          | ok v q2 =>
            rw [ho] at h
            injection h with h3 h4
            subst h3
            exact ⟨rfl, rfl⟩
          | bailout q => rw [ho] at h; cases h
          | outOfFuel => rw [ho] at h; cases h
        · rw [if_neg hc] at h
          injection h with h3 h4
          subst h3
          exact ⟨rfl, rfl⟩
      | bailout q => rw [hx] at h; cases h
      | outOfFuel => rw [hx] at h; cases h

/-- The chain of tag blocks ends, with fuel left, where no tag block opens; each block
takes one unit of fuel. -/
theorem tagBlocks_stops (U : Unicode) (bo : Token) : ∀ (fuel : Nat) (p : parser.Parser)
    (r : List parser.ValuesLit × Nat) (q : parser.Parser),
    parser.Parser.tagBlocks U bo fuel p = .ok r q →
    r.2 + r.1.length = fuel ∧ (0 < r.2 → ¬ opensTags bo q.token) := by
  intro fuel
  induction fuel with
  | zero =>
    intro p r q h
    rw [parser.Parser.tagBlocks] at h
    injection h with h1 h2
    subst h1
    exact ⟨rfl, fun h => absurd h (by decide)⟩
  | succ fuel ih =>
    intro p r q h
    rw [parser.Parser.tagBlocks] at h
    by_cases ho : opensTags bo p.token
    · rw [if_pos ho] at h
      cases hv : parser.Parser.parseValuesLit U fuel p.token p with
      | ok t q0 =>
        rw [hv] at h
        simp only [parser.Res.bind] at h
        cases hb : parser.Parser.tagBlocks U bo fuel q0 with
        | ok r0 q1 =>
          rw [hb] at h
          injection h with h1 h2
          subst h1 h2
          obtain ⟨a1, a2⟩ := ih q0 r0 q1 hb
          refine ⟨?_, a2⟩
          show r0.2 + (r0.1.length + 1) = fuel + 1
          omega
        | bailout q1 => rw [hb] at h; cases h
        | outOfFuel => rw [hb] at h; cases h
      | bailout q0 => rw [hv] at h; cases h
      | outOfFuel => rw [hv] at h; cases h
    · rw [if_neg ho] at h
      injection h with h1 h2
      subst h1 h2
      exact ⟨by simp, fun _ => ho⟩

/-- The tags of the element returned are the last of the chained tag blocks read after the
key, up to where no tag block opens, or the tags given when there is no block. -/
theorem parseValuesElementTry_last (U : Unicode) (fuel : Nat) (bo : Token) (key : String)
    (kp : Pos) (tags : Option parser.ValuesLit) (p : parser.Parser)
    (el : parser.ValuesElementLit) (p1 : parser.Parser)
    (h : parser.Parser.parseValuesElementTry U fuel bo key kp tags p = .ok el p1) :
    ∃ ts m q, parser.Parser.tagBlocks U bo fuel p = .ok (ts, m) q ∧
      ¬ opensTags bo q.token ∧ el.Key = key ∧ el.Tags = parser.lastTags tags ts ∧
      parser.Parser.parseValuesElementTry U m bo key kp (parser.lastTags tags ts) q
        = .ok el p1 := by
  rw [parseValuesElementTry_blocks] at h
  cases hb : parser.Parser.tagBlocks U bo fuel p with
  | ok r q =>
    rw [hb] at h
    simp only [parser.Res.bind] at h
    have hm : 0 < r.2 := by
      rcases Nat.eq_zero_or_pos r.2 with e | e
      · rw [e] at h
        simp [parser.Parser.parseValuesElementTry] at h
      · exact e
    have hno := (tagBlocks_stops U bo fuel p r q hb).2 hm
    obtain ⟨a1, a2⟩ := parseValuesElementTry_final U _ bo key kp _ q el p1 hno h
    exact ⟨r.1, r.2, q, rfl, hno, a1, a2, h⟩
  | bailout q => rw [hb] at h; cases h
  | outOfFuel => rw [hb] at h; cases h

/-- Method `parseValuesElementLit` reads the key, then the chained tag blocks, and goes
on with the last of them as the tags. -/
theorem parseValuesElementLit_blocks (U : Unicode) (fuel : Nat) (bo : Token)
    (p : parser.Parser) :
    parser.Parser.parseValuesElementLit U (fuel + 1) bo p
      = ((if p.token = token.Ident then parser.Res.ok p.tokenLit p
          else if p.token = token.String then parser.Res.ok (U.Unquote p.tokenLit) p
          else (parser.Parser.errorExpected p.pos "map key" p).bind
            fun _ p => .ok "_" p).bind fun name p0 =>
        (parser.Parser.next U p0).bind fun _ p1 =>
        (parser.Parser.tagBlocks U bo fuel p1).bind fun r q =>
          parser.Parser.parseValuesElementTry U r.2 bo name p.pos r.1.getLast? q) := by
  rw [parser.Parser.parseValuesElementLit]
  congr 1
  funext name p0
  congr 1
  funext _ p1
  rw [parseValuesElementTry_blocks]
  congr 1
  funext r q
  congr 1
  unfold parser.lastTags
  cases r.1.getLast? <;> rfl

/-- At a bracket of the kind of the enclosing literal the chain of tag blocks is empty. -/
theorem tagBlocks_same (U : Unicode) (fuel : Nat) (bo : Token) (p : parser.Parser)
    (h : p.token = bo) : parser.Parser.tagBlocks U bo (fuel + 1) p = .ok ([], fuel + 1) p := by
  rw [parser.Parser.tagBlocks, if_neg (fun ho => ho.2.2.1 h)]

namespace parser

/-- The end of `Scan` after a token that is neither `EOF` nor a semicolon, when the
scanner has read on. -/
theorem ScanStep.ok_finish (s u : Scanner) (tok : Token) (lit : String) (pos : Pos)
    (ins : Bool) (hwf : u.WF) (hfr : s.Frame u) (hlt : u.left < s.left)
    (hi : u.insertSemi = s.insertSemi) (h1 : tok ≠ token.EOF) (h2 : tok ≠ token.Semicolon)
    (hs : 0 ≤ s.ch) (hflag : flagRule tok ins s.insertSemi) :
    ScanStep.Ok s (.done tok lit pos
      (if u.mode &&& DontInsertSemis = 0 then { u with insertSemi := ins } else u)) := by
  unfold ScanStep.Ok
  have hmode : u.mode = s.mode := hfr.2.1
  by_cases hm : u.mode &&& DontInsertSemis = 0
  · rw [if_pos hm]
    have hrank : ({ u with insertSemi := ins } : Scanner).rank < s.rank := by
      unfold Scanner.rank Scanner.left
      show 2 * (u.src.length - u.readOffset + (if 0 ≤ u.ch then 1 else 0))
        + (if ins = true then 1 else 0) < _
      have : u.left = u.src.length - u.readOffset + (if 0 ≤ u.ch then 1 else 0) := rfl
      have h3 : s.left = s.src.length - s.readOffset + (if 0 ≤ s.ch then 1 else 0) := rfl
      rw [← this, ← h3]
      split_ifs <;> omega
    refine ⟨hwf, hfr, le_of_lt hrank, fun _ => hrank, fun h => absurd h h1,
      fun h => ?_, fun h => absurd h h2, fun _ => hflag, fun _ => Or.inl (hmode ▸ hm)⟩
    rw [h] at hs
    omega
  · rw [if_neg hm]
    have hrank : u.rank < s.rank := by
      unfold Scanner.rank
      rw [hi]
      omega
    refine ⟨hwf, hfr, le_of_lt hrank, fun _ => hrank, fun h => absurd h h1,
      fun h => ?_, fun h => absurd h h2, fun h => ?_, fun h => Or.inr (hi ▸ h)⟩
    · rw [h] at hs
      omega
    · rw [hmode] at hm
      exact absurd h hm

theorem Scanner.rank_clear (u : Scanner) :
    ({ u with insertSemi := false } : Scanner).rank = 2 * u.left := by
  unfold Scanner.rank Scanner.left
  simp

theorem Scanner.rank_of_clear (u : Scanner) (h : u.insertSemi = false) : u.rank = 2 * u.left := by
  unfold Scanner.rank
  rw [h]
  simp

theorem Scanner.rank_ge (s : Scanner) : 2 * s.left ≤ s.rank := by
  unfold Scanner.rank
  omega

theorem Scanner.rank_of_set (s : Scanner) (h : s.insertSemi = true) : s.rank = 2 * s.left + 1 := by
  unfold Scanner.rank
  rw [h]
  simp

theorem flagRule_closer (tok : Token) (before : Bool)
    (h : tok = token.String ∨ tok = token.RParen ∨ tok = token.RBrack ∨ tok = token.RBrace) :
    flagRule tok true before := by
  refine ⟨fun _ => rfl, fun h1 _ => ?_, fun a b c d _ => ?_⟩
  · rcases h with h | h | h | h <;> rw [h] at h1 <;> exact absurd h1 (by decide)
  · rcases h with h | h | h | h
    · exact absurd h a
    · exact absurd h b
    · exact absurd h c
    · exact absurd h d

theorem flagRule_plain (tok : Token) (before : Bool)
    (h : tok ≠ token.String ∧ tok ≠ token.RParen ∧ tok ≠ token.RBrack ∧ tok ≠ token.RBrace) :
    flagRule tok false before := by
  refine ⟨fun h1 => ?_, fun _ h2 => Bool.noConfusion h2, fun _ _ _ _ _ => rfl⟩
  rcases h1 with h1 | h1 | h1 | h1
  · exact absurd h1 h.1
  · exact absurd h1 h.2.1
  · exact absurd h1 h.2.2.1
  · exact absurd h1 h.2.2.2

theorem flagRule_illegal (ins before : Bool) (h : ins = true → before = true) :
    flagRule token.Illegal ins before := by
  refine ⟨fun h1 => ?_, fun _ h2 => h h2, fun _ _ _ _ h => absurd rfl h⟩
  rcases h1 with h1 | h1 | h1 | h1 <;> exact absurd h1 (by decide)

/-- One pass through the body of `Scan` from a well-formed scanner returns. -/
theorem Scanner.scanStep_spec (U : Unicode) (s : Scanner) (hwf : s.WF) :
    ∃ step, Scanner.scanStep U s = some step ∧ ScanStep.Ok s step := by
  obtain ⟨s1, hskip, hs1, hnw⟩ := Scanner.skipWhitespace_spec U (s.src.length + 2) s hwf
    (by have := Scanner.left_le s; omega)
  have hsrc : s1.src = s.src := hs1.2.1.1
  have hf1 : s1.left + 1 ≤ s.src.length + 2 := by
    have := Scanner.left_le s1
    rw [hsrc] at this
    omega
  have hnx := Scanner.next_ext U s1 hs1.1
  have hf2 : (s1.next U).left + 1 ≤ s.src.length + 2 := by
    have := hnx.2.2.1
    omega
  have hsn : s.Ext (s1.next U) := hs1.chain hnx
  unfold Scanner.scanStep
  dsimp only
  rw [hskip]
  dsimp only
  -- a token that is made after reading on from `s1`
  have fin : ∀ (u : Scanner) (tok : Token) (lit : String) (ins : Bool), s1.Ext u →
      u.left < s1.left → 0 ≤ s1.ch → tok ≠ token.EOF → tok ≠ token.Semicolon →
      flagRule tok ins s.insertSemi →
      ∃ step, some (ScanStep.done tok lit (s1.file.FileSetPos s1.offset)
          (if u.mode &&& DontInsertSemis = 0 then { u with insertSemi := ins } else u))
        = some step ∧ ScanStep.Ok s step := by
    intro u tok lit ins hu hlt hch h1 h2 hflag
    have hsch : 0 ≤ s.ch := by
      by_contra hneg
      have h3 := hwf.2.2.2.1 (by omega)
      have : s.left = 0 := by
        unfold Scanner.left
        rw [if_neg hneg]
        omega
      have := hs1.2.2.1
      omega
    exact ⟨_, rfl, ScanStep.ok_finish s u tok lit _ ins hu.1 (hs1.2.1.comp hu.2.1)
      (lt_of_lt_of_le hlt hs1.2.2.1) (hu.2.2.2.trans hs1.2.2.2) h1 h2 hsch hflag⟩
  by_cases hL : isLetter U s1.ch = true
  · rw [if_pos hL]
    obtain ⟨r, g1, g2, g3⟩ := Scanner.scanIdentifier_spec U (s.src.length + 2) s1 hs1.1 hf1
    rw [g1]
    have hnn := isLetter_nonneg U _ hL
    exact fin r.2 _ _ _ g2 (g3 (by rw [hL]; rfl)) (by omega) (by decide) (by decide)
      (flagRule_plain _ _ (by decide))
  rw [if_neg hL]
  by_cases hD : isDigit U s1.ch = true
  · rw [if_pos hD]
    obtain ⟨r, g1, g2, g3⟩ := Scanner.scanNumber_spec U (s.src.length + 2) s1 hs1.1 hf1
    rw [g1]
    have hnn := isDigit_nonneg U _ hD
    exact fin r.2 _ _ _ g2 (g3 hD) (by omega) (by decide) (by decide)
      (flagRule_plain _ _ (by decide))
  rw [if_neg hD]
  have hni : (s1.next U).insertSemi = s.insertSemi := hsn.2.2.2
  by_cases hE : s1.ch = -1
  · rw [if_pos hE]
    have hro := hs1.1.2.2.2.1 (by omega)
    obtain ⟨_, _, _, _, _, _, n7⟩ := Scanner.next_facts U s1 hs1.1.2.2.1
    have hch := (n7 hro).1
    by_cases hI : (s1.next U).insertSemi = true
    · rw [if_pos hI]
      have hr : ({ s1.next U with insertSemi := false } : Scanner).rank < s.rank := by
        rw [Scanner.rank_clear, Scanner.rank_of_set s (hni ▸ hI)]
        have := hsn.2.2.1
        omega
      refine ⟨_, rfl, hsn.1, hsn.2.1, le_of_lt hr, fun _ => hr, fun h => absurd h (by decide),
        fun _ h => ?_, fun _ => ⟨rfl, rfl⟩, fun _ => flagRule_plain _ _ (by decide),
        fun h => Bool.noConfusion h⟩
      rw [← hni, hI] at h
      cases h
    · rw [if_neg hI]
      have hIf : (s1.next U).insertSemi = false := by simpa using hI
      by_cases hm : (s1.next U).mode &&& DontInsertSemis = 0
      · rw [if_pos hm]
        have hr : ({ s1.next U with insertSemi := false } : Scanner).rank ≤ s.rank := by
          rw [Scanner.rank_clear]
          have := hsn.2.2.1
          have := Scanner.rank_ge s
          omega
        exact ⟨_, rfl, hsn.1, hsn.2.1, hr, fun h => absurd rfl h, fun _ => ⟨hch, fun _ => rfl⟩,
          fun _ _ => rfl, fun h => absurd h (by decide),
          fun _ => flagRule_plain _ _ (by decide), fun h => Bool.noConfusion h⟩
      · rw [if_neg hm]
        have hr : (s1.next U).rank ≤ s.rank := by
          rw [Scanner.rank_of_clear _ hIf]
          have := hsn.2.2.1
          have := Scanner.rank_ge s
          omega
        refine ⟨_, rfl, hsn.1, hsn.2.1, hr, fun h => absurd rfl h,
          fun _ => ⟨hch, fun _ => hIf⟩, fun _ _ => rfl, fun h => absurd h (by decide),
          fun _ => ?_, fun h => ?_⟩
        · rw [hIf]
          exact flagRule_plain _ _ (by decide)
        · rw [hIf] at h
          cases h
  rw [if_neg hE]
  have hch0 : 0 ≤ s1.ch := by
    have := hs1.1.1
    omega
  have hlt := Scanner.next_left_lt U s1 hs1.1 hch0
  -- tokens of one character
  have one : ∀ (tok : Token) (ins : Bool), tok ≠ token.EOF → tok ≠ token.Semicolon →
      flagRule tok ins s.insertSemi →
      ∃ step, some (ScanStep.done tok "" (s1.file.FileSetPos s1.offset)
          (if (s1.next U).mode &&& DontInsertSemis = 0 then
            { s1.next U with insertSemi := ins } else s1.next U))
        = some step ∧ ScanStep.Ok s step :=
    fun tok ins h1 h2 h3 => fin _ tok "" ins hnx hlt hch0 h1 h2 h3
  by_cases hS : s1.ch = 45 ∨ s1.ch = 43
  · rw [if_pos hS]
    obtain ⟨r, g1, g2, g3⟩ := Scanner.scanNumber_spec U (s.src.length + 2) _ hnx.1 hf2
    rw [g1]
    exact fin r.2 _ _ _ (hnx.chain g2) (lt_of_le_of_lt g2.2.2.1 hlt) hch0 (by decide)
      (by decide) (flagRule_plain _ _ (by decide))
  rw [if_neg hS]
  by_cases hN : s1.ch = 10
  · rw [if_pos hN]
    have hr : ({ s1.next U with insertSemi := false } : Scanner).rank < s.rank := by
      rw [Scanner.rank_clear]
      have := hs1.2.2.1
      have := Scanner.rank_ge s
      omega
    refine ⟨_, rfl, hsn.1, hsn.2.1, le_of_lt hr, fun _ => hr, fun h => absurd h (by decide),
      fun h _ => ?_, fun _ => ⟨rfl, rfl⟩, fun _ => flagRule_plain _ _ (by decide),
      fun h => Bool.noConfusion h⟩
    · exfalso
      have h3 := hwf.2.2.2.1 (by omega)
      have : s.left = 0 := by
        unfold Scanner.left
        rw [h]
        simp
        omega
      have := hs1.2.2.1
      omega
  rw [if_neg hN]
  by_cases hQ : s1.ch = 34 ∨ s1.ch = 39
  · rw [if_pos hQ]
    obtain ⟨r, g1, g2⟩ := Scanner.scanString_spec U (s.src.length + 2) s1.ch _ hnx.1 hf2
    rw [g1]
    exact fin r.2 _ _ _ (hnx.chain g2) (lt_of_le_of_lt g2.2.2.1 hlt) hch0 (by decide)
      (by decide) (flagRule_closer _ _ (Or.inl rfl))
  rw [if_neg hQ]
  by_cases h58 : s1.ch = 58
  · rw [if_pos h58]
    exact one _ _ (by decide) (by decide) (flagRule_plain _ _ (by decide))
  rw [if_neg h58]
  by_cases h44 : s1.ch = 44
  · rw [if_pos h44]
    exact one _ _ (by decide) (by decide) (flagRule_plain _ _ (by decide))
  rw [if_neg h44]
  by_cases h123 : s1.ch = 123
  · rw [if_pos h123]
    exact one _ _ (by decide) (by decide) (flagRule_plain _ _ (by decide))
  rw [if_neg h123]
  by_cases h125 : s1.ch = 125
  · rw [if_pos h125]
    exact one _ _ (by decide) (by decide) (flagRule_closer _ _ (Or.inr (Or.inr (Or.inr rfl))))
  rw [if_neg h125]
  by_cases h91 : s1.ch = 91
  · rw [if_pos h91]
    exact one _ _ (by decide) (by decide) (flagRule_plain _ _ (by decide))
  rw [if_neg h91]
  by_cases h93 : s1.ch = 93
  · rw [if_pos h93]
    exact one _ _ (by decide) (by decide) (flagRule_closer _ _ (Or.inr (Or.inr (Or.inl rfl))))
  rw [if_neg h93]
  by_cases h40 : s1.ch = 40
  · rw [if_pos h40]
    exact one _ _ (by decide) (by decide) (flagRule_plain _ _ (by decide))
  rw [if_neg h40]
  by_cases h41 : s1.ch = 41
  · rw [if_pos h41]
    exact one _ _ (by decide) (by decide) (flagRule_closer _ _ (Or.inr (Or.inl rfl)))
  rw [if_neg h41]
  have hsch : 0 ≤ s.ch := by
    by_contra hneg
    have h3 := hwf.2.2.2.1 (by omega)
    have : s.left = 0 := by
      unfold Scanner.left
      rw [if_neg hneg]
      omega
    have := hs1.2.2.1
    omega
  by_cases h47 : s1.ch = 47
  · rw [if_pos h47]
    by_cases hC : (s1.next U).ch = 47 ∨ (s1.next U).ch = 42
    · rw [if_pos hC]
      -- the comment, scanned from a scanner that has read on
      have com : ∀ r : String × Scanner, s1.Ext r.2 → r.2.left < s1.left →
          ∃ step, (if r.2.mode &&& ScanComments = 0 then
              some (ScanStep.again { r.2 with insertSemi := false })
            else some (ScanStep.done token.Comment r.1 (s1.file.FileSetPos s1.offset)
              (if r.2.mode &&& DontInsertSemis = 0 then { r.2 with insertSemi := false }
                else r.2))) = some step ∧ ScanStep.Ok s step := by
        intro r hr hlt'
        by_cases hm : r.2.mode &&& ScanComments = 0
        · rw [if_pos hm]
          refine ⟨_, rfl, hr.1, hs1.2.1.comp hr.2.1, lt_of_lt_of_le hlt' hs1.2.2.1, rfl, hsch,
            ?_⟩
          rw [← (hs1.2.1.comp hr.2.1).2.1]
          exact hm
        · rw [if_neg hm]
          exact fin r.2 _ _ _ hr hlt' hch0 (by decide) (by decide)
            (flagRule_plain _ _ (by decide))
      have hro1 : s1.readOffset = s1.offset + 1 := hs1.1.2.1 hch0 (by omega)
      obtain ⟨_, _, _, _, n5, _, _⟩ := Scanner.next_facts U s1 hs1.1.2.2.1
      have hoff : (s1.next U).offset = s1.offset + 1 := by
        rw [n5, hro1]
        have := hs1.1.2.2.1
        omega
      have hl1 : s1.left = s1.src.length - s1.readOffset + 1 := by
        unfold Scanner.left
        rw [if_pos hch0]
      by_cases hI : (s1.next U).insertSemi = true
      · rw [if_pos hI]
        obtain ⟨r, g1, g2, g3, g4, g5⟩ := Scanner.findLineEnd_spec U (s.src.length + 2)
          (s1.next U) hnx.1 hf2 (by omega)
          (by
            rw [hoff, hnx.2.1.1]
            have := hs1.1.2.2.1
            omega)
        rw [g1]
        obtain ⟨b, t⟩ := r
        have g3' : (s1.next U).Frame t := g3
        have g4' : t.insertSemi = (s1.next U).insertSemi := g4
        have g5' : t.left ≤ (s1.next U).src.length - (s1.next U).offset := g5
        have htl : t.left < s1.left := by
          rw [hoff, hnx.2.1.1] at g5'
          rw [hl1, hro1]
          have := hs1.1.2.2.1
          omega
        cases b with
        | false =>
          dsimp only
          obtain ⟨r, k1, k2⟩ := Scanner.scanComment_spec U (s.src.length + 2) t g2
            (by
              have := Scanner.left_le t
              rw [g3'.1, hnx.2.1.1, hsrc] at this
              omega)
          rw [k1]
          obtain ⟨c, u⟩ := r
          dsimp only
          have htE : s1.Ext t := ⟨g2, hnx.2.1.comp g3', le_of_lt htl, g4'.trans hnx.2.2.2⟩
          exact com (c, u) (htE.chain k2) (lt_of_le_of_lt k2.2.2.1 htl)
        | true =>
          dsimp only
          have hbase : t.file.Base = s1.file.Base := (hnx.2.1.comp g3').2.2.2.1
          have ho : (t.file.Offset (s1.file.FileSetPos s1.offset)).toNat = s1.offset := by
            unfold SourceFile.Offset SourceFile.FileSetPos
            rw [hbase]
            simp
          rw [ho]
          have hfr : t.Frame ({ t with ch := 47, offset := s1.offset, readOffset := s1.offset + 1, insertSemi := false } : Scanner) :=
            ⟨rfl, rfl, rfl, rfl, rfl, List.prefix_refl _, le_refl _, fun _ => by simp⟩
          have hts : t.src = s1.src := (hnx.2.1.comp g3').1
          have hrk : ({ t with ch := 47, offset := s1.offset, readOffset := s1.offset + 1, insertSemi := false } : Scanner).rank < s.rank := by
            have h1 := Scanner.rank_of_set s (hni ▸ hI)
            rw [h1]
            show 2 * (t.src.length - (s1.offset + 1) + (if (0 : Int) ≤ 47 then 1 else 0))
              + (if false = true then 1 else 0) < 2 * s.left + 1
            rw [hts]
            have h2 := hs1.2.2.1
            rw [hl1, hro1] at h2
            simp only [Bool.false_eq_true, if_false]
            rw [if_pos (by omega)]
            omega
          refine ⟨_, rfl, ⟨?_, ?_, ?_, ?_, ?_, ?_⟩, hs1.2.1.comp (hnx.2.1.comp (g3'.comp hfr)),
            le_of_lt hrk, fun _ => hrk, fun h => absurd h (by decide), fun h => ?_,
            fun _ => ⟨rfl, rfl⟩, fun _ => flagRule_plain _ _ (by decide),
            fun h => Bool.noConfusion h⟩
          · show (-1 : Int) ≤ 47
            omega
          · intro _ _
            rfl
          · show s1.offset + 1 ≤ t.src.length
            rw [hts, ← hro1]
            exact hs1.1.2.2.1
          · intro h
            have h' : (47 : Int) < 0 := h
            omega
          · show s1.offset ≤ s1.offset + 1
            omega
          · intro _ _
            show t.src[s1.offset]? = some (47 : Int).toNat
            rw [hts, ← h47]
            exact hs1.1.2.2.2.2.2 hch0 (by omega)
          · rw [h] at hsch
            omega
      · rw [if_neg hI]
        obtain ⟨r, k1, k2⟩ := Scanner.scanComment_spec U (s.src.length + 2) _ hnx.1 hf2
        rw [k1]
        obtain ⟨c, u⟩ := r
        dsimp only
        exact com (c, u) (hnx.chain k2) (lt_of_le_of_lt k2.2.2.1 hlt)
    · rw [if_neg hC]
      exact fin _ _ _ _ hnx hlt hch0 (by decide) (by decide)
        (flagRule_illegal _ _ (fun h => Bool.noConfusion h))
  · rw [if_neg h47]
    by_cases hB : s1.ch ≠ bom
    · rw [if_pos hB]
      have he := Scanner.error_ext (s1.next U) ((s1.next U).file.Offset
        (s1.file.FileSetPos s1.offset)).toNat ("illegal character " ++ U.formatU s1.ch) hnx.1
      have hei : ((s1.next U).error ((s1.next U).file.Offset
          (s1.file.FileSetPos s1.offset)).toNat
          ("illegal character " ++ U.formatU s1.ch)).insertSemi = s.insertSemi :=
        he.2.2.2.trans hni
      exact fin _ _ _ _ (hnx.chain he) (lt_of_le_of_lt he.2.2.1 hlt) hch0 (by decide)
        (by decide) (flagRule_illegal _ _ (fun h => by rw [← hei]; exact h))
    · rw [if_neg hB]
      exact fin _ _ _ _ hnx hlt hch0 (by decide) (by decide)
        (flagRule_illegal _ _ (fun h => by rw [← hni]; exact h))

/-- Method `Scan` returns from a well-formed scanner, with as many passes as there is left
to read and one more. -/
theorem Scanner.Scan_spec (U : Unicode) : ∀ (fuel : Nat) (s : Scanner), s.WF →
    s.left + 1 ≤ fuel → ∃ r, Scanner.Scan U fuel s = some r ∧ s.ScanOk r := by
  intro fuel
  induction fuel with
  | zero =>
    intro s _ h
    omega
  | succ fuel ih =>
    intro s hwf hfuel
    obtain ⟨step, h1, h2⟩ := Scanner.scanStep_spec U s hwf
    rw [Scanner.Scan, h1]
    cases step with
    | done tok lit pos t => exact ⟨_, rfl, h2⟩
    | again t =>
      obtain ⟨a1, a2, a3, a4, a5, a6⟩ := h2
      obtain ⟨r, g1, g2⟩ := ih t a1 (by omega)
      refine ⟨r, g1, ?_⟩
      obtain ⟨b1, b2, b3, b4, b5, b6, b7, b8, b9⟩ := g2
      have hrk : t.rank < s.rank := by
        rw [Scanner.rank_of_clear t a4]
        have := Scanner.rank_ge s
        omega
      have hmode : t.mode = s.mode := a2.2.1
      refine ⟨b1, a2.comp b2, by omega, fun _ => by omega, fun h => ?_, fun h => ?_, b7,
        fun h => ?_, fun h => ?_⟩
      · obtain ⟨c1, c2⟩ := b5 h
        exact ⟨c1, fun hm => c2 (by rw [hmode]; exact hm)⟩
      · rw [h] at a5
        omega
      · have := b8 (by rw [hmode]; exact h)
        rw [a4] at this
        refine ⟨this.1, fun h1 h2 => ?_, this.2.2⟩
        exact absurd (this.2.1 h1 h2) (by decide)
      · rcases b9 h with h1 | h1
        · exact Or.inl (by rw [← hmode]; exact h1)
        · rw [a4] at h1
          cases h1

end parser

/-! ### The parser ends -/

namespace parser

theorem Parser.Ext.base {p : Parser} (h : p.Inv) : p.Ext p :=
  ⟨h, rfl, List.prefix_refl _, le_refl _⟩

theorem Parser.Ext.seq {p q r : Parser} (h1 : p.Ext q) (h2 : q.Ext r) : p.Ext r :=
  ⟨h2.1, h2.2.1.trans h1.2.1, h1.2.2.1.trans h2.2.2.1, h2.2.2.2.trans h1.2.2.2⟩

theorem Res.Sat.mono {α : Type} {r : Res α} {p : Parser} {Q R : α → Parser → Prop}
    (h : r.Sat p Q) (hQ : ∀ a q, p.Ext q → Q a q → R a q) : r.Sat p R := by
  cases r with
  | ok a q => exact ⟨h.1, hQ a q h.1 h.2⟩
  | bailout q => exact h
  | outOfFuel => exact h

theorem Res.Sat.rebase {α : Type} {r : Res α} {p q : Parser} {Q : α → Parser → Prop}
    (h : r.Sat q Q) (hpq : p.Ext q) : r.Sat p Q := by
  cases r with
  | ok a q1 => exact ⟨hpq.seq h.1, h.2⟩
  | bailout q1 => exact ⟨hpq.seq h.1, h.2⟩
  | outOfFuel => exact h

theorem Res.Sat.bind {α β : Type} {r : Res α} {f : α → Parser → Res β} {p : Parser}
    {Q : α → Parser → Prop} {Q1 : β → Parser → Prop} (h : r.Sat p Q)
    (hf : ∀ a q, p.Ext q → Q a q → (f a q).Sat p Q1) : (r.bind f).Sat p Q1 := by
  cases r with
  | ok a q => exact hf a q h.1 h.2
  | bailout q => exact h
  | outOfFuel => exact h

theorem Res.Sat.ok_of {α : Type} {p q : Parser} {Q : α → Parser → Prop} (a : α)
    (h : p.Ext q) (hQ : Q a q) : (Res.ok a q).Sat p Q :=
  ⟨h, hQ⟩

theorem Parser.mu_le (p : Parser) : p.mu ≤ 2 * p.scanner.src.length + 4 := by
  unfold Parser.mu Scanner.rank
  have := Scanner.left_le p.scanner
  split_ifs <;> omega

/-- Method `next` reads a token: less is left to do, unless the token was `EOF`. -/
theorem Parser.next_spec (U : Unicode) (p : Parser) (h : p.Inv) :
    (Parser.next U p).Sat p (fun _ q => p.token ≠ token.EOF → q.mu < p.mu) := by
  obtain ⟨i1, i2, i3, i4, i5, i6, i7⟩ := h
  obtain ⟨r, g1, g2⟩ := Scanner.Scan_spec U (p.scanner.src.length + 2) p.scanner i1
    (by have := Scanner.left_le p.scanner; omega)
  obtain ⟨tok, lit, pos, t⟩ := r
  obtain ⟨b1, b2, b3, b4, b5, b6, b7, b8, _⟩ := g2
  simp only at b1 b2 b3 b4 b5 b6 b7 b8
  unfold Parser.next
  rw [g1]
  have hm : p.scanner.mode &&& DontInsertSemis = 0 := by rw [i2]; rfl
  obtain ⟨f1, f2, f3, f4, f5, f6, f7, f8⟩ := b2
  have hmu : (p.token ≠ token.EOF → (if tok = token.EOF then 0 else t.rank + 1) < p.mu) ∧
      (if tok = token.EOF then 0 else t.rank + 1) ≤ p.mu := by
    unfold Parser.mu
    by_cases hp : p.token = token.EOF
    · obtain ⟨c1, c2⟩ := i4 hp
      have := b6 c1 c2
      rw [if_pos this, if_pos hp]
      exact ⟨fun h => absurd hp h, le_refl _⟩
    · rw [if_neg hp]
      by_cases ht : tok = token.EOF
      · rw [if_pos ht]
        exact ⟨fun _ => by omega, by omega⟩
      · rw [if_neg ht]
        have := b4 ht
        exact ⟨fun _ => by omega, by omega⟩
  have i6' : (p.scanner.errors.length : Int) ≤ 11 + p.scanner.errorCount := i6
  have i7' : p.scanner.errorCount ≤ p.scanner.errors.length := i7
  refine ⟨⟨⟨b1, f2.trans i2, f3.trans i3, fun ht => ?_, le_trans i5 f7, ?_, ?_⟩, f1, f6,
    hmu.2⟩, hmu.1⟩
  · have ht' : tok = token.EOF := ht
    exact ⟨(b5 ht').1, (b5 ht').2 hm⟩
  · have := f8 i3
    show (t.errors.length : Int) ≤ 11 + t.errorCount
    omega
  · have := f8 i3
    show t.errorCount ≤ (t.errors.length : Int)
    omega

/-- Method `error` reads nothing. -/
theorem Parser.error_spec (pos : Pos) (msg : String) (p : Parser) (h : p.Inv) :
    (Parser.error pos msg p).Sat p (fun _ q => q.token = p.token ∧ q.mu = p.mu) := by
  unfold Parser.error
  dsimp only
  by_cases h1 : p.errors.length > 0 ∧
      p.errors.getLast?.map (fun e => e.Pos.Line) = some (p.file.Position pos).Line
  · rw [if_pos h1]
    exact ⟨Parser.Ext.base h, rfl, rfl⟩
  · rw [if_neg h1]
    by_cases h2 : p.errors.length > 10
    · rw [if_pos h2]
      exact ⟨Parser.Ext.base h, h2⟩
    · rw [if_neg h2]
      obtain ⟨i1, i2, i3, i4, i5, i6, i7⟩ := h
      refine ⟨⟨⟨i1, i2, i3, i4, i5, ?_, ?_⟩, rfl, ?_, le_refl _⟩, rfl, rfl⟩
      · show ((p.errors.Add (p.file.Position pos) msg).length : Int) ≤ 11 + p.scanner.errorCount
        unfold ErrorList.Add
        rw [List.length_append]
        simp only [List.length_singleton]
        push_cast
        omega
      · show p.scanner.errorCount ≤ ((p.errors.Add (p.file.Position pos) msg).length : Int)
        unfold ErrorList.Add
        rw [List.length_append]
        simp only [List.length_singleton]
        push_cast
        omega
      · show p.errors <+: p.errors.Add (p.file.Position pos) msg
        exact List.prefix_append _ _

theorem Parser.errorExpected_spec (pos : Pos) (msg : String) (p : Parser) (h : p.Inv) :
    (Parser.errorExpected pos msg p).Sat p (fun _ q => q.token = p.token ∧ q.mu = p.mu) := by
  unfold Parser.errorExpected
  exact Parser.error_spec _ _ p h

/-- Method `advance` ends at the token `EOF`. -/
theorem Parser.advance_spec (U : Unicode) : ∀ (fuel : Nat) (p : Parser), p.Inv →
    p.mu + 1 ≤ fuel → (Parser.advance U fuel p).Sat p (fun _ q => q.token = token.EOF) := by
  intro fuel
  induction fuel with
  | zero => intro p _ h; omega
  | succ fuel ih =>
    intro p hi hf
    rw [Parser.advance]
    by_cases h : p.token ≠ token.EOF
    · rw [if_pos h]
      refine (Parser.next_spec U p hi).bind ?_
      intro _ q hq hlt
      exact (ih q hq.1 (by have := hlt h; omega)).rebase hq
    · rw [if_neg h]
      exact ⟨Parser.Ext.base hi, not_not.mp h⟩

/-- Method `expect` reads a token. -/
theorem Parser.expect_spec (U : Unicode) (tok : Token) (p : Parser) (h : p.Inv) :
    (Parser.expect U tok p).Sat p (fun _ q => p.token ≠ token.EOF → q.mu < p.mu) := by
  unfold Parser.expect
  dsimp only
  have key : ∀ q : Parser, p.Ext q → q.token = p.token → q.mu = p.mu →
      ((Parser.next U q).bind fun _ q1 => Res.ok p.pos q1).Sat p
        (fun _ q => p.token ≠ token.EOF → q.mu < p.mu) := by
    intro q hq ht hm
    refine ((Parser.next_spec U q hq.1).rebase hq).bind ?_
    intro _ q1 hq1 hlt
    exact ⟨hq1, fun hp => by have := hlt (by rw [ht]; exact hp); omega⟩
  by_cases h1 : p.token ≠ tok
  · rw [if_pos h1]
    refine (Parser.errorExpected_spec _ _ p h).bind ?_
    intro _ q hq hs
    exact key q hq hs.1 hs.2
  · rw [if_neg h1]
    exact key p (Parser.Ext.base h) rfl rfl

theorem Parser.expectAnyLoop_spec (U : Unicode) : ∀ (toks : List Token) (p : Parser), p.Inv →
    (Parser.expectAnyLoop U toks p).Sat p
      (fun r q => (r = none → q = p) ∧
        ∀ t, r = some t → p.token = t ∧ (p.token ≠ token.EOF → q.mu < p.mu)) := by
  intro toks
  induction toks with
  | nil =>
    intro p h
    rw [Parser.expectAnyLoop]
    exact ⟨Parser.Ext.base h, fun _ => rfl, fun t ht => by cases ht⟩
  | cons t rest ih =>
    intro p h
    rw [Parser.expectAnyLoop]
    by_cases h1 : p.token = t
    · rw [if_pos h1]
      refine (Parser.next_spec U p h).bind ?_
      intro _ q hq hlt
      refine ⟨hq, ?_, ?_⟩
      · intro hc
        cases hc
      · intro t1 ht1
        injection ht1 with e
        exact ⟨e ▸ h1, hlt⟩
    · rw [if_neg h1]
      exact ih p h

/-- Method `expectAny`: when it returns the colon, a token was read. -/
theorem Parser.expectAny_spec (U : Unicode) (toks : List Token) (p : Parser) (h : p.Inv)
    (h0 : (0 : Token) ∉ toks) :
    (Parser.expectAny U toks p).Sat p
      (fun r q => r.2 ∈ toks → p.token = r.2 ∧ (p.token ≠ token.EOF → q.mu < p.mu)) := by
  unfold Parser.expectAny
  dsimp only
  refine (Parser.expectAnyLoop_spec U toks p h).bind ?_
  intro r q hq hr
  cases r with
  | some t =>
    dsimp only
    exact ⟨hq, fun _ => hr.2 t rfl⟩
  | none =>
    dsimp only
    refine ((Parser.errorExpected_spec _ _ q hq.1).rebase hq).bind ?_
    intro _ q1 hq1 _
    exact ⟨hq1, fun hc => absurd hc h0⟩

theorem Parser.expectComma_spec (U : Unicode) (closing : Token) (want : String) (p : Parser)
    (h : p.Inv) :
    (Parser.expectComma U closing want p).Sat p (fun _ _ => True) := by
  unfold Parser.expectComma
  by_cases h1 : p.token = token.Comma
  · rw [if_pos h1]
    refine (Parser.next_spec U p h).bind ?_
    intro _ q hq _
    by_cases h2 : q.token = closing
    · rw [if_pos h2]
      refine ((Parser.errorExpected_spec _ _ q hq.1).rebase hq).bind ?_
      intro _ q1 hq1 _
      exact ⟨hq1, trivial⟩
    · rw [if_neg h2]
      exact ⟨hq, trivial⟩
  · rw [if_neg h1]
    by_cases h2 : p.token = token.Semicolon ∧ p.tokenLit = "\n"
    · rw [if_pos h2]
      refine (Parser.next_spec U p h).bind ?_
      intro _ q hq _
      exact ⟨hq, trivial⟩
    · rw [if_neg h2]
      exact ⟨Parser.Ext.base h, trivial⟩

theorem Parser.expectSemi_spec (U : Unicode) (fuel : Nat) (p : Parser) (h : p.Inv)
    (hf : p.mu + 1 ≤ fuel) :
    (Parser.expectSemi U fuel p).Sat p (fun _ _ => True) := by
  unfold Parser.expectSemi
  by_cases h1 : p.token = token.RBrace
  · rw [if_pos h1]
    exact ⟨Parser.Ext.base h, trivial⟩
  · rw [if_neg h1]
    by_cases h2 : p.token = token.Comma
    · rw [if_pos h2]
      refine (Parser.errorExpected_spec _ _ p h).bind ?_
      intro _ q hq _
      exact (((Parser.next_spec U q hq.1).rebase hq).mono fun _ _ _ _ => trivial)
    · rw [if_neg h2]
      by_cases h3 : p.token = token.Semicolon
      · rw [if_pos h3]
        exact (Parser.next_spec U p h).mono fun _ _ _ _ => trivial
      · rw [if_neg h3]
        refine (Parser.errorExpected_spec _ _ p h).bind ?_
        intro _ q hq hs
        exact (((Parser.advance_spec U fuel q hq.1 (by rw [hs.2]; exact hf)).rebase hq).mono
          fun _ _ _ _ => trivial)

theorem Parser.parseIdent_spec (U : Unicode) (p : Parser) (h : p.Inv) :
    (Parser.parseIdent U p).Sat p (fun _ q => p.token ≠ token.EOF → q.mu < p.mu) := by
  unfold Parser.parseIdent
  dsimp only
  by_cases h1 : p.token = token.Ident
  · rw [if_pos h1]
    refine (Parser.next_spec U p h).bind ?_
    intro _ q hq hlt
    exact ⟨hq, hlt⟩
  · rw [if_neg h1]
    refine (Parser.expect_spec U _ p h).bind ?_
    intro _ q hq hlt
    exact ⟨hq, hlt⟩

theorem Parser.parseNumber_spec (U : Unicode) (p : Parser) (h : p.Inv) :
    (Parser.parseNumber U p).Sat p (fun _ q => p.token ≠ token.EOF → q.mu < p.mu) := by
  unfold Parser.parseNumber
  dsimp only
  by_cases h1 : p.token = token.Number
  · rw [if_pos h1]
    refine (Parser.next_spec U p h).bind ?_
    intro _ q hq hlt
    exact ⟨hq, hlt⟩
  · rw [if_neg h1]
    refine (Parser.expect_spec U _ p h).bind ?_
    intro _ q hq hlt
    exact ⟨hq, hlt⟩

theorem Parser.mu_pos (p : Parser) (h : p.token ≠ token.EOF) : 1 ≤ p.mu := by
  unfold Parser.mu
  rw [if_neg h]
  omega

theorem Parser.mu_zero (p : Parser) (h : p.token = token.EOF) : p.mu = 0 := by
  unfold Parser.mu
  rw [if_pos h]

theorem Parser.token_of_mu (p : Parser) (h : p.mu = 0) : p.token = token.EOF := by
  by_contra hc
  have := Parser.mu_pos p hc
  omega

theorem Parser.Ext.level {p q : Parser} (h : p.Ext q) (e : Int) :
    p.Ext { q with exprLevel := e } := h

/-- What the mutual parsing methods do with the fuel `fuel`, in every state whose measure
the fuel covers. -/
def Parser.Covered (U : Unicode) (fuel : Nat) : Prop :=
  (∀ p : Parser, p.Inv → 4 * p.mu + 3 ≤ fuel →
    (Parser.parseOperand U fuel p).Sat p (fun _ q => p.token ≠ token.EOF → q.mu < p.mu)) ∧
  (∀ (bo : Token) (key : String) (kp : Pos) (tags : Option ValuesLit) (p : Parser), p.Inv →
    1 ≤ fuel → (p.token ≠ token.EOF → 4 * p.mu + 3 ≤ fuel) →
    (Parser.parseValuesElementTry U fuel bo key kp tags p).Sat p (fun _ _ => True)) ∧
  (∀ (bo : Token) (p : Parser), p.Inv → p.token ≠ token.EOF → 4 * p.mu + 2 ≤ fuel →
    (Parser.parseValuesElementLit U fuel bo p).Sat p (fun _ q => q.mu < p.mu)) ∧
  (∀ (tokOpen : Token) (els : List ValuesElementLit) (p : Parser), p.Inv →
    1 ≤ fuel → (p.token ≠ token.EOF → 4 * p.mu + 3 ≤ fuel) →
    (Parser.parseValuesLitLoop U fuel tokOpen els p).Sat p (fun _ _ => True)) ∧
  (∀ (tokOpen : Token) (p : Parser), p.Inv → 4 * p.mu + 2 ≤ fuel →
    (Parser.parseValuesLit U fuel tokOpen p).Sat p
      (fun _ q => p.token ≠ token.EOF → q.mu < p.mu))

theorem Parser.covered_zero (U : Unicode) : Parser.Covered U 0 := by
  refine ⟨?_, ?_, ?_, ?_, ?_⟩
  · intro p _ h; omega
  · intro _ _ _ _ p _ h; omega
  · intro _ p _ _ h; omega
  · intro _ _ p _ h; omega
  · intro _ p _ h; omega

theorem Parser.covered_operand (U : Unicode) (fuel : Nat) (ih : Parser.Covered U fuel)
    (p : Parser) (h : p.Inv) (hf : 4 * p.mu + 3 ≤ fuel + 1) :
    (Parser.parseOperand U (fuel + 1) p).Sat p
      (fun _ q => p.token ≠ token.EOF → q.mu < p.mu) := by
  rw [Parser.parseOperand]
  by_cases h1 : p.token = token.Ident
  · rw [if_pos h1]
    exact Parser.parseIdent_spec U p h
  · rw [if_neg h1]
    by_cases h2 : p.token = token.Number
    · rw [if_pos h2]
      exact Parser.parseNumber_spec U p h
    · rw [if_neg h2]
      by_cases h3 : p.token = token.String
      · rw [if_pos h3]
        dsimp only
        refine (Parser.next_spec U p h).bind ?_
        intro _ q hq hlt
        exact ⟨hq, hlt⟩
      · rw [if_neg h3]
        by_cases h4 : p.token = token.LBrace
        · rw [if_pos h4]
          refine (ih.2.2.2.2 token.LBrace p h (by omega)).bind ?_
          intro _ q hq hlt
          exact ⟨hq, hlt⟩
        · rw [if_neg h4]
          dsimp only
          refine (Parser.errorExpected_spec _ _ p h).bind ?_
          intro _ q hq hs
          refine ((Parser.advance_spec U (fuel + 1) q hq.1 (by rw [hs.2]; omega)).rebase hq).bind ?_
          intro _ q1 hq1 he
          refine ⟨hq1, fun hp => ?_⟩
          have := Parser.mu_pos p hp
          rw [Parser.mu_zero q1 he]
          omega

theorem Parser.covered_try (U : Unicode) (fuel : Nat) (ih : Parser.Covered U fuel)
    (bo : Token) (key : String) (kp : Pos) (tags : Option ValuesLit) (p : Parser) (h : p.Inv)
    (hf : p.token ≠ token.EOF → 4 * p.mu + 3 ≤ fuel + 1) :
    (Parser.parseValuesElementTry U (fuel + 1) bo key kp tags p).Sat p (fun _ _ => True) := by
  rw [Parser.parseValuesElementTry]
  by_cases h1 : p.token = token.Comma ∨ p.token = bo + 1
  · rw [if_pos h1]
    exact ⟨Parser.Ext.base h, trivial⟩
  · rw [if_neg h1]
    by_cases h2 : p.token ≠ bo ∧
        (p.token = token.LParen ∨ p.token = token.LBrace ∨ p.token = token.LBrack)
    · rw [if_pos h2]
      have hne : p.token ≠ token.EOF := by
        rcases h2.2 with e | e | e <;> rw [e] <;> decide
      have hf1 := hf hne
      refine (ih.2.2.2.2 p.token p h (by omega)).bind ?_
      intro t q hq hlt
      have := hlt hne
      exact ((ih.2.1 bo key kp (some t) q hq.1 (by omega) (fun _ => by omega)).rebase hq)
    · rw [if_neg h2]
      refine (Parser.expectAny_spec U _ p h (by decide)).bind ?_
      intro r q hq hr
      by_cases hc : r.2 = token.Colon
      · rw [if_pos hc]
        have hr1 := hr (by rw [hc]; exact List.mem_cons_self _ _)
        have hne : p.token ≠ token.EOF := by
          rw [hr1.1, hc]
          decide
        have hf1 := hf hne
        have := hr1.2 hne
        refine ((ih.1 q hq.1 (by omega)).rebase hq).bind ?_
        intro v q1 hq1 _
        exact ⟨hq1, trivial⟩
      · rw [if_neg hc]
        exact ⟨hq, trivial⟩

theorem Parser.covered_element (U : Unicode) (fuel : Nat) (ih : Parser.Covered U fuel)
    (bo : Token) (p : Parser) (h : p.Inv) (hne : p.token ≠ token.EOF)
    (hf : 4 * p.mu + 2 ≤ fuel + 1) :
    (Parser.parseValuesElementLit U (fuel + 1) bo p).Sat p (fun _ q => q.mu < p.mu) := by
  rw [Parser.parseValuesElementLit]
  have hpos := Parser.mu_pos p hne
  have key : ∀ (name : String) (q : Parser), p.Ext q → q.token = p.token → q.mu = p.mu →
      ((Parser.next U q).bind fun _ q1 =>
        Parser.parseValuesElementTry U fuel bo name p.pos none q1).Sat p
        (fun _ q => q.mu < p.mu) := by
    intro name q hq ht hm
    refine ((Parser.next_spec U q hq.1).rebase hq).bind ?_
    intro _ q1 hq1 hlt
    have hlt1 := hlt (by rw [ht]; exact hne)
    refine ((ih.2.1 bo name p.pos none q1 hq1.1 (by omega) (fun _ => by omega)).mono
      ?_).rebase hq1
    intro _ q2 hq2 _
    have := hq2.2.2.2
    omega
  by_cases h1 : p.token = token.Ident
  · rw [if_pos h1]
    exact key _ p (Parser.Ext.base h) rfl rfl
  · rw [if_neg h1]
    by_cases h2 : p.token = token.String
    · rw [if_pos h2]
      exact key _ p (Parser.Ext.base h) rfl rfl
    · rw [if_neg h2]
      cases he : Parser.errorExpected p.pos "map key" p with
      | ok a q =>
        have hs := Parser.errorExpected_spec p.pos "map key" p h
        rw [he] at hs
        exact key _ q hs.1 hs.2.1 hs.2.2
      | bailout q =>
        have hs := Parser.errorExpected_spec p.pos "map key" p h
        rw [he] at hs
        exact hs
      | outOfFuel =>
        have hs := Parser.errorExpected_spec p.pos "map key" p h
        rw [he] at hs
        exact hs.elim

theorem Parser.covered_loop (U : Unicode) (fuel : Nat) (ih : Parser.Covered U fuel)
    (tokOpen : Token) (els : List ValuesElementLit) (p : Parser) (h : p.Inv)
    (hf : p.token ≠ token.EOF → 4 * p.mu + 3 ≤ fuel + 1) :
    (Parser.parseValuesLitLoop U (fuel + 1) tokOpen els p).Sat p (fun _ _ => True) := by
  rw [Parser.parseValuesLitLoop]
  by_cases h1 : p.token ≠ tokOpen + 1 ∧ p.token ≠ token.EOF
  · rw [if_pos h1]
    have hf1 := hf h1.2
    refine (ih.2.2.1 tokOpen p h h1.2 (by omega)).bind ?_
    intro el q hq hlt
    refine (((Parser.expectComma_spec U _ _ q hq.1).mono
      (R := fun _ q1 => q1.mu ≤ q.mu) (fun _ q1 hq1 _ => hq1.2.2.2)).rebase hq).bind ?_
    intro more q1 hq1 hle
    cases more with
    | true =>
      simp only [if_true]
      exact (ih.2.2.2.1 tokOpen _ q1 hq1.1 (by omega) (fun _ => by omega)).rebase hq1
    | false =>
      simp only [Bool.false_eq_true, if_false]
      exact ⟨hq1, trivial⟩
  · rw [if_neg h1]
    exact ⟨Parser.Ext.base h, trivial⟩

theorem Parser.covered_lit (U : Unicode) (fuel : Nat) (ih : Parser.Covered U fuel)
    (tokOpen : Token) (p : Parser) (h : p.Inv) (hf : 4 * p.mu + 2 ≤ fuel + 1) :
    (Parser.parseValuesLit U (fuel + 1) tokOpen p).Sat p
      (fun _ q => p.token ≠ token.EOF → q.mu < p.mu) := by
  rw [Parser.parseValuesLit]
  refine (Parser.expect_spec U tokOpen p h).bind ?_
  intro lbrace q hq hlt
  have hq' : p.Ext { q with exprLevel := q.exprLevel + 1 } := hq.level _
  have hmu : ({ q with exprLevel := q.exprLevel + 1 } : Parser).mu = q.mu := rfl
  have hfuel : ({ q with exprLevel := q.exprLevel + 1 } : Parser).token ≠ token.EOF →
      4 * ({ q with exprLevel := q.exprLevel + 1 } : Parser).mu + 3 ≤ fuel := by
    intro hne
    have hne' : q.token ≠ token.EOF := hne
    have h1 := Parser.mu_pos q hne'
    have h2 := hq.2.2.2
    have hp : p.token ≠ token.EOF := by
      intro hc
      have := Parser.mu_zero p hc
      omega
    have := hlt hp
    rw [hmu]
    omega
  refine (((ih.2.2.2.1 tokOpen [] _ hq'.1 (by omega) hfuel).mono
    (R := fun _ q1 => q1.mu ≤ q.mu) (fun _ q1 hq1 _ => hq1.2.2.2)).rebase hq').bind ?_
  intro elements q1 hq1 hle
  have hq1' : p.Ext { q1 with exprLevel := q1.exprLevel - 1 } := hq1.level _
  refine (((Parser.expect_spec U (tokOpen + 1) _ hq1'.1).mono
    (R := fun _ q2 => q2.mu ≤ q1.mu) (fun _ q2 hq2 _ => hq2.2.2.2)).rebase hq1').bind ?_
  intro rbrace q2 hq2 hle2
  exact ⟨hq2, fun hp => by have := hlt hp; omega⟩

/-- The mutual parsing methods end, with the fuel that covers the measure. -/
theorem Parser.covered (U : Unicode) : ∀ fuel : Nat, Parser.Covered U fuel := by
  intro fuel
  induction fuel with
  | zero => exact Parser.covered_zero U
  | succ fuel ih =>
    refine ⟨fun p h hf => Parser.covered_operand U fuel ih p h hf,
      fun bo key kp tags p h _ hf => Parser.covered_try U fuel ih bo key kp tags p h hf,
      fun bo p h hne hf => Parser.covered_element U fuel ih bo p h hne hf,
      fun tokOpen els p h _ hf => Parser.covered_loop U fuel ih tokOpen els p h hf,
      fun tokOpen p h hf => Parser.covered_lit U fuel ih tokOpen p h hf⟩

theorem Parser.parseOperand_spec (U : Unicode) (n : Nat) (p : Parser) (h : p.Inv)
    (hn : 4 * p.mu + 3 ≤ n) :
    (Parser.parseOperand U n p).Sat p (fun _ q => p.token ≠ token.EOF → q.mu < p.mu) :=
  (Parser.covered U n).1 p h hn

theorem Parser.parseExprListLoop_spec (U : Unicode) (n : Nat) : ∀ (fuel : Nat)
    (list : List Expr) (p : Parser), p.Inv → 4 * p.mu + 3 ≤ n → p.mu + 1 ≤ fuel →
    (Parser.parseExprListLoop U n fuel list p).Sat p (fun l _ => l ≠ []  ∨ list = []) := by
  intro fuel
  induction fuel with
  | zero => intro _ p _ _ h; omega
  | succ fuel ih =>
    intro list p h hn hf
    rw [Parser.parseExprListLoop]
    by_cases h1 : p.token = token.Comma
    · rw [if_pos h1]
      have hne : p.token ≠ token.EOF := by rw [h1]; decide
      refine (Parser.next_spec U p h).bind ?_
      intro _ q hq hlt
      have := hlt hne
      refine (((Parser.parseOperand_spec U n q hq.1 (by omega)).mono
        (R := fun _ q1 => q1.mu ≤ q.mu) (fun _ q1 hq1 _ => hq1.2.2.2)).rebase hq).bind ?_
      intro x q1 hq1 hle
      refine ((ih (list ++ [x]) q1 hq1.1 (by omega) (by omega)).rebase hq1).mono ?_
      intro l _ _ hl
      rcases hl with hl | hl
      · exact Or.inl hl
      · simp at hl
    · rw [if_neg h1]
      refine ⟨Parser.Ext.base h, ?_⟩
      by_cases hl : list = []
      · exact Or.inr hl
      · exact Or.inl hl

theorem Parser.parseExprList_spec (U : Unicode) (n : Nat) (p : Parser) (h : p.Inv)
    (hn : 4 * p.mu + 3 ≤ n) :
    (Parser.parseExprList U n p).Sat p
      (fun l q => l ≠ [] ∧ (p.token ≠ token.EOF → q.mu < p.mu)) := by
  unfold Parser.parseExprList
  refine (Parser.parseOperand_spec U n p h hn).bind ?_
  intro x q hq hlt
  refine (((Parser.parseExprListLoop_spec U n n [x] q hq.1 (by have := hq.2.2.2; omega)
    (by have := hq.2.2.2; omega)).mono
    (R := fun l q1 => l ≠ [] ∧ q1.mu ≤ q.mu) ?_).rebase hq).mono ?_
  · intro l q1 hq1 hl
    refine ⟨?_, hq1.2.2.2⟩
    rcases hl with hl | hl
    · exact hl
    · simp at hl
  · intro l q1 _ hl
    exact ⟨hl.1, fun hp => by have := hlt hp; omega⟩

theorem Parser.parseSimpleStmt_spec (U : Unicode) (n : Nat) (p : Parser) (h : p.Inv)
    (hn : 4 * p.mu + 3 ≤ n) :
    (Parser.parseSimpleStmt U n p).Sat p (fun _ q => p.token ≠ token.EOF → q.mu < p.mu) := by
  unfold Parser.parseSimpleStmt
  refine (Parser.parseExprList_spec U n p h hn).bind ?_
  intro x q hq hx
  cases x with
  | nil => exact absurd rfl hx.1
  | cons x0 rest =>
    dsimp only
    by_cases h1 : rest.length + 1 > 1
    · rw [if_pos h1]
      refine ((Parser.errorExpected_spec _ _ q hq.1).rebase hq).bind ?_
      intro _ q1 hq1 hs
      exact ⟨hq1, fun hp => by have := hx.2 hp; omega⟩
    · rw [if_neg h1]
      exact ⟨hq, hx.2⟩

/-- Method `parseStmt` reads a token, unless it starts at a closing brace or at `EOF`. -/
theorem Parser.parseStmt_spec (U : Unicode) (n : Nat) (p : Parser) (h : p.Inv)
    (hn : 4 * p.mu + 3 ≤ n) :
    (Parser.parseStmt U n p).Sat p
      (fun _ q => p.token ≠ token.RBrace → p.token ≠ token.EOF → q.mu < p.mu) := by
  unfold Parser.parseStmt
  by_cases h1 : p.token = token.Ident ∨ p.token = token.LBrace
  · rw [if_pos h1]
    refine (Parser.parseSimpleStmt_spec U n p h hn).bind ?_
    intro s q hq hlt
    refine (((Parser.expectSemi_spec U n q hq.1 (by have := hq.2.2.2; omega)).mono
      (R := fun _ q1 => q1.mu ≤ q.mu) (fun _ q1 hq1 _ => hq1.2.2.2)).rebase hq).bind ?_
    intro _ q1 hq1 hle
    exact ⟨hq1, fun _ hp => by have := hlt hp; omega⟩
  · rw [if_neg h1]
    by_cases h2 : p.token = token.Semicolon
    · rw [if_pos h2]
      dsimp only
      refine (Parser.next_spec U p h).bind ?_
      intro _ q hq hlt
      exact ⟨hq, fun _ hp => hlt hp⟩
    · rw [if_neg h2]
      by_cases h3 : p.token = token.RBrace
      · rw [if_pos h3]
        exact ⟨Parser.Ext.base h, fun hc => absurd h3 hc⟩
      · rw [if_neg h3]
        dsimp only
        refine (Parser.errorExpected_spec _ _ p h).bind ?_
        intro _ q hq hs
        refine ((Parser.advance_spec U n q hq.1 (by rw [hs.2]; omega)).rebase hq).bind ?_
        intro _ q1 hq1 he
        refine ⟨hq1, fun _ hp => ?_⟩
        have := Parser.mu_pos p hp
        rw [Parser.mu_zero q1 he]
        omega

theorem Parser.parseStmtList_spec (U : Unicode) (n : Nat) : ∀ (fuel : Nat) (list : List Stmt)
    (p : Parser), p.Inv → 4 * p.mu + 3 ≤ n → p.mu + 1 ≤ fuel →
    (Parser.parseStmtList U n fuel list p).Sat p (fun _ _ => True) := by
  intro fuel
  induction fuel with
  | zero => intro _ p _ _ h; omega
  | succ fuel ih =>
    intro list p h hn hf
    rw [Parser.parseStmtList]
    by_cases h1 : p.token ≠ token.RBrace ∧ p.token ≠ token.EOF
    · rw [if_pos h1]
      refine (Parser.parseStmt_spec U n p h hn).bind ?_
      intro s q hq hlt
      have := hlt h1.1 h1.2
      exact (ih _ q hq.1 (by omega) (by omega)).rebase hq
    · rw [if_neg h1]
      exact ⟨Parser.Ext.base h, trivial⟩

theorem Parser.parseStmtListCount_spec (U : Unicode) (n : Nat) (c : Int) : ∀ (fuel : Nat)
    (k : Int) (list : List Stmt) (p : Parser), p.Inv → 4 * p.mu + 3 ≤ n → p.mu + 1 ≤ fuel →
    (Parser.parseStmtListCount U n c fuel k list p).Sat p (fun _ _ => True) := by
  intro fuel
  induction fuel with
  | zero => intro _ _ p _ _ h; omega
  | succ fuel ih =>
    intro k list p h hn hf
    rw [Parser.parseStmtListCount]
    by_cases h1 : k < c ∧ p.token ≠ token.RBrace ∧ p.token ≠ token.EOF
    · rw [if_pos h1]
      refine (Parser.parseStmt_spec U n p h hn).bind ?_
      intro s q hq hlt
      have := hlt h1.2.1 h1.2.2
      exact (ih _ _ q hq.1 (by omega) (by omega)).rebase hq
    · rw [if_neg h1]
      exact ⟨Parser.Ext.base h, trivial⟩

theorem Parser.fuel_covers (p : Parser) : 4 * p.mu + 3 ≤ p.fuel ∧ p.mu + 1 ≤ p.fuel := by
  have := Parser.mu_le p
  unfold Parser.fuel
  omega

/-- Function `NewScanner` on a file of the size of the source, with an error handler and
no errors yet. -/
theorem NewScanner_spec (U : Unicode) (file : SourceFile) (src : List Nat) (mode : Nat)
    (hsize : file.Size = src.length) :
    ∃ s, NewScanner U file src true [] mode = some s ∧ s.WF ∧ s.mode = mode ∧
      s.errorHandler = true ∧ s.src = src ∧ 0 ≤ s.errorCount ∧
      (s.errors.length : Int) = s.errorCount ∧ s.insertSemi = false := by
  unfold NewScanner
  rw [if_neg (not_not.mpr hsize)]
  dsimp only
  obtain ⟨a1, a2, a3, _⟩ := Scanner.next_facts U
    (⟨file, src, 32, 0, 0, 0, false, true, [], 0, mode⟩ : Scanner) (Nat.zero_le _)
  generalize Scanner.next U (⟨file, src, 32, 0, 0, 0, false, true, [], 0, mode⟩ : Scanner) = s1
    at a1 a2 a3 ⊢
  obtain ⟨f1, f2, f3, f4, f5, f6, f7, f8⟩ := a2
  have f8' := f8 rfl
  simp only [List.length_nil, Nat.cast_zero, zero_add, add_zero] at f8'
  by_cases hb : s1.ch = bom
  · rw [if_pos hb]
    obtain ⟨b1, b2, b3, _⟩ := Scanner.next_facts U s1 a1.2.2.1
    obtain ⟨g1, g2, g3, g4, g5, g6, g7, g8⟩ := b2
    have g8' := g8 f3
    refine ⟨_, rfl, b1, g2.trans f2, g3.trans f3, g1.trans f1, le_trans f7 g7, ?_,
      b3.trans a3⟩
    omega
  · rw [if_neg hb]
    exact ⟨_, rfl, a1, f2, f3, f1, f7, by omega, a3⟩

/-- Function `NewParser` on a file of the size of the source returns a parser that
satisfies the invariant. -/
theorem NewParser_spec (U : Unicode) (file : SourceFile) (src : List Nat)
    (hsize : file.Size = src.length) :
    ∃ p, NewParser U file src = some p ∧ p.Inv ∧ p.scanner.src = src := by
  obtain ⟨s, h1, h2, h3, h4, h5, h6, h7, h8⟩ := NewScanner_spec U file src 0 hsize
  unfold NewParser
  rw [h1]
  dsimp only
  have hinv : (⟨s, 0, 0, "", 0⟩ : Parser).Inv := by
    refine ⟨h2, h3, h4, fun h => ?_, h6, ?_, ?_⟩
    · have h0 : (0 : Token) = token.EOF := h
      exact absurd h0 (by decide)
    · show (s.errors.length : Int) ≤ 11 + s.errorCount
      omega
    · show s.errorCount ≤ (s.errors.length : Int)
      omega
  have := Parser.next_spec U ⟨s, 0, 0, "", 0⟩ hinv
  cases hn : Parser.next U ⟨s, 0, 0, "", 0⟩ with
  | ok a q =>
    rw [hn] at this
    exact ⟨q, rfl, this.1.1, this.1.2.1.trans h5⟩
  | bailout q =>
    rw [hn] at this
    unfold Parser.next at hn
    cases hs : Scanner.Scan U (s.src.length + 2) s with
    | none => rw [hs] at hn; cases hn
    | some r => rw [hs] at hn; cases hn
  | outOfFuel =>
    rw [hn] at this
    exact this.elim

theorem ErrorList.Sort_length (l : ErrorList) : (ErrorList.Sort l).length = l.length :=
  (sortSlice_perm _ l).length_eq

/-- What `ParseFile` and `ParseFileC` return from the result of their body. -/
theorem Parser.deferred_spec (p : Parser) (r : Res (Option File))
    (h : r.Sat p (fun file q => file.isSome = true ↔ q.errors = [])) :
    ∃ res, Parser.deferred r = some res ∧
      (res.file.isSome = true ↔ res.err = none) ∧
      (res.err = none ↔ res.p.errors = []) ∧
      (∀ l, res.err = some l → l = res.p.errors) ∧
      res.p.errors.Perm (match r with
        | .ok _ q => q.errors
        | .bailout q => q.errors
        | .outOfFuel => []) ∧
      (res.p.errors.length : Int) ≤ 11 + res.p.scanner.errorCount := by
  have herr : ∀ l : ErrorList, (ErrorList.Err (ErrorList.Sort l) = none ↔ l = []) ∧
      (ErrorList.Err (ErrorList.Sort l) = none ↔ ErrorList.Sort l = []) ∧
      (∀ l1, ErrorList.Err (ErrorList.Sort l) = some l1 → l1 = ErrorList.Sort l) := by
    intro l
    unfold ErrorList.Err
    have := ErrorList.Sort_length l
    refine ⟨?_, ?_, ?_⟩
    · by_cases h0 : (ErrorList.Sort l).length = 0
      · rw [if_pos h0]
        exact ⟨fun _ => List.length_eq_zero.mp (by omega), fun _ => rfl⟩
      · rw [if_neg h0]
        refine ⟨fun hc => (by cases hc), fun hc => ?_⟩
        subst hc
        exact (h0 this).elim
    · by_cases h0 : (ErrorList.Sort l).length = 0
      · rw [if_pos h0]
        exact ⟨fun _ => List.length_eq_zero.mp h0, fun _ => rfl⟩
      · rw [if_neg h0]
        refine ⟨fun hc => (by cases hc), fun hc => ?_⟩
        rw [hc] at h0
        exact absurd rfl h0
    · intro l1
      by_cases h0 : (ErrorList.Sort l).length = 0
      · rw [if_pos h0]
        intro hc
        cases hc
      · rw [if_neg h0]
        intro hc
        injection hc with e
        exact e.symm
  cases r with
  | ok file q =>
    obtain ⟨hq, hf⟩ := h
    refine ⟨_, rfl, ?_, (herr q.errors).2.1, (herr q.errors).2.2, sortSlice_perm _ _, ?_⟩
    · show file.isSome = true ↔ ErrorList.Err (ErrorList.Sort q.errors) = none
      rw [(herr q.errors).1]
      exact hf
    · show ((ErrorList.Sort q.errors).length : Int) ≤ 11 + q.scanner.errorCount
      rw [ErrorList.Sort_length]
      exact hq.1.2.2.2.2.2.1
  | bailout q =>
    obtain ⟨hq, hf⟩ := h
    refine ⟨_, rfl, ?_, (herr q.errors).2.1, (herr q.errors).2.2, sortSlice_perm _ _, ?_⟩
    · show (none : Option File).isSome = true ↔ ErrorList.Err (ErrorList.Sort q.errors) = none
      rw [(herr q.errors).1]
      constructor
      · intro hc
        cases hc
      · intro hc
        rw [hc] at hf
        simp at hf
    · show ((ErrorList.Sort q.errors).length : Int) ≤ 11 + q.scanner.errorCount
      rw [ErrorList.Sort_length]
      exact hq.1.2.2.2.2.2.1
  | outOfFuel => exact h.elim

theorem Parser.body_spec (p : Parser) (h : p.Inv) (r : Res (List Stmt))
    (hr : r.Sat p (fun _ _ => True)) :
    (if ErrorList.Len p.errors > 0 then Res.ok none p
      else r.bind fun stmts q =>
        if ErrorList.Len q.errors > 0 then Res.ok none q
        else Res.ok (some (⟨q.file, stmts⟩ : File)) q).Sat p
      (fun file q => file.isSome = true ↔ q.errors = []) := by
  have hlen : ∀ q : Parser, ErrorList.Len q.errors > 0 ↔ q.errors ≠ [] := by
    intro q
    unfold ErrorList.Len
    constructor
    · intro h1 hc
      rw [hc] at h1
      simp at h1
    · intro h1
      have := List.length_pos.mpr h1
      omega
  by_cases h1 : ErrorList.Len p.errors > 0
  · rw [if_pos h1]
    refine ⟨Parser.Ext.base h, ?_⟩
    constructor
    · intro hc
      cases hc
    · intro hc
      exact absurd hc ((hlen p).mp h1)
  · rw [if_neg h1]
    refine hr.bind ?_
    intro stmts q hq _
    by_cases h2 : ErrorList.Len q.errors > 0
    · rw [if_pos h2]
      refine ⟨hq, ?_⟩
      constructor
      · intro hc
        cases hc
      · intro hc
        exact absurd hc ((hlen q).mp h2)
    · rw [if_neg h2]
      refine ⟨hq, ?_⟩
      constructor
      · intro _
        by_contra hc
        exact h2 ((hlen q).mpr hc)
      · intro _
        rfl

theorem Parser.deferred_good (p : Parser) (r : Res (Option File))
    (h : r.Sat p (fun file q => file.isSome = true ↔ q.errors = [])) :
    ∃ res, Parser.deferred r = some res ∧ res.Good := by
  obtain ⟨res, h1, h2, h3, h4, _, h6⟩ := Parser.deferred_spec p r h
  refine ⟨res, h1, h2, h3, h4, h6, ?_, ?_⟩
  · cases r with
    | ok file q =>
      injection h1 with e
      subst e
      show q.scanner.errorCount ≤ ((ErrorList.Sort q.errors).length : Int)
      rw [ErrorList.Sort_length]
      exact h.1.1.2.2.2.2.2.2
    | bailout q =>
      injection h1 with e
      subst e
      show q.scanner.errorCount ≤ ((ErrorList.Sort q.errors).length : Int)
      rw [ErrorList.Sort_length]
      exact h.1.1.2.2.2.2.2.2
    | outOfFuel => exact h.elim
  · cases r with
    | ok file q =>
      injection h1 with e
      subst e
      exact h.1.1.2.2.2.2.1
    | bailout q =>
      injection h1 with e
      subst e
      exact h.1.1.2.2.2.2.1
    | outOfFuel => exact h.elim

/-- Method `ParseFile` returns. -/
theorem Parser.ParseFile_spec (U : Unicode) (p : Parser) (h : p.Inv) :
    ∃ res, p.ParseFile U = some res ∧ res.Good := by
  unfold Parser.ParseFile
  exact Parser.deferred_good p _ (Parser.body_spec p h _
    (Parser.parseStmtList_spec U p.fuel p.fuel [] p h (Parser.fuel_covers p).1
      (Parser.fuel_covers p).2))

/-- Method `ParseFileC` returns. -/
theorem Parser.ParseFileC_spec (U : Unicode) (c : Int) (p : Parser) (h : p.Inv) :
    ∃ res, p.ParseFileC U c = some res ∧ res.Good := by
  unfold Parser.ParseFileC
  exact Parser.deferred_good p _ (Parser.body_spec p h _
    (Parser.parseStmtListCount_spec U p.fuel c p.fuel 0 [] p h (Parser.fuel_covers p).1
      (Parser.fuel_covers p).2))

theorem AddFile_size (n : Nat) : (AddFile n).Size = n := rfl

/-- Parsing a source returns. -/
theorem parseSource_spec (U : Unicode) (src : List Nat) :
    ∃ res, parseSource U src = some res ∧ res.Good := by
  obtain ⟨p, h1, h2, _⟩ := NewParser_spec U (AddFile src.length) src (AddFile_size _)
  unfold parseSource
  rw [h1]
  exact Parser.ParseFile_spec U p h2

theorem parseSourceC_spec (U : Unicode) (src : List Nat) (c : Int) :
    ∃ res, parseSourceC U src c = some res ∧ res.Good := by
  obtain ⟨p, h1, h2, _⟩ := NewParser_spec U (AddFile src.length) src (AddFile_size _)
  unfold parseSourceC
  rw [h1]
  exact Parser.ParseFileC_spec U c p h2

end parser

/-! ### A bounded number of statements -/

namespace parser

theorem Parser.parseStmtList_prefix (U : Unicode) (n : Nat) : ∀ (fuel : Nat) (list : List Stmt)
    (p : Parser) (L : List Stmt) (pf : Parser),
    Parser.parseStmtList U n fuel list p = .ok L pf → list <+: L := by
  intro fuel
  induction fuel with
  | zero =>
    intro list p L pf h
    rw [Parser.parseStmtList] at h
    cases h
  | succ fuel ih =>
    intro list p L pf h
    rw [Parser.parseStmtList] at h
    by_cases h1 : p.token ≠ token.RBrace ∧ p.token ≠ token.EOF
    · rw [if_pos h1] at h
      cases hs : Parser.parseStmt U n p with
      | ok s q =>
        rw [hs] at h
        have := ih _ q L pf h
        exact (List.prefix_append list [s]).trans this
      | bailout q => rw [hs] at h; cases h
      | outOfFuel => rw [hs] at h; cases h
    · rw [if_neg h1] at h
      injection h with e1 e2
      rw [e1]

theorem Parser.parseStmtListCount_length (U : Unicode) (n : Nat) (c : Int) : ∀ (fuel : Nat)
    (k : Int) (list : List Stmt) (p : Parser) (L : List Stmt) (pc : Parser),
    Parser.parseStmtListCount U n c fuel k list p = .ok L pc →
    L.length ≤ list.length + (c - k).toNat := by
  intro fuel
  induction fuel with
  | zero =>
    intro k list p L pc h
    rw [Parser.parseStmtListCount] at h
    cases h
  | succ fuel ih =>
    intro k list p L pc h
    rw [Parser.parseStmtListCount] at h
    by_cases h1 : k < c ∧ p.token ≠ token.RBrace ∧ p.token ≠ token.EOF
    · rw [if_pos h1] at h
      cases hs : Parser.parseStmt U n p with
      | ok s q =>
        rw [hs] at h
        have := ih _ _ q L pc h
        rw [List.length_append, List.length_singleton] at this
        omega
      | bailout q => rw [hs] at h; cases h
      | outOfFuel => rw [hs] at h; cases h
    · rw [if_neg h1] at h
      injection h with e1 e2
      rw [e1]
      omega

/-- The loop of `parseStmtListCount` makes the first rounds of the loop of
`parseStmtList`: it returns the statements so far and the next `c - k` statements, in a
state whose errors are among those of the whole run. -/
theorem Parser.parseStmtListCount_take (U : Unicode) (n : Nat) (c : Int) : ∀ (fuel : Nat)
    (k : Int) (list : List Stmt) (p : Parser), p.Inv → 4 * p.mu + 3 ≤ n → p.mu + 1 ≤ fuel →
    ∀ (L : List Stmt) (pf : Parser), Parser.parseStmtList U n fuel list p = .ok L pf →
    ∃ pc, Parser.parseStmtListCount U n c fuel k list p
        = .ok (L.take (list.length + (c - k).toNat)) pc ∧
      pc.errors <+: pf.errors := by
  intro fuel
  induction fuel with
  | zero =>
    intro k list p _ _ hf
    omega
  | succ fuel ih =>
    intro k list p hinv hn hf L pf h
    have hpre := Parser.parseStmtList_prefix U n _ list p L pf h
    have hsat := Parser.parseStmtList_spec U n (fuel + 1) list p hinv hn hf
    rw [h] at hsat
    have htake0 : L.take (list.length + 0) = list := by
      obtain ⟨t, rfl⟩ := hpre
      simp
    rw [Parser.parseStmtList] at h
    rw [Parser.parseStmtListCount]
    by_cases h1 : p.token ≠ token.RBrace ∧ p.token ≠ token.EOF
    · rw [if_pos h1] at h
      by_cases hk : k < c
      · rw [if_pos ⟨hk, h1⟩]
        have hst := Parser.parseStmt_spec U n p hinv hn
        cases hs : Parser.parseStmt U n p with
        | ok s q =>
          rw [hs] at h hst
          have hlt := hst.2 h1.1 h1.2
          obtain ⟨pc, g1, g2⟩ := ih (k + 1) (list ++ [s]) q hst.1.1 (by omega) (by omega) L pf h
          refine ⟨pc, ?_, g2⟩
          simp only [Res.bind]
          rw [g1, List.length_append, List.length_singleton]
          have : list.length + 1 + (c - (k + 1)).toNat = list.length + (c - k).toNat := by omega
          rw [this]
        | bailout q => rw [hs] at h; cases h
        | outOfFuel => rw [hs] at h; cases h
      · rw [if_neg (fun hc => hk hc.1)]
        refine ⟨p, ?_, hsat.1.2.2.1⟩
        have : (c - k).toNat = 0 := by omega
        rw [this, htake0]
    · rw [if_neg h1] at h
      rw [if_neg (fun hc => h1 hc.2)]
      injection h with e1 e2
      subst e1 e2
      refine ⟨p, ?_, List.prefix_refl _⟩
      rw [List.take_of_length_le (by omega)]

/-- Function `ParseFileC` after `ParseFile`: when `ParseFile` returns a file,
`ParseFileC` returns the file with the first statements. -/
theorem Parser.ParseFileC_take (U : Unicode) (c : Int) (p : Parser) (hinv : p.Inv)
    (res : Parsed) (f : File) (h : p.ParseFile U = some res) (hf : res.file = some f) :
    ∃ resC fC, p.ParseFileC U c = some resC ∧ resC.file = some fC ∧ resC.err = none ∧
      fC.Stmts = f.Stmts.take c.toNat := by
  unfold Parser.ParseFile at h
  unfold Parser.ParseFileC
  by_cases h0 : ErrorList.Len p.errors > 0
  · rw [if_pos h0] at h
    injection h with e
    subst e
    cases hf
  · rw [if_neg h0] at h
    rw [if_neg h0]
    cases hl : Parser.parseStmtList U p.fuel p.fuel [] p with
    | ok L pf =>
      rw [hl] at h
      simp only [Res.bind] at h
      by_cases h1 : ErrorList.Len pf.errors > 0
      · rw [if_pos h1] at h
        injection h with e
        subst e
        cases hf
      · rw [if_neg h1] at h
        injection h with e
        subst e
        injection hf with e
        subst e
        obtain ⟨pc, g1, g2⟩ := Parser.parseStmtListCount_take U p.fuel c p.fuel 0 [] p hinv
          (Parser.fuel_covers p).1 (Parser.fuel_covers p).2 L pf hl
        have hpf : pf.errors = [] := by
          unfold ErrorList.Len at h1
          exact List.length_eq_zero.mp (by omega)
        have hpc : pc.errors = [] := by
          rw [hpf] at g2
          exact List.prefix_nil.mp g2
        rw [g1]
        simp only [Res.bind]
        have h2 : ¬ ErrorList.Len pc.errors > 0 := by
          rw [hpc]
          simp [ErrorList.Len]
        rw [if_neg h2]
        refine ⟨_, _, rfl, rfl, ?_, ?_⟩
        · show ErrorList.Err (ErrorList.Sort pc.errors) = none
          rw [hpc]
          rfl
        · show L.take ([].length + (c - 0).toNat) = L.take c.toNat
          simp
    | bailout q =>
      rw [hl] at h
      injection h with e
      subst e
      cases hf
    | outOfFuel =>
      rw [hl] at h
      cases h

theorem Parser.ParseFileC_length (U : Unicode) (c : Int) (p : Parser) (res : Parsed)
    (f : File) (h : p.ParseFileC U c = some res) (hf : res.file = some f) :
    (f.Stmts.length : Int) ≤ max c 0 := by
  unfold Parser.ParseFileC at h
  by_cases h0 : ErrorList.Len p.errors > 0
  · rw [if_pos h0] at h
    injection h with e
    subst e
    cases hf
  · rw [if_neg h0] at h
    cases hl : Parser.parseStmtListCount U p.fuel c p.fuel 0 [] p with
    | ok L pc =>
      rw [hl] at h
      simp only [Res.bind] at h
      by_cases h1 : ErrorList.Len pc.errors > 0
      · rw [if_pos h1] at h
        injection h with e
        subst e
        cases hf
      · rw [if_neg h1] at h
        injection h with e
        subst e
        injection hf with e
        subst e
        have := Parser.parseStmtListCount_length U p.fuel c p.fuel 0 [] p L pc hl
        show (L.length : Int) ≤ max c 0
        simp only [List.length_nil, zero_add, sub_zero] at this
        omega
    | bailout q =>
      rw [hl] at h
      injection h with e
      subst e
      cases hf
    | outOfFuel =>
      rw [hl] at h
      cases h

end parser

/-! ### Operands -/

theorem parseOperand_lbrace (U : Unicode) (fuel : Nat) (p : parser.Parser)
    (h : p.token = token.LBrace) :
    parser.Parser.parseOperand U (fuel + 1) p
      = (parser.Parser.parseValuesLit U fuel token.LBrace p).bind
          fun v q => .ok (.ValuesLit v) q := by
  rw [parser.Parser.parseOperand, if_neg (by rw [h]; decide), if_neg (by rw [h]; decide),
    if_neg (by rw [h]; decide), if_pos h]

theorem parseOperand_other (U : Unicode) (fuel : Nat) (p : parser.Parser)
    (h : p.token = token.LBrack ∨ p.token = token.LParen) :
    parser.Parser.parseOperand U (fuel + 1) p
      = (parser.Parser.errorExpected p.pos "operand" p).bind fun _ q =>
          (parser.Parser.advance U (fuel + 1) q).bind fun _ q1 =>
            .ok (.BadExpr p.pos q1.pos) q1 := by
  rw [parser.Parser.parseOperand]
  rcases h with h | h <;>
    rw [if_neg (by rw [h]; decide), if_neg (by rw [h]; decide), if_neg (by rw [h]; decide),
      if_neg (by rw [h]; decide)]

theorem parseValuesLit_braceOpen (U : Unicode) (fuel : Nat) (tokOpen : Token)
    (p : parser.Parser) (v : parser.ValuesLit) (q : parser.Parser)
    (h : parser.Parser.parseValuesLit U fuel tokOpen p = .ok v q) : v.BraceOpen = tokOpen := by
  cases fuel with
  | zero => rw [parser.Parser.parseValuesLit] at h; cases h
  | succ fuel =>
    rw [parser.Parser.parseValuesLit] at h
    cases h1 : parser.Parser.expect U tokOpen p with
    | ok a q1 =>
      rw [h1] at h
      simp only [parser.Res.bind] at h
      cases h2 : parser.Parser.parseValuesLitLoop U fuel tokOpen []
          { q1 with exprLevel := q1.exprLevel + 1 } with
      | ok els q2 =>
        rw [h2] at h
        simp only at h
        cases h3 : parser.Parser.expect U (tokOpen + 1)
            { q2 with exprLevel := q2.exprLevel - 1 } with
        | ok b q3 =>
          rw [h3] at h
          simp only at h
          injection h with e1 e2
          rw [← e1]
          rfl
        | bailout q3 => rw [h3] at h; cases h
        | outOfFuel => rw [h3] at h; cases h
      | bailout q2 => rw [h2] at h; cases h
      | outOfFuel => rw [h2] at h; cases h
    | bailout q1 => rw [h1] at h; cases h
    | outOfFuel => rw [h1] at h; cases h

/-- A result that passes a test is a returned value that passes it. -/
theorem Res.ok_of_test {α : Type} (r : parser.Res α) (c : α → parser.Parser → Bool)
    (h : (match r with
      | .ok a q => c a q
      | _ => false) = true) : ∃ a q, r = .ok a q ∧ c a q = true := by
  cases r with
  | ok a q => exact ⟨a, q, rfl, h⟩
  | bailout q => cases h
  | outOfFuel => cases h

/-! ### Numbers -/

namespace parser

theorem bytesString_cons (b : Nat) (bs : List Nat) :
    bytesString (b :: bs) = String.singleton (Char.ofNat b) ++ bytesString bs := by
  unfold bytesString
  rfl

theorem sourceText_cons (src : List Nat) (i j : Nat) (b : Nat) (h : src[i]? = some b)
    (hj : i + 1 ≤ j) :
    sourceText src i j = String.singleton (Char.ofNat b) ++ sourceText src (i + 1) j := by
  unfold sourceText
  have hlt : i < src.length := by
    by_contra hc
    rw [List.getElem?_eq_none (by omega)] at h
    cases h
  have hb : src[i] = b := by
    rw [List.getElem?_eq_getElem hlt] at h
    injection h
  have : j - i = (j - (i + 1)) + 1 := by omega
  rw [List.drop_eq_getElem_cons hlt, this, List.take_succ_cons, bytesString_cons, hb]

theorem Scanner.next_offset (U : Unicode) (s : Scanner) (h : s.WF) :
    s.offset ≤ (s.next U).offset ∧ (s.next U).src = s.src ∧
    (0 ≤ s.ch → s.ch < 128 → (s.next U).offset = s.offset + 1) := by
  obtain ⟨_, n2, _, _, n5, _⟩ := Scanner.next_facts U s h.2.2.1
  have h3 := h.2.2.1
  have h5 := h.2.2.2.2.1
  refine ⟨by omega, n2.1, fun h0 h1 => ?_⟩
  have := h.2.1 h0 h1
  omega

theorem Scanner.DigitRun.run_facts {U : Unicode} {s t : Scanner} (h : Scanner.DigitRun U s t)
    (hwf : s.WF) : t.WF ∧ s.offset ≤ t.offset ∧ t.src = s.src ∧ isDigit U t.ch = false := by
  induction h with
  | stop s hd => exact ⟨hwf, le_refl _, rfl, hd⟩
  | step s t hd _ ih =>
    obtain ⟨a1, a2, a3, a4⟩ := ih (Scanner.next_ext U s hwf).1
    obtain ⟨b1, b2, _⟩ := Scanner.next_offset U s hwf
    exact ⟨a1, le_trans b1 a2, a3.trans b2, a4⟩

theorem Scanner.scanDigits_run (U : Unicode) : ∀ (fuel : Nat) (s t : Scanner),
    Scanner.scanDigits U fuel s = some t → Scanner.DigitRun U s t := by
  intro fuel
  induction fuel with
  | zero =>
    intro s t h
    rw [Scanner.scanDigits] at h
    cases h
  | succ fuel ih =>
    intro s t h
    rw [Scanner.scanDigits] at h
    by_cases hd : isDigit U s.ch = true
    · rw [if_pos hd] at h
      exact .step s t hd (ih _ _ h)
    · rw [if_neg hd] at h
      injection h with e
      subst e
      exact .stop s (by simpa using hd)

theorem Scanner.scanNumber_run (U : Unicode) (fuel : Nat) (a t : Scanner) (l : String)
    (h : Scanner.scanNumber U fuel a = some (l, t)) :
    Scanner.NumberRun U a t ∧ l = sourceText t.src a.offset t.offset := by
  unfold Scanner.scanNumber at h
  dsimp only at h
  cases h1 : Scanner.scanDigits U fuel a with
  | none => rw [h1] at h; cases h
  | some m =>
    rw [h1] at h
    dsimp only at h
    have hm := Scanner.scanDigits_run U fuel a m h1
    by_cases hc : m.ch = 46
    · rw [if_pos hc] at h
      cases h2 : Scanner.scanDigits U fuel (m.next U) with
      | none => rw [h2] at h; cases h
      | some t1 =>
        rw [h2] at h
        dsimp only at h
        injection h with e
        injection e with e1 e2
        subst e2
        exact ⟨⟨m, hm, Or.inr ⟨hc, Scanner.scanDigits_run U fuel _ _ h2⟩⟩, e1.symm⟩
    · rw [if_neg hc] at h
      dsimp only at h
      injection h with e
      injection e with e1 e2
      subst e2
      exact ⟨⟨m, hm, Or.inl ⟨hc, rfl⟩⟩, e1.symm⟩

theorem Scanner.NumberRun.number_facts {U : Unicode} {a t : Scanner} (h : Scanner.NumberRun U a t)
    (hwf : a.WF) : t.WF ∧ a.offset ≤ t.offset ∧ t.src = a.src := by
  obtain ⟨m, h1, h2⟩ := h
  obtain ⟨m1, m2, m3, _⟩ := h1.run_facts hwf
  rcases h2 with ⟨_, e⟩ | ⟨_, h3⟩
  · subst e
    exact ⟨m1, m2, m3⟩
  · obtain ⟨b1, b2, _⟩ := Scanner.next_offset U m m1
    obtain ⟨c1, c2, c3, _⟩ := h3.run_facts (Scanner.next_ext U m m1).1
    exact ⟨c1, by omega, c3.trans (b2.trans m3)⟩

theorem ScanStep.done_inj {tok tok1 : Token} {lit lit1 : String} {pos pos1 : Pos}
    {t t1 : Scanner} (h : some (ScanStep.done tok lit pos t) = some (.done tok1 lit1 pos1 t1)) :
    tok = tok1 ∧ lit = lit1 ∧ pos = pos1 ∧ t = t1 := by
  injection h with h
  injection h with h1 h2 h3 h4
  exact ⟨h1, h2, h3, h4⟩

theorem ScanStep.comment_ne (r : Option (String × Scanner)) (pos pos1 : Pos)
    (lit : String) (t : Scanner)
    (h : (match r with
      | none => none
      | some (comment, s) =>
        if s.mode &&& ScanComments = 0 then some (ScanStep.again { s with insertSemi := false })
        else some (ScanStep.done token.Comment comment pos1
          (if s.mode &&& DontInsertSemis = 0 then { s with insertSemi := false } else s)))
      = some (.done token.Number lit pos t)) : False := by
  cases r with
  | none => cases h
  | some r =>
    obtain ⟨c, u⟩ := r
    dsimp only at h
    by_cases hm : u.mode &&& ScanComments = 0
    · rw [if_pos hm] at h
      injection h with h
      cases h
    · rw [if_neg hm] at h
      exact absurd (ScanStep.done_inj h).1 (by decide)

theorem Scanner.OnRune.moved {U : Unicode} {s t : Scanner} (h : s.OnRune U)
    (h1 : t.src = s.src) (h2 : t.ch = s.ch) (h3 : t.offset = s.offset)
    (h4 : t.readOffset = s.readOffset) : t.OnRune U := by
  unfold Scanner.OnRune at h ⊢
  rw [h1, h2, h3, h4]
  exact h

theorem Scanner.OnRune.afterError {U : Unicode} {s : Scanner} (h : s.OnRune U) (offset : Nat)
    (msg : String) : (s.error offset msg).OnRune U := by
  obtain ⟨e1, e2, e3, e4, _, _⟩ := Scanner.error_frame s offset msg
  exact h.moved e1.1 e2 e3 e4

theorem Scanner.OnRune.withFlag {U : Unicode} {s : Scanner} (h : s.OnRune U) (b : Bool) :
    (if s.mode &&& DontInsertSemis = 0 then ({ s with insertSemi := b } : Scanner)
      else s).OnRune U := by
  split_ifs
  · exact h.moved rfl rfl rfl rfl
  · exact h

/-- The scanner that `next` leaves is on a rune. -/
theorem Scanner.next_onRune (U : Unicode) (s : Scanner) (h0 : s.readOffset ≤ s.src.length) :
    (s.next U).OnRune U := by
  unfold Scanner.next
  by_cases h1 : s.readOffset < s.src.length
  · rw [if_pos h1]
    obtain ⟨f1, f2, f3, f4, f5⟩ :=
      Scanner.addLine_facts ({ s with offset := s.readOffset } : Scanner)
    dsimp only at f1 f2 f3 f4 f5 ⊢
    generalize ({ s with offset := s.readOffset } : Scanner).addLine = t at f1 f2 f3 f4 f5 ⊢
    have hsrc : t.src = s.src := f1.1
    have hlt : t.readOffset < t.src.length := by rw [f4, hsrc]; exact h1
    have key : ∀ (u : Scanner), u.src = t.src → u.offset = t.offset →
        ({ u with readOffset := t.readOffset + (runeAt U t.src t.readOffset).2,
                  ch := (runeAt U t.src t.readOffset).1 } : Scanner).OnRune U := by
      intro u hu1 hu2
      unfold Scanner.OnRune
      show (runeAt U t.src t.readOffset).1 = (runeAt U u.src u.offset).1 ∧
        t.readOffset + (runeAt U t.src t.readOffset).2
          = u.offset + (runeAt U u.src u.offset).2
      rw [hu1, hu2, f3, f4]
      exact ⟨rfl, rfl⟩
    by_cases hr0 : ((t.src.getD t.readOffset 0 : Nat) : Int) = 0
    · rw [if_pos hr0]
      have hz : t.src.getD t.readOffset 0 = 0 := by exact_mod_cast hr0
      have hra : runeAt U t.src t.readOffset = (((t.src.getD t.readOffset 0 : Nat) : Int), 1) := by
        unfold runeAt
        rw [if_pos hlt, if_pos (by rw [hz]; decide)]
      obtain ⟨e1, e2, e3, e4, e5, _⟩ := Scanner.error_frame t t.offset "illegal character NUL"
      have := key (t.error t.offset "illegal character NUL") e1.1 e3
      rw [hra] at this
      exact this
    rw [if_neg hr0]
    by_cases hr1 : ((t.src.getD t.readOffset 0 : Nat) : Int) ≥ 0x80
    · rw [if_pos hr1]
      have hge : ¬ t.src.getD t.readOffset 0 < 128 := by
        intro hc
        have : ((t.src.getD t.readOffset 0 : Nat) : Int) < 128 := by exact_mod_cast hc
        omega
      have hra : runeAt U t.src t.readOffset = U.decodeRune (t.src.drop t.readOffset) := by
        unfold runeAt
        rw [if_pos hlt, if_neg hge]
      have hk : ∀ u : Scanner, u.src = t.src → u.offset = t.offset →
          ({ u with readOffset := t.readOffset + (U.decodeRune (t.src.drop t.readOffset)).2,
                    ch := (U.decodeRune (t.src.drop t.readOffset)).1 } : Scanner).OnRune U := by
        intro u hu1 hu2
        have := key u hu1 hu2
        rw [hra] at this
        exact this
      split_ifs
      · obtain ⟨e1, e2, e3, e4, e5, _⟩ := Scanner.error_frame t t.offset "illegal UTF-8 encoding"
        exact hk _ e1.1 e3
      · obtain ⟨e1, e2, e3, e4, e5, _⟩ := Scanner.error_frame t t.offset "illegal byte order mark"
        exact hk _ e1.1 e3
      · exact hk _ rfl rfl
    rw [if_neg hr1]
    have hlt2 : t.src.getD t.readOffset 0 < 128 := by
      by_contra hc
      have : (128 : Int) ≤ ((t.src.getD t.readOffset 0 : Nat) : Int) := by
        exact_mod_cast Nat.le_of_not_lt hc
      omega
    have hra : runeAt U t.src t.readOffset = (((t.src.getD t.readOffset 0 : Nat) : Int), 1) := by
      unfold runeAt
      rw [if_pos hlt, if_pos hlt2]
    have := key t rfl rfl
    rw [hra] at this
    exact this
  · rw [if_neg h1]
    obtain ⟨f1, f2, f3, f4, f5⟩ :=
      Scanner.addLine_facts ({ s with offset := s.src.length } : Scanner)
    dsimp only at f1 f2 f3 f4 f5 ⊢
    generalize ({ s with offset := s.src.length } : Scanner).addLine = t at f1 f2 f3 f4 f5 ⊢
    have hsrc : t.src = s.src := f1.1
    unfold Scanner.OnRune
    show (-1 : Int) = (runeAt U t.src t.offset).1 ∧
      t.readOffset = t.offset + (runeAt U t.src t.offset).2
    have hra : runeAt U t.src t.offset = (-1, 0) := by
      unfold runeAt
      rw [if_neg (by rw [f3, hsrc]; omega)]
    rw [hra, f3, f4]
    exact ⟨rfl, by show s.readOffset = s.src.length + 0; omega⟩

theorem Scanner.next_rune (U : Unicode) (s : Scanner) (h : s.WF) : (s.next U).OnRune U :=
  Scanner.next_onRune U s h.2.2.1


theorem Scanner.skipWhitespace_rune (U : Unicode) : ∀ (fuel : Nat) (s t : Scanner), s.WF →
    s.OnRune U → Scanner.skipWhitespace U fuel s = some t → t.OnRune U := by
  intro fuel
  induction fuel with
  | zero => intro s t _ _ h; rw [Scanner.skipWhitespace] at h; cases h
  | succ fuel ih =>
    intro s t hwf hon h
    rw [Scanner.skipWhitespace] at h
    split_ifs at h
    · exact ih _ _ (Scanner.next_ext U s hwf).1 (Scanner.next_rune U s hwf) h
    · injection h with e
      rw [← e]
      exact hon

theorem Scanner.scanIdentifierLoop_rune (U : Unicode) : ∀ (fuel : Nat) (s t : Scanner), s.WF →
    s.OnRune U → Scanner.scanIdentifierLoop U fuel s = some t → t.OnRune U := by
  intro fuel
  induction fuel with
  | zero => intro s t _ _ h; rw [Scanner.scanIdentifierLoop] at h; cases h
  | succ fuel ih =>
    intro s t hwf hon h
    rw [Scanner.scanIdentifierLoop] at h
    split_ifs at h
    · exact ih _ _ (Scanner.next_ext U s hwf).1 (Scanner.next_rune U s hwf) h
    · injection h with e
      rw [← e]
      exact hon

theorem Scanner.scanDigits_rune (U : Unicode) : ∀ (fuel : Nat) (s t : Scanner), s.WF →
    s.OnRune U → Scanner.scanDigits U fuel s = some t → t.OnRune U := by
  intro fuel
  induction fuel with
  | zero => intro s t _ _ h; rw [Scanner.scanDigits] at h; cases h
  | succ fuel ih =>
    intro s t hwf hon h
    rw [Scanner.scanDigits] at h
    split_ifs at h
    · exact ih _ _ (Scanner.next_ext U s hwf).1 (Scanner.next_rune U s hwf) h
    · injection h with e
      rw [← e]
      exact hon

theorem Scanner.scanIdentifier_rune (U : Unicode) (fuel : Nat) (s : Scanner)
    (r : String × Scanner) (hwf : s.WF) (hon : s.OnRune U)
    (h : Scanner.scanIdentifier U fuel s = some r) : r.2.OnRune U := by
  unfold Scanner.scanIdentifier at h
  dsimp only at h
  cases h1 : Scanner.scanIdentifierLoop U fuel s with
  | none => rw [h1] at h; cases h
  | some t =>
    rw [h1] at h
    injection h with e
    rw [← e]
    exact Scanner.scanIdentifierLoop_rune U fuel s t hwf hon h1

theorem Scanner.scanDigits_wf (U : Unicode) : ∀ (fuel : Nat) (s t : Scanner), s.WF →
    Scanner.scanDigits U fuel s = some t → t.WF := by
  intro fuel
  induction fuel with
  | zero => intro s t _ h; rw [Scanner.scanDigits] at h; cases h
  | succ fuel ih =>
    intro s t hwf h
    rw [Scanner.scanDigits] at h
    split_ifs at h
    · exact ih _ _ (Scanner.next_ext U s hwf).1 h
    · injection h with e
      rw [← e]
      exact hwf

theorem Scanner.scanNumber_rune (U : Unicode) (fuel : Nat) (s : Scanner)
    (r : String × Scanner) (hwf : s.WF) (hon : s.OnRune U)
    (h : Scanner.scanNumber U fuel s = some r) : r.2.OnRune U := by
  unfold Scanner.scanNumber at h
  dsimp only at h
  cases h1 : Scanner.scanDigits U fuel s with
  | none => rw [h1] at h; cases h
  | some m =>
    rw [h1] at h
    dsimp only at h
    have hm := Scanner.scanDigits_rune U fuel s m hwf hon h1
    have hmw := Scanner.scanDigits_wf U fuel s m hwf h1
    by_cases hc : m.ch = 46
    · rw [if_pos hc] at h
      cases h2 : Scanner.scanDigits U fuel (m.next U) with
      | none => rw [h2] at h; cases h
      | some t =>
        rw [h2] at h
        injection h with e
        rw [← e]
        exact Scanner.scanDigits_rune U fuel _ t (Scanner.next_ext U m hmw).1
          (Scanner.next_rune U m hmw) h2
    · rw [if_neg hc] at h
      injection h with e
      rw [← e]
      exact hm

theorem Scanner.scanEscapeDigits_rune (U : Unicode) (base : Int) : ∀ (n : Nat) (x : Int)
    (s : Scanner), s.WF → s.OnRune U → (Scanner.scanEscapeDigits U base n x s).1.OnRune U := by
  intro n
  induction n with
  | zero => intro x s _ hon; rw [Scanner.scanEscapeDigits]; exact hon
  | succ n ih =>
    intro x s hwf hon
    rw [Scanner.scanEscapeDigits]
    dsimp only
    by_cases hd : digitVal s.ch ≥ base
    · rw [if_pos hd]
      exact hon.afterError _ _
    · rw [if_neg hd]
      exact ih _ _ (Scanner.next_ext U s hwf).1 (Scanner.next_rune U s hwf)

theorem Scanner.scanEscape_rune (U : Unicode) (quote : Int) (s : Scanner) (hwf : s.WF)
    (hon : s.OnRune U) : (Scanner.scanEscape U quote s).2.OnRune U := by
  have hnx := (Scanner.next_ext U s hwf).1
  have hnr := Scanner.next_rune U s hwf
  have hd : ∀ (n : Nat) (base max : Int) (u : Scanner), u.WF → u.OnRune U →
      (match Scanner.scanEscapeDigits U base n 0 u with
        | (s1, false, _) => (false, s1)
        | (s1, true, x) =>
          if x > max ∨ (0xD800 ≤ x ∧ x < 0xE000) then
            (false, s1.error s.offset "escape sequence is invalid Unicode code point")
          else (true, s1)).2.OnRune U := by
    intro n base max u hu1 hu2
    have h := Scanner.scanEscapeDigits_rune U base n 0 u hu1 hu2
    generalize Scanner.scanEscapeDigits U base n 0 u = r at h
    obtain ⟨s1, b, x⟩ := r
    cases b with
    | false => exact h
    | true =>
      dsimp only
      split_ifs
      · exact Scanner.OnRune.afterError h _ _
      · exact h
  unfold Scanner.scanEscape
  dsimp only
  split_ifs
  · exact hnr
  · exact hd 3 8 255 s hwf hon
  · exact hd 2 16 255 _ hnx hnr
  · exact hd 4 16 0x10FFFF _ hnx hnr
  · exact hd 8 16 0x10FFFF _ hnx hnr
  · exact hon.afterError _ _
  · exact hon.afterError _ _

theorem Scanner.scanStringLoop_rune (U : Unicode) (chStart : Int) (offs : Nat) :
    ∀ (fuel : Nat) (s t : Scanner), s.WF → s.OnRune U →
      Scanner.scanStringLoop U chStart offs fuel s = some t → t.OnRune U := by
  intro fuel
  induction fuel with
  | zero => intro s t _ _ h; rw [Scanner.scanStringLoop] at h; cases h
  | succ fuel ih =>
    intro s t hwf hon h
    rw [Scanner.scanStringLoop] at h
    dsimp only at h
    have hnx := (Scanner.next_ext U s hwf).1
    have hnr := Scanner.next_rune U s hwf
    split_ifs at h
    · injection h with e
      rw [← e]
      exact hon.afterError _ _
    · injection h with e
      rw [← e]
      exact hnr
    · exact ih _ _ (Scanner.scanEscape_spec U chStart _ hnx).1
        (Scanner.scanEscape_rune U chStart _ hnx hnr) h
    · exact ih _ _ hnx hnr h

theorem Scanner.scanString_rune (U : Unicode) (fuel : Nat) (chStart : Int) (s : Scanner)
    (r : String × Scanner) (hwf : s.WF) (hon : s.OnRune U)
    (h : Scanner.scanString U fuel chStart s = some r) : r.2.OnRune U := by
  unfold Scanner.scanString at h
  dsimp only at h
  cases h1 : Scanner.scanStringLoop U chStart (s.offset - 1) fuel s with
  | none => rw [h1] at h; cases h
  | some t =>
    rw [h1] at h
    injection h with e
    rw [← e]
    exact Scanner.scanStringLoop_rune U chStart _ fuel s t hwf hon h1

theorem Scanner.scanLineComment_rune (U : Unicode) : ∀ (fuel numCR : Nat) (s : Scanner)
    (r : Nat × Scanner), s.WF → s.OnRune U →
    Scanner.scanLineComment U fuel numCR s = some r → r.2.OnRune U := by
  intro fuel
  induction fuel with
  | zero => intro _ s r _ _ h; rw [Scanner.scanLineComment] at h; cases h
  | succ fuel ih =>
    intro numCR s r hwf hon h
    rw [Scanner.scanLineComment] at h
    by_cases hc : s.ch ≠ 10 ∧ s.ch ≥ 0
    · rw [if_pos hc] at h
      exact ih _ _ _ (Scanner.next_ext U s hwf).1 (Scanner.next_rune U s hwf) h
    · rw [if_neg hc] at h
      injection h with e
      rw [← e]
      exact hon

theorem Scanner.scanBlockComment_rune (U : Unicode) : ∀ (fuel numCR : Nat) (s : Scanner)
    (r : Nat × Bool × Scanner), s.WF → s.OnRune U →
    Scanner.scanBlockComment U fuel numCR s = some r → r.2.2.OnRune U := by
  intro fuel
  induction fuel with
  | zero => intro _ s r _ _ h; rw [Scanner.scanBlockComment] at h; cases h
  | succ fuel ih =>
    intro numCR s r hwf hon h
    rw [Scanner.scanBlockComment] at h
    have hnx := (Scanner.next_ext U s hwf).1
    have hnr := Scanner.next_rune U s hwf
    by_cases hc : s.ch ≥ 0
    · rw [if_pos hc] at h
      dsimp only at h
      by_cases hs : s.ch = 42 ∧ (s.next U).ch = 47
      · rw [if_pos hs] at h
        injection h with e
        rw [← e]
        exact Scanner.next_rune U _ hnx
      · rw [if_neg hs] at h
        exact ih _ _ _ hnx hnr h
    · rw [if_neg hc] at h
      injection h with e
      rw [← e]
      exact hon

theorem Scanner.scanComment_rune (U : Unicode) (fuel : Nat) (s : Scanner)
    (r : String × Scanner) (hwf : s.WF)
    (h : Scanner.scanComment U fuel s = some r) : r.2.OnRune U := by
  have hnx := (Scanner.next_ext U s hwf).1
  have hnr := Scanner.next_rune U s hwf
  unfold Scanner.scanComment at h
  dsimp only at h
  by_cases hc : s.ch = 47
  · rw [if_pos hc] at h
    cases h1 : Scanner.scanLineComment U fuel 0 (s.next U) with
    | none => rw [h1] at h; cases h
    | some r1 =>
      rw [h1] at h
      obtain ⟨n, t⟩ := r1
      dsimp only at h
      injection h with e
      rw [← e]
      exact Scanner.scanLineComment_rune U fuel 0 _ _ hnx hnr h1
  · rw [if_neg hc] at h
    cases h1 : Scanner.scanBlockComment U fuel 0 (s.next U) with
    | none => rw [h1] at h; cases h
    | some r1 =>
      rw [h1] at h
      obtain ⟨n, b, t⟩ := r1
      have ht := Scanner.scanBlockComment_rune U fuel 0 _ _ hnx hnr h1
      cases b with
      | true =>
        dsimp only at h
        injection h with e
        rw [← e]
        exact ht
      | false =>
        dsimp only at h
        injection h with e
        rw [← e]
        exact Scanner.OnRune.afterError ht _ _


theorem Scanner.findLineEnd_rune (U : Unicode) (fuel : Nat) (s : Scanner) (r : Bool × Scanner)
    (hwf : s.WF) (hfuel : s.left + 1 ≤ fuel) (ho : 1 ≤ s.offset)
    (hle : s.offset ≤ s.src.length) (h : Scanner.findLineEnd U fuel s = some r) :
    r.2.OnRune U := by
  obtain ⟨r1, g1, g2⟩ := Scanner.findLineEndLoop_spec U fuel s hwf hfuel
  unfold Scanner.findLineEnd at h
  dsimp only at h
  rw [g1] at h
  obtain ⟨b, u⟩ := r1
  dsimp only at h
  injection h with e
  rw [← e]
  apply Scanner.next_onRune
  show s.offset - 1 + 1 ≤ u.src.length
  have : u.src = s.src := g2.2.1.1
  rw [this]
  omega

/-- One pass through the body of `Scan` from a well-formed scanner leaves the scanner on a
rune of the source. -/
theorem Scanner.scanStep_rune (U : Unicode) (s : Scanner) (hwf : s.WF) (hon : s.OnRune U)
    (step : ScanStep) (h : Scanner.scanStep U s = some step) : step.state.OnRune U := by
  obtain ⟨s1, hskip, hs1, hnw⟩ := Scanner.skipWhitespace_spec U (s.src.length + 2) s hwf
    (by have := Scanner.left_le s; omega)
  have hsrc : s1.src = s.src := hs1.2.1.1
  have hon1 : s1.OnRune U := Scanner.skipWhitespace_rune U _ s s1 hwf hon hskip
  have hnx := Scanner.next_ext U s1 hs1.1
  have hnr := Scanner.next_rune U s1 hs1.1
  have hf2 : (s1.next U).left + 1 ≤ s.src.length + 2 := by
    have := Scanner.left_le (s1.next U)
    rw [hnx.2.1.1, hsrc] at this
    omega
  unfold Scanner.scanStep at h
  dsimp only at h
  rw [hskip] at h
  dsimp only at h
  have fin : ∀ (u : Scanner) (tok : Token) (lit : String) (pos : Pos) (b : Bool), u.OnRune U →
      some (ScanStep.done tok lit pos
        (if u.mode &&& DontInsertSemis = 0 then { u with insertSemi := b } else u)) = some step →
      step.state.OnRune U := by
    intro u tok lit pos b hu e
    injection e with e
    rw [← e]
    exact hu.withFlag b
  have com : ∀ (u : Scanner) (pos : Pos), u.WF →
      (match Scanner.scanComment U (s.src.length + 2) u with
        | none => none
        | some (comment, s) =>
          if s.mode &&& ScanComments = 0 then some (ScanStep.again { s with insertSemi := false })
          else some (ScanStep.done token.Comment comment pos
            (if s.mode &&& DontInsertSemis = 0 then { s with insertSemi := false } else s)))
        = some step → step.state.OnRune U := by
    intro u pos hu e
    cases hx : Scanner.scanComment U (s.src.length + 2) u with
    | none => rw [hx] at e; cases e
    | some r =>
      rw [hx] at e
      obtain ⟨c, v⟩ := r
      have hv : v.OnRune U := Scanner.scanComment_rune U _ u (c, v) hu hx
      dsimp only at e
      by_cases hm : v.mode &&& ScanComments = 0
      · rw [if_pos hm] at e
        injection e with e
        rw [← e]
        exact hv.moved rfl rfl rfl rfl
      · rw [if_neg hm] at e
        exact fin _ _ _ _ _ hv e
  by_cases hL : isLetter U s1.ch = true
  · rw [if_pos hL] at h
    cases hx : Scanner.scanIdentifier U (s.src.length + 2) s1 with
    | none => rw [hx] at h; cases h
    | some r =>
      rw [hx] at h
      exact fin _ _ _ _ _ (Scanner.scanIdentifier_rune U _ s1 r hs1.1 hon1 hx) h
  rw [if_neg hL] at h
  by_cases hD : isDigit U s1.ch = true
  · rw [if_pos hD] at h
    cases hx : Scanner.scanNumber U (s.src.length + 2) s1 with
    | none => rw [hx] at h; cases h
    | some r =>
      rw [hx] at h
      exact fin _ _ _ _ _ (Scanner.scanNumber_rune U _ s1 r hs1.1 hon1 hx) h
  rw [if_neg hD] at h
  by_cases hE : s1.ch = -1
  · rw [if_pos hE] at h
    by_cases hI : (s1.next U).insertSemi = true
    · rw [if_pos hI] at h
      injection h with e
      rw [← e]
      exact hnr.moved rfl rfl rfl rfl
    · rw [if_neg hI] at h
      exact fin _ _ _ _ _ hnr h
  rw [if_neg hE] at h
  by_cases hS : s1.ch = 45 ∨ s1.ch = 43
  · rw [if_pos hS] at h
    cases hx : Scanner.scanNumber U (s.src.length + 2) (s1.next U) with
    | none => rw [hx] at h; cases h
    | some r =>
      rw [hx] at h
      exact fin _ _ _ _ _ (Scanner.scanNumber_rune U _ _ r hnx.1 hnr hx) h
  rw [if_neg hS] at h
  by_cases hN : s1.ch = 10
  · rw [if_pos hN] at h
    injection h with e
    rw [← e]
    exact hnr.moved rfl rfl rfl rfl
  rw [if_neg hN] at h
  by_cases hQ : s1.ch = 34 ∨ s1.ch = 39
  · rw [if_pos hQ] at h
    cases hx : Scanner.scanString U (s.src.length + 2) s1.ch (s1.next U) with
    | none => rw [hx] at h; cases h
    | some r =>
      rw [hx] at h
      exact fin _ _ _ _ _ (Scanner.scanString_rune U _ _ _ r hnx.1 hnr hx) h
  rw [if_neg hQ] at h
  by_cases h58 : s1.ch = 58
  · rw [if_pos h58] at h
    exact fin _ _ _ _ _ hnr h
  rw [if_neg h58] at h
  by_cases h44 : s1.ch = 44
  · rw [if_pos h44] at h
    exact fin _ _ _ _ _ hnr h
  rw [if_neg h44] at h
  by_cases h123 : s1.ch = 123
  · rw [if_pos h123] at h
    exact fin _ _ _ _ _ hnr h
  rw [if_neg h123] at h
  by_cases h125 : s1.ch = 125
  · rw [if_pos h125] at h
    exact fin _ _ _ _ _ hnr h
  rw [if_neg h125] at h
  by_cases h91 : s1.ch = 91
  · rw [if_pos h91] at h
    exact fin _ _ _ _ _ hnr h
  rw [if_neg h91] at h
  by_cases h93 : s1.ch = 93
  · rw [if_pos h93] at h
    exact fin _ _ _ _ _ hnr h
  rw [if_neg h93] at h
  by_cases h40 : s1.ch = 40
  · rw [if_pos h40] at h
    exact fin _ _ _ _ _ hnr h
  rw [if_neg h40] at h
  by_cases h41 : s1.ch = 41
  · rw [if_pos h41] at h
    exact fin _ _ _ _ _ hnr h
  rw [if_neg h41] at h
  have hch0 : 0 ≤ s1.ch := by
    have := hs1.1.1
    omega
  by_cases h47 : s1.ch = 47
  · rw [if_pos h47] at h
    by_cases hC : (s1.next U).ch = 47 ∨ (s1.next U).ch = 42
    · rw [if_pos hC] at h
      have hro1 : s1.readOffset = s1.offset + 1 := hs1.1.2.1 hch0 (by omega)
      obtain ⟨_, _, _, _, n5, _, _⟩ := Scanner.next_facts U s1 hs1.1.2.2.1
      have hoff : (s1.next U).offset = s1.offset + 1 := by
        rw [n5, hro1]
        have := hs1.1.2.2.1
        omega
      by_cases hI : (s1.next U).insertSemi = true
      · rw [if_pos hI] at h
        have ho1 : 1 ≤ (s1.next U).offset := by omega
        have ho2 : (s1.next U).offset ≤ (s1.next U).src.length := by
          rw [hoff, hnx.2.1.1]
          have := hs1.1.2.2.1
          omega
        obtain ⟨r, g1, g2, g3, g4, g5⟩ := Scanner.findLineEnd_spec U (s.src.length + 2)
          (s1.next U) hnx.1 hf2 ho1 ho2
        have hr := Scanner.findLineEnd_rune U _ _ r hnx.1 hf2 ho1 ho2 g1
        rw [g1] at h
        obtain ⟨b, t⟩ := r
        have g3' : (s1.next U).Frame t := g3
        cases b with
        | false =>
          dsimp only at h
          exact com t _ g2 h
        | true =>
          dsimp only at h
          have hbase : t.file.Base = s1.file.Base := (hnx.2.1.comp g3').2.2.2.1
          have ho : (t.file.Offset (s1.file.FileSetPos s1.offset)).toNat = s1.offset := by
            unfold SourceFile.Offset SourceFile.FileSetPos
            rw [hbase]
            simp
          rw [ho] at h
          injection h with e
          rw [← e]
          have hts : t.src = s1.src := (hnx.2.1.comp g3').1
          have hget : s1.src[s1.offset]? = some (47 : Int).toNat := by
            rw [← h47]
            exact hs1.1.2.2.2.2.2 hch0 (by omega)
          have hlt : s1.offset < s1.src.length := by
            have := hs1.1.2.2.1
            omega
          have hrune : runeAt U s1.src s1.offset = (47, 1) := by
            unfold runeAt
            rw [if_pos hlt]
            have hg : s1.src.getD s1.offset 0 = 47 := by
              rw [List.getD_eq_getElem?_getD, hget]
              rfl
            rw [hg]
            rfl
          show (47 : Int) = (runeAt U t.src s1.offset).1 ∧
            s1.offset + 1 = s1.offset + (runeAt U t.src s1.offset).2
          rw [hts, hrune]
          exact ⟨rfl, rfl⟩
      · rw [if_neg hI] at h
        exact com _ _ hnx.1 h
    · rw [if_neg hC] at h
      exact fin _ _ _ _ _ hnr h
  · rw [if_neg h47] at h
    by_cases hB : s1.ch ≠ bom
    · rw [if_pos hB] at h
      exact fin _ _ _ _ _ (hnr.afterError _ _) h
    · rw [if_neg hB] at h
      exact fin _ _ _ _ _ hnr h

/-- Method `Scan` from a well-formed scanner on a rune leaves the scanner on a rune. -/
theorem Scanner.Scan_rune (U : Unicode) : ∀ (fuel : Nat) (s : Scanner), s.WF → s.OnRune U →
    ∀ r, Scanner.Scan U fuel s = some r → r.2.2.2.OnRune U := by
  intro fuel
  induction fuel with
  | zero =>
    intro s _ _ r h
    rw [Scanner.Scan] at h
    cases h
  | succ fuel ih =>
    intro s hwf hon r h
    rw [Scanner.Scan] at h
    obtain ⟨step, h1, h2⟩ := Scanner.scanStep_spec U s hwf
    have h3 := Scanner.scanStep_rune U s hwf hon step h1
    rw [h1] at h
    cases step with
    | done tok l p u =>
      dsimp only at h
      injection h with h
      rw [← h]
      exact h3
    | again u =>
      dsimp only at h
      exact ih u h2.1 h3 r h

/-- The scanner that `NewScanner` returns is on a rune, and its file has the base of the
file given. -/
theorem NewScanner_rune (U : Unicode) (file : SourceFile) (src : List Nat) (eh : Bool)
    (errors : ErrorList) (mode : Nat) (s : Scanner)
    (h : NewScanner U file src eh errors mode = some s) :
    s.OnRune U ∧ s.file.Base = file.Base ∧ s.src = src := by
  unfold NewScanner at h
  by_cases hs : file.Size ≠ src.length
  · rw [if_pos hs] at h
    cases h
  rw [if_neg hs] at h
  dsimp only at h
  injection h with h
  have h0 : (⟨file, src, 32, 0, 0, 0, false, eh, errors, 0, mode⟩ : Scanner).readOffset
      ≤ (⟨file, src, 32, 0, 0, 0, false, eh, errors, 0, mode⟩ : Scanner).src.length :=
    Nat.zero_le _
  obtain ⟨a1, a2, _⟩ := Scanner.next_facts U _ h0
  have a3 := Scanner.next_onRune U _ h0
  by_cases hb : ((⟨file, src, 32, 0, 0, 0, false, eh, errors, 0, mode⟩ : Scanner).next U).ch = bom
  · rw [if_pos hb] at h
    rw [← h]
    obtain ⟨b1, b2, _⟩ := Scanner.next_facts U _ a1.2.2.1
    exact ⟨Scanner.next_rune U _ a1, (a2.comp b2).2.2.2.1, (a2.comp b2).1⟩
  · rw [if_neg hb] at h
    rw [← h]
    exact ⟨a3, a2.2.2.2.1, a2.1⟩


theorem runeAt_byte (U : Unicode) (src : List Nat) (i c : Nat) (h : src[i]? = some c)
    (hc : c < 128) : runeAt U src i = ((c : Int), 1) := by
  have hlt : i < src.length := by
    by_contra hn
    rw [List.getElem?_eq_none (by omega)] at h
    cases h
  have hg : src.getD i 0 = c := by
    rw [List.getD_eq_getElem?_getD, h]
    rfl
  unfold runeAt
  rw [if_pos hlt, hg, if_pos hc]

theorem DigitsText.digits_unique {U : Unicode} {src : List Nat} {i j : Nat}
    (h : DigitsText U src i j) : ∀ k, DigitsText U src i k → k = j := by
  induction h with
  | stop i hd =>
    intro k hk
    cases hk with
    | stop _ _ => rfl
    | step _ _ hd2 _ =>
      rw [hd] at hd2
      cases hd2
  | step i j hd _ ih =>
    intro k hk
    cases hk with
    | stop _ hd2 =>
      rw [hd] at hd2
      cases hd2
    | step _ _ _ h2 => exact ih k h2

theorem NumberText.number_unique {U : Unicode} {src : List Nat} {i j : Nat}
    (h : NumberText U src i j) : ∀ k, NumberText U src i k → k = j := by
  intro k hk
  obtain ⟨a, m, h1, h2, h3⟩ := h
  obtain ⟨b, n, g1, g2, g3⟩ := hk
  have hsign : ∀ c : Nat, src[i]? = some c → c < 48 →
      isDigit U (runeAt U src i).1 = true → False := by
    intro c hc hlt hd
    rw [runeAt_byte U src i c hc (by omega)] at hd
    unfold isDigit at hd
    simp only [Bool.or_eq_true, Bool.and_eq_true, decide_eq_true_eq] at hd
    rcases hd with hd | hd <;> omega
  have hab : b = a := by
    rcases h1 with ⟨d1, e1⟩ | ⟨d1, e1⟩ <;> rcases g1 with ⟨d2, e2⟩ | ⟨d2, e2⟩
    · rw [e1, e2]
    · rcases d2 with d2 | d2
      · exact (hsign 45 d2 (by omega) d1).elim
      · exact (hsign 43 d2 (by omega) d1).elim
    · rcases d1 with d1 | d1
      · exact (hsign 45 d1 (by omega) d2).elim
      · exact (hsign 43 d1 (by omega) d2).elim
    · rw [e1, e2]
  rw [hab] at g2
  have hnm : n = m := h2.digits_unique n g2
  rw [hnm] at g3
  rcases h3 with ⟨d1, e1⟩ | ⟨d1, e1⟩ <;> rcases g3 with ⟨d2, e2⟩ | ⟨d2, e2⟩
  · rw [e1, e2]
  · exact absurd d2 d1
  · exact absurd d1 d2
  · exact e1.digits_unique k e2

theorem Scanner.DigitRun.digitsText {U : Unicode} {s t : Scanner} (h : Scanner.DigitRun U s t)
    (hwf : s.WF) (hon : s.OnRune U) :
    DigitsText U s.src s.offset t.offset ∧ t.OnRune U ∧ t.WF ∧ t.src = s.src := by
  induction h with
  | stop s hd =>
    refine ⟨.stop _ ?_, hon, hwf, rfl⟩
    rw [← hon.1]
    exact hd
  | step s t hd _ ih =>
    obtain ⟨a1, a2, a3, a4⟩ := ih (Scanner.next_ext U s hwf).1 (Scanner.next_rune U s hwf)
    obtain ⟨_, n2, _, _, n5, _, _⟩ := Scanner.next_facts U s hwf.2.2.1
    have hsrc : (s.next U).src = s.src := n2.1
    have hoff : (s.next U).offset = s.offset + (runeAt U s.src s.offset).2 := by
      rw [n5, ← hon.2]
      have := hwf.2.2.1
      omega
    refine ⟨.step _ _ ?_ ?_, a2, a3, a4.trans hsrc⟩
    · rw [← hon.1]
      exact hd
    · rw [← hoff, ← hsrc]
      exact a1

theorem Scanner.NumberRun.numberText {U : Unicode} {a t : Scanner} (h : Scanner.NumberRun U a t)
    (hwf : a.WF) (hon : a.OnRune U) :
    ∃ m, DigitsText U a.src a.offset m ∧
      ((a.src[m]? ≠ some 46 ∧ t.offset = m) ∨
        (a.src[m]? = some 46 ∧ DigitsText U a.src (m + 1) t.offset)) := by
  obtain ⟨m, h1, h2⟩ := h
  obtain ⟨m1, m2, m3, m4⟩ := h1.digitsText hwf hon
  refine ⟨m.offset, m1, ?_⟩
  rcases h2 with ⟨hc, e⟩ | ⟨hc, h3⟩
  · refine Or.inl ⟨fun hb => hc ?_, by rw [e]⟩
    rw [← m4] at hb
    rw [m2.1, runeAt_byte U _ _ 46 hb (by omega)]
    rfl
  · have hb : m.src[m.offset]? = some (46 : Int).toNat := by
      rw [← hc]
      exact m3.2.2.2.2.2 (by rw [hc]; omega) (by rw [hc]; omega)
    obtain ⟨_, n2, n3⟩ := Scanner.next_offset U m m3
    have hoff := n3 (by rw [hc]; omega) (by rw [hc]; omega)
    obtain ⟨c1, _, _, _⟩ := h3.digitsText (Scanner.next_ext U m m3).1 (Scanner.next_rune U m m3)
    rw [n2, hoff, m4] at c1
    rw [m4] at hb
    exact Or.inr ⟨hb, c1⟩

/-- A pass through the body of `Scan` that returns a number has read an optional sign, a
run of digits (not empty without a sign), and possibly a dot and a run of digits; the
literal is the text of the source from the position of the token to the offset of the
scanner. -/
theorem Scanner.scanStep_numeral (U : Unicode) (s : Scanner) (hwf : s.WF) (hon : s.OnRune U)
    (lit : String) (pos : Pos) (t : Scanner)
    (h : Scanner.scanStep U s = some (.done token.Number lit pos t)) :
    ∃ i : Nat, pos = s.file.FileSetPos i ∧ lit = sourceText s.src i t.offset ∧
      NumberText U s.src i t.offset := by
  obtain ⟨s1, hskip, hs1, hnw⟩ := Scanner.skipWhitespace_spec U (s.src.length + 2) s hwf
    (by have := Scanner.left_le s; omega)
  have hsrc : s1.src = s.src := hs1.2.1.1
  have hon1 : s1.OnRune U := Scanner.skipWhitespace_rune U _ s s1 hwf hon hskip
  have hpos : s1.file.FileSetPos s1.offset = s.file.FileSetPos s1.offset := by
    unfold SourceFile.FileSetPos
    rw [hs1.2.1.2.2.2.1]
  unfold Scanner.scanStep at h
  dsimp only at h
  rw [hskip] at h
  dsimp only at h
  have hfin : ∀ (u : Scanner) (b : Bool),
      (if u.mode &&& DontInsertSemis = 0 then { u with insertSemi := b } else u).offset
        = u.offset ∧
      (if u.mode &&& DontInsertSemis = 0 then { u with insertSemi := b } else u).src
        = u.src := by
    intro u b
    split_ifs <;> exact ⟨rfl, rfl⟩
  by_cases hL : isLetter U s1.ch = true
  · rw [if_pos hL] at h
    cases hx : Scanner.scanIdentifier U (s.src.length + 2) s1 with
    | none => rw [hx] at h; cases h
    | some r =>
      rw [hx] at h
      exact absurd (ScanStep.done_inj h).1 (by decide)
  rw [if_neg hL] at h
  by_cases hD : isDigit U s1.ch = true
  · rw [if_pos hD] at h
    cases hx : Scanner.scanNumber U (s.src.length + 2) s1 with
    | none => rw [hx] at h; cases h
    | some r =>
      obtain ⟨l, t1⟩ := r
      rw [hx] at h
      dsimp only at h
      obtain ⟨_, e2, e3, e4⟩ := ScanStep.done_inj h
      obtain ⟨r1, r2⟩ := Scanner.scanNumber_run U _ s1 t1 l hx
      obtain ⟨f1, f2, f3⟩ := r1.number_facts hs1.1
      obtain ⟨m, x1, x2⟩ := r1.numberText hs1.1 hon1
      rw [hsrc] at x1 x2
      have hto : t.offset = t1.offset := by
        rw [← e4]
        exact (hfin t1 false).1
      refine ⟨s1.offset, by rw [← e3, hpos], ?_, s1.offset, m, Or.inl ⟨?_, rfl⟩, x1, ?_⟩
      · rw [← e2, r2, f3, hsrc, hto]
      · rw [← hsrc, ← hon1.1]
        exact hD
      · rw [hto]
        rcases x2 with ⟨y1, y2⟩ | y
        · exact Or.inl ⟨y1, y2⟩
        · exact Or.inr y
  rw [if_neg hD] at h
  by_cases hE : s1.ch = -1
  · rw [if_pos hE] at h
    by_cases hI : (s1.next U).insertSemi = true
    · rw [if_pos hI] at h
      exact absurd (ScanStep.done_inj h).1 (by decide)
    · rw [if_neg hI] at h
      exact absurd (ScanStep.done_inj h).1 (by decide)
  rw [if_neg hE] at h
  by_cases hS : s1.ch = 45 ∨ s1.ch = 43
  · rw [if_pos hS] at h
    cases hx : Scanner.scanNumber U (s.src.length + 2) (s1.next U) with
    | none => rw [hx] at h; cases h
    | some r =>
      obtain ⟨l, t1⟩ := r
      rw [hx] at h
      dsimp only at h
      obtain ⟨_, e2, e3, e4⟩ := ScanStep.done_inj h
      obtain ⟨r1, r2⟩ := Scanner.scanNumber_run U _ (s1.next U) t1 l hx
      have hnx := Scanner.next_ext U s1 hs1.1
      obtain ⟨f1, f2, f3⟩ := r1.number_facts hnx.1
      have h0 : 0 ≤ s1.ch := by rcases hS with e | e <;> rw [e] <;> omega
      have h128 : s1.ch < 128 := by rcases hS with e | e <;> rw [e] <;> omega
      obtain ⟨n1, n2, n3⟩ := Scanner.next_offset U s1 hs1.1
      have hoff := n3 h0 h128
      have hget := hs1.1.2.2.2.2.2 h0 h128
      have ht1 : (if t1.mode &&& DontInsertSemis = 0 then
          ({ t1 with insertSemi := false } : Scanner) else t1) = t := e4
      obtain ⟨m, x1, x2⟩ := r1.numberText hnx.1 (Scanner.next_rune U s1 hs1.1)
      rw [n2, hsrc] at x1 x2
      rw [hoff] at x1
      have hto : t.offset = t1.offset := by
        rw [← ht1]
        exact (hfin t1 false).1
      rw [hsrc] at hget
      refine ⟨s1.offset, by rw [← e3, hpos], ?_, s1.offset + 1, m, Or.inr ⟨?_, rfl⟩, x1, ?_⟩
      · rw [← e2, r2, f3, n2, hsrc, hto, hoff, U.runeString_ascii s1.ch h0 h128]
        rw [hoff] at f2
        exact (sourceText_cons s.src s1.offset t1.offset _ hget f2).symm
      · rcases hS with e | e
        · exact Or.inl (by rw [hget, e]; rfl)
        · exact Or.inr (by rw [hget, e]; rfl)
      · rw [hto]
        rcases x2 with ⟨y1, y2⟩ | y
        · exact Or.inl ⟨y1, y2⟩
        · exact Or.inr y
  rw [if_neg hS] at h
  by_cases hN : s1.ch = 10
  · rw [if_pos hN] at h
    exact absurd (ScanStep.done_inj h).1 (by decide)
  rw [if_neg hN] at h
  by_cases hQ : s1.ch = 34 ∨ s1.ch = 39
  · rw [if_pos hQ] at h
    cases hx : Scanner.scanString U (s.src.length + 2) s1.ch (s1.next U) with
    | none => rw [hx] at h; cases h
    | some r =>
      rw [hx] at h
      exact absurd (ScanStep.done_inj h).1 (by decide)
  rw [if_neg hQ] at h
  by_cases h58 : s1.ch = 58
  · rw [if_pos h58] at h
    exact absurd (ScanStep.done_inj h).1 (by decide)
  rw [if_neg h58] at h
  by_cases h44 : s1.ch = 44
  · rw [if_pos h44] at h
    exact absurd (ScanStep.done_inj h).1 (by decide)
  rw [if_neg h44] at h
  by_cases h123 : s1.ch = 123
  · rw [if_pos h123] at h
    exact absurd (ScanStep.done_inj h).1 (by decide)
  rw [if_neg h123] at h
  by_cases h125 : s1.ch = 125
  · rw [if_pos h125] at h
    exact absurd (ScanStep.done_inj h).1 (by decide)
  rw [if_neg h125] at h
  by_cases h91 : s1.ch = 91
  · rw [if_pos h91] at h
    exact absurd (ScanStep.done_inj h).1 (by decide)
  rw [if_neg h91] at h
  by_cases h93 : s1.ch = 93
  · rw [if_pos h93] at h
    exact absurd (ScanStep.done_inj h).1 (by decide)
  rw [if_neg h93] at h
  by_cases h40 : s1.ch = 40
  · rw [if_pos h40] at h
    exact absurd (ScanStep.done_inj h).1 (by decide)
  rw [if_neg h40] at h
  by_cases h41 : s1.ch = 41
  · rw [if_pos h41] at h
    exact absurd (ScanStep.done_inj h).1 (by decide)
  rw [if_neg h41] at h
  by_cases h47 : s1.ch = 47
  · rw [if_pos h47] at h
    by_cases hC : (s1.next U).ch = 47 ∨ (s1.next U).ch = 42
    · rw [if_pos hC] at h
      by_cases hI : (s1.next U).insertSemi = true
      · rw [if_pos hI] at h
        cases hx : Scanner.findLineEnd U (s.src.length + 2) (s1.next U) with
        | none => rw [hx] at h; cases h
        | some r =>
          obtain ⟨b, u⟩ := r
          rw [hx] at h
          cases b with
          | true =>
            dsimp only at h
            exact absurd (ScanStep.done_inj h).1 (by decide)
          | false =>
            dsimp only at h
            exact (ScanStep.comment_ne _ _ _ _ _ h).elim
      · rw [if_neg hI] at h
        exact (ScanStep.comment_ne _ _ _ _ _ h).elim
    · rw [if_neg hC] at h
      exact absurd (ScanStep.done_inj h).1 (by decide)
  · rw [if_neg h47] at h
    exact absurd (ScanStep.done_inj h).1 (by decide)

/-- The same for `Scan`, which may skip comments first. -/
theorem Scanner.Scan_numeral (U : Unicode) : ∀ (fuel : Nat) (s : Scanner), s.WF → s.OnRune U →
    ∀ (lit : String) (pos : Pos) (t : Scanner),
    Scanner.Scan U fuel s = some (token.Number, lit, pos, t) →
    ∃ i : Nat, pos = s.file.FileSetPos i ∧ lit = sourceText s.src i t.offset ∧
      NumberText U s.src i t.offset := by
  intro fuel
  induction fuel with
  | zero =>
    intro s _ _ lit pos t h
    rw [Scanner.Scan] at h
    cases h
  | succ fuel ih =>
    intro s hwf hon lit pos t h
    rw [Scanner.Scan] at h
    obtain ⟨step, h1, h2⟩ := Scanner.scanStep_spec U s hwf
    have h3 := Scanner.scanStep_rune U s hwf hon step h1
    rw [h1] at h
    cases step with
    | done tok l p u =>
      dsimp only at h
      injection h with h
      injection h with e1 e2
      injection e2 with e2 e3
      injection e3 with e3 e4
      subst e1 e2 e3 e4
      exact Scanner.scanStep_numeral U s hwf hon _ _ _ h1
    | again u =>
      dsimp only at h
      obtain ⟨i, g1, g2, g3⟩ := ih u h2.1 h3 lit pos t h
      have hsrc : u.src = s.src := h2.2.1.1
      have hbase : u.file.Base = s.file.Base := h2.2.1.2.2.2.1
      refine ⟨i, ?_, by rw [← hsrc]; exact g2, by rw [← hsrc]; exact g3⟩
      rw [g1]
      unfold SourceFile.FileSetPos
      rw [hbase]

end parser

/-- The first `n` calls of `Scan` from a well-formed scanner on a rune all return, and
every Number token among the results is the text of a number of the source at the
position of the token. -/
theorem scanList_numeral (U : Unicode) : ∀ (n : Nat) (s : parser.Scanner), s.WF → s.OnRune U →
    ∃ toks, scanList U n s = some toks ∧ toks.length = n ∧
      ∀ lit pos, (token.Number, lit, pos) ∈ toks →
        ∃ i j : Nat, pos = s.file.Base + (i : Int) ∧ lit = parser.sourceText s.src i j ∧
          parser.NumberText U s.src i j := by
  intro n
  induction n with
  | zero =>
    intro s _ _
    exact ⟨[], rfl, rfl, fun _ _ h => by cases h⟩
  | succ n ih =>
    intro s hwf hon
    obtain ⟨r, h1, h2⟩ := parser.Scanner.Scan_spec U (s.src.length + 2) s hwf
      (by have := parser.Scanner.left_le s; omega)
    have h3 := parser.Scanner.Scan_rune U _ s hwf hon r h1
    obtain ⟨tok, lit, pos, t⟩ := r
    have hwt : t.WF := h2.1
    have hfr : s.Frame t := h2.2.1
    obtain ⟨toks, g1, g2, g3⟩ := ih t hwt h3
    refine ⟨(tok, lit, pos) :: toks, ?_, by rw [List.length_cons, g2], ?_⟩
    · rw [scanList, h1]
      dsimp only
      rw [g1]
      rfl
    · intro l p hm
      rcases List.mem_cons.mp hm with e | hm
      · injection e with e1 e2
        injection e2 with e2 e3
        subst e1 e2 e3
        obtain ⟨i, a1, a2, a3⟩ := parser.Scanner.Scan_numeral U _ s hwf hon _ _ _ h1
        exact ⟨i, t.offset, a1, a2, a3⟩
      · obtain ⟨i, j, a1, a2, a3⟩ := g3 l p hm
        rw [hfr.1] at a2 a3
        rw [hfr.2.2.2.1] at a1
        exact ⟨i, j, a1, a2, a3⟩

/-! ### The mode of the scanner -/

namespace parser

theorem Scanner.setMode_ch (s : Scanner) (m : Nat) : (s.setMode m).ch = s.ch := rfl

theorem Scanner.setMode_insertSemi (s : Scanner) (m : Nat) :
    (s.setMode m).insertSemi = s.insertSemi := rfl

theorem Scanner.setMode_offset (s : Scanner) (m : Nat) : (s.setMode m).offset = s.offset := rfl

theorem Scanner.setMode_src (s : Scanner) (m : Nat) : (s.setMode m).src = s.src := rfl

theorem Scanner.setMode_file (s : Scanner) (m : Nat) : (s.setMode m).file = s.file := rfl

theorem Scanner.setMode_mode (s : Scanner) (m : Nat) : (s.setMode m).mode = m := rfl

theorem Scanner.error_setMode (s : Scanner) (m : Nat) (offset : Nat) (msg : String) :
    (s.setMode m).error offset msg = (s.error offset msg).setMode m := by
  unfold Scanner.error Scanner.setMode
  dsimp only
  split_ifs <;> rfl

theorem Scanner.addLine_setMode (s : Scanner) (m : Nat) :
    (s.setMode m).addLine = s.addLine.setMode m := by
  unfold Scanner.addLine Scanner.setMode
  dsimp only
  split_ifs <;> rfl

theorem Scanner.next_setMode (U : Unicode) (s : Scanner) (m : Nat) :
    (s.setMode m).next U = (s.next U).setMode m := by
  unfold Scanner.next Scanner.addLine Scanner.error Scanner.setMode
  dsimp only
  split_ifs <;> rfl

theorem Scanner.skipWhitespace_setMode (U : Unicode) (m : Nat) : ∀ (fuel : Nat) (s : Scanner),
    Scanner.skipWhitespace U fuel (s.setMode m)
      = (Scanner.skipWhitespace U fuel s).map (fun t => t.setMode m) := by
  intro fuel
  induction fuel with
  | zero => intro s; rfl
  | succ fuel ih =>
    intro s
    rw [Scanner.skipWhitespace, Scanner.skipWhitespace, Scanner.next_setMode, ih]
    simp only [Scanner.setMode_ch, Scanner.setMode_insertSemi]
    split_ifs <;> rfl

theorem Scanner.scanIdentifierLoop_setMode (U : Unicode) (m : Nat) : ∀ (fuel : Nat)
    (s : Scanner), Scanner.scanIdentifierLoop U fuel (s.setMode m)
      = (Scanner.scanIdentifierLoop U fuel s).map (fun t => t.setMode m) := by
  intro fuel
  induction fuel with
  | zero => intro s; rfl
  | succ fuel ih =>
    intro s
    rw [Scanner.scanIdentifierLoop, Scanner.scanIdentifierLoop, Scanner.next_setMode, ih]
    simp only [Scanner.setMode_ch]
    split_ifs <;> rfl

theorem Scanner.scanDigits_setMode (U : Unicode) (m : Nat) : ∀ (fuel : Nat) (s : Scanner),
    Scanner.scanDigits U fuel (s.setMode m)
      = (Scanner.scanDigits U fuel s).map (fun t => t.setMode m) := by
  intro fuel
  induction fuel with
  | zero => intro s; rfl
  | succ fuel ih =>
    intro s
    rw [Scanner.scanDigits, Scanner.scanDigits, Scanner.next_setMode, ih]
    simp only [Scanner.setMode_ch]
    split_ifs <;> rfl

theorem Scanner.scanIdentifier_setMode (U : Unicode) (m : Nat) (fuel : Nat) (s : Scanner) :
    Scanner.scanIdentifier U fuel (s.setMode m)
      = (Scanner.scanIdentifier U fuel s).map (fun r => (r.1, r.2.setMode m)) := by
  unfold Scanner.scanIdentifier
  rw [Scanner.scanIdentifierLoop_setMode]
  cases Scanner.scanIdentifierLoop U fuel s <;> rfl

theorem Scanner.scanNumber_setMode (U : Unicode) (m : Nat) (fuel : Nat) (s : Scanner) :
    Scanner.scanNumber U fuel (s.setMode m)
      = (Scanner.scanNumber U fuel s).map (fun r => (r.1, r.2.setMode m)) := by
  unfold Scanner.scanNumber
  rw [Scanner.scanDigits_setMode]
  cases Scanner.scanDigits U fuel s with
  | none => rfl
  | some t =>
    simp only [Option.map_some', Scanner.setMode_ch, Scanner.next_setMode,
      Scanner.scanDigits_setMode, Scanner.setMode_offset]
    by_cases h : t.ch = 46
    · rw [if_pos h, if_pos h]
      cases Scanner.scanDigits U fuel (t.next U) <;> rfl
    · rw [if_neg h, if_neg h]
      rfl

theorem Scanner.scanEscapeDigits_setMode (U : Unicode) (m : Nat) (base : Int) : ∀ (n : Nat)
    (x : Int) (s : Scanner), Scanner.scanEscapeDigits U base n x (s.setMode m)
      = ((Scanner.scanEscapeDigits U base n x s).1.setMode m,
          (Scanner.scanEscapeDigits U base n x s).2) := by
  intro n
  induction n with
  | zero => intro x s; rfl
  | succ n ih =>
    intro x s
    rw [Scanner.scanEscapeDigits, Scanner.scanEscapeDigits]
    simp only [Scanner.setMode_ch, Scanner.next_setMode, ih, Scanner.error_setMode,
      Scanner.setMode_offset]
    split_ifs <;> rfl

theorem Scanner.scanEscape_setMode (U : Unicode) (m : Nat) (quote : Int) (s : Scanner) :
    Scanner.scanEscape U quote (s.setMode m)
      = ((Scanner.scanEscape U quote s).1, (Scanner.scanEscape U quote s).2.setMode m) := by
  have key : ∀ (n : Nat) (base mx : Int) (u : Scanner),
      (match Scanner.scanEscapeDigits U base n 0 (u.setMode m) with
        | (t, false, _) => (false, t)
        | (t, true, x) =>
          if x > mx ∨ (0xD800 ≤ x ∧ x < 0xE000) then
            (false, t.error s.offset "escape sequence is invalid Unicode code point")
          else (true, t))
      = ((match Scanner.scanEscapeDigits U base n 0 u with
          | (t, false, _) => (false, t)
          | (t, true, x) =>
            if x > mx ∨ (0xD800 ≤ x ∧ x < 0xE000) then
              (false, t.error s.offset "escape sequence is invalid Unicode code point")
            else (true, t)).1,
        (match Scanner.scanEscapeDigits U base n 0 u with
          | (t, false, _) => (false, t)
          | (t, true, x) =>
            if x > mx ∨ (0xD800 ≤ x ∧ x < 0xE000) then
              (false, t.error s.offset "escape sequence is invalid Unicode code point")
            else (true, t)).2.setMode m) := by
    intro n base mx u
    rw [Scanner.scanEscapeDigits_setMode]
    rcases Scanner.scanEscapeDigits U base n 0 u with ⟨t, b, x⟩
    cases b with
    | false => rfl
    | true =>
      dsimp only
      split_ifs
      · rw [Scanner.error_setMode]
      · rfl
  unfold Scanner.scanEscape
  simp only [Scanner.setMode_ch, Scanner.next_setMode, Scanner.setMode_offset,
    Scanner.error_setMode]
  split_ifs
  · rfl
  · exact key _ _ _ _
  · exact key _ _ _ _
  · exact key _ _ _ _
  · exact key _ _ _ _
  · rfl
  · rfl

theorem Scanner.scanStringLoop_setMode (U : Unicode) (m : Nat) (chStart : Int) (offs : Nat) :
    ∀ (fuel : Nat) (s : Scanner), Scanner.scanStringLoop U chStart offs fuel (s.setMode m)
      = (Scanner.scanStringLoop U chStart offs fuel s).map (fun t => t.setMode m) := by
  intro fuel
  induction fuel with
  | zero => intro s; rfl
  | succ fuel ih =>
    intro s
    rw [Scanner.scanStringLoop, Scanner.scanStringLoop]
    simp only [Scanner.setMode_ch, Scanner.next_setMode, Scanner.error_setMode,
      Scanner.scanEscape_setMode, ih]
    split_ifs <;> rfl

theorem Scanner.scanString_setMode (U : Unicode) (m : Nat) (fuel : Nat) (chStart : Int)
    (s : Scanner) :
    Scanner.scanString U fuel chStart (s.setMode m)
      = (Scanner.scanString U fuel chStart s).map (fun r => (r.1, r.2.setMode m)) := by
  unfold Scanner.scanString
  simp only [Scanner.setMode_offset, Scanner.scanStringLoop_setMode]
  cases Scanner.scanStringLoop U chStart (s.offset - 1) fuel s <;> rfl

theorem Scanner.scanLineComment_setMode (U : Unicode) (m : Nat) : ∀ (fuel numCR : Nat)
    (s : Scanner), Scanner.scanLineComment U fuel numCR (s.setMode m)
      = (Scanner.scanLineComment U fuel numCR s).map (fun r => (r.1, r.2.setMode m)) := by
  intro fuel
  induction fuel with
  | zero => intro numCR s; rfl
  | succ fuel ih =>
    intro numCR s
    rw [Scanner.scanLineComment, Scanner.scanLineComment]
    simp only [Scanner.setMode_ch, Scanner.next_setMode, ih]
    split_ifs <;> rfl

theorem Scanner.scanBlockComment_setMode (U : Unicode) (m : Nat) : ∀ (fuel numCR : Nat)
    (s : Scanner), Scanner.scanBlockComment U fuel numCR (s.setMode m)
      = (Scanner.scanBlockComment U fuel numCR s).map
          (fun r => (r.1, r.2.1, r.2.2.setMode m)) := by
  intro fuel
  induction fuel with
  | zero => intro numCR s; rfl
  | succ fuel ih =>
    intro numCR s
    rw [Scanner.scanBlockComment, Scanner.scanBlockComment]
    simp only [Scanner.setMode_ch, Scanner.next_setMode, ih]
    split_ifs <;> rfl

theorem Scanner.scanComment_setMode (U : Unicode) (m : Nat) (fuel : Nat) (s : Scanner) :
    Scanner.scanComment U fuel (s.setMode m)
      = (Scanner.scanComment U fuel s).map (fun r => (r.1, r.2.setMode m)) := by
  unfold Scanner.scanComment
  simp only [Scanner.setMode_ch, Scanner.next_setMode, Scanner.setMode_offset,
    Scanner.scanLineComment_setMode, Scanner.scanBlockComment_setMode]
  by_cases h : s.ch = 47
  · simp only [if_pos h]
    cases Scanner.scanLineComment U fuel 0 (s.next U) with
    | none => rfl
    | some r => rfl
  · simp only [if_neg h]
    cases Scanner.scanBlockComment U fuel 0 (s.next U) with
    | none => rfl
    | some r =>
      obtain ⟨n, b, t⟩ := r
      cases b with
      | true => rfl
      | false =>
        simp only [Option.map_some', Scanner.error_setMode]
        rfl

theorem Scanner.findLineEndBlock_setMode (U : Unicode) (m : Nat) : ∀ (fuel : Nat)
    (s : Scanner), Scanner.findLineEndBlock U fuel (s.setMode m)
      = (Scanner.findLineEndBlock U fuel s).map (fun r => (r.1, r.2.setMode m)) := by
  intro fuel
  induction fuel with
  | zero => intro s; rfl
  | succ fuel ih =>
    intro s
    rw [Scanner.findLineEndBlock, Scanner.findLineEndBlock]
    simp only [Scanner.setMode_ch, Scanner.next_setMode, ih]
    split_ifs <;> rfl

theorem Scanner.findLineEndLoop_setMode (U : Unicode) (m : Nat) : ∀ (fuel : Nat)
    (s : Scanner), Scanner.findLineEndLoop U fuel (s.setMode m)
      = (Scanner.findLineEndLoop U fuel s).map (fun r => (r.1, r.2.setMode m)) := by
  intro fuel
  induction fuel with
  | zero => intro s; rfl
  | succ fuel ih =>
    intro s
    rw [Scanner.findLineEndLoop, Scanner.findLineEndLoop]
    simp only [Scanner.setMode_ch, Scanner.next_setMode, Scanner.setMode_src,
      Scanner.findLineEndBlock_setMode]
    by_cases h1 : s.ch = 47 ∨ s.ch = 42
    · simp only [if_pos h1]
      by_cases h2 : s.ch = 47
      · simp only [if_pos h2]
        rfl
      · simp only [if_neg h2]
        cases hb : Scanner.findLineEndBlock U (s.src.length + 2) (s.next U) with
        | none => rfl
        | some r =>
          obtain ⟨b, t⟩ := r
          cases b with
          | true => rfl
          | false =>
            simp only [Option.map_some', Scanner.skipWhitespace_setMode, Scanner.setMode_src]
            cases hw : Scanner.skipWhitespace U (t.src.length + 2) t with
            | none => rfl
            | some u =>
              simp only [Option.map_some', Scanner.setMode_ch, Scanner.next_setMode, ih]
              split_ifs <;> rfl
    · simp only [if_neg h1]
      rfl

theorem Scanner.findLineEnd_setMode (U : Unicode) (m : Nat) (fuel : Nat) (s : Scanner) :
    Scanner.findLineEnd U fuel (s.setMode m)
      = (Scanner.findLineEnd U fuel s).map (fun r => (r.1, r.2.setMode m)) := by
  unfold Scanner.findLineEnd
  simp only [Scanner.setMode_offset, Scanner.findLineEndLoop_setMode]
  cases Scanner.findLineEndLoop U fuel s with
  | none => rfl
  | some r =>
    obtain ⟨b, t⟩ := r
    simp only [Option.map_some']
    rw [← Scanner.next_setMode]
    rfl

/-- The body of `Scan` is its first part followed by the tests of the mode. -/
theorem Scanner.scanStep_core (U : Unicode) (s : Scanner) :
    Scanner.scanStep U s = (Scanner.scanCore U s).map ScanCore.step := by
  unfold Scanner.scanStep Scanner.scanCore
  dsimp only
  cases Scanner.skipWhitespace U (s.src.length + 2) s with
  | none => rfl
  | some s1 =>
    dsimp only
    by_cases hL : isLetter U s1.ch = true
    · simp only [if_pos hL]
      cases Scanner.scanIdentifier U (s.src.length + 2) s1 <;> rfl
    simp only [if_neg hL]
    by_cases hD : isDigit U s1.ch = true
    · simp only [if_pos hD]
      cases Scanner.scanNumber U (s.src.length + 2) s1 <;> rfl
    simp only [if_neg hD]
    by_cases hE : s1.ch = -1
    · simp only [if_pos hE]
      by_cases hI : (s1.next U).insertSemi = true
      · simp only [if_pos hI]
        rfl
      · simp only [if_neg hI]
        rfl
    simp only [if_neg hE]
    by_cases hS : s1.ch = 45 ∨ s1.ch = 43
    · simp only [if_pos hS]
      cases Scanner.scanNumber U (s.src.length + 2) (s1.next U) <;> rfl
    simp only [if_neg hS]
    by_cases hN : s1.ch = 10
    · simp only [if_pos hN]
      rfl
    simp only [if_neg hN]
    by_cases hQ : s1.ch = 34 ∨ s1.ch = 39
    · simp only [if_pos hQ]
      cases Scanner.scanString U (s.src.length + 2) s1.ch (s1.next U) <;> rfl
    simp only [if_neg hQ]
    by_cases h58 : s1.ch = 58
    · simp only [if_pos h58]
      rfl
    simp only [if_neg h58]
    by_cases h44 : s1.ch = 44
    · simp only [if_pos h44]
      rfl
    simp only [if_neg h44]
    by_cases h123 : s1.ch = 123
    · simp only [if_pos h123]
      rfl
    simp only [if_neg h123]
    by_cases h125 : s1.ch = 125
    · simp only [if_pos h125]
      rfl
    simp only [if_neg h125]
    by_cases h91 : s1.ch = 91
    · simp only [if_pos h91]
      rfl
    simp only [if_neg h91]
    by_cases h93 : s1.ch = 93
    · simp only [if_pos h93]
      rfl
    simp only [if_neg h93]
    by_cases h40 : s1.ch = 40
    · simp only [if_pos h40]
      rfl
    simp only [if_neg h40]
    by_cases h41 : s1.ch = 41
    · simp only [if_pos h41]
      rfl
    simp only [if_neg h41]
    have com : ∀ r : Option (String × Scanner),
        (match r with
          | none => none
          | some (comment, u) =>
            if u.mode &&& ScanComments = 0 then
              some (ScanStep.again { u with insertSemi := false })
            else some (ScanStep.done token.Comment comment (s1.file.FileSetPos s1.offset)
              (if u.mode &&& DontInsertSemis = 0 then { u with insertSemi := false } else u)))
        = Option.map ScanCore.step (match r with
          | none => none
          | some (comment, u) =>
            some (ScanCore.comment comment (s1.file.FileSetPos s1.offset) u)) := by
      intro r
      cases r with
      | none => rfl
      | some r =>
        obtain ⟨c, u⟩ := r
        simp only [Option.map_some', ScanCore.step]
        split_ifs <;> rfl
    by_cases h47 : s1.ch = 47
    · simp only [if_pos h47]
      by_cases hC : (s1.next U).ch = 47 ∨ (s1.next U).ch = 42
      · simp only [if_pos hC]
        by_cases hI : (s1.next U).insertSemi = true
        · simp only [if_pos hI]
          cases Scanner.findLineEnd U (s.src.length + 2) (s1.next U) with
          | none => rfl
          | some r =>
            obtain ⟨b, u⟩ := r
            cases b with
            | true => rfl
            | false => exact com _
        · simp only [if_neg hI]
          exact com _
      · simp only [if_neg hC]
        rfl
    · simp only [if_neg h47]
      rfl

/-- The first part of the body of `Scan` does not look at the mode. -/
theorem Scanner.scanCore_setMode (U : Unicode) (m : Nat) (s : Scanner) :
    Scanner.scanCore U (s.setMode m) = (Scanner.scanCore U s).map (ScanCore.setMode m) := by
  unfold Scanner.scanCore
  simp only [Scanner.setMode_src, Scanner.skipWhitespace_setMode]
  cases Scanner.skipWhitespace U (s.src.length + 2) s with
  | none => rfl
  | some s1 =>
    simp only [Option.map_some', Scanner.setMode_ch, Scanner.setMode_file,
      Scanner.setMode_offset, Scanner.next_setMode, Scanner.scanIdentifier_setMode,
      Scanner.scanNumber_setMode, Scanner.scanString_setMode, Scanner.setMode_insertSemi,
      Scanner.scanComment_setMode, Scanner.findLineEnd_setMode, Scanner.error_setMode]
    by_cases hL : isLetter U s1.ch = true
    · simp only [if_pos hL]
      cases Scanner.scanIdentifier U (s.src.length + 2) s1 <;> rfl
    simp only [if_neg hL]
    by_cases hD : isDigit U s1.ch = true
    · simp only [if_pos hD]
      cases Scanner.scanNumber U (s.src.length + 2) s1 <;> rfl
    simp only [if_neg hD]
    by_cases hE : s1.ch = -1
    · simp only [if_pos hE]
      by_cases hI : (s1.next U).insertSemi = true
      · simp only [if_pos hI]
        rfl
      · simp only [if_neg hI]
        rfl
    simp only [if_neg hE]
    by_cases hS : s1.ch = 45 ∨ s1.ch = 43
    · simp only [if_pos hS]
      cases Scanner.scanNumber U (s.src.length + 2) (s1.next U) <;> rfl
    simp only [if_neg hS]
    by_cases hN : s1.ch = 10
    · simp only [if_pos hN]
      rfl
    simp only [if_neg hN]
    by_cases hQ : s1.ch = 34 ∨ s1.ch = 39
    · simp only [if_pos hQ]
      cases Scanner.scanString U (s.src.length + 2) s1.ch (s1.next U) <;> rfl
    simp only [if_neg hQ]
    by_cases h58 : s1.ch = 58
    · simp only [if_pos h58]
      rfl
    simp only [if_neg h58]
    by_cases h44 : s1.ch = 44
    · simp only [if_pos h44]
      rfl
    simp only [if_neg h44]
    by_cases h123 : s1.ch = 123
    · simp only [if_pos h123]
      rfl
    simp only [if_neg h123]
    by_cases h125 : s1.ch = 125
    · simp only [if_pos h125]
      rfl
    simp only [if_neg h125]
    by_cases h91 : s1.ch = 91
    · simp only [if_pos h91]
      rfl
    simp only [if_neg h91]
    by_cases h93 : s1.ch = 93
    · simp only [if_pos h93]
      rfl
    simp only [if_neg h93]
    by_cases h40 : s1.ch = 40
    · simp only [if_pos h40]
      rfl
    simp only [if_neg h40]
    by_cases h41 : s1.ch = 41
    · simp only [if_pos h41]
      rfl
    simp only [if_neg h41]
    by_cases h47 : s1.ch = 47
    · simp only [if_pos h47]
      by_cases hC : (s1.next U).ch = 47 ∨ (s1.next U).ch = 42
      · simp only [if_pos hC]
        by_cases hI : (s1.next U).insertSemi = true
        · simp only [if_pos hI]
          cases Scanner.findLineEnd U (s.src.length + 2) (s1.next U) with
          | none => rfl
          | some r =>
            obtain ⟨b, u⟩ := r
            cases b with
            | true => rfl
            | false =>
              simp only [Option.map_some', Scanner.scanComment_setMode]
              cases Scanner.scanComment U (s.src.length + 2) u <;> rfl
        · simp only [if_neg hI]
          cases Scanner.scanComment U (s.src.length + 2) (s1.next U) <;> rfl
      · simp only [if_neg hC]
        rfl
    · simp only [if_neg h47]
      by_cases hB : s1.ch ≠ bom
      · simp only [if_pos hB]
        rfl
      · simp only [if_neg hB]
        rfl

theorem Scanner.setMode_self (s : Scanner) (m : Nat) (h : s.mode = m) : s.setMode m = s := by
  subst h
  rfl

theorem Scanner.clear_of_clear (s : Scanner) (h : s.insertSemi = false) :
    ({ s with insertSemi := false } : Scanner) = s := by
  cases s
  simp only at h
  subst h
  rfl

/-- More fuel does not change what `Scan` returns. -/
theorem Scanner.Scan_mono (U : Unicode) : ∀ (f g : Nat) (s : Scanner)
    (r : Token × String × Pos × Scanner),
    Scanner.Scan U f s = some r → f ≤ g → Scanner.Scan U g s = some r := by
  intro f
  induction f with
  | zero =>
    intro g s r h _
    rw [Scanner.Scan] at h
    cases h
  | succ f ih =>
    intro g s r h hg
    obtain ⟨k, rfl⟩ : ∃ k, g = k + 1 := ⟨g - 1, by omega⟩
    rw [Scanner.Scan] at h ⊢
    cases hs : Scanner.scanStep U s with
    | none =>
      rw [hs] at h
      cases h
    | some st =>
      rw [hs] at h
      cases st with
      | done tok lit pos t => exact h
      | again t => exact ih k t r h (by omega)

/-- With enough fuel `Scan` does not depend on the fuel. -/
theorem Scanner.Scan_fuel (U : Unicode) (f g : Nat) (s : Scanner) (hwf : s.WF)
    (hf : s.left + 1 ≤ f) (hg : s.left + 1 ≤ g) : Scanner.Scan U f s = Scanner.Scan U g s := by
  obtain ⟨r, h, _⟩ := Scanner.Scan_spec U (s.left + 1) s hwf (le_refl _)
  rw [Scanner.Scan_mono U _ f s r h hf, Scanner.Scan_mono U _ g s r h hg]

/-- More fuel does not change what repeated `Scan` returns. -/
theorem Scanner.scanAll_mono (U : Unicode) : ∀ (f g : Nat) (s : Scanner)
    (l : List (Token × String × Pos)),
    Scanner.scanAll U f s = some l → f ≤ g → Scanner.scanAll U g s = some l := by
  intro f
  induction f with
  | zero =>
    intro g s l h _
    rw [Scanner.scanAll] at h
    cases h
  | succ f ih =>
    intro g s l h hg
    obtain ⟨k, rfl⟩ : ∃ k, g = k + 1 := ⟨g - 1, by omega⟩
    rw [Scanner.scanAll] at h ⊢
    cases hs : Scanner.Scan U (s.src.length + 2) s with
    | none =>
      rw [hs] at h
      cases h
    | some r =>
      obtain ⟨tok, lit, pos, t⟩ := r
      rw [hs] at h
      dsimp only at h ⊢
      by_cases he : tok = token.EOF
      · rw [if_pos he] at h ⊢
        exact h
      · rw [if_neg he] at h ⊢
        cases ht : Scanner.scanAll U f t with
        | none =>
          rw [ht] at h
          cases h
        | some l1 =>
          rw [ht] at h
          rw [ih k t l1 ht (by omega)]
          exact h

theorem Scanner.scanAll_congr (U : Unicode) (n : Nat) (s t : Scanner)
    (h : Scanner.Scan U (s.src.length + 2) s = Scanner.Scan U (t.src.length + 2) t) :
    Scanner.scanAll U (n + 1) s = Scanner.scanAll U (n + 1) t := by
  rw [Scanner.scanAll, Scanner.scanAll, h]

/-- One pass through the body of `Scan` in a mode with `ScanComments` and in a mode
without it, the two modes with the same `DontInsertSemis`: the same token with the same
scanner left, but for a comment, which the second mode skips. -/
theorem Scanner.scanStep_modes (U : Unicode) (m1 m2 : Nat) (h1 : m1 &&& ScanComments = 0)
    (h2 : m2 &&& ScanComments ≠ 0)
    (hd : m1 &&& DontInsertSemis = 0 ↔ m2 &&& DontInsertSemis = 0)
    (s : Scanner) (hwf : s.WF) (hm : s.mode = m2)
    (hj : s.mode &&& DontInsertSemis ≠ 0 → s.insertSemi = false) :
    ∃ tok lit pos t, Scanner.scanStep U s = some (.done tok lit pos t) ∧
      (tok ≠ token.Comment →
        Scanner.scanStep U (s.setMode m1) = some (.done tok lit pos (t.setMode m1))) ∧
      (tok = token.Comment →
        Scanner.scanStep U (s.setMode m1) = some (.again (t.setMode m1))) := by
  obtain ⟨step, hs, hok⟩ := Scanner.scanStep_spec U s hwf
  have hc1 := Scanner.scanStep_core U s
  have hc2 := Scanner.scanStep_core U (s.setMode m1)
  rw [Scanner.scanCore_setMode] at hc2
  have hself := Scanner.scanCore_setMode U m2 s
  rw [Scanner.setMode_self s m2 hm] at hself
  cases hc : Scanner.scanCore U s with
  | none =>
    rw [hc] at hc1
    rw [hc1] at hs
    cases hs
  | some c =>
    rw [hc] at hc1 hc2 hself
    simp only [Option.map_some'] at hc1 hc2 hself
    have hcm : c = c.setMode m2 := Option.some.inj hself
    have htm : c.scanner.mode = m2 := by
      rw [hcm]
      cases c <;> rfl
    rw [hc1] at hs
    have hst : c.step = step := Option.some.inj hs
    subst hst
    rw [hc1, hc2]
    cases c with
    | token tok lit pos ins t h =>
      have htm2 : t.mode = m2 := htm
      refine ⟨tok, lit, pos, _, rfl, fun _ => ?_, fun hcomment => absurd hcomment h⟩
      show some (ScanStep.done tok lit pos
        (if m1 &&& DontInsertSemis = 0 then { t.setMode m1 with insertSemi := ins }
          else t.setMode m1)) = _
      by_cases hD : m2 &&& DontInsertSemis = 0
      · rw [if_pos (hd.mpr hD)]
        simp only [htm2, if_pos hD]
        rfl
      · rw [if_neg (fun h => hD (hd.mp h))]
        simp only [htm2, if_neg hD]
    | semi pos t =>
      exact ⟨_, _, pos, t, rfl, fun _ => rfl, fun hcomment => by cases hcomment⟩
    | comment lit pos t =>
      have htm2 : t.mode = m2 := htm
      have hstep : (ScanCore.comment lit pos t).step = .done token.Comment lit pos
          (if m2 &&& DontInsertSemis = 0 then { t with insertSemi := false } else t) := by
        show (if t.mode &&& ScanComments = 0 then _ else _) = _
        rw [htm2, if_neg h2]
      rw [hstep] at hok ⊢
      refine ⟨_, lit, pos, _, rfl, fun hne => absurd rfl hne, fun _ => ?_⟩
      show some (if m1 &&& ScanComments = 0
        then ScanStep.again { t.setMode m1 with insertSemi := false } else _) = _
      rw [if_pos h1]
      by_cases hD : m2 &&& DontInsertSemis = 0
      · rw [if_pos hD]
        rfl
      · rw [if_neg hD] at hok ⊢
        have hti : t.insertSemi = false := by
          cases hb : t.insertSemi with
          | false => rfl
          | true =>
            rcases hok.2.2.2.2.2.2.2.2 hb with h3 | h3
            · rw [hm] at h3
              exact absurd h3 hD
            · rw [hj (by rw [hm]; exact hD)] at h3
              cases h3
        have : ({ t.setMode m1 with insertSemi := false } : Scanner) = t.setMode m1 :=
          Scanner.clear_of_clear _ hti
        rw [this]

/-- Method `Scan` in a mode with `ScanComments` and in a mode without it, the two modes
with the same `DontInsertSemis`. -/
theorem Scanner.Scan_modes (U : Unicode) (m1 m2 : Nat) (h1 : m1 &&& ScanComments = 0)
    (h2 : m2 &&& ScanComments ≠ 0)
    (hd : m1 &&& DontInsertSemis = 0 ↔ m2 &&& DontInsertSemis = 0)
    (s : Scanner) (hwf : s.WF) (hm : s.mode = m2)
    (hj : s.mode &&& DontInsertSemis ≠ 0 → s.insertSemi = false) :
    ∃ tok lit pos t, Scanner.Scan U (s.src.length + 2) s = some (tok, lit, pos, t) ∧
      s.ScanOk (tok, lit, pos, t) ∧
      (tok ≠ token.Comment → Scanner.Scan U (s.src.length + 2) (s.setMode m1) =
        some (tok, lit, pos, t.setMode m1)) ∧
      (tok = token.Comment → Scanner.Scan U (s.src.length + 2) (s.setMode m1) =
        Scanner.Scan U (s.src.length + 2) (t.setMode m1)) := by
  obtain ⟨tok, lit, pos, t, a1, a2, a3⟩ := Scanner.scanStep_modes U m1 m2 h1 h2 hd s hwf hm hj
  obtain ⟨step, hs, hok⟩ := Scanner.scanStep_spec U s hwf
  rw [a1] at hs
  have hst := Option.some.inj hs
  subst hst
  refine ⟨tok, lit, pos, t, ?_, hok, fun hne => ?_, fun he => ?_⟩
  · rw [Scanner.Scan, a1]
  · rw [Scanner.Scan, a2 hne]
  · have hwf1 : (s.setMode m1).WF := hwf
    obtain ⟨step1, hs1, hok1⟩ := Scanner.scanStep_spec U (s.setMode m1) hwf1
    rw [a3 he] at hs1
    have hst1 := Option.some.inj hs1
    subst hst1
    obtain ⟨b1, _, b3, _⟩ := hok1
    have hl : (s.setMode m1).left ≤ s.src.length + 1 := Scanner.left_le s
    rw [Scanner.Scan, a3 he]
    exact Scanner.Scan_fuel U _ _ _ b1 (by omega) (by omega)

/-- Repeated `Scan` in a mode without `ScanComments` gives the triples of the mode with
`ScanComments` and the same `DontInsertSemis`, without the comments. -/
theorem Scanner.scanAll_modes (U : Unicode) (m1 m2 : Nat) (h1 : m1 &&& ScanComments = 0)
    (h2 : m2 &&& ScanComments ≠ 0)
    (hd : m1 &&& DontInsertSemis = 0 ↔ m2 &&& DontInsertSemis = 0) :
    ∀ (n : Nat) (s : Scanner), s.WF → s.mode = m2 →
      (s.mode &&& DontInsertSemis ≠ 0 → s.insertSemi = false) → s.rank + 1 ≤ n →
      ∃ l, Scanner.scanAll U n s = some l ∧
        Scanner.scanAll U n (s.setMode m1) =
          some (l.filter fun r => decide (r.1 ≠ token.Comment)) := by
  intro n
  induction n with
  | zero =>
    intro s _ _ _ h
    omega
  | succ n ih =>
    intro s hwf hm hj hn
    obtain ⟨tok, lit, pos, t, a1, a2, a3, a4⟩ :=
      Scanner.Scan_modes U m1 m2 h1 h2 hd s hwf hm hj
    obtain ⟨b1, b2, b3, b4, b5, b6, b7, b8, b9⟩ := a2
    have hsrc : t.src = s.src := b2.1
    have hmode : t.mode = s.mode := b2.2.1
    by_cases he : tok = token.EOF
    · subst he
      refine ⟨[(token.EOF, lit, pos)], ?_, ?_⟩
      · rw [Scanner.scanAll, a1]
        rfl
      · have := a3 (by decide)
        rw [Scanner.scanAll]
        rw [show (s.setMode m1).src = s.src from rfl, this]
        rfl
    · have hlt : t.rank < s.rank := b4 he
      obtain ⟨l, c1, c2⟩ := ih t b1 (hmode.trans hm) (fun hD => by
        cases hb : t.insertSemi with
        | false => rfl
        | true =>
          rcases b9 hb with h3 | h3
          · rw [hmode] at hD
            exact absurd h3 hD
          · rw [hj (by rw [← hmode]; exact hD)] at h3
            cases h3) (by omega)
      refine ⟨(tok, lit, pos) :: l, ?_, ?_⟩
      · rw [Scanner.scanAll, a1]
        dsimp only
        rw [if_neg he, c1]
        rfl
      · by_cases hcm : tok = token.Comment
        · have hcong : Scanner.scanAll U (n + 1) (s.setMode m1) =
              Scanner.scanAll U (n + 1) (t.setMode m1) := by
            apply Scanner.scanAll_congr
            rw [show (s.setMode m1).src = s.src from rfl,
              show (t.setMode m1).src = t.src from rfl, hsrc]
            exact a4 hcm
          rw [hcong, Scanner.scanAll_mono U n (n + 1) _ _ c2 (by omega)]
          rw [List.filter_cons_of_neg]
          simp only [decide_eq_true_eq, not_not]
          exact hcm
        · rw [Scanner.scanAll]
          rw [show (s.setMode m1).src = s.src from rfl, a3 hcm]
          dsimp only
          rw [if_neg he, c2]
          rw [List.filter_cons_of_pos]
          · rfl
          · simp only [decide_eq_true_eq]
            exact hcm

theorem NewScanner_setMode (U : Unicode) (file : SourceFile) (src : List Nat)
    (errorHandler : Bool) (errors : ErrorList) (m1 m2 : Nat) :
    NewScanner U file src errorHandler errors m1 =
      (NewScanner U file src errorHandler errors m2).map fun s => s.setMode m1 := by
  unfold NewScanner
  by_cases hs : file.Size ≠ src.length
  · rw [if_pos hs, if_pos hs]
    rfl
  · rw [if_neg hs, if_neg hs]
    dsimp only
    have h0 : (⟨file, src, 32, 0, 0, 0, false, errorHandler, errors, 0, m1⟩ : Scanner) =
        (⟨file, src, 32, 0, 0, 0, false, errorHandler, errors, 0, m2⟩ : Scanner).setMode m1 :=
      rfl
    rw [h0, Scanner.next_setMode]
    simp only [Option.map_some', Scanner.setMode_ch, Scanner.next_setMode]
    split_ifs <;> rfl

/-- The triples of a source in a mode without `ScanComments` are those of the mode with
`ScanComments` and the same `DontInsertSemis`, without the comments; and both are
returned. -/
theorem scanTokens_modes (U : Unicode) (file : SourceFile) (src : List Nat) (m1 m2 : Nat)
    (h1 : m1 &&& ScanComments = 0) (h2 : m2 &&& ScanComments ≠ 0)
    (hd : m1 &&& DontInsertSemis = 0 ↔ m2 &&& DontInsertSemis = 0)
    (hsize : file.Size = src.length) :
    ∃ l, scanTokens U file src m2 = some l ∧
      scanTokens U file src m1 = some (l.filter fun r => decide (r.1 ≠ token.Comment)) := by
  obtain ⟨s, a1, a2, a3, _, a5, _, _, a8⟩ := NewScanner_spec U file src m2 hsize
  have hrank : s.rank + 1 ≤ 2 * src.length + 4 := by
    rw [Scanner.rank_of_clear s a8]
    have := Scanner.left_le s
    rw [a5] at this
    omega
  obtain ⟨l, b1, b2⟩ := Scanner.scanAll_modes U m1 m2 h1 h2 hd _ s a2 a3
    (fun _ => a8) hrank
  refine ⟨l, ?_, ?_⟩
  · unfold scanTokens
    rw [a1]
    exact b1
  · unfold scanTokens
    rw [NewScanner_setMode U file src true [] m1 m2, a1]
    exact b2

end parser

/-! ### Scanning a written text -/

namespace parser

theorem drop_cons_facts {src : List Nat} {i c : Nat} {rest : List Nat}
    (h : src.drop i = c :: rest) :
    i < src.length ∧ src.getD i 0 = c ∧ src.drop (i + 1) = rest := by
  have hi : i < src.length := by
    by_contra hc
    rw [List.drop_eq_nil_of_le (by omega)] at h
    cases h
  have := List.drop_eq_getElem_cons hi
  rw [h] at this
  refine ⟨hi, ?_, ?_⟩
  · rw [List.getD_eq_getElem _ _ hi]
    exact (List.cons.inj this).1.symm
  · exact (List.cons.inj this).2.symm

theorem drop_append_facts {src : List Nat} {i : Nat} {x rest : List Nat}
    (h : src.drop i = x ++ rest) :
    src.drop (i + x.length) = rest ∧ (src.drop i).take x.length = x ∧
      (x ≠ [] → i + x.length ≤ src.length) := by
  refine ⟨?_, ?_, ?_⟩
  · rw [← List.drop_drop, h, List.drop_left]
  · rw [h, List.take_left]
  · intro hx
    have := congrArg List.length h
    rw [List.length_drop, List.length_append] at this
    have : 0 < x.length := List.length_pos.mpr hx
    omega

theorem runeAt_ascii (U : Unicode) {src : List Nat} {i c : Nat} {rest : List Nat}
    (h : src.drop i = c :: rest) (hc : c < 128) : runeAt U src i = ((c : Int), 1) := by
  obtain ⟨h1, h2, _⟩ := drop_cons_facts h
  unfold runeAt
  rw [if_pos h1, h2, if_pos hc]

theorem runeAt_rune (U : Unicode) {src : List Nat} {i c : Nat} {rest : List Nat}
    (h : src.drop i = c :: rest) (hc : 128 ≤ c) : runeAt U src i = U.decodeRune (c :: rest) := by
  obtain ⟨h1, h2, _⟩ := drop_cons_facts h
  unfold runeAt
  rw [if_pos h1, h2, if_neg (by omega), h]

theorem runeAt_end (U : Unicode) {src : List Nat} {i : Nat} (h : src.drop i = []) :
    runeAt U src i = (-1, 0) := by
  unfold runeAt
  rw [if_neg]
  intro hc
  have := congrArg List.length h
  rw [List.length_drop] at this
  simp at this
  omega

/-- Method `next` from an offset where a rune other than a newline is, to the offset
after the rune, when no error is found there. -/
theorem Scanner.next_at (U : Unicode) (base : Scanner) (i : Nat) (b : Bool)
    (hi : i < base.src.length) (hr : (runeAt U base.src i).1 ≠ 10)
    (hl : legalHead U (base.src.drop (i + (runeAt U base.src i).2))) :
    (base.atOffset U i b).next U = base.atOffset U (i + (runeAt U base.src i).2) b := by
  have hw : i + (runeAt U base.src i).2 ≤ base.src.length := by
    unfold runeAt
    rw [if_pos hi]
    by_cases hc : base.src.getD i 0 < 128
    · rw [if_pos hc]
      show i + 1 ≤ _
      omega
    · rw [if_neg hc]
      have := U.decodeRune_le (base.src.drop i)
      rw [List.length_drop] at this
      omega
  obtain ⟨file, src, ch0, off0, ro0, lo, b0, eh, errs, ec, mode⟩ := base
  simp only at hi hr hl hw
  generalize hrune : runeAt U src i = rn at hr hl hw
  obtain ⟨r, w⟩ := rn
  simp only at hr hl hw
  unfold Scanner.atOffset
  simp only [hrune]
  unfold Scanner.next
  simp only
  by_cases h1 : i + w < src.length
  · rw [if_pos h1]
    unfold Scanner.addLine
    simp only [if_neg hr]
    obtain ⟨c, rest, hd⟩ : ∃ c rest, src.drop (i + w) = c :: rest := by
      cases hd : src.drop (i + w) with
      | nil =>
        have := List.drop_eq_nil_iff.mp hd
        omega
      | cons c rest => exact ⟨c, rest, rfl⟩
    obtain ⟨_, d2, _⟩ := drop_cons_facts hd
    rw [hd] at hl
    obtain ⟨l1, l2⟩ := hl
    rw [d2]
    have hc0 : ¬ ((c : Int) = 0) := by omega
    rw [if_neg hc0]
    by_cases hc : c < 128
    · have hc1 : ¬ ((c : Int) ≥ 128) := by omega
      rw [if_neg hc1, runeAt_ascii U hd hc]
    · have hc1 : (c : Int) ≥ 128 := by omega
      rw [if_pos hc1]
      obtain ⟨l3, l4⟩ := l2 (by omega)
      rw [hd, if_neg l3, if_neg (fun h => l4 h.1), runeAt_rune U hd (by omega)]
  · rw [if_neg h1]
    unfold Scanner.addLine
    simp only [if_neg hr]
    have hje : i + w = src.length := by omega
    have hd : src.drop (i + w) = [] := List.drop_eq_nil_of_le (by omega)
    rw [runeAt_end U hd, ← hje]
    rfl

theorem Scanner.next_ascii (U : Unicode) (base : Scanner) (i : Nat) (b : Bool) {c : Nat}
    {rest : List Nat} (h : base.src.drop i = c :: rest) (hc : c < 128) (hn : c ≠ 10)
    (hl : legalHead U rest) : (base.atOffset U i b).next U = base.atOffset U (i + 1) b := by
  obtain ⟨h1, _, h3⟩ := drop_cons_facts h
  have hr := runeAt_ascii U h hc
  have := Scanner.next_at U base i b h1 (by rw [hr]; show (c : Int) ≠ 10; omega)
    (by rw [hr]; show legalHead U (base.src.drop (i + 1)); rw [h3]; exact hl)
  rw [hr] at this
  exact this

theorem Scanner.next_end (U : Unicode) (base : Scanner) (b : Bool) :
    (base.atOffset U base.src.length b).next U = base.atOffset U base.src.length b := by
  have hr : runeAt U base.src base.src.length = (-1, 0) :=
    runeAt_end U (List.drop_eq_nil_of_le (le_refl _))
  unfold Scanner.atOffset
  rw [hr]
  unfold Scanner.next
  simp [Scanner.addLine]

theorem Scanner.atOffset_ch_ascii (U : Unicode) (base : Scanner) (i : Nat) (b : Bool) {c : Nat}
    {rest : List Nat} (h : base.src.drop i = c :: rest) (hc : c < 128) :
    (base.atOffset U i b).ch = (c : Int) := by
  show (runeAt U base.src i).1 = _
  rw [runeAt_ascii U h hc]

theorem Scanner.atOffset_ch_end (U : Unicode) (base : Scanner) (b : Bool) :
    (base.atOffset U base.src.length b).ch = -1 := by
  show (runeAt U base.src base.src.length).1 = _
  rw [runeAt_end U (List.drop_eq_nil_of_le (le_refl _))]

/-- Method `skipWhitespace` at a character that is not white space. -/
theorem Scanner.skipWhitespace_stay (U : Unicode) (fuel : Nat) (s : Scanner)
    (h : s.ch ≠ 32 ∧ s.ch ≠ 9 ∧ s.ch ≠ 10 ∧ s.ch ≠ 13) :
    Scanner.skipWhitespace U (fuel + 1) s = some s := by
  rw [Scanner.skipWhitespace, if_neg]
  rintro (h1 | h1 | h1 | h1)
  · exact h.1 h1
  · exact h.2.1 h1
  · exact h.2.2.1 h1.1
  · exact h.2.2.2 h1

/-- The body of `Scan` after white space is the body of `Scan` from where the white space
ends. -/
theorem Scanner.scanStep_skip (U : Unicode) (s t : Scanner)
    (h1 : Scanner.skipWhitespace U (s.src.length + 2) s = some t) (hsrc : t.src = s.src)
    (h2 : Scanner.skipWhitespace U (t.src.length + 2) t = some t) :
    Scanner.scanStep U s = Scanner.scanStep U t := by
  have h3 := h2
  rw [hsrc] at h3
  unfold Scanner.scanStep
  simp only [hsrc, h1, h3]

theorem Scanner.Scan_skip (U : Unicode) (s t : Scanner)
    (h1 : Scanner.skipWhitespace U (s.src.length + 2) s = some t) (hsrc : t.src = s.src)
    (h2 : Scanner.skipWhitespace U (t.src.length + 2) t = some t) :
    Scanner.Scan U (s.src.length + 2) s = Scanner.Scan U (t.src.length + 2) t := by
  rw [hsrc, Scanner.Scan, Scanner.Scan, Scanner.scanStep_skip U s t h1 hsrc h2]

theorem Scanner.Feeds.of_step (U : Unicode) {s t : Scanner} {tok : Token} {lit : String}
    {pos : Pos} {rest : List (Token × String)}
    (h : Scanner.scanStep U s = some (.done tok lit pos t)) (he : t.errors = s.errors)
    (hr : Scanner.Feeds U t rest) : Scanner.Feeds U s ((tok, lit) :: rest) := by
  refine ⟨pos, t, ?_, he, hr⟩
  rw [Scanner.Scan, h]

/-- A space before a token is skipped. -/
theorem Scanner.Feeds.of_space (U : Unicode) (base : Scanner) (i : Nat) (b : Bool)
    {c : Nat} {rest : List Nat} (h : base.src.drop i = 32 :: c :: rest) (hc : c < 128)
    (hc0 : c ≠ 0) (hcs : c ≠ 32 ∧ c ≠ 9 ∧ c ≠ 10 ∧ c ≠ 13) {toks : List (Token × String)}
    (hne : toks ≠ []) (hr : Scanner.Feeds U (base.atOffset U (i + 1) b) toks) :
    Scanner.Feeds U (base.atOffset U i b) toks := by
  obtain ⟨_, _, h3⟩ := drop_cons_facts h
  have hn : (base.atOffset U i b).next U = base.atOffset U (i + 1) b :=
    Scanner.next_ascii U base i b h (by omega) (by omega) ⟨hc0, fun h => by omega⟩
  have hch : (base.atOffset U (i + 1) b).ch = (c : Int) :=
    Scanner.atOffset_ch_ascii U base (i + 1) b h3 hc
  have hstay : ∀ fuel, Scanner.skipWhitespace U (fuel + 1) (base.atOffset U (i + 1) b) =
      some (base.atOffset U (i + 1) b) := fun fuel =>
    Scanner.skipWhitespace_stay U fuel (base.atOffset U (i + 1) b) (by rw [hch]; omega)
  have h1 : Scanner.skipWhitespace U ((base.atOffset U i b).src.length + 2)
      (base.atOffset U i b) = some (base.atOffset U (i + 1) b) := by
    rw [Scanner.skipWhitespace, if_pos, hn]
    · exact hstay _
    · left
      have h32 : (32 : Nat) < 128 := by decide
      have := Scanner.atOffset_ch_ascii U base i b h h32
      rw [this]
      rfl
  have := Scanner.Scan_skip U _ _ h1 rfl (hstay _)
  cases toks with
  | nil => exact absurd rfl hne
  | cons a toks =>
    obtain ⟨tok, lit⟩ := a
    obtain ⟨pos, t, g1, g2, g3⟩ := hr
    exact ⟨pos, t, this.trans g1, g2, g3⟩

/-- The body of `Scan` at one of the characters `:`, `,` and the braces. -/
theorem Scanner.scanStep_sym (U : Unicode) (base : Scanner) (hm : base.mode = 0) (i : Nat)
    (b : Bool) {c : Nat} {rest : List Nat} (h : base.src.drop i = c :: rest)
    (hl : legalHead U rest) (tok : Token) (ins : Bool)
    (hsym : (c = 58 ∧ tok = token.Colon ∧ ins = false) ∨
      (c = 44 ∧ tok = token.Comma ∧ ins = false) ∨
      (c = 123 ∧ tok = token.LBrace ∧ ins = false) ∨
      (c = 125 ∧ tok = token.RBrace ∧ ins = true)) :
    Scanner.scanStep U (base.atOffset U i b) =
      some (.done tok "" (base.file.FileSetPos i) (base.atOffset U (i + 1) ins)) := by
  have hc : c < 128 := by omega
  have hn : (base.atOffset U i b).next U = base.atOffset U (i + 1) b :=
    Scanner.next_ascii U base i b h hc (by omega) hl
  have hch : (base.atOffset U i b).ch = (c : Int) := Scanner.atOffset_ch_ascii U base i b h hc
  have hskip := Scanner.skipWhitespace_stay U ((base.atOffset U i b).src.length + 1)
    (base.atOffset U i b) (by rw [hch]; omega)
  have hmode : (base.atOffset U (i + 1) b).mode &&& DontInsertSemis = 0 := by
    show base.mode &&& DontInsertSemis = 0
    rw [hm]
    rfl
  unfold Scanner.scanStep
  simp only [hskip, hn, hch, hmode, if_true]
  rcases hsym with ⟨h1, h2, h3⟩ | ⟨h1, h2, h3⟩ | ⟨h1, h2, h3⟩ | ⟨h1, h2, h3⟩ <;>
    subst h1 h2 h3 <;> simp [isLetter, isDigit] <;> exact ⟨rfl, rfl⟩

theorem isLetter_ascii_facts (U : Unicode) (c : Nat) (hc : c < 128)
    (h : isLetter U c = true ∨ isDigit U c = true) : 48 ≤ c ∧ c ≠ 58 ∧ c ≠ 0 ∧ c ≠ 10 := by
  unfold isLetter isDigit at h
  simp only [Bool.or_eq_true, Bool.and_eq_true, decide_eq_true_eq, beq_iff_eq, ge_iff_le] at h
  omega

theorem stopHead_not_ident (U : Unicode) (base : Scanner) (i : Nat) (b : Bool)
    {post : List Nat} (h : base.src.drop i = post) (hi : i ≤ base.src.length)
    (hs : stopHead U post) :
    (isLetter U (base.atOffset U i b).ch || isDigit U (base.atOffset U i b).ch) = false := by
  cases post with
  | nil =>
    have hie : i = base.src.length := by
      have := List.drop_eq_nil_iff.mp h
      omega
    subst hie
    rw [Scanner.atOffset_ch_end]
    simp [isLetter, isDigit]
  | cons c rest =>
    obtain ⟨h1, _, h3, h4⟩ := hs
    rw [Scanner.atOffset_ch_ascii U base i b h h1, h3, h4]
    rfl

theorem stopHead_legal (U : Unicode) {post : List Nat} (hs : stopHead U post) :
    legalHead U post := by
  cases post with
  | nil => trivial
  | cons c rest => exact ⟨hs.2.1, fun h => absurd hs.1 (by omega)⟩

theorem IdentText.legal (U : Unicode) {d : Bool} {w : List Nat} (h : IdentText U d w)
    {post : List Nat} (hs : stopHead U post) : legalHead U (w ++ post) := by
  cases h with
  | nil => exact stopHead_legal U hs
  | byte d c w hc hl _ =>
    refine ⟨?_, fun h => absurd hc (by omega)⟩
    have := isLetter_ascii_facts U c hc (by
      rcases hl with h | h
      · exact Or.inl h
      · exact Or.inr h.2)
    omega
  | rune d c bs w r hc hdec hl hb he _ =>
    refine ⟨by omega, fun _ => ?_⟩
    have hd : U.decodeRune (c :: (bs ++ w ++ post)) = (r, bs.length + 1) := by
      have := hdec (w ++ post)
      rw [List.cons_append, ← List.append_assoc] at this
      exact this
    show ¬((U.decodeRune (c :: (bs ++ w ++ post))).1 = 0xFFFD ∧
      (U.decodeRune (c :: (bs ++ w ++ post))).2 = 1) ∧
      (U.decodeRune (c :: (bs ++ w ++ post))).1 ≠ bom
    rw [hd]
    refine ⟨fun h => he ⟨h.1, ?_⟩, hb⟩
    have : bs.length = 0 := by
      have := h.2
      simp only at this
      omega
    exact List.length_eq_zero.mp this

/-- The loop of `scanIdentifier` over a written identifier. -/
theorem Scanner.scanIdentifierLoop_at (U : Unicode) (base : Scanner) (b : Bool) {d : Bool}
    {w : List Nat} (h : IdentText U d w) : ∀ (i : Nat) (post : List Nat) (fuel : Nat),
    base.src.drop i = w ++ post → i ≤ base.src.length → stopHead U post → w.length < fuel →
    Scanner.scanIdentifierLoop U fuel (base.atOffset U i b) =
      some (base.atOffset U (i + w.length) b) := by
  induction h with
  | nil =>
    intro i post fuel hd hi hs hf
    obtain ⟨k, rfl⟩ : ∃ k, fuel = k + 1 := ⟨fuel - 1, by simp at hf; omega⟩
    rw [Scanner.scanIdentifierLoop, stopHead_not_ident U base i b hd hi hs]
    rfl
  | byte d c w hc hl hw ih =>
    intro i post fuel hd hi hs hf
    obtain ⟨k, rfl⟩ : ∃ k, fuel = k + 1 := ⟨fuel - 1, by simp at hf; omega⟩
    have hd2 : base.src.drop i = c :: (w ++ post) := hd
    obtain ⟨d1, _, d3⟩ := drop_cons_facts hd2
    have hch := Scanner.atOffset_ch_ascii U base i b hd2 hc
    have hfacts := isLetter_ascii_facts U c hc (by
      rcases hl with h | h
      · exact Or.inl h
      · exact Or.inr h.2)
    have hn := Scanner.next_ascii U base i b hd2 hc hfacts.2.2.2 (hw.legal U hs)
    rw [Scanner.scanIdentifierLoop, hch, if_pos, hn, ih (i + 1) post k d3 (by omega) hs
      (by simp at hf; omega)]
    · simp only [List.length_cons]
      rw [Nat.add_assoc, Nat.add_comm 1]
    · rcases hl with h | h
      · rw [h]
        rfl
      · rw [h.2]
        simp
  | rune d c bs w r hc hdec hl hb he hw ih =>
    intro i post fuel hd hi hs hf
    obtain ⟨k, rfl⟩ : ∃ k, fuel = k + 1 := ⟨fuel - 1, by simp at hf; omega⟩
    have hd2 : base.src.drop i = c :: (bs ++ (w ++ post)) := by
      rw [hd]
      simp
    obtain ⟨d1, _, _⟩ := drop_cons_facts hd2
    have hdecode : U.decodeRune (c :: (bs ++ (w ++ post))) = (r, bs.length + 1) := hdec _
    have hrune : runeAt U base.src i = (r, bs.length + 1) := by
      rw [runeAt_rune U hd2 hc, hdecode]
    have hr128 : 128 ≤ r := by
      have := U.decodeRune_self c (bs ++ (w ++ post)) hc
      rw [hdecode] at this
      exact this
    have hd3 : base.src.drop (i + (bs.length + 1)) = w ++ post := by
      have : base.src.drop i = (c :: bs) ++ (w ++ post) := by
        rw [hd2]
        rfl
      have := (drop_append_facts this).1
      simp only [List.length_cons] at this
      exact this
    have hle : i + (bs.length + 1) ≤ base.src.length := by
      have : base.src.drop i = (c :: bs) ++ (w ++ post) := by
        rw [hd2]
        rfl
      have := (drop_append_facts this).2.2 (by simp)
      simp only [List.length_cons] at this
      exact this
    have hn := Scanner.next_at U base i b d1 (by rw [hrune]; show r ≠ 10; omega)
      (by rw [hrune]; show legalHead U (base.src.drop (i + (bs.length + 1))); rw [hd3]
          exact hw.legal U hs)
    rw [hrune] at hn
    have hch : (base.atOffset U i b).ch = r := by
      show (runeAt U base.src i).1 = r
      rw [hrune]
    have hlen : (c :: bs ++ w).length = bs.length + 1 + w.length := by
      simp
      omega
    rw [Scanner.scanIdentifierLoop, hch, if_pos, hn, ih (i + (bs.length + 1)) post k hd3 hle hs
      (by rw [hlen] at hf; omega)]
    · rw [hlen, Nat.add_assoc]
    · rcases hl with h | h
      · rw [h]
        rfl
      · rw [h.2]
        simp

/-- The body of `Scan` at a written identifier. -/
theorem Scanner.scanStep_ident (U : Unicode) (base : Scanner) (hm : base.mode = 0) (i : Nat)
    (b : Bool) {w post : List Nat} (hw : IdentText U false w)
    (h : base.src.drop i = w ++ post) (hs : stopHead U post) :
    Scanner.scanStep U (base.atOffset U i b) =
      some (.done token.Ident (bytesString w) (base.file.FileSetPos i)
        (base.atOffset U (i + w.length) false)) := by
  have hne : w ≠ [] := by
    intro hc
    subst hc
    cases hw
  have hlen := (drop_append_facts h).2.2 hne
  have htake := (drop_append_facts h).2.1
  have hpos : 0 < w.length := List.length_pos.mpr hne
  have hloop := Scanner.scanIdentifierLoop_at U base b hw i post (base.src.length + 2) h
    (by omega) hs (by omega)
  have hfirst : isLetter U (base.atOffset U i b).ch = true ∧
      ((base.atOffset U i b).ch ≠ 32 ∧ (base.atOffset U i b).ch ≠ 9 ∧
        (base.atOffset U i b).ch ≠ 10 ∧ (base.atOffset U i b).ch ≠ 13) := by
    cases hw with
    | byte d c w hc hl _ =>
      have hd2 : base.src.drop i = c :: (w ++ post) := h
      rw [Scanner.atOffset_ch_ascii U base i b hd2 hc]
      have hl1 : isLetter U c = true := by
        rcases hl with h | h
        · exact h
        · exact absurd h.1 (by decide)
      refine ⟨hl1, ?_⟩
      unfold isLetter at hl1
      simp only [Bool.or_eq_true, Bool.and_eq_true, decide_eq_true_eq, beq_iff_eq,
        ge_iff_le] at hl1
      omega
    | rune d c bs w r hc hdec hl hb he _ =>
      have hd2 : base.src.drop i = c :: (bs ++ (w ++ post)) := by
        rw [h]
        simp
      have hdecode : U.decodeRune (c :: (bs ++ (w ++ post))) = (r, bs.length + 1) := hdec _
      have hr128 : 128 ≤ r := by
        have := U.decodeRune_self c (bs ++ (w ++ post)) hc
        rw [hdecode] at this
        exact this
      have hch : (base.atOffset U i b).ch = r := by
        show (runeAt U base.src i).1 = r
        rw [runeAt_rune U hd2 hc, hdecode]
      rw [hch]
      refine ⟨?_, by omega⟩
      rcases hl with h | h
      · exact h
      · exact absurd h.1 (by decide)
  have hskip := Scanner.skipWhitespace_stay U ((base.atOffset U i b).src.length + 1)
    (base.atOffset U i b) hfirst.2
  have hmode : (base.atOffset U (i + w.length) b).mode &&& DontInsertSemis = 0 := by
    show base.mode &&& DontInsertSemis = 0
    rw [hm]
    rfl
  have hsc : Scanner.scanIdentifier U ((base.atOffset U i b).src.length + 2)
      (base.atOffset U i b) = some (bytesString w, base.atOffset U (i + w.length) b) := by
    unfold Scanner.scanIdentifier
    have : Scanner.scanIdentifierLoop U ((base.atOffset U i b).src.length + 2)
      (base.atOffset U i b) = some (base.atOffset U (i + w.length) b) := hloop
    rw [this]
    show some (bytesString ((base.src.drop i).take (i + w.length - i)), _) = _
    rw [Nat.add_sub_cancel_left, htake]
  unfold Scanner.scanStep
  simp only [hskip, hfirst.1, if_true, hsc, hmode]
  rfl

/-- The loop of `scanString` over the bytes of a quoted text up to the closing quote. -/
theorem Scanner.scanStringLoop_at (U : Unicode) (base : Scanner) (b : Bool) (offs : Nat) :
    ∀ (w : List Nat) (i : Nat) (post : List Nat) (fuel : Nat), (∀ c ∈ w, plainByte c) →
    base.src.drop i = w ++ 34 :: post → legalHead U post → w.length < fuel →
    Scanner.scanStringLoop U 34 offs fuel (base.atOffset U i b) =
      some (base.atOffset U (i + w.length + 1) b) := by
  intro w
  induction w with
  | nil =>
    intro i post fuel _ hd hl hf
    obtain ⟨k, rfl⟩ : ∃ k, fuel = k + 1 := ⟨fuel - 1, by omega⟩
    have hd2 : base.src.drop i = 34 :: post := hd
    have h34 : (34 : Nat) < 128 := by decide
    have hch := Scanner.atOffset_ch_ascii U base i b hd2 h34
    have hn := Scanner.next_ascii U base i b hd2 h34 (by decide) hl
    rw [Scanner.scanStringLoop]
    simp only [hch, hn]
    rw [if_neg (by decide), if_pos (by rfl)]
    rfl
  | cons c w ih =>
    intro i post fuel hp hd hl hf
    obtain ⟨k, rfl⟩ : ∃ k, fuel = k + 1 := ⟨fuel - 1, by omega⟩
    have hd2 : base.src.drop i = c :: (w ++ 34 :: post) := hd
    obtain ⟨_, _, d3⟩ := drop_cons_facts hd2
    obtain ⟨c1, c2, c3, c4, c5⟩ := hp c (List.mem_cons_self _ _)
    have hch := Scanner.atOffset_ch_ascii U base i b hd2 c1
    have hlnext : legalHead U (w ++ 34 :: post) := by
      cases w with
      | nil => exact ⟨by decide, fun h => absurd h (by decide)⟩
      | cons c2 w =>
        have := hp c2 (List.mem_cons_of_mem _ (List.mem_cons_self _ _))
        exact ⟨this.2.1, fun h => absurd this.1 (by omega)⟩
    have hn := Scanner.next_ascii U base i b hd2 c1 c3 hlnext
    rw [Scanner.scanStringLoop]
    simp only [hch, hn]
    rw [if_neg (by omega), if_neg (by omega), if_neg (by omega),
      ih (i + 1) post k (fun x hx => hp x (List.mem_cons_of_mem _ hx)) d3 hl
        (by simp at hf; omega)]
    simp only [List.length_cons]
    rw [Nat.add_assoc i 1, Nat.add_comm 1]

/-- The body of `Scan` at a text in double quotes without escapes. -/
theorem Scanner.scanStep_quoted (U : Unicode) (base : Scanner) (hm : base.mode = 0) (i : Nat)
    (b : Bool) {w post : List Nat} (hw : ∀ c ∈ w, plainByte c)
    (h : base.src.drop i = 34 :: (w ++ 34 :: post)) (hl : legalHead U post) :
    Scanner.scanStep U (base.atOffset U i b) =
      some (.done token.String (bytesString (34 :: (w ++ [34]))) (base.file.FileSetPos i)
        (base.atOffset U (i + w.length + 2) true)) := by
  obtain ⟨d1, _, d3⟩ := drop_cons_facts h
  have h34 : (34 : Nat) < 128 := by decide
  have hch := Scanner.atOffset_ch_ascii U base i b h h34
  have hlnext : legalHead U (w ++ 34 :: post) := by
    cases w with
    | nil => exact ⟨by decide, fun h => absurd h (by decide)⟩
    | cons c2 w =>
      have := hw c2 (List.mem_cons_self _ _)
      exact ⟨this.2.1, fun h => absurd this.1 (by omega)⟩
  have hn := Scanner.next_ascii U base i b h h34 (by decide) hlnext
  have hskip := Scanner.skipWhitespace_stay U ((base.atOffset U i b).src.length + 1)
    (base.atOffset U i b) (by rw [hch]; decide)
  have hloop := Scanner.scanStringLoop_at U base b i w (i + 1) post (base.src.length + 2) hw d3
    hl (by
      have := congrArg List.length d3
      rw [List.length_drop, List.length_append] at this
      omega)
  have htake : (base.src.drop i).take (w.length + 2) = 34 :: (w ++ [34]) := by
    have : base.src.drop i = (34 :: (w ++ [34])) ++ post := by
      rw [h]
      simp
    have h2 := (drop_append_facts this).2.1
    simp only [List.length_cons, List.length_append, List.length_nil, zero_add] at h2
    exact h2
  have hmode : (base.atOffset U (i + 1 + w.length + 1) b).mode &&& DontInsertSemis = 0 := by
    show base.mode &&& DontInsertSemis = 0
    rw [hm]
    rfl
  have hsc : Scanner.scanString U ((base.atOffset U i b).src.length + 2) 34
      (base.atOffset U (i + 1) b) =
        some (bytesString (34 :: (w ++ [34])), base.atOffset U (i + 1 + w.length + 1) b) := by
    unfold Scanner.scanString
    have : Scanner.scanStringLoop U 34 ((base.atOffset U (i + 1) b).offset - 1)
      ((base.atOffset U i b).src.length + 2) (base.atOffset U (i + 1) b) =
        some (base.atOffset U (i + 1 + w.length + 1) b) := hloop
    dsimp only
    rw [this]
    show some (bytesString ((base.src.drop (i + 1 - 1)).take (i + 1 + w.length + 1 - (i + 1 - 1))),
      _) = _
    rw [Nat.add_sub_cancel, show i + 1 + w.length + 1 - i = w.length + 2 by omega, htake]
  have heq : i + 1 + w.length + 1 = i + w.length + 2 := by omega
  rw [heq] at hsc hmode
  unfold Scanner.scanStep
  simp only [hskip, hch, hn]
  simp [isLetter, isDigit, hsc, hmode]
  exact ⟨rfl, rfl⟩

theorem Scanner.atOffset_end (U : Unicode) (base : Scanner) (b : Bool) :
    base.atOffset U base.src.length b = ⟨base.file, base.src, -1, base.src.length,
      base.src.length, base.lineOffset, b, base.errorHandler, base.errors, base.errorCount,
      base.mode⟩ := by
  unfold Scanner.atOffset
  rw [runeAt_end U (List.drop_eq_nil_of_le (le_refl _))]
  rfl

/-- The body of `Scan` at the end of the source: the semicolon when `insertSemi` is set,
and `EOF` otherwise. -/
theorem Scanner.scanStep_end (U : Unicode) (base : Scanner) (hm : base.mode = 0) (b : Bool) :
    Scanner.scanStep U (base.atOffset U base.src.length b) =
      some (.done (if b then token.Semicolon else token.EOF) (if b then "\n" else "")
        (base.file.FileSetPos base.src.length) (base.atOffset U base.src.length false)) := by
  have hch := Scanner.atOffset_ch_end U base b
  have hn := Scanner.next_end U base b
  have hskip := Scanner.skipWhitespace_stay U
    ((base.atOffset U base.src.length b).src.length + 1)
    (base.atOffset U base.src.length b) (by rw [hch]; decide)
  have hmode : (base.atOffset U base.src.length b).mode &&& DontInsertSemis = 0 := by
    show base.mode &&& DontInsertSemis = 0
    rw [hm]
    rfl
  rw [Scanner.atOffset_end U base false]
  rw [Scanner.atOffset_end U base b] at hch hn hskip hmode ⊢
  unfold Scanner.scanStep
  simp only [hskip, hn]
  rw [if_neg (by simp [isLetter]), if_neg (by simp [isDigit])]
  simp only [if_true, hmode]
  cases b <;> rfl

/-- At the end of the source the scanner returns the semicolon, if `insertSemi` is set,
and then `EOF`. -/
theorem Scanner.Feeds.at_end (U : Unicode) (base : Scanner) (hm : base.mode = 0) (b : Bool) :
    Scanner.Feeds U (base.atOffset U base.src.length b)
      (if b then [(token.Semicolon, "\n"), (token.EOF, "")] else [(token.EOF, "")]) := by
  have hf : Scanner.Feeds U (base.atOffset U base.src.length false) [(token.EOF, "")] :=
    Scanner.Feeds.of_step U (Scanner.scanStep_end U base hm false) rfl trivial
  cases b with
  | false => exact hf
  | true => exact Scanner.Feeds.of_step U (Scanner.scanStep_end U base hm true) rfl hf

/-- Function `NewScanner` on a source that begins with an ASCII byte other than NUL and
the newline: the scanner is at the offset 0. -/
theorem NewScanner_at (U : Unicode) (file : SourceFile) (src : List Nat) (errorHandler : Bool)
    (errors : ErrorList) (mode : Nat) (hsize : file.Size = src.length) {c : Nat}
    {rest : List Nat} (h : src = c :: rest) (hc : c < 128) (hc0 : c ≠ 0) :
    NewScanner U file src errorHandler errors mode =
      some (Scanner.atOffset U ⟨file, src, 32, 0, 0, 0, false, errorHandler, errors, 0, mode⟩
        0 false) := by
  unfold NewScanner
  rw [if_neg (not_not.mpr hsize)]
  have hlen : 0 < src.length := by
    rw [h]
    simp
  have hget : src.getD 0 0 = c := by
    rw [h]
    rfl
  have hdrop : src.drop 0 = c :: rest := by
    rw [h]
    rfl
  have hnext : Scanner.next U ⟨file, src, 32, 0, 0, 0, false, errorHandler, errors, 0, mode⟩ =
      Scanner.atOffset U ⟨file, src, 32, 0, 0, 0, false, errorHandler, errors, 0, mode⟩
        0 false := by
    unfold Scanner.next
    simp only [if_pos hlen]
    unfold Scanner.addLine
    simp only [if_neg (show ¬ ((32 : Int) = 10) by decide)]
    rw [hget]
    have hc0i : ¬ ((c : Int) = 0) := by omega
    have hc1 : ¬ ((c : Int) ≥ 128) := by omega
    rw [if_neg hc0i, if_neg hc1]
    unfold Scanner.atOffset
    simp only
    rw [runeAt_ascii U hdrop hc]
  dsimp only
  rw [hnext, if_neg]
  show (runeAt U src 0).1 ≠ bom
  rw [runeAt_ascii U hdrop hc]
  show (c : Int) ≠ 0xFEFF
  omega

end parser

/-! ### Parsing a written values literal -/

namespace parser

theorem Parser.next_on (U : Unicode) (p : Parser) (a b : Token × String)
    (rest : List (Token × String)) (h : p.On U (a :: b :: rest)) :
    ∃ p1, Parser.next U p = .ok () p1 ∧ p1.On U (b :: rest) ∧ p1.errors = p.errors ∧
      p1.exprLevel = p.exprLevel := by
  obtain ⟨tok, lit⟩ := b
  obtain ⟨_, _⟩ := a
  obtain ⟨_, _, pos, t, h1, h2, h3⟩ := h
  refine ⟨{ p with scanner := t, token := tok, tokenLit := lit, pos := pos }, ?_,
    ⟨rfl, rfl, h3⟩, h2, rfl⟩
  unfold Parser.next
  rw [h1]

theorem Parser.expect_on (U : Unicode) (p : Parser) (tok : Token) (lit : String)
    (b : Token × String) (rest : List (Token × String))
    (h : p.On U ((tok, lit) :: b :: rest)) :
    ∃ p1, Parser.expect U tok p = .ok p.pos p1 ∧ p1.On U (b :: rest) ∧
      p1.errors = p.errors ∧ p1.exprLevel = p.exprLevel := by
  obtain ⟨p1, h1, h2, h3, h4⟩ := Parser.next_on U p _ _ _ h
  refine ⟨p1, ?_, h2, h3, h4⟩
  unfold Parser.expect
  have ht : p.token = tok := h.1
  simp only [ne_eq, ht, not_true_eq_false, if_false, Res.bind, h1]

theorem Parser.On.at_level (U : Unicode) {p : Parser} {toks : List (Token × String)}
    (h : p.On U toks) (n : Int) : ({ p with exprLevel := n } : Parser).On U toks := by
  cases toks with
  | nil => exact h
  | cons a toks => exact h

theorem ValuesLit.toks_mk (q : Bool) (l r : Pos) (els : List ValuesElementLit) (b : Token) :
    ValuesLit.toks q (.mk l els r b) =
      (token.LBrace, "") :: (ValuesElementLit.toksList q els ++ [(token.RBrace, "")]) := by
  cases els with
  | nil => rfl
  | cons e es => rfl

theorem ValuesElementLit.toks_elem (q : Bool) (key : _) (kp cp : Pos) (value : Option Expr)
    (tags : Option ValuesLit) :
    ValuesElementLit.toks q (.mk key kp cp value tags) = keyTok q key :: Expr.toksOpt q value := by
  rfl

theorem keyTok_facts (q : Bool) (key : String) :
    (keyTok q key).1 ≠ token.RBrace ∧ (keyTok q key).1 ≠ token.EOF ∧
      (keyTok q key).1 ≠ token.LBrace + 1 := by
  cases q
  · exact ⟨show token.Ident ≠ token.RBrace by decide, show token.Ident ≠ token.EOF by decide,
      show token.Ident ≠ token.LBrace + 1 by decide⟩
  · exact ⟨show token.String ≠ token.RBrace by decide, show token.String ≠ token.EOF by decide,
      show token.String ≠ token.LBrace + 1 by decide⟩

/-- The methods of the parser on the tokens of a written values literal. -/
theorem Parser.reads (U : Unicode) (q : Bool) : ∀ fuel : Nat, Parser.Reads U q fuel := by
  intro fuel
  induction fuel using Nat.strong_induction_on with
  | _ n ih =>
  have hclose : token.LBrace + 1 = token.RBrace := by decide
  refine ⟨?_, ?_, ?_, ?_⟩
  · intro x p rest hp hf hr hon
    obtain ⟨b, rest1, rfl⟩ : ∃ b rest1, rest = b :: rest1 := by
      cases rest with
      | nil => exact absurd rfl hr
      | cons b rest1 => exact ⟨b, rest1, rfl⟩
    cases x with
    | Ident name pos =>
      have hon1 : p.On U ((token.Ident, name) :: b :: rest1) := hon
      have hf1 : 3 * 1 ≤ n := hf
      obtain ⟨k, rfl⟩ : ∃ k, n = k + 1 := ⟨n - 1, by omega⟩
      obtain ⟨p1, h1, h2, h3, _⟩ := Parser.next_on U p _ _ _ hon1
      refine ⟨.Ident name p.pos, p1, ?_, rfl, h2, h3⟩
      rw [Parser.parseOperand, if_pos hon1.1]
      unfold Parser.parseIdent
      rw [if_pos hon1.1]
      simp only [Res.bind, h1, hon1.2.1]
    | ValuesLit v =>
      have hv : v.Plain U q := by
        rw [Expr.Plain] at hp
        exact hp
      have htoks : (Expr.ValuesLit v).toks q = v.toks q := by
        rw [Expr.toks]
      rw [htoks] at hf hon
      have hpos : 2 ≤ (v.toks q).length := by
        obtain ⟨l, els, r, b0⟩ := v
        rw [ValuesLit.toks_mk]
        simp
      obtain ⟨k, rfl⟩ : ∃ k, n = k + 1 := ⟨n - 1, by omega⟩
      obtain ⟨y, p1, g1, g2, g3, g4⟩ :=
        (ih k (by omega)).2.1 v p (b :: rest1) hv (by omega) hr hon
      have htok : p.token = token.LBrace := by
        obtain ⟨l, els, r, b0⟩ := v
        rw [ValuesLit.toks_mk] at hon
        exact hon.1
      refine ⟨.ValuesLit y, p1, ?_, ?_, g3, g4⟩
      · rw [Parser.parseOperand, if_neg (by rw [htok]; decide), if_neg (by rw [htok]; decide),
          if_neg (by rw [htok]; decide), if_pos htok]
        simp only [Res.bind, g1]
      · rw [Expr.strip, Expr.strip, g2]
    | ArrayLit _ _ _ => rw [Expr.Plain] at hp; exact hp.elim
    | BadExpr _ _ => rw [Expr.Plain] at hp; exact hp.elim
    | Number _ _ => rw [Expr.Plain] at hp; exact hp.elim
    | SliceExpr _ _ _ _ _ => rw [Expr.Plain] at hp; exact hp.elim
    | StringLit _ _ _ => rw [Expr.Plain] at hp; exact hp.elim
    | ValuesElementLit _ => rw [Expr.Plain] at hp; exact hp.elim
  · intro v p rest hp hf hr hon
    obtain ⟨b, rest1, rfl⟩ : ∃ b rest1, rest = b :: rest1 := by
      cases rest with
      | nil => exact absurd rfl hr
      | cons b rest1 => exact ⟨b, rest1, rfl⟩
    obtain ⟨l, els, r, b0⟩ := v
    rw [ValuesLit.Plain] at hp
    obtain ⟨hb0, hels⟩ := hp
    subst hb0
    rw [ValuesLit.toks_mk] at hf hon
    simp only [List.length_cons, List.length_append, List.length_nil] at hf
    obtain ⟨k, rfl⟩ : ∃ k, n = k + 1 := ⟨n - 1, by omega⟩
    have hon1 : p.On U ((token.LBrace, "") ::
        (ValuesElementLit.toksList q els ++ (token.RBrace, "") :: b :: rest1)) := by
      have : (token.LBrace, "") :: (ValuesElementLit.toksList q els ++ [(token.RBrace, "")]) ++
          b :: rest1 = (token.LBrace, "") ::
            (ValuesElementLit.toksList q els ++ (token.RBrace, "") :: b :: rest1) := by
        simp
      rw [← this]
      exact hon
    obtain ⟨c, rest2, hc⟩ : ∃ c rest2,
        ValuesElementLit.toksList q els ++ (token.RBrace, "") :: b :: rest1 = c :: rest2 := by
      cases ValuesElementLit.toksList q els with
      | nil => exact ⟨_, _, rfl⟩
      | cons c rest2 => exact ⟨_, _, rfl⟩
    rw [hc] at hon1
    obtain ⟨p1, h1, h2, h3, h4⟩ := Parser.expect_on U p _ _ _ _ hon1
    rw [← hc] at h2
    obtain ⟨ys, p2, g1, g2, g3, g4⟩ := (ih k (by omega)).2.2.1 els [] _ (b :: rest1) hels
      (by omega) (h2.at_level U (p1.exprLevel + 1))
    obtain ⟨p3, f1, f2, f3, f4⟩ := Parser.expect_on U _ _ _ _ _ (g3.at_level U (p2.exprLevel - 1))
    refine ⟨.mk p.pos ([] ++ ys) p2.pos token.LBrace, p3, ?_, ?_, f2, ?_⟩
    · rw [Parser.parseValuesLit]
      simp only [Res.bind, h1, g1, hclose, f1]
    · rw [ValuesLit.strip, ValuesLit.strip, List.nil_append, g2]
    · rw [f3]
      show p2.errors = _
      rw [g4]
      show p1.errors = _
      rw [h3]
  · intro els acc p rest hp hf hon
    obtain ⟨k, rfl⟩ : ∃ k, n = k + 1 := ⟨n - 1, by omega⟩
    cases els with
    | nil =>
      have hon1 : p.On U ((token.RBrace, "") :: rest) := hon
      refine ⟨[], p, ?_, rfl, hon1, rfl⟩
      rw [Parser.parseValuesLitLoop, if_neg, List.append_nil]
      rw [hon1.1]
      exact fun h => h.1 hclose.symm
    | cons e es =>
      obtain ⟨key, kp, cp, value, tags⟩ := e
      rw [ValuesElementLit.PlainList] at hp
      obtain ⟨hpe, hpes⟩ := hp
      have hlist : ValuesElementLit.toksList q (.mk key kp cp value tags :: es) =
          ValuesElementLit.toks q (.mk key kp cp value tags) ++
            ValuesElementLit.toksMore q es := rfl
      rw [hlist] at hf hon
      have htok : p.token = (keyTok q key).1 := by
        rw [ValuesElementLit.toks_elem] at hon
        exact hon.1
      have hon1 : p.On U (ValuesElementLit.toks q (.mk key kp cp value tags) ++
          (ValuesElementLit.toksMore q es ++ (token.RBrace, "") :: rest)) := by
        rw [← List.append_assoc]
        exact hon
      simp only [List.length_append] at hf
      have hrest : ∃ rest1,
          ValuesElementLit.toksMore q es ++ (token.RBrace, "") :: rest =
            (token.Comma, "") :: rest1 ∨
          ValuesElementLit.toksMore q es ++ (token.RBrace, "") :: rest =
            (token.RBrace, "") :: rest1 := by
        cases es with
        | nil => exact ⟨rest, Or.inr rfl⟩
        | cons e2 es1 =>
          refine ⟨ValuesElementLit.toks q e2 ++ ValuesElementLit.toksMore q es1 ++
            (token.RBrace, "") :: rest, Or.inl ?_⟩
          rw [ValuesElementLit.toksMore]
          simp
      obtain ⟨y, p1, g1, g2, g3, g4⟩ := (ih k (by omega)).2.2.2 _ p _ hpe (by omega) hrest hon1
      have hcond : p.token ≠ token.LBrace + 1 ∧ p.token ≠ token.EOF := by
        rw [htok]
        exact ⟨(keyTok_facts q key).2.2, (keyTok_facts q key).2.1⟩
      cases es with
      | nil =>
        have g3a : p1.On U ((token.RBrace, "") :: rest) := g3
        refine ⟨[y], p1, ?_, ?_, g3a, g4⟩
        · rw [Parser.parseValuesLitLoop, if_pos hcond]
          simp only [Res.bind, g1]
          unfold Parser.expectComma
          rw [if_neg (by rw [g3a.1]; decide),
            if_neg (fun h => absurd (g3a.1.symm.trans h.1) (by decide))]
          rfl
        · rw [ValuesElementLit.stripList, ValuesElementLit.stripList,
            ValuesElementLit.stripList, ValuesElementLit.stripList, g2]
      | cons e2 es1 =>
        obtain ⟨key2, kp2, cp2, value2, tags2⟩ := e2
        have g3a : p1.On U ((token.Comma, "") :: keyTok q key2 ::
            (Expr.toksOpt q value2 ++ ValuesElementLit.toksMore q es1 ++
              (token.RBrace, "") :: rest)) := by
          have : ValuesElementLit.toksMore q (.mk key2 kp2 cp2 value2 tags2 :: es1) ++
              (token.RBrace, "") :: rest = (token.Comma, "") :: keyTok q key2 ::
                (Expr.toksOpt q value2 ++ ValuesElementLit.toksMore q es1 ++
                  (token.RBrace, "") :: rest) := by
            rw [ValuesElementLit.toksMore, ValuesElementLit.toks_elem]
            simp
          rw [← this]
          exact g3
        obtain ⟨p2, f1, f2, f3, _⟩ := Parser.next_on U p1 _ _ _ g3a
        have f2a : p2.On U (ValuesElementLit.toksList q (.mk key2 kp2 cp2 value2 tags2 :: es1) ++
            (token.RBrace, "") :: rest) := by
          have : ValuesElementLit.toksList q (.mk key2 kp2 cp2 value2 tags2 :: es1) ++
              (token.RBrace, "") :: rest = keyTok q key2 ::
                (Expr.toksOpt q value2 ++ ValuesElementLit.toksMore q es1 ++
                  (token.RBrace, "") :: rest) := by
            show (ValuesElementLit.toks q (.mk key2 kp2 cp2 value2 tags2) ++
              ValuesElementLit.toksMore q es1) ++ _ = _
            rw [ValuesElementLit.toks_elem]
            simp
          rw [this]
          exact f2
        have hlen : (ValuesElementLit.toksMore q (.mk key2 kp2 cp2 value2 tags2 :: es1)).length =
            (ValuesElementLit.toksList q (.mk key2 kp2 cp2 value2 tags2 :: es1)).length + 1 := by
          rw [ValuesElementLit.toksMore]
          rfl
        have hpos : 1 ≤ (ValuesElementLit.toks q (.mk key kp cp value tags)).length := by
          rw [ValuesElementLit.toks_elem]
          simp
        obtain ⟨ys, p3, e1, e2, e3, e4⟩ := (ih k (by omega)).2.2.1 _
          (acc ++ [y]) p2 rest hpes (by omega) f2a
        refine ⟨y :: ys, p3, ?_, ?_, e3, ?_⟩
        · rw [Parser.parseValuesLitLoop, if_pos hcond]
          simp only [Res.bind, g1]
          unfold Parser.expectComma
          rw [if_pos g3a.1]
          simp only [Res.bind, f1]
          rw [if_neg (by rw [f2.1]; exact (keyTok_facts q key2).2.2)]
          simp only [if_true]
          rw [e1, List.append_assoc]
          rfl
        · rw [ValuesElementLit.stripList, ValuesElementLit.stripList, g2, e2]
        · rw [e4, f3, g4]
  · intro e p rest hp hf hrest hon
    obtain ⟨key, kp, cp, value, tags⟩ := e
    rw [ValuesElementLit.Plain] at hp
    obtain ⟨htags, hkey, hval⟩ := hp
    subst htags
    rw [ValuesElementLit.toks_elem] at hf hon
    simp only [List.length_cons] at hf
    obtain ⟨k, rfl⟩ : ∃ k, n = k + 1 + 1 := ⟨n - 2, by omega⟩
    obtain ⟨rest1, hrest1⟩ := hrest
    have hne : rest ≠ [] := by
      rcases hrest1 with h | h <;> rw [h] <;> exact List.cons_ne_nil _ _
    obtain ⟨c, rest2, hc⟩ : ∃ c rest2, Expr.toksOpt q value ++ rest = c :: rest2 := by
      cases h : Expr.toksOpt q value ++ rest with
      | nil =>
        have := List.append_eq_nil.mp h
        exact absurd this.2 hne
      | cons c rest2 => exact ⟨_, _, rfl⟩
    have hon1 : p.On U (keyTok q key :: c :: rest2) := by
      rw [← hc]
      exact hon
    obtain ⟨p1, h1, h2, h3, _⟩ := Parser.next_on U p _ _ _ hon1
    rw [← hc] at h2
    have hname : (if p.token = token.Ident then Res.ok p.tokenLit p
        else if p.token = token.String then Res.ok (U.Unquote p.tokenLit) p
        else (Parser.errorExpected p.pos "map key" p).bind fun _ p => .ok "_" p) =
          Res.ok key p := by
      cases q with
      | true =>
        have ht : p.token = token.String := hon1.1
        have hl : p.tokenLit = quoteText key := hon1.2.1
        rw [if_neg (by rw [ht]; decide), if_pos ht, hl, U.Unquote_ident key (hkey.1 rfl)]
      | false =>
        have ht : p.token = token.Ident := hon1.1
        have hl : p.tokenLit = key := hon1.2.1
        rw [if_pos ht, hl]
    simp only [Res.bind] at hname
    cases value with
    | none =>
      have h2a : p1.On U rest := h2
      have htok : p1.token = token.Comma ∨ p1.token = token.LBrace + 1 := by
        rcases hrest1 with h | h
        · rw [h] at h2a
          exact Or.inl h2a.1
        · rw [h] at h2a
          exact Or.inr (h2a.1.trans hclose.symm)
      refine ⟨.mk key p.pos 0 none none, p1, ?_, rfl, h2a, h3⟩
      rw [Parser.parseValuesElementLit]
      simp only [Res.bind, hname, h1]
      rw [Parser.parseValuesElementTry, if_pos htok]
    | some v =>
      have hv : v.Plain U q := by
        rw [Expr.PlainOpt] at hval
        exact hval
      have h2a : p1.On U ((token.Colon, "") :: (Expr.toks q v ++ rest)) := by
        have : Expr.toksOpt q (some v) ++ rest = (token.Colon, "") :: (Expr.toks q v ++ rest) := by
          rw [Expr.toksOpt]
          rfl
        rw [← this]
        exact h2
      obtain ⟨d, rest3, hd⟩ : ∃ d rest3, Expr.toks q v ++ rest = d :: rest3 := by
        cases h : Expr.toks q v ++ rest with
        | nil =>
          have := List.append_eq_nil.mp h
          exact absurd this.2 hne
        | cons d rest3 => exact ⟨_, _, rfl⟩
      rw [hd] at h2a
      obtain ⟨p2, f1, f2, f3, _⟩ := Parser.next_on U p1 _ _ _ h2a
      rw [← hd] at f2
      have hlen : (Expr.toksOpt q (some v)).length = (Expr.toks q v).length + 1 := by
        rw [Expr.toksOpt]
        rfl
      obtain ⟨y, p3, e1, e2, e3, e4⟩ := (ih k (by omega)).1 v p2 rest hv (by omega) hne f2
      have htok : p1.token = token.Colon := h2a.1
      refine ⟨.mk key p.pos p1.pos (some y) none, p3, ?_, ?_, e3, ?_⟩
      · rw [Parser.parseValuesElementLit]
        simp only [Res.bind, hname, h1]
        rw [Parser.parseValuesElementTry, if_neg (by rw [htok]; decide),
          if_neg (by rw [htok]; decide)]
        unfold Parser.expectAny
        rw [Parser.expectAnyLoop, if_pos htok]
        simp only [Res.bind, f1, if_true, e1]
      · rw [ValuesElementLit.strip, ValuesElementLit.strip, Expr.stripOpt, Expr.stripOpt, e2]
      · rw [e4, f3, h3]

/-- A source whose scanner returns the tokens of a written values literal, then the
semicolon of the end of the line and `EOF`, is parsed without error into one expression
statement that holds the literal, up to the positions. -/
theorem parseSource_written (U : Unicode) (q : Bool) (src : List Nat) (v : ValuesLit)
    (hp : v.Plain U q) (hlen : (v.toks q).length ≤ src.length)
    (hfeeds : ∃ s, NewScanner U (AddFile src.length) src true [] 0 = some s ∧ s.errors = [] ∧
      s.Feeds U (v.toks q ++ [(token.Semicolon, "\n"), (token.EOF, "")])) :
    ∃ r y, parseSource U src = some r ∧ r.err = none ∧
      (r.file.map fun f => f.Stmts) = some [Stmt.ExprStmt (.ValuesLit y)] ∧
      y.strip = v.strip := by
  obtain ⟨s, hs, herr, hfeed⟩ := hfeeds
  obtain ⟨c, rest0, hc⟩ : ∃ c rest0,
      v.toks q ++ [(token.Semicolon, "\n"), (token.EOF, "")] = c :: rest0 := by
    obtain ⟨l, els, r, b0⟩ := v
    rw [ValuesLit.toks_mk]
    exact ⟨_, _, rfl⟩
  have hon0 : Parser.On U ⟨s, 0, 0, "", 0⟩ ((0, "") :: c :: rest0) := by
    rw [← hc]
    exact ⟨rfl, rfl, hfeed⟩
  obtain ⟨p, hn, hon, herrs, _⟩ := Parser.next_on U _ _ _ _ hon0
  rw [← hc] at hon
  have hnew : NewParser U (AddFile src.length) src = some p := by
    unfold NewParser
    rw [hs]
    simp only [hn]
  obtain ⟨p0, hp0, _, hsrc0⟩ := NewParser_spec U (AddFile src.length) src rfl
  have hpp : p0 = p := Option.some.inj (hp0.symm.trans hnew)
  subst hpp
  have hperr : p0.errors = [] := herrs.trans herr
  have hfuel : p0.fuel = 8 * src.length + 32 := by
    unfold Parser.fuel
    rw [hsrc0]
  obtain ⟨m, hm⟩ : ∃ m, p0.fuel = m + 1 + 1 := ⟨p0.fuel - 2, by omega⟩
  have hplain : (Expr.ValuesLit v).Plain U q := by
    rw [Expr.Plain]
    exact hp
  have htoks : (Expr.ValuesLit v).toks q = v.toks q := by
    rw [Expr.toks]
  obtain ⟨y, p1, g1, g2, g3, g4⟩ := (Parser.reads U q p0.fuel).1 (.ValuesLit v) p0
    [(token.Semicolon, "\n"), (token.EOF, "")] hplain (by rw [htoks]; omega)
    (List.cons_ne_nil _ _) (by rw [htoks]; exact hon)
  have htok : p0.token = token.LBrace := by
    obtain ⟨l, els, r, b0⟩ := v
    rw [ValuesLit.toks_mk] at hon
    exact hon.1
  obtain ⟨y1, hy1⟩ : ∃ y1, y = .ValuesLit y1 ∧ y1.strip = v.strip := by
    have h2 := g2
    rw [Expr.strip] at h2
    cases y with
    | ValuesLit y1 =>
      rw [Expr.strip] at h2
      exact ⟨y1, rfl, Expr.ValuesLit.inj h2⟩
    | ArrayLit _ _ _ => rw [Expr.strip] at h2; cases h2
    | BadExpr _ _ => rw [Expr.strip] at h2; cases h2
    | Ident _ _ => rw [Expr.strip] at h2; cases h2
    | Number _ _ => rw [Expr.strip] at h2; cases h2
    | SliceExpr _ _ _ _ _ => rw [Expr.strip] at h2; cases h2
    | StringLit _ _ _ => rw [Expr.strip] at h2; cases h2
    | ValuesElementLit _ => rw [Expr.strip] at h2; cases h2
  obtain ⟨hy, hys⟩ := hy1
  subst hy
  obtain ⟨p2, f1, f2, f3, _⟩ := Parser.next_on U p1 _ _ _ g3
  have hstmt : Parser.parseStmt U p0.fuel p0 = .ok (.ExprStmt (.ValuesLit y1)) p2 := by
    unfold Parser.parseStmt
    rw [if_pos (Or.inr htok)]
    unfold Parser.parseSimpleStmt Parser.parseExprList
    simp only [Res.bind, g1]
    rw [hm, Parser.parseExprListLoop, if_neg (by rw [g3.1]; decide)]
    simp only [List.length_nil, zero_add, gt_iff_lt, lt_irrefl, if_false, Res.bind]
    unfold Parser.expectSemi
    rw [if_neg (by rw [g3.1]; decide), if_neg (by rw [g3.1]; decide), if_pos g3.1]
    simp only [f1]
  have hlist : Parser.parseStmtList U p0.fuel p0.fuel [] p0 =
      .ok [.ExprStmt (.ValuesLit y1)] p2 := by
    have hcond : p0.token ≠ token.RBrace ∧ p0.token ≠ token.EOF := by
      rw [htok]
      exact ⟨by decide, by decide⟩
    have h1 : Parser.parseStmtList U p0.fuel (m + 1 + 1) [] p0 =
        .ok [.ExprStmt (.ValuesLit y1)] p2 := by
      rw [Parser.parseStmtList, if_pos hcond]
      simp only [Res.bind, hstmt]
      rw [Parser.parseStmtList, if_neg (fun h => h.2 f2.1)]
      rfl
    rw [← hm] at h1
    exact h1
  have hp2err : p2.errors = [] := by
    rw [f3, g4, hperr]
  have hsort : ErrorList.Sort ([] : ErrorList) = [] :=
    List.length_eq_zero.mp (ErrorList.Sort_length [])
  have hps : parseSource U src =
      Parser.deferred (.ok (some ⟨p2.file, [.ExprStmt (.ValuesLit y1)]⟩) p2) := by
    unfold parseSource
    rw [hnew]
    show Parser.ParseFile U p0 = _
    unfold Parser.ParseFile
    rw [if_neg (by rw [hperr]; decide)]
    simp only [Res.bind, hlist]
    rw [if_neg (by rw [hp2err]; decide)]
  have hdef : Parser.deferred (.ok (some ⟨p2.file, [.ExprStmt (.ValuesLit y1)]⟩) p2) =
      some ⟨some ⟨p2.file, [.ExprStmt (.ValuesLit y1)]⟩, ErrorList.Err (ErrorList.Sort p2.errors),
        ⟨⟨p2.scanner.file, p2.scanner.src, p2.scanner.ch, p2.scanner.offset,
          p2.scanner.readOffset, p2.scanner.lineOffset, p2.scanner.insertSemi,
          p2.scanner.errorHandler, ErrorList.Sort p2.errors, p2.scanner.errorCount,
          p2.scanner.mode⟩, p2.pos, p2.token, p2.tokenLit, p2.exprLevel⟩⟩ := rfl
  refine ⟨_, y1, hps.trans hdef, ?_, rfl, hys⟩
  show ErrorList.Err (ErrorList.Sort p2.errors) = none
  rw [hp2err, hsort]
  rfl

end parser

/-! ### The tokens of a written values literal -/

namespace parser

theorem bytesString_bytes (s : String) : bytesString (bytes s) = s := by
  unfold bytesString bytes
  rw [List.map_map]
  have : (Char.ofNat ∘ Char.toNat) = id := by
    funext c
    exact Char.ofNat_toNat c
  rw [this, List.map_id]
  rfl

theorem closeHead.stop (U : Unicode) {post : List Nat} (h : closeHead post) :
    stopHead U post := by
  obtain ⟨rest, h | h⟩ := h <;> subst h <;>
    exact ⟨by decide, by decide, by simp [isLetter], by simp [isDigit]⟩

theorem closeHead.legal_head (U : Unicode) {post : List Nat} (h : closeHead post) :
    legalHead U post :=
  stopHead_legal U (h.stop U)

theorem IdentText.legal_first (U : Unicode) {w : List Nat} (h : IdentText U false w)
    (post : List Nat) : legalHead U (w ++ post) := by
  cases h with
  | byte d c w hc hl _ =>
    refine ⟨?_, fun h => absurd hc (by omega)⟩
    have := isLetter_ascii_facts U c hc (by
      rcases hl with h | h
      · exact Or.inl h
      · exact Or.inr h.2)
    omega
  | rune d c bs w r hc hdec hl hb he _ =>
    refine ⟨by omega, fun _ => ?_⟩
    have hd : U.decodeRune (c :: (bs ++ w ++ post)) = (r, bs.length + 1) := by
      have := hdec (w ++ post)
      rw [List.cons_append, ← List.append_assoc] at this
      exact this
    show ¬((U.decodeRune (c :: (bs ++ w ++ post))).1 = 0xFFFD ∧
      (U.decodeRune (c :: (bs ++ w ++ post))).2 = 1) ∧
      (U.decodeRune (c :: (bs ++ w ++ post))).1 ≠ bom
    rw [hd]
    refine ⟨fun h => he ⟨h.1, ?_⟩, hb⟩
    have : bs.length = 0 := by
      have := h.2
      simp only at this
      omega
    exact List.length_eq_zero.mp this

theorem Scanner.Feeds.sym (U : Unicode) (base : Scanner) (hm : base.mode = 0) (i : Nat)
    (b : Bool) {c : Nat} {rest : List Nat} (h : base.src.drop i = c :: rest)
    (hl : legalHead U rest) (tok : Token) (ins : Bool)
    (hsym : (c = 58 ∧ tok = token.Colon ∧ ins = false) ∨
      (c = 44 ∧ tok = token.Comma ∧ ins = false) ∨
      (c = 123 ∧ tok = token.LBrace ∧ ins = false) ∨
      (c = 125 ∧ tok = token.RBrace ∧ ins = true))
    {T : List (Token × String)} (hT : Scanner.Feeds U (base.atOffset U (i + 1) ins) T) :
    Scanner.Feeds U (base.atOffset U i b) ((tok, "") :: T) :=
  Scanner.Feeds.of_step U (Scanner.scanStep_sym U base hm i b h hl tok ins hsym) rfl hT

theorem Scanner.Feeds.ident (U : Unicode) (base : Scanner) (hm : base.mode = 0) (i : Nat)
    (b : Bool) {name : String} {post : List Nat} (hw : IdentText U false (bytes name))
    (h : base.src.drop i = bytes name ++ post) (hs : stopHead U post)
    {T : List (Token × String)}
    (hT : Scanner.Feeds U (base.atOffset U (i + (bytes name).length) false) T) :
    Scanner.Feeds U (base.atOffset U i b) ((token.Ident, name) :: T) := by
  have := Scanner.scanStep_ident U base hm i b hw h hs
  rw [bytesString_bytes] at this
  exact Scanner.Feeds.of_step U this rfl hT

theorem Scanner.Feeds.quoted (U : Unicode) (base : Scanner) (hm : base.mode = 0) (i : Nat)
    (b : Bool) {key : String} {post : List Nat} (hw : ∀ c ∈ bytes key, plainByte c)
    (h : base.src.drop i = 34 :: (bytes key ++ 34 :: post)) (hl : legalHead U post)
    {T : List (Token × String)}
    (hT : Scanner.Feeds U (base.atOffset U (i + (bytes key).length + 2) true) T) :
    Scanner.Feeds U (base.atOffset U i b) ((token.String, quoteText key) :: T) :=
  Scanner.Feeds.of_step U (Scanner.scanStep_quoted U base hm i b hw h hl) rfl hT

theorem ValuesLit.written_mk (q : Bool) (l r : Pos) (els : List ValuesElementLit) (b : Token) :
    ValuesLit.written q (.mk l els r b) = 123 ::
      ((match els with
        | [] => []
        | e :: es => ValuesElementLit.written q e ++ ValuesElementLit.writtenMore q es) ++
        [125]) := by
  cases els with
  | nil => rfl
  | cons e es => rfl

theorem Expr.written_legal (U : Unicode) (q : Bool) (x : Expr) (hp : x.Plain U q)
    (post : List Nat) : legalHead U (x.written q ++ post) := by
  cases x with
  | Ident name pos =>
    rw [Expr.Plain] at hp
    rw [Expr.written]
    exact hp.legal_first U post
  | ValuesLit v =>
    obtain ⟨l, els, r, b0⟩ := v
    rw [Expr.written, ValuesLit.written_mk]
    exact ⟨by decide, fun h => absurd h (by decide)⟩
  | ArrayLit _ _ _ => rw [Expr.Plain] at hp; exact hp.elim
  | BadExpr _ _ => rw [Expr.Plain] at hp; exact hp.elim
  | Number _ _ => rw [Expr.Plain] at hp; exact hp.elim
  | SliceExpr _ _ _ _ _ => rw [Expr.Plain] at hp; exact hp.elim
  | StringLit _ _ _ => rw [Expr.Plain] at hp; exact hp.elim
  | ValuesElementLit _ => rw [Expr.Plain] at hp; exact hp.elim

theorem ValuesElementLit.written_legal_elem (U : Unicode) (q : Bool) (e : ValuesElementLit)
    (hp : e.Plain U q) (post : List Nat) : legalHead U (e.written q ++ post) := by
  obtain ⟨key, kp, cp, value, tags⟩ := e
  rw [ValuesElementLit.Plain] at hp
  rw [ValuesElementLit.written]
  cases q with
  | true => exact ⟨by decide, fun h => absurd h (by decide)⟩
  | false =>
    show legalHead U (bytes key ++ Expr.writtenOpt false value ++ post)
    rw [List.append_assoc]
    exact (hp.2.1.2 rfl).legal_first U _

theorem identKey_plain {key : String} (hk : identKey key) : ∀ c ∈ bytes key, plainByte c := by
  unfold identKey at hk
  cases hb : bytes key with
  | nil => rw [hb] at hk; exact hk.elim
  | cons c cs =>
    rw [hb] at hk
    intro d hd
    have hd2 : (asciiLetter d || asciiDigit d) = true := by
      rcases List.mem_cons.mp hd with h | h
      · rw [h, hk.1]
        rfl
      · exact hk.2 d h
    unfold asciiLetter asciiDigit at hd2
    simp only [Bool.or_eq_true, Bool.and_eq_true, decide_eq_true_eq, beq_iff_eq] at hd2
    unfold plainByte
    omega

theorem Scanner.Feeds.cast (U : Unicode) (base : Scanner) {i j : Nat} (h : i = j) {b : Bool}
    {T : List (Token × String)} (hT : Scanner.Feeds U (base.atOffset U i b) T) :
    Scanner.Feeds U (base.atOffset U j b) T := by
  subst h
  exact hT

theorem closeHead_more (q : Bool) (es : List ValuesElementLit) (post : List Nat) :
    closeHead (ValuesElementLit.writtenMore q es ++ 125 :: post) := by
  cases es with
  | nil => exact ⟨post, Or.inr rfl⟩
  | cons e es =>
    rw [ValuesElementLit.writtenMore]
    cases q with
    | true => exact ⟨_, Or.inl rfl⟩
    | false => exact ⟨_, Or.inl rfl⟩

/-- The scanner on a written values literal. -/
theorem Scanner.writes (U : Unicode) (q : Bool) (base : Scanner) (hm : base.mode = 0) :
    ∀ n : Nat, Scanner.Writes U q base n := by
  intro n
  induction n using Nat.strong_induction_on with
  | _ n ih =>
  have hel : ∀ (e : ValuesElementLit) (i : Nat) (post : List Nat) (T : List (Token × String)),
      e.Plain U q → (e.toks q).length ≤ n → base.src.drop i = e.written q ++ post →
      closeHead post →
      (∀ b, Scanner.Feeds U (base.atOffset U (i + (e.written q).length) b) T) →
      ∀ b, Scanner.Feeds U (base.atOffset U i b) (e.toks q ++ T) := by
    intro e i post T hp hn hd hpost hT b
    obtain ⟨key, kp, cp, value, tags⟩ := e
    rw [ValuesElementLit.Plain] at hp
    obtain ⟨_, hkey, hval⟩ := hp
    rw [ValuesElementLit.toks_elem] at hn ⊢
    rw [ValuesElementLit.written] at hd hT
    rw [List.append_assoc] at hd
    simp only [List.length_cons] at hn
    simp only [List.length_append] at hT
    have hR : ∀ b1, Scanner.Feeds U (base.atOffset U (i + (keyBytes q key).length) b1)
        (Expr.toksOpt q value ++ T) := by
      intro b1
      have hd1 := (drop_append_facts hd).1
      cases value with
      | none =>
        rw [Expr.toksOpt, List.nil_append]
        have := hT b1
        rw [Expr.writtenOpt] at this
        exact this
      | some v =>
        rw [Expr.PlainOpt] at hval
        rw [Expr.toksOpt] at hn ⊢
        rw [Expr.writtenOpt] at hd1 hT
        simp only [List.length_cons] at hn hT
        have hd2 : base.src.drop (i + (keyBytes q key).length) =
            58 :: (Expr.written q v ++ post) := hd1
        refine Scanner.Feeds.sym U base hm _ b1 hd2 (Expr.written_legal U q v hval post)
          token.Colon false (Or.inl ⟨rfl, rfl, rfl⟩) ?_
        refine (ih ((Expr.toks q v).length) (by omega)).1 v _ post T hval (le_refl _)
          (drop_cons_facts hd2).2.2 hpost (fun b2 => ?_) false
        exact Scanner.Feeds.cast U base (by omega) (hT b2)
    have htail_stop : stopHead U (Expr.writtenOpt q value ++ post) := by
      cases value with
      | none => exact hpost.stop U
      | some v =>
        rw [Expr.writtenOpt]
        exact ⟨by decide, by decide, by simp [isLetter], by simp [isDigit]⟩
    cases q with
    | true =>
      have hd0 : base.src.drop i =
          34 :: (bytes key ++ 34 :: (Expr.writtenOpt true value ++ post)) := by
        rw [hd]
        simp [keyBytes]
      have hlen : (keyBytes true key).length = (bytes key).length + 2 := by
        simp [keyBytes]
      exact Scanner.Feeds.quoted U base hm i b (identKey_plain (hkey.1 rfl)) hd0
        (stopHead_legal U htail_stop)
        (Scanner.Feeds.cast U base (by omega) (hR true))
    | false =>
      have hd0 : base.src.drop i = bytes key ++ (Expr.writtenOpt false value ++ post) := hd
      exact Scanner.Feeds.ident U base hm i b (hkey.2 rfl) hd0 htail_stop (hR false)
  have hmore : ∀ (es : List ValuesElementLit) (i : Nat) (post : List Nat)
      (T : List (Token × String)), ValuesElementLit.PlainList U q es →
      (ValuesElementLit.toksMore q es).length ≤ n →
      base.src.drop i = ValuesElementLit.writtenMore q es ++ 125 :: post → legalHead U post →
      Scanner.Feeds U
        (base.atOffset U (i + (ValuesElementLit.writtenMore q es).length + 1) true) T →
      ∀ b, Scanner.Feeds U (base.atOffset U i b)
        (ValuesElementLit.toksMore q es ++ (token.RBrace, "") :: T) := by
    intro es i post T hp hn hd hpost hT b
    cases es with
    | nil =>
      rw [ValuesElementLit.toksMore, List.nil_append]
      rw [ValuesElementLit.writtenMore] at hd hT
      exact Scanner.Feeds.sym U base hm i b hd hpost token.RBrace true
        (Or.inr (Or.inr (Or.inr ⟨rfl, rfl, rfl⟩))) hT
    | cons e es1 =>
      rw [ValuesElementLit.PlainList] at hp
      rw [ValuesElementLit.toksMore] at hn ⊢
      rw [ValuesElementLit.writtenMore] at hd hT
      simp only [List.length_cons, List.length_append] at hn hT
      have hE : ∀ j, j = i + (sepBytes q).length →
          base.src.drop j = ValuesElementLit.written q e ++
            (ValuesElementLit.writtenMore q es1 ++ 125 :: post) →
          ∀ b1, Scanner.Feeds U (base.atOffset U j b1) (ValuesElementLit.toks q e ++
            (ValuesElementLit.toksMore q es1 ++ (token.RBrace, "") :: T)) := by
        intro j hj hdj b1
        refine (ih ((ValuesElementLit.toks q e).length) (by omega)).2.2.2 e j _ _ hp.1
          (le_refl _) hdj (closeHead_more q es1 post) (fun b2 => ?_) b1
        refine (ih ((ValuesElementLit.toksMore q es1).length) (by omega)).2.2.1 es1 _ post T
          hp.2 (le_refl _) (drop_append_facts hdj).1 hpost ?_ b2
        exact Scanner.Feeds.cast U base (by omega) hT
      have happ : (token.Comma, "") :: (ValuesElementLit.toks q e ++
          ValuesElementLit.toksMore q es1) ++ (token.RBrace, "") :: T =
          (token.Comma, "") :: (ValuesElementLit.toks q e ++
            (ValuesElementLit.toksMore q es1 ++ (token.RBrace, "") :: T)) := by
        simp
      rw [happ]
      cases q with
      | false =>
        have hd0 : base.src.drop i = 44 :: (ValuesElementLit.written false e ++
            (ValuesElementLit.writtenMore false es1 ++ 125 :: post)) := by
          rw [hd]
          simp [sepBytes]
        exact Scanner.Feeds.sym U base hm i b hd0
          (ValuesElementLit.written_legal_elem U false e hp.1 _) token.Comma false
          (Or.inr (Or.inl ⟨rfl, rfl, rfl⟩))
          (hE (i + 1) rfl (drop_cons_facts hd0).2.2 false)
      | true =>
        obtain ⟨key, kp, cp, value, tags⟩ := e
        have hw : ValuesElementLit.written true (.mk key kp cp value tags) =
            34 :: (bytes key ++ 34 :: Expr.writtenOpt true value) := by
          rw [ValuesElementLit.written]
          simp [keyBytes]
        have hd0 : base.src.drop i = 44 :: 32 :: 34 :: (bytes key ++
            34 :: Expr.writtenOpt true value ++
            (ValuesElementLit.writtenMore true es1 ++ 125 :: post)) := by
          rw [hd, hw]
          simp [sepBytes]
        have hd1 := (drop_cons_facts hd0).2.2
        have hd2 := (drop_cons_facts hd1).2.2
        have hd3 : base.src.drop (i + 1 + 1) =
            ValuesElementLit.written true (.mk key kp cp value tags) ++
              (ValuesElementLit.writtenMore true es1 ++ 125 :: post) := by
          rw [hd2, hw]
          simp
        refine Scanner.Feeds.sym U base hm i b hd0 ⟨by decide, fun h => absurd h (by decide)⟩
          token.Comma false (Or.inr (Or.inl ⟨rfl, rfl, rfl⟩)) ?_
        refine Scanner.Feeds.of_space U base (i + 1) false hd1 (by decide) (by decide)
          (by decide) ?_ (hE (i + 1 + 1) rfl hd3 false)
        rw [ValuesElementLit.toks_elem]
        exact List.cons_ne_nil _ _
  have hlit : ∀ (v : ValuesLit) (i : Nat) (post : List Nat) (T : List (Token × String)),
      v.Plain U q → (v.toks q).length ≤ n → base.src.drop i = v.written q ++ post →
      legalHead U post →
      Scanner.Feeds U (base.atOffset U (i + (v.written q).length) true) T →
      ∀ b, Scanner.Feeds U (base.atOffset U i b) (v.toks q ++ T) := by
    intro v i post T hp hn hd hpost hT b
    obtain ⟨l, els, r, b0⟩ := v
    rw [ValuesLit.Plain] at hp
    cases els with
    | nil =>
      have hd0 : base.src.drop i = 123 :: 125 :: post := hd
      have hT0 : Scanner.Feeds U (base.atOffset U (i + 1 + 1) true) T := hT
      exact Scanner.Feeds.sym U base hm i b hd0 ⟨by decide, fun h => absurd h (by decide)⟩
        token.LBrace false (Or.inr (Or.inr (Or.inl ⟨rfl, rfl, rfl⟩)))
        (Scanner.Feeds.sym U base hm (i + 1) false (drop_cons_facts hd0).2.2 hpost token.RBrace
          true (Or.inr (Or.inr (Or.inr ⟨rfl, rfl, rfl⟩))) hT0)
    | cons e es =>
      rw [ValuesElementLit.PlainList] at hp
      rw [ValuesLit.toks] at hn ⊢
      rw [ValuesLit.written] at hd hT
      simp only [List.length_cons, List.length_append, List.length_nil] at hn hT
      have hd0 : base.src.drop i = 123 :: (ValuesElementLit.written q e ++
          (ValuesElementLit.writtenMore q es ++ 125 :: post)) := by
        rw [hd]
        simp
      have happ : (token.LBrace, "") :: (ValuesElementLit.toks q e ++
          ValuesElementLit.toksMore q es ++ [(token.RBrace, "")]) ++ T =
          (token.LBrace, "") :: (ValuesElementLit.toks q e ++
            (ValuesElementLit.toksMore q es ++ (token.RBrace, "") :: T)) := by
        simp
      rw [happ]
      have hd1 := (drop_cons_facts hd0).2.2
      refine Scanner.Feeds.sym U base hm i b hd0 (ValuesElementLit.written_legal_elem U q e hp.2.1 _)
        token.LBrace false (Or.inr (Or.inr (Or.inl ⟨rfl, rfl, rfl⟩))) ?_
      refine (ih ((ValuesElementLit.toks q e).length) (by omega)).2.2.2 e (i + 1) _ _ hp.2.1
        (le_refl _) hd1 (closeHead_more q es post) (fun b2 => ?_) false
      refine (ih ((ValuesElementLit.toksMore q es).length) (by omega)).2.2.1 es _ post T
        hp.2.2 (le_refl _) (drop_append_facts hd1).1 hpost ?_ b2
      exact Scanner.Feeds.cast U base (by omega) hT
  refine ⟨?_, hlit, hmore, hel⟩
  intro x i post T hp hn hd hpost hT b
  cases x with
  | Ident name pos =>
    rw [Expr.Plain] at hp
    rw [Expr.written] at hd hT
    rw [Expr.toks]
    exact Scanner.Feeds.ident U base hm i b hp hd (hpost.stop U) (hT false)
  | ValuesLit v =>
    rw [Expr.Plain] at hp
    rw [Expr.written] at hd hT
    rw [Expr.toks] at hn ⊢
    exact hlit v i post T hp hn hd (hpost.legal_head U) (hT true) b
  | ArrayLit _ _ _ => rw [Expr.Plain] at hp; exact hp.elim
  | BadExpr _ _ => rw [Expr.Plain] at hp; exact hp.elim
  | Number _ _ => rw [Expr.Plain] at hp; exact hp.elim
  | SliceExpr _ _ _ _ _ => rw [Expr.Plain] at hp; exact hp.elim
  | StringLit _ _ _ => rw [Expr.Plain] at hp; exact hp.elim
  | ValuesElementLit _ => rw [Expr.Plain] at hp; exact hp.elim

end parser

/-! ### Parsing written elements -/

namespace parser

theorem IdentText.ne_nil (U : Unicode) {w : List Nat} (h : IdentText U false w) : 1 ≤ w.length := by
  cases h with
  | byte d c w _ _ _ => simp
  | rune d c bs w r _ _ _ _ _ _ => simp

/-- A written expression has at least one byte per token. -/
theorem toks_le_written (U : Unicode) (q : Bool) : ∀ n : Nat,
    (∀ x : Expr, x.Plain U q → (x.toks q).length ≤ n →
      (x.toks q).length ≤ (x.written q).length) ∧
    (∀ v : ValuesLit, v.Plain U q → (v.toks q).length ≤ n →
      (v.toks q).length ≤ (v.written q).length) ∧
    (∀ es : List ValuesElementLit, ValuesElementLit.PlainList U q es →
      (ValuesElementLit.toksMore q es).length ≤ n →
      (ValuesElementLit.toksMore q es).length ≤ (ValuesElementLit.writtenMore q es).length) ∧
    (∀ e : ValuesElementLit, e.Plain U q → (e.toks q).length ≤ n →
      (e.toks q).length ≤ (e.written q).length) := by
  intro n
  induction n using Nat.strong_induction_on with
  | _ n ih =>
  have hkeylen : ∀ key, keyPlain U q key → 1 ≤ (keyBytes q key).length := by
    intro key hk
    cases q with
    | true => simp [keyBytes]
    | false => exact (hk.2 rfl).ne_nil U
  have hseplen : 1 ≤ (sepBytes q).length := by
    cases q <;> simp [sepBytes]
  have hel : ∀ e : ValuesElementLit, e.Plain U q → (e.toks q).length ≤ n →
      (e.toks q).length ≤ (e.written q).length := by
    intro e hp hn
    obtain ⟨key, kp, cp, value, tags⟩ := e
    rw [ValuesElementLit.Plain] at hp
    rw [ValuesElementLit.toks_elem] at hn ⊢
    rw [ValuesElementLit.written]
    simp only [List.length_cons, List.length_append] at hn ⊢
    have := hkeylen key hp.2.1
    cases value with
    | none =>
      rw [Expr.toksOpt, Expr.writtenOpt]
      simp only [List.length_nil]
      omega
    | some v =>
      rw [Expr.toksOpt] at hn ⊢
      rw [Expr.writtenOpt]
      simp only [List.length_cons] at hn ⊢
      have hv : v.Plain U q := by
        have := hp.2.2
        rw [Expr.PlainOpt] at this
        exact this
      have := (ih ((Expr.toks q v).length) (by omega)).1 v hv (le_refl _)
      omega
  have hmore : ∀ es : List ValuesElementLit, ValuesElementLit.PlainList U q es →
      (ValuesElementLit.toksMore q es).length ≤ n →
      (ValuesElementLit.toksMore q es).length ≤ (ValuesElementLit.writtenMore q es).length := by
    intro es hp hn
    cases es with
    | nil =>
      rw [ValuesElementLit.toksMore]
      exact Nat.zero_le _
    | cons e es1 =>
      rw [ValuesElementLit.PlainList] at hp
      rw [ValuesElementLit.toksMore] at hn ⊢
      rw [ValuesElementLit.writtenMore]
      simp only [List.length_cons, List.length_append] at hn ⊢
      have h1 := (ih ((ValuesElementLit.toks q e).length) (by omega)).2.2.2 e hp.1 (le_refl _)
      have h2 := (ih ((ValuesElementLit.toksMore q es1).length) (by omega)).2.2.1 es1 hp.2
        (le_refl _)
      omega
  have hlit : ∀ v : ValuesLit, v.Plain U q → (v.toks q).length ≤ n →
      (v.toks q).length ≤ (v.written q).length := by
    intro v hp hn
    obtain ⟨l, els, r, b0⟩ := v
    rw [ValuesLit.Plain] at hp
    cases els with
    | nil => exact le_refl _
    | cons e es =>
      rw [ValuesElementLit.PlainList] at hp
      rw [ValuesLit.toks] at hn ⊢
      rw [ValuesLit.written]
      simp only [List.length_cons, List.length_append, List.length_nil] at hn ⊢
      have h1 := (ih ((ValuesElementLit.toks q e).length) (by omega)).2.2.2 e hp.2.1 (le_refl _)
      have h2 := (ih ((ValuesElementLit.toksMore q es).length) (by omega)).2.2.1 es hp.2.2
        (le_refl _)
      omega
  refine ⟨?_, hlit, hmore, hel⟩
  intro x hp hn
  cases x with
  | Ident name pos =>
    rw [Expr.Plain] at hp
    rw [Expr.toks, Expr.written]
    exact hp.ne_nil U
  | ValuesLit v =>
    rw [Expr.Plain] at hp
    rw [Expr.toks] at hn ⊢
    rw [Expr.written]
    exact hlit v hp hn
  | ArrayLit _ _ _ => rw [Expr.Plain] at hp; exact hp.elim
  | BadExpr _ _ => rw [Expr.Plain] at hp; exact hp.elim
  | Number _ _ => rw [Expr.Plain] at hp; exact hp.elim
  | SliceExpr _ _ _ _ _ => rw [Expr.Plain] at hp; exact hp.elim
  | StringLit _ _ _ => rw [Expr.Plain] at hp; exact hp.elim
  | ValuesElementLit _ => rw [Expr.Plain] at hp; exact hp.elim

/-- The written text of a values literal is parsed without error into one expression
statement that holds the literal, up to the positions. -/
theorem parseSource_written_text (U : Unicode) (q : Bool) (v : ValuesLit) (hp : v.Plain U q) :
    ∃ r y, parseSource U (v.written q) = some r ∧ r.err = none ∧
      (r.file.map fun f => f.Stmts) = some [Stmt.ExprStmt (.ValuesLit y)] ∧
      y.strip = v.strip := by
  have hlen := (toks_le_written U q _).2.1 v hp (le_refl _)
  refine parseSource_written U q (v.written q) v hp hlen ?_
  obtain ⟨rest, hrest⟩ : ∃ rest, v.written q = 123 :: rest := by
    obtain ⟨l, els, r, b0⟩ := v
    rw [ValuesLit.written_mk]
    exact ⟨_, rfl⟩
  refine ⟨_, NewScanner_at U (AddFile (v.written q).length) (v.written q) true [] 0 rfl hrest
    (by decide) (by decide), rfl, ?_⟩
  have hfin := Scanner.Feeds.at_end U
    ⟨AddFile (v.written q).length, v.written q, 32, 0, 0, 0, false, true, [], 0, 0⟩ rfl true
  refine (Scanner.writes U q
    ⟨AddFile (v.written q).length, v.written q, 32, 0, 0, 0, false, true, [], 0, 0⟩ rfl
      _).2.1 v 0 [] _ hp (le_refl _) ?_ trivial ?_ false
  · show List.drop 0 (v.written q) = v.written q ++ []
    rw [List.append_nil]
    rfl
  · exact Scanner.Feeds.cast U _ (by show (v.written q).length = 0 + (v.written q).length; omega)
      hfin

/-- Method `error` leaves an error list that is not empty: the error is added, or it is
left out for an earlier error on the same line, or the method panics with more than 10
errors; with an empty list the error is added. -/
theorem Parser.error_recorded (pos : Pos) (msg : String) (p : Parser) :
    (∀ q, Parser.error pos msg p = .ok () q →
      q.errors ≠ [] ∧ (p.errors = [] → q.errors = [⟨p.file.Position pos, msg⟩])) ∧
    (p.errors = [] → ∃ q, Parser.error pos msg p = .ok () q) := by
  unfold Parser.error
  dsimp only
  by_cases h1 : p.errors.length > 0 ∧
      p.errors.getLast?.map (fun e => e.Pos.Line) = some (p.file.Position pos).Line
  · rw [if_pos h1]
    have hne : p.errors ≠ [] := fun h => by
      have := h1.1
      rw [h] at this
      exact absurd this (by decide)
    refine ⟨fun q hq => ?_, fun h => absurd h hne⟩
    cases hq
    exact ⟨hne, fun h => absurd h hne⟩
  · rw [if_neg h1]
    by_cases h2 : p.errors.length > 10
    · rw [if_pos h2]
      refine ⟨fun q hq => (by cases hq), fun h => ?_⟩
      rw [h] at h2
      exact absurd h2 (by decide)
    · rw [if_neg h2]
      refine ⟨fun q hq => ?_, fun _ => ⟨_, rfl⟩⟩
      cases hq
      refine ⟨?_, fun h => ?_⟩
      · show p.errors.Add (p.file.Position pos) msg ≠ []
        unfold ErrorList.Add
        simp
      · show p.errors.Add (p.file.Position pos) msg = _
        unfold ErrorList.Add
        rw [h]
        rfl

/-- At a bracket of the kind of the enclosing literal the part of `parseValuesElementLit`
from the label `try` on reads no tag block: it asks for a colon or a comma and returns,
with the parser still at the bracket, the element without a value and with the tags it
had; the error list is not empty afterwards, and holds just this error when it was
empty. -/
theorem Parser.parseValuesElementTry_sameKind (U : Unicode) (fuel : Nat) (bo : Token)
    (key : String) (kp : Pos) (tags : Option ValuesLit) (p : Parser)
    (hb : bo = token.LParen ∨ bo = token.LBrace ∨ bo = token.LBrack) (h : p.token = bo) :
    (∀ el p1, Parser.parseValuesElementTry U (fuel + 1) bo key kp tags p = .ok el p1 →
      el = .mk key kp 0 none tags ∧ p1.token = bo ∧ p1.pos = p.pos ∧ p1.errors ≠ []) ∧
    (p.errors = [] →
      ∃ p1, Parser.parseValuesElementTry U (fuel + 1) bo key kp tags p
          = .ok (.mk key kp 0 none tags) p1 ∧
        p1.errors = [⟨p.file.Position p.pos,
          "expected \x27:\x27 | \x27,\x27, found \x27" ++ Token.String bo ++ "\x27"⟩]) := by
  rw [parseValuesElementTry_same U fuel bo key kp tags p hb h]
  have hmsg : (if p.pos = p.pos then
        if p.token = token.Semicolon ∧ p.tokenLit = "\n" then
          "expected " ++ "\x27:\x27 | \x27,\x27" ++ ", found newline"
        else if Token.IsLiteral p.token = true then
          "expected " ++ "\x27:\x27 | \x27,\x27" ++ ", found " ++ p.tokenLit
        else "expected " ++ "\x27:\x27 | \x27,\x27" ++ ", found \x27" ++ Token.String p.token
          ++ "\x27"
      else "expected " ++ "\x27:\x27 | \x27,\x27")
      = "expected \x27:\x27 | \x27,\x27, found \x27" ++ Token.String bo ++ "\x27" := by
    rw [if_pos rfl, h]
    rcases hb with e | e | e <;> rw [e] <;>
      rw [if_neg (fun h => absurd h.1 (by decide)), if_neg (by decide)] <;> decide
  unfold Parser.errorExpected
  dsimp only
  rw [hmsg]
  obtain ⟨r1, r2⟩ := Parser.error_recorded p.pos
    ("expected \x27:\x27 | \x27,\x27, found \x27" ++ Token.String bo ++ "\x27") p
  have hsame : ∀ q, Parser.error p.pos
      ("expected \x27:\x27 | \x27,\x27, found \x27" ++ Token.String bo ++ "\x27") p = .ok () q →
      q.token = p.token ∧ q.pos = p.pos := by
    intro q hq
    unfold Parser.error at hq
    dsimp only at hq
    split_ifs at hq <;> cases hq <;> exact ⟨rfl, rfl⟩
  constructor
  · intro el p1 he
    cases hx : Parser.error p.pos
        ("expected \x27:\x27 | \x27,\x27, found \x27" ++ Token.String bo ++ "\x27") p with
    | ok u q =>
      rw [hx] at he
      simp only [Res.bind] at he
      injection he with e1 e2
      subst e1 e2
      exact ⟨rfl, (hsame q hx).1.trans h, (hsame q hx).2, (r1 q hx).1⟩
    | bailout q => rw [hx] at he; cases he
    | outOfFuel => rw [hx] at he; cases he
  · intro hp
    obtain ⟨q, hq⟩ := r2 hp
    refine ⟨q, ?_, (r1 q hq).2 hp⟩
    rw [hq]
    rfl

/-- Method `advance` does not panic. -/
theorem Parser.advance_returns (U : Unicode) : ∀ (fuel : Nat) (p q : Parser),
    Parser.advance U fuel p ≠ .bailout q := by
  intro fuel
  induction fuel with
  | zero =>
    intro p q h
    rw [Parser.advance] at h
    cases h
  | succ fuel ih =>
    intro p q h
    rw [Parser.advance] at h
    by_cases h1 : p.token ≠ token.EOF
    · rw [if_pos h1] at h
      unfold Parser.next at h
      cases hs : p.scanner.Scan U (p.scanner.src.length + 2) with
      | none => rw [hs] at h; cases h
      | some r =>
        rw [hs] at h
        exact ih _ q h
    · rw [if_neg h1] at h
      cases h

/-- Method `expect` that leaves the error list empty was at the token expected. -/
theorem Parser.expect_clean (U : Unicode) (tok : Token) (p : Parser) (pos : Pos) (q : Parser)
    (hi : p.Inv) (h : Parser.expect U tok p = .ok pos q) (he : q.errors = []) :
    p.token = tok ∧ pos = p.pos ∧ Parser.next U p = .ok () q := by
  unfold Parser.expect at h
  dsimp only at h
  by_cases h1 : p.token ≠ tok
  · exfalso
    rw [if_pos h1] at h
    have hs := Parser.errorExpected_spec p.pos ("\x27" ++ Token.String tok ++ "\x27") p hi
    have hr := Parser.error_recorded
    unfold Parser.errorExpected at h hs
    cases hx : Parser.error p.pos
        (if p.pos = p.pos then
          if p.token = token.Semicolon ∧ p.tokenLit = "\n" then
            "expected " ++ ("\x27" ++ Token.String tok ++ "\x27") ++ ", found newline"
          else if Token.IsLiteral p.token = true then
            "expected " ++ ("\x27" ++ Token.String tok ++ "\x27") ++ ", found " ++ p.tokenLit
          else "expected " ++ ("\x27" ++ Token.String tok ++ "\x27") ++ ", found \x27" ++
            Token.String p.token ++ "\x27"
        else "expected " ++ ("\x27" ++ Token.String tok ++ "\x27")) p with
    | ok u q0 =>
      rw [hx] at h hs
      simp only [Res.bind] at h
      have hne := ((hr _ _ p).1 q0 hx).1
      have hq0 : p.Ext q0 := hs.1
      have hn := Parser.next_spec U q0 hq0.1
      cases hy : Parser.next U q0 with
      | ok u1 q1 =>
        rw [hy] at h hn
        injection h with _ e
        have hpre : q0.errors <+: q1.errors := hn.1.2.2.1
        rw [e, he] at hpre
        exact hne (List.prefix_nil.mp hpre)
      | bailout q1 => rw [hy] at h; cases h
      | outOfFuel => rw [hy] at h; cases h
    | bailout q0 => rw [hx] at h; cases h
    | outOfFuel => rw [hx] at h; cases h
  · rw [if_neg h1] at h
    simp only [Res.bind] at h
    cases hy : Parser.next U p with
    | ok u1 q1 =>
      rw [hy] at h
      injection h with e1 e2
      rw [e2]
      exact ⟨not_not.mp h1, e1.symm, rfl⟩
    | bailout q1 => rw [hy] at h; cases h
    | outOfFuel => rw [hy] at h; cases h

/-- A values literal that `parseValuesLit` returns with an empty error list was opened by
the bracket asked for and closed by the matching closing bracket, the token after which
the parser is left. -/
theorem Parser.parseValuesLit_closed (U : Unicode) (fuel : Nat) (tokOpen : Token)
    (p : Parser) (v : ValuesLit) (q : Parser) (hi : p.Inv) (hf : 4 * p.mu + 2 ≤ fuel)
    (h : Parser.parseValuesLit U fuel tokOpen p = .ok v q) (he : q.errors = []) :
    p.token = tokOpen ∧
    ∃ els p2, v = .mk p.pos els p2.pos tokOpen ∧ p2.token = tokOpen + 1 ∧
      Parser.next U p2 = .ok () q := by
  cases fuel with
  | zero => rw [Parser.parseValuesLit] at h; cases h
  | succ fuel =>
    rw [Parser.parseValuesLit] at h
    have hA := Parser.expect_spec U tokOpen p hi
    cases h1 : Parser.expect U tokOpen p with
    | bailout q1 => rw [h1] at h; cases h
    | outOfFuel => rw [h1] at h; cases h
    | ok lbrace q1 =>
      rw [h1] at h hA
      simp only [Res.bind] at h
      have hq1 : p.Ext q1 := hA.1
      have hlt := hA.2
      have hq1' : p.Ext { q1 with exprLevel := q1.exprLevel + 1 } := hq1.level _
      have hmu : ({ q1 with exprLevel := q1.exprLevel + 1 } : Parser).mu = q1.mu := rfl
      have hfuel : ({ q1 with exprLevel := q1.exprLevel + 1 } : Parser).token ≠ token.EOF →
          4 * ({ q1 with exprLevel := q1.exprLevel + 1 } : Parser).mu + 3 ≤ fuel := by
        intro hne
        have hne' : q1.token ≠ token.EOF := hne
        have h1 := Parser.mu_pos q1 hne'
        have h2 := hq1.2.2.2
        have hp : p.token ≠ token.EOF := by
          intro hc
          have := Parser.mu_zero p hc
          omega
        have := hlt hp
        rw [hmu]
        omega
      have hB := (Parser.covered U fuel).2.2.2.1 tokOpen []
        { q1 with exprLevel := q1.exprLevel + 1 } hq1'.1 (by omega) hfuel
      cases h2 : Parser.parseValuesLitLoop U fuel tokOpen []
          { q1 with exprLevel := q1.exprLevel + 1 } with
      | bailout q2 => rw [h2] at h; cases h
      | outOfFuel => rw [h2] at h; cases h
      | ok els q2 =>
        rw [h2] at h hB
        simp only at h
        have hq2 : ({ q1 with exprLevel := q1.exprLevel + 1 } : Parser).Ext q2 := hB.1
        have hq2' : ({ q1 with exprLevel := q1.exprLevel + 1 } : Parser).Ext
            { q2 with exprLevel := q2.exprLevel - 1 } := hq2.level _
        have hC := Parser.expect_spec U (tokOpen + 1) { q2 with exprLevel := q2.exprLevel - 1 }
          hq2'.1
        cases h3 : Parser.expect U (tokOpen + 1) { q2 with exprLevel := q2.exprLevel - 1 } with
        | bailout q3 => rw [h3] at h; cases h
        | outOfFuel => rw [h3] at h; cases h
        | ok rbrace q3 =>
          rw [h3] at h hC
          simp only at h
          injection h with e1 e2
          subst e2
          obtain ⟨c1, c2, c3⟩ := Parser.expect_clean U _ _ _ _ hq2'.1 h3 he
          have hpre2 : q2.errors <+: q3.errors := hC.1.2.2.1
          have heq2 : q2.errors = [] := by
            rw [he] at hpre2
            exact List.prefix_nil.mp hpre2
          have hpre1 : q1.errors <+: q2.errors := hq2.2.2.1
          have heq1 : q1.errors = [] := by
            rw [heq2] at hpre1
            exact List.prefix_nil.mp hpre1
          obtain ⟨a1, a2, _⟩ := Parser.expect_clean U _ _ _ _ hi h1 heq1
          refine ⟨a1, els, { q2 with exprLevel := q2.exprLevel - 1 }, ?_, c1, c3⟩
          rw [← e1, a2, c2]

/-- At the tokens `[` and `(` method `parseOperand` returns no values literal: it asks
for an operand, skips to the end of the input and returns a `BadExpr`, or panics with more
than 10 errors; the error list is not empty afterwards, and the error is the one added
when the list was empty. -/
theorem Parser.parseOperand_bracket (U : Unicode) (fuel : Nat) (p : Parser) (hi : p.Inv)
    (hf : p.mu ≤ fuel) (ht : p.token = token.LBrack ∨ p.token = token.LParen) :
    ((∃ q, Parser.parseOperand U (fuel + 1) p = .ok (.BadExpr p.pos q.pos) q ∧
        q.token = token.EOF ∧ q.errors ≠ [] ∧
        (p.errors = [] → ∃ rest, q.errors = ⟨p.file.Position p.pos,
          "expected operand, found \x27" ++ Token.String p.token ++ "\x27"⟩ :: rest)) ∨
      (∃ q, Parser.parseOperand U (fuel + 1) p = .bailout q ∧ 10 < q.errors.length ∧
        p.errors ≠ [])) := by
  rw [parseOperand_other U fuel p ht]
  have hs := Parser.errorExpected_spec p.pos "operand" p hi
  have hr := Parser.error_recorded
  have hmsg : (if p.pos = p.pos then
        if p.token = token.Semicolon ∧ p.tokenLit = "\n" then
          "expected " ++ "operand" ++ ", found newline"
        else if Token.IsLiteral p.token = true then
          "expected " ++ "operand" ++ ", found " ++ p.tokenLit
        else "expected " ++ "operand" ++ ", found \x27" ++ Token.String p.token ++ "\x27"
      else "expected " ++ "operand")
      = "expected operand, found \x27" ++ Token.String p.token ++ "\x27" := by
    rw [if_pos rfl]
    rcases ht with e | e <;> rw [e] <;>
      rw [if_neg (fun h => absurd h.1 (by decide)), if_neg (by decide)] <;> decide
  unfold Parser.errorExpected at hs ⊢
  dsimp only at hs ⊢
  rw [hmsg] at hs ⊢
  obtain ⟨r1, r2⟩ := hr p.pos ("expected operand, found \x27" ++ Token.String p.token ++ "\x27") p
  cases hx : Parser.error p.pos
      ("expected operand, found \x27" ++ Token.String p.token ++ "\x27") p with
  | ok u q0 =>
    rw [hx] at hs
    simp only [Res.bind]
    obtain ⟨b1, b2⟩ := r1 q0 hx
    have hq0 : p.Ext q0 := hs.1
    have hmu : q0.mu = p.mu := hs.2.2
    have ha := Parser.advance_spec U (fuel + 1) q0 hq0.1 (by omega)
    cases hy : Parser.advance U (fuel + 1) q0 with
    | ok u1 q1 =>
      rw [hy] at ha
      have hpre : q0.errors <+: q1.errors := ha.1.2.2.1
      refine Or.inl ⟨q1, rfl, ha.2, fun hc => ?_, fun hp => ?_⟩
      · rw [hc] at hpre
        exact b1 (List.prefix_nil.mp hpre)
      · obtain ⟨rest, hrest⟩ := hpre
        refine ⟨rest, ?_⟩
        rw [← hrest, b2 hp]
        rfl
    | bailout q1 =>
      rw [hy] at ha
      exact absurd hy (Parser.advance_returns U _ q0 q1)
    | outOfFuel =>
      rw [hy] at ha
      exact ha.elim
  | bailout q0 =>
    rw [hx] at hs
    refine Or.inr ⟨q0, rfl, hs.2, fun hp => ?_⟩
    obtain ⟨q, hq⟩ := r2 hp
    rw [hx] at hq
    cases hq
  | outOfFuel =>
    rw [hx] at hs
    exact hs.elim

/-- Where the parser expects an operand and is at the tokens of a written values literal
in braces, `parseOperand` returns the literal, up to the positions, with the parser left
at the tokens after the closing brace and no error added. -/
theorem Parser.parseOperand_written (U : Unicode) (q : Bool) (fuel : Nat) (v : ValuesLit)
    (p : Parser) (rest : List (Token × String)) (hp : v.Plain U q)
    (hf : 3 * (v.toks q).length ≤ fuel + 1) (hr : rest ≠ []) (hon : p.On U (v.toks q ++ rest)) :
    ∃ y p1, Parser.parseOperand U (fuel + 1) p = .ok (.ValuesLit y) p1 ∧ y.strip = v.strip ∧
      y.BraceOpen = token.LBrace ∧ p1.On U rest ∧ p1.errors = p.errors := by
  obtain ⟨y, p1, g1, g2, g3, g4⟩ := (Parser.reads U q fuel).2.1 v p rest hp hf hr hon
  have htok : p.token = token.LBrace := by
    obtain ⟨l, els, r, b0⟩ := v
    rw [ValuesLit.toks_mk] at hon
    exact hon.1
  refine ⟨y, p1, ?_, g2, parseValuesLit_braceOpen U fuel _ p y p1 g1, g3, g4⟩
  rw [parseOperand_lbrace U fuel p htok, g1]
  rfl

/-- The parser that `NewParser` returns for the written text of a values literal is at
its tokens, which the semicolon of the end of the line and `EOF` follow, with no error. -/
theorem NewParser_written (U : Unicode) (q : Bool) (v : ValuesLit) (hp : v.Plain U q) :
    ∃ p, NewParser U (AddFile (v.written q).length) (v.written q) = some p ∧
      p.errors = [] ∧ p.On U (v.toks q ++ [(token.Semicolon, "\n"), (token.EOF, "")]) ∧
      3 * (v.toks q).length ≤ p.fuel := by
  have hlen := (toks_le_written U q _).2.1 v hp (le_refl _)
  obtain ⟨rest, hrest⟩ : ∃ rest, v.written q = 123 :: rest := by
    obtain ⟨l, els, r, b0⟩ := v
    rw [ValuesLit.written_mk]
    exact ⟨_, rfl⟩
  have hfeeds : ∃ s, NewScanner U (AddFile (v.written q).length) (v.written q) true [] 0
      = some s ∧ s.errors = [] ∧
      s.Feeds U (v.toks q ++ [(token.Semicolon, "\n"), (token.EOF, "")]) := by
    refine ⟨_, NewScanner_at U (AddFile (v.written q).length) (v.written q) true [] 0 rfl hrest
      (by decide) (by decide), rfl, ?_⟩
    have hfin := Scanner.Feeds.at_end U
      ⟨AddFile (v.written q).length, v.written q, 32, 0, 0, 0, false, true, [], 0, 0⟩ rfl true
    refine (Scanner.writes U q
      ⟨AddFile (v.written q).length, v.written q, 32, 0, 0, 0, false, true, [], 0, 0⟩ rfl
        _).2.1 v 0 [] _ hp (le_refl _) ?_ trivial ?_ false
    · show List.drop 0 (v.written q) = v.written q ++ []
      rw [List.append_nil]
      rfl
    · exact Scanner.Feeds.cast U _
        (by show (v.written q).length = 0 + (v.written q).length; omega) hfin
  obtain ⟨s, hs, herr, hfeed⟩ := hfeeds
  obtain ⟨c, rest0, hc⟩ : ∃ c rest0,
      v.toks q ++ [(token.Semicolon, "\n"), (token.EOF, "")] = c :: rest0 := by
    obtain ⟨l, els, r, b0⟩ := v
    rw [ValuesLit.toks_mk]
    exact ⟨_, _, rfl⟩
  have hon0 : Parser.On U ⟨s, 0, 0, "", 0⟩ ((0, "") :: c :: rest0) := by
    rw [← hc]
    exact ⟨rfl, rfl, hfeed⟩
  obtain ⟨p, hn, hon, herrs, _⟩ := Parser.next_on U _ _ _ _ hon0
  rw [← hc] at hon
  have hnew : NewParser U (AddFile (v.written q).length) (v.written q) = some p := by
    unfold NewParser
    rw [hs]
    simp only [hn]
  obtain ⟨p0, hp0, _, hsrc0⟩ := NewParser_spec U (AddFile (v.written q).length) (v.written q) rfl
  have hpp : p0 = p := Option.some.inj (hp0.symm.trans hnew)
  subst hpp
  refine ⟨p0, hnew, herrs.trans herr, hon, ?_⟩
  unfold Parser.fuel
  rw [hsrc0]
  omega

theorem ValuesElementLit.stripList_keys (l : List ValuesElementLit) :
    (ValuesElementLit.stripList l).map (fun e => e.Key) = l.map (fun e => e.Key) := by
  induction l with
  | nil => rfl
  | cons e l ih =>
    obtain ⟨k, kp, cp, v, t⟩ := e
    rw [ValuesElementLit.stripList, List.map_cons, List.map_cons, ih, ValuesElementLit.strip]
    rfl

/-- The view of an element ignores the positions. -/
theorem ValuesElementLit.view_strip (e : ValuesElementLit) :
    (ValuesElementLit.strip e).view = e.view := by
  obtain ⟨k, kp, cp, v, t⟩ := e
  rw [ValuesElementLit.strip]
  cases t with
  | none =>
    cases v with
    | none => rfl
    | some x => cases x <;> rfl
  | some t =>
    obtain ⟨l, els, r, b⟩ := t
    have hk := ValuesElementLit.stripList_keys els
    cases v with
    | none =>
      show ElementView.mk k false none (some b)
        ((ValuesElementLit.stripList els).map fun e => e.Key) =
          ElementView.mk k false none (some b) (els.map fun e => e.Key)
      rw [hk]
    | some x =>
      cases x <;>
        (show ElementView.mk k true _ (some b)
          ((ValuesElementLit.stripList els).map fun e => e.Key) =
            ElementView.mk k true _ (some b) (els.map fun e => e.Key)
         rw [hk]
         rfl)

theorem ValuesElementLit.stripList_views (l : List ValuesElementLit) :
    (ValuesElementLit.stripList l).map (fun e => e.view) = l.map (fun e => e.view) := by
  induction l with
  | nil => rfl
  | cons e l ih =>
    rw [ValuesElementLit.stripList, List.map_cons, List.map_cons, ih,
      ValuesElementLit.view_strip]

/-- Values literals that are equal up to the positions have the same views of their
elements. -/
theorem ValuesLit.views_of_strip {y v : ValuesLit} (h : y.strip = v.strip) :
    y.Elements.map (fun e => e.view) = v.Elements.map (fun e => e.view) := by
  obtain ⟨l1, els1, r1, b1⟩ := y
  obtain ⟨l2, els2, r2, b2⟩ := v
  rw [ValuesLit.strip, ValuesLit.strip] at h
  have h2 : ValuesElementLit.stripList els1 = ValuesElementLit.stripList els2 :=
    (ValuesLit.mk.inj h).2.1
  show els1.map (fun e => e.view) = els2.map (fun e => e.view)
  rw [← ValuesElementLit.stripList_views els1, h2, ValuesElementLit.stripList_views]

theorem intercalate_cons (sep a : List Nat) (l : List (List Nat)) :
    List.intercalate sep (a :: l) = a ++ (l.map (fun x => sep ++ x)).flatten := by
  induction l generalizing a with
  | nil => simp [List.intercalate]
  | cons b l ih =>
    have : List.intercalate sep (a :: b :: l) = a ++ sep ++ List.intercalate sep (b :: l) := by
      simp [List.intercalate]
    rw [this, ih]
    simp

theorem written_elementLit (e : String × Option String) :
    ValuesElementLit.written false (elementLit e) = elementText e := by
  obtain ⟨k, v⟩ := e
  cases v with
  | none => rfl
  | some v => rfl

theorem writtenMore_elementLit (es : List (String × Option String)) :
    ValuesElementLit.writtenMore false (es.map elementLit) =
      ((es.map elementText).map (fun x => [44] ++ x)).flatten := by
  induction es with
  | nil => rfl
  | cons e es ih =>
    rw [List.map_cons, ValuesElementLit.writtenMore, ih, written_elementLit]
    simp [sepBytes]

theorem written_elements (es : List (String × Option String)) :
    ValuesLit.written false (.mk 0 (es.map elementLit) 0 token.LBrace) = elementsText es := by
  unfold elementsText
  cases es with
  | nil => rfl
  | cons e es =>
    rw [List.map_cons, ValuesLit.written, written_elementLit, writtenMore_elementLit,
      List.map_cons, intercalate_cons]
    simp

theorem plain_elements (U : Unicode) (es : List (String × Option String))
    (h : ∀ e ∈ es, IdentText U false (bytes e.1) ∧
      ∀ v, e.2 = some v → IdentText U false (bytes v)) :
    ValuesElementLit.PlainList U false (es.map elementLit) := by
  induction es with
  | nil =>
    rw [List.map_nil, ValuesElementLit.PlainList]
    trivial
  | cons e es ih =>
    rw [List.map_cons, ValuesElementLit.PlainList]
    refine ⟨?_, ih (fun x hx => h x (List.mem_cons_of_mem _ hx))⟩
    obtain ⟨h1, h2⟩ := h e (List.mem_cons_self _ _)
    obtain ⟨k, v⟩ := e
    unfold elementLit
    rw [ValuesElementLit.Plain]
    refine ⟨rfl, ⟨fun hc => (by cases hc), fun _ => h1⟩, ?_⟩
    cases v with
    | none =>
      rw [Option.map_none', Expr.PlainOpt]
      trivial
    | some v =>
      rw [Option.map_some', Expr.PlainOpt, Expr.Plain]
      exact h2 v rfl

theorem view_elementLit (e : String × Option String) : (elementLit e).view = elementView e := by
  obtain ⟨k, v⟩ := e
  cases v <;> rfl

/-- An ASCII letter or underscore followed by ASCII letters, digits and underscores is an
identifier of the scanner. -/
theorem IdentText.of_identKey (U : Unicode) {key : String} (hk : identKey key) :
    IdentText U false (bytes key) := by
  have tail : ∀ w : List Nat, (∀ d ∈ w, (asciiLetter d || asciiDigit d) = true) →
      IdentText U true w := by
    intro w
    induction w with
    | nil => exact fun _ => IdentText.nil
    | cons c w ih =>
      intro h
      have hc := h c (List.mem_cons_self _ _)
      unfold asciiLetter asciiDigit at hc
      simp only [Bool.or_eq_true, Bool.and_eq_true, decide_eq_true_eq, beq_iff_eq] at hc
      refine IdentText.byte true c w (by omega) ?_ (ih (fun d hd => h d (List.mem_cons_of_mem _ hd)))
      unfold isLetter isDigit
      simp only [Bool.or_eq_true, Bool.and_eq_true, decide_eq_true_eq, beq_iff_eq, true_and]
      omega
  unfold identKey at hk
  cases hb : bytes key with
  | nil => rw [hb] at hk; exact hk.elim
  | cons c cs =>
    rw [hb] at hk
    have hc := hk.1
    unfold asciiLetter at hc
    simp only [Bool.or_eq_true, Bool.and_eq_true, decide_eq_true_eq, beq_iff_eq] at hc
    refine IdentText.byte false c cs (by omega) (Or.inl ?_) (tail cs hk.2)
    unfold isLetter
    simp only [Bool.or_eq_true, Bool.and_eq_true, decide_eq_true_eq, beq_iff_eq]
    omega

end parser

/-! ### The text of a values literal -/

namespace parser

theorem bytes_append (a b : String) : bytes (a ++ b) = bytes a ++ bytes b := by
  unfold bytes
  rw [← List.map_append]
  congr 1

theorem bytes_intercalate_go (sep : String) (l : List String) : ∀ acc : String,
    bytes (String.intercalate.go acc sep l) =
      bytes acc ++ (l.map (fun x => bytes sep ++ bytes x)).flatten := by
  induction l with
  | nil =>
    intro acc
    rw [String.intercalate.go]
    simp
  | cons a l ih =>
    intro acc
    rw [String.intercalate.go, ih, bytes_append, bytes_append]
    simp

theorem bytes_intercalate_cons (sep a : String) (l : List String) :
    bytes (sep.intercalate (a :: l)) =
      bytes a ++ (l.map (fun x => bytes sep ++ bytes x)).flatten := by
  rw [String.intercalate, bytes_intercalate_go]

theorem bytes_quoteText (key : String) : bytes (quoteText key) = 34 :: (bytes key ++ [34]) := by
  unfold quoteText bytesString bytes
  show List.map Char.toNat (List.map Char.ofNat (34 :: (List.map Char.toNat key.toList ++ [34])))
    = _
  rw [List.map_cons, List.map_append, List.map_cons, List.map_append, List.map_map,
    List.map_map]
  have : ((Char.toNat ∘ Char.ofNat) ∘ Char.toNat) = Char.toNat := by
    funext c
    show (Char.ofNat c.toNat).toNat = c.toNat
    rw [Char.ofNat_toNat]
  rw [this]
  rfl

theorem bytes_braces : bytes (Token.String token.LBrace) = [123] ∧
    bytes (Token.String (token.LBrace + 1)) = [125] ∧ bytes ", " = [44, 32] ∧
    bytes ":" = [58] ∧ bytes "" = [] := by
  refine ⟨?_, ?_, ?_, ?_, ?_⟩ <;> decide

/-- The text that `String` gives for a values literal in braces without tags whose keys
are plain ASCII identifiers is its written text with the keys in double quotes. -/
theorem String_written (U : Unicode) : ∀ n : Nat,
    (∀ x : Expr, x.Plain U true → (x.toks true).length ≤ n →
      bytes (x.String U) = x.written true) ∧
    (∀ v : ValuesLit, v.Plain U true → (v.toks true).length ≤ n →
      bytes (v.String U) = v.written true) ∧
    (∀ es : List ValuesElementLit, ValuesElementLit.PlainList U true es →
      (ValuesElementLit.toksMore true es).length ≤ n →
      ((ValuesElementLit.Strings U es).map (fun x => bytes ", " ++ bytes x)).flatten =
        ValuesElementLit.writtenMore true es) ∧
    (∀ e : ValuesElementLit, e.Plain U true → (e.toks true).length ≤ n →
      bytes (e.String U) = e.written true) := by
  intro n
  induction n using Nat.strong_induction_on with
  | _ n ih =>
  obtain ⟨hb1, hb2, hb3, hb4, hb5⟩ := bytes_braces
  have hel : ∀ e : ValuesElementLit, e.Plain U true → (e.toks true).length ≤ n →
      bytes (e.String U) = e.written true := by
    intro e hp hn
    obtain ⟨key, kp, cp, value, tags⟩ := e
    rw [ValuesElementLit.Plain] at hp
    obtain ⟨ht, hk, hv⟩ := hp
    subst ht
    rw [ValuesElementLit.toks_elem] at hn
    simp only [List.length_cons] at hn
    rw [ValuesElementLit.String, U.Quote_ident key (hk.1 rfl), ValuesLit.StringOpt,
      bytes_append, bytes_append, bytes_quoteText, hb5, ValuesElementLit.written]
    cases value with
    | none =>
      rw [Expr.valueString, Expr.writtenOpt, hb5]
      simp [keyBytes]
    | some v =>
      rw [Expr.PlainOpt] at hv
      rw [Expr.toksOpt] at hn
      simp only [List.length_cons] at hn
      rw [Expr.valueString, Expr.writtenOpt, bytes_append, hb4,
        (ih ((Expr.toks true v).length) (by omega)).1 v hv (le_refl _)]
      simp [keyBytes]
  have hmore : ∀ es : List ValuesElementLit, ValuesElementLit.PlainList U true es →
      (ValuesElementLit.toksMore true es).length ≤ n →
      ((ValuesElementLit.Strings U es).map (fun x => bytes ", " ++ bytes x)).flatten =
        ValuesElementLit.writtenMore true es := by
    intro es hp hn
    cases es with
    | nil => rfl
    | cons e es1 =>
      rw [ValuesElementLit.PlainList] at hp
      rw [ValuesElementLit.toksMore] at hn
      simp only [List.length_cons, List.length_append] at hn
      rw [ValuesElementLit.Strings, List.map_cons, List.flatten_cons,
        (ih ((ValuesElementLit.toks true e).length) (by omega)).2.2.2 e hp.1 (le_refl _),
        (ih ((ValuesElementLit.toksMore true es1).length) (by omega)).2.2.1 es1 hp.2
          (le_refl _), ValuesElementLit.writtenMore, hb3]
      simp [sepBytes]
  have hlit : ∀ v : ValuesLit, v.Plain U true → (v.toks true).length ≤ n →
      bytes (v.String U) = v.written true := by
    intro v hp hn
    obtain ⟨l, els, r, b0⟩ := v
    rw [ValuesLit.Plain] at hp
    obtain ⟨hb0, hels⟩ := hp
    subst hb0
    rw [ValuesLit.String, bytes_append, bytes_append, hb1, hb2]
    cases els with
    | nil =>
      rw [ValuesElementLit.Strings, String.intercalate, hb5]
      rfl
    | cons e es =>
      rw [ValuesElementLit.PlainList] at hels
      rw [ValuesLit.toks] at hn
      simp only [List.length_cons, List.length_append, List.length_nil] at hn
      rw [ValuesElementLit.Strings, bytes_intercalate_cons,
        (ih ((ValuesElementLit.toks true e).length) (by omega)).2.2.2 e hels.1 (le_refl _),
        (ih ((ValuesElementLit.toksMore true es).length) (by omega)).2.2.1 es hels.2
          (le_refl _), ValuesLit.written]
      simp
  refine ⟨?_, hlit, hmore, hel⟩
  intro x hp hn
  cases x with
  | Ident name pos =>
    rw [Expr.String, Expr.written]
  | ValuesLit v =>
    rw [Expr.Plain] at hp
    rw [Expr.toks] at hn
    rw [Expr.String, Expr.written]
    exact hlit v hp hn
  | ArrayLit _ _ _ => rw [Expr.Plain] at hp; exact hp.elim
  | BadExpr _ _ => rw [Expr.Plain] at hp; exact hp.elim
  | Number _ _ => rw [Expr.Plain] at hp; exact hp.elim
  | SliceExpr _ _ _ _ _ => rw [Expr.Plain] at hp; exact hp.elim
  | StringLit _ _ _ => rw [Expr.Plain] at hp; exact hp.elim
  | ValuesElementLit _ => rw [Expr.Plain] at hp; exact hp.elim

end parser

/-! ## Claims -/

/-- C1 (as amended): for every tree within the range of `int` (`InRange`: no product or
sum formed by `rowsToUse`, no column count and no depth reaches 2^63), the top-level call
of `getCells` returns, and the cells it emits (the root cell included) tile the grid of
`rowsToUse(root)` rows and `width(root)` columns: every position of that rectangle lies in
the span of exactly one emitted cell, and no span reaches outside the rectangle. -/
theorem C1_getCells_tiles_grid (root : Node) (hr : InRange root) :
    ∃ cells mt R, emit root = .ok (cells, mt) ∧ rowsToUse root = .ok R ∧
      (∀ r c : Int, 0 ≤ r ∧ r < R ∧ 0 ≤ c ∧ c < width root →
        cells.countP (covers r c) = 1) ∧
      (∀ h ∈ cells, 0 ≤ h.Row ∧ h.Row + h.RowSpan ≤ R ∧
        0 ≤ h.Col ∧ h.Col + h.ColSpan ≤ width root) := by
  have hw := width_eq root hr.2.1
  refine ⟨_, _, _, emit_eq root hr, rowsToUse_eq root hr.1, ?_, ?_⟩
  · intro r c hrc
    rw [hw] at hrc
    rw [(tiles_root root).2 r c, if_pos (by omega)]
  · intro h hh
    have := (tiles_root root).1 h hh
    rw [hw]
    omega

/-- C1 (instance): the tree of `{A:a, B:{b:c}}` is within range; in its layout, a grid of
7 rows and 2 columns, the positions (0, 0), (3, 1) and (6, 0) each lie in the span of
exactly one emitted cell. -/
theorem C1_getCells_tiles_grid_witness :
    InRange unevenTree ∧
    ∃ cells mt, emit unevenTree = .ok (cells, mt) ∧ rowsToUse unevenTree = .ok 7 ∧
      width unevenTree = 2 ∧ cells.countP (covers 0 0) = 1 ∧
      cells.countP (covers 3 1) = 1 ∧ cells.countP (covers 6 0) = 1 := by
  obtain ⟨cells, mt, R, h1, h2, h3, _⟩ := C1_getCells_tiles_grid unevenTree (by decide)
  have hR : rowsToUse unevenTree = .ok 7 := rfl
  have hw : width unevenTree = 2 := rfl
  rw [hR] at h2
  obtain rfl := Except.ok.inj h2
  rw [hw] at h3
  exact ⟨by decide, cells, mt, h1, hR, hw, h3 0 0 (by omega), h3 3 1 (by omega),
    h3 6 0 (by omega)⟩

/-- C1 (counterexample to the claim as stated): on the tree of 382 nodes made of chains of
2, 3, 5, ..., 53 nodes under one root, the row count 32589158477190044731 is above 2^63 and
`rowsToUse(root)` wraps around to -4304329670229058501. `getCells` returns the 382 cells,
and the root cell, in row 0 with `RowSpan` 1, reaches outside the rectangle of
`rowsToUse(root)` rows. -/
theorem C1_counterexample :
    ∃ cells st, emit chainTree16 = .ok (cells, st) ∧ cells.length = 382 ∧
      rowsToUse chainTree16 = .ok (-4304329670229058501) ∧
      rows chainTree16 = 32589158477190044731 ∧
      ∃ h ∈ cells, h.Row = 0 ∧ h.RowSpan = 1 ∧
        ¬ (h.Row + h.RowSpan ≤ -4304329670229058501) := by
  obtain ⟨p, hp, hc⟩ := ok_of_check (emit chainTree16)
    (fun p => decide (p.1.length = 382) &&
      p.1.any (fun h => decide (h.Row = 0 ∧ h.RowSpan = 1))) (by decide!)
  obtain ⟨hlen, hany⟩ := Bool.and_eq_true_iff.mp hc
  obtain ⟨h, hh, hd⟩ := List.any_eq_true.mp hany
  have hd2 := of_decide_eq_true hd
  refine ⟨p.1, p.2, hp, of_decide_eq_true hlen, by decide!, by decide!, h, hh, hd2.1, hd2.2, ?_⟩
  rw [hd2.1, hd2.2]
  decide

/-- C2 (as amended): for every tree within the range of `int` whose row count is at most
the largest length `make` accepts, `TableHeader` returns; the published cells are the
emitted cells other than the root cell, and with rows counted as `Row - 1` they tile the
rectangle of `rowsToUse(root) - 1` rows and `width(root)` columns exactly once, none
reaching past it. `NumRows` is the number of entries of `Rows` and the largest `Row` of
an emitted cell; it is at most `rowsToUse(root) - 1`. -/
theorem C2_published_cells_tile (root : Node) (hr : InRange root)
    (hm : (rows root : Int) ≤ maxSliceLen) :
    ∃ mt R rootCell below st,
      root.TableHeader = .ok mt ∧ rowsToUse root = .ok R ∧
      emit root = .ok (rootCell :: below, st) ∧ List.Perm mt.Rows.flatten below ∧
      (∀ r c : Int, 0 ≤ r ∧ r < R - 1 ∧ 0 ≤ c ∧ c < width root →
        mt.Rows.flatten.countP (coversPublished r c) = 1) ∧
      (∀ h ∈ mt.Rows.flatten, 0 ≤ h.Row - 1 ∧ (h.Row - 1) + h.RowSpan ≤ R - 1 ∧
        0 ≤ h.Col ∧ h.Col + h.ColSpan ≤ width root) ∧
      (∀ r c : Int, 0 ≤ r ∧ r < mt.NumRows ∧ 0 ≤ c ∧ c < width root →
        mt.Rows.flatten.countP (coversPublished r c) = 1) ∧
      mt.NumRows = mt.Rows.length ∧ mt.NumRows ≤ R - 1 ∧
      (∀ h ∈ rootCell :: below, h.Row ≤ mt.NumRows) ∧
      (∃ h ∈ rootCell :: below, h.Row = mt.NumRows) := by
  obtain ⟨h1, h2, h3, h4⟩ := numRows_bounds root
  have hp := published_perm root
  have ht := tiles_kids root
  have hw := width_eq root hr.2.1
  refine ⟨_, _, _, _, _, TableHeader_eq root hr hm, rowsToUse_eq root hr.1,
    (emit_eq root hr).trans (by rw [rootCall_cells]), hp, ?_, ?_, ?_, ?_, ?_, ?_, ?_⟩
  · intro r c hrc
    have e : (coversPublished r c) = (covers (r + 1) c) := funext (covers_published r c)
    rw [hw] at hrc
    rw [hp.countP_eq, e, ht.2 (r + 1) c, if_pos (by omega)]
  · intro h hh
    have := ht.1 h (hp.subset hh)
    rw [hw]
    omega
  · intro r c hrc
    have e : (coversPublished r c) = (covers (r + 1) c) := funext (covers_published r c)
    simp only at hrc
    rw [hw] at hrc
    rw [hp.countP_eq, e, ht.2 (r + 1) c, if_pos (by omega)]
  · simp only [groupedBy, List.length_drop, List.length_map, List.length_range]
    omega
  · simp only
    omega
  · intro h hh
    rw [← rootCall_cells] at hh
    have := h3 h hh
    simp only
    omega
  · obtain ⟨h, hh, e⟩ := h4
    rw [rootCall_cells] at hh
    exact ⟨h, hh, by simp only; omega⟩

/-- C2 (instance of the amended claim): the tree of `TestParse` is within range and has 5
rows; the published cells cover the positions (0, 0) and (3, 8) of the 4 x 9 rectangle
exactly once, and `NumRows` is 4. -/
theorem C2_published_cells_tile_witness :
    InRange testTree ∧ (rows testTree : Int) ≤ maxSliceLen ∧
    ∃ mt, testTree.TableHeader = .ok mt ∧ rowsToUse testTree = .ok 5 ∧ width testTree = 9 ∧
      mt.Rows.flatten.countP (coversPublished 0 0) = 1 ∧
      mt.Rows.flatten.countP (coversPublished 3 8) = 1 ∧
      mt.NumRows = mt.Rows.length ∧ mt.NumRows ≤ 5 - 1 := by
  obtain ⟨mt, R, _, _, _, h1, h2, _, _, h5, _, _, h7, h8, _, _⟩ :=
    C2_published_cells_tile testTree (by decide) (by decide)
  have hR : rowsToUse testTree = .ok 5 := rfl
  have hw : width testTree = 9 := rfl
  rw [hR] at h2
  obtain rfl := Except.ok.inj h2
  rw [hw] at h5
  exact ⟨by decide, by decide, mt, h1, hR, hw, h5 0 0 (by omega), h5 3 8 (by omega), h7, h8⟩

/-- C2 (counterexample to the claim as stated): on the tree `{A:a, B:{b:c}}` the root
needs `rowsToUse = 7` rows, yet `NumRows` is 5, not 6, and the published cell `c`
(`Row` 5, `RowSpan` 2) ends at row 6, past `NumRows`. -/
theorem C2_counterexample :
    ∃ mt, unevenTree.TableHeader = .ok mt ∧ rowsToUse unevenTree = .ok 7 ∧
      mt.NumRows = 5 ∧ mt.NumRows ≠ 7 - 1 ∧
      ∃ h ∈ mt.Rows.flatten, h.Value = "c" ∧ h.Row = 5 ∧ h.RowSpan = 2 ∧
        ¬ ((h.Row - 1) + h.RowSpan ≤ mt.NumRows) := by
  refine ⟨⟨[[⟨"A", none, false, 1, 1, 0, 3, 1⟩, ⟨"B", none, false, 1, 1, 1, 2, 1⟩], [],
      [⟨"b", none, false, 2, 3, 1, 2, 1⟩], [⟨"a", none, true, 2, 4, 0, 3, 1⟩],
      [⟨"c", none, true, 3, 5, 1, 2, 1⟩]], 5,
      [⟨"a", none, true, 2, 4, 0, 3, 1⟩, ⟨"c", none, true, 3, 5, 1, 2, 1⟩]⟩,
    rfl, rfl, rfl, by decide, ⟨"c", none, true, 3, 5, 1, 2, 1⟩, ?_, rfl, rfl, rfl, by decide⟩
  exact .tail _ (.tail _ (.tail _ (.tail _ (.head _))))

/-- C3 (as amended): on every tree within the range of `int`, every call
`getCells(depth, t, row, col, rowsLeft)` made by `TableHeader` (the calls recorded in the
call tree of the top-level call, whose budget is `rowsToUse(root)` and whose cells are the
emitted cells) really is a call of `getCells` with those arguments; in it `rowsToUse(t)`
divides `rowsLeft`, and the emitted cell has `RowSpan = rowsLeft / rowsToUse(t)` with
`RowSpan * rowsToUse(t) = rowsLeft`. -/
theorem C3_rowsToUse_divides_rowsLeft (root : Node) (hr : InRange root) :
    (∃ st, emit root = .ok ((rootCall root).calls.map CallTree.cell, st)) ∧
    (rootCall root).t = root ∧ rowsToUse root = .ok (rootCall root).rowsLeft ∧
    ∀ call ∈ (rootCall root).calls,
      (∀ mt, getCells call.cell.Depth call.t call.cell.Row call.cell.Col call.rowsLeft mt
        = .ok (call.cells, stateAfter mt call.cells)) ∧
      ∃ r, rowsToUse call.t = .ok r ∧ r ∣ call.rowsLeft ∧
        call.cell.RowSpan = Int.tdiv call.rowsLeft r ∧
        call.cell.RowSpan * r = call.rowsLeft := by
  refine ⟨⟨_, by rw [calls_cells]; exact emit_eq root hr⟩, callTree_t _ _ _ _ _, ?_, ?_⟩
  · rw [rootCall, callTree_rowsLeft]
    exact rowsToUse_eq root hr.1
  · intro call hcall
    refine ⟨calls_getCells root hr call hcall, ?_⟩
    have hfit := (calls_fit root hr call hcall).1
    obtain ⟨d1, row1, col1, rl1, e, hpos, hdvd⟩ := calls_budget root call hcall
    generalize call.t = t at e hpos hdvd hfit
    subst e
    · refine ⟨_, rowsToUse_eq t hfit, ?_, ?_, ?_⟩
      · rw [callTree_rowsLeft]; exact hdvd
      · rw [callTree_rowsLeft, callTree_cell]
      · rw [callTree_rowsLeft, callTree_cell]
        exact (budget_own t rl1 hpos hdvd).2

/-- C3 (instance): the tree of `{A:a, B:{b:c}}` is within range; in its layout the call
on `A` receives 6 rows, `rowsToUse(A)` is 2, and the cell of `A` has `RowSpan` 3. -/
theorem C3_rowsToUse_divides_rowsLeft_witness :
    InRange unevenTree ∧
    ∃ call ∈ (rootCall unevenTree).calls,
      call.cell.Value = "A" ∧ call.rowsLeft = 6 ∧ rowsToUse call.t = .ok 2 ∧
      (2 : Int) ∣ call.rowsLeft ∧ call.cell.RowSpan = 3 ∧ call.cell.RowSpan * 2 = call.rowsLeft := by
  obtain ⟨r, h1, h2, _, h4⟩ :=
    ((C3_rowsToUse_divides_rowsLeft unevenTree (by decide)).2.2.2 unevenCallA
      unevenCallA_mem).2
  have hr : rowsToUse unevenCallA.t = .ok 2 := rfl
  rw [hr] at h1
  obtain rfl := Except.ok.inj h1
  exact ⟨by decide, unevenCallA, unevenCallA_mem, rfl, rfl, hr, h2, rfl, h4⟩

/-- C3 (counterexample to the claim as stated): on the tree of 382 nodes made of chains of
2, 3, 5, ..., 53 nodes, `rowsToUse(root)` wraps around to -4304329670229058501. The root
keeps one row (the budget divided by itself) and calls `getCells` on each child with
`rowsLeft = -4304329670229058502`. For the second child, the chain of 3 nodes at column 1,
`rowsToUse` is 3, which does not divide that budget: the emitted cell has
`RowSpan = -1434776556743019500`, and `RowSpan * 3` is not `rowsLeft`. -/
theorem C3_counterexample :
    ∃ cells st, emit chainTree16 = .ok (cells, st) ∧
      rowsToUse chainTree16 = .ok (-4304329670229058501) ∧
      chainTree16.Children[1]? = some (chain 2) ∧ rowsToUse (chain 2) = .ok 3 ∧
      wrap (-4304329670229058501
          - wrap (Int.tdiv (-4304329670229058501) (-4304329670229058501)))
        = -4304329670229058502 ∧
      ¬ ((3 : Int) ∣ -4304329670229058502) ∧
      ∃ h ∈ cells, h.Depth = 1 ∧ h.Row = 1 ∧ h.Col = 1 ∧
        h.RowSpan = Int.tdiv (-4304329670229058502) 3 ∧
        h.RowSpan * 3 ≠ -4304329670229058502 := by
  obtain ⟨p, hp, hc⟩ := ok_of_check (emit chainTree16)
    (fun p => p.1.any (fun h => decide (h.Depth = 1 ∧ h.Row = 1 ∧ h.Col = 1 ∧
      h.RowSpan = Int.tdiv (-4304329670229058502) 3))) (by decide!)
  obtain ⟨h, hh, hd⟩ := List.any_eq_true.mp hc
  have hd2 := of_decide_eq_true hd
  refine ⟨p.1, p.2, hp, by decide!, rfl, by decide!, by decide!, by decide!, h, hh,
    hd2.1, hd2.2.1, hd2.2.2.1, hd2.2.2.2, ?_⟩
  rw [hd2.2.2.2]
  decide

/-- C4 (as amended): for every tree node on which `rowsToUse` stays below 2^63 (`rowsFit`:
each product `a * b` formed by `lcm` and each sum `1 + childrenRows`), `rowsToUse` returns a
positive number: 1 for a node without children, and otherwise 1 + the least common
multiple of the values of `rowsToUse` on the children (the least common multiple being the
fold of `Nat.lcm`, the number that divides exactly the common multiples). Every call of
the helper `lcm` made on the way has positive arguments, does not divide by zero and
returns their least common multiple. -/
theorem C4_rowsToUse_is_one_plus_lcm (t : Node) (hf : rowsFit t = true) :
    ∃ n : Nat, rowsToUse t = .ok (n : Int) ∧ 0 < n ∧
      (t.Children = [] → n = 1) ∧
      (t.Children ≠ [] → ∃ ks : List Nat,
        List.Forall₂ (fun c k => rowsToUse c = .ok ((k : Nat) : Int)) t.Children ks ∧
        n = 1 + ks.foldr Nat.lcm 1 ∧
        ∀ m : Nat, ks.foldr Nat.lcm 1 ∣ m ↔ ∀ k ∈ ks, k ∣ m) ∧
      (∀ p ∈ lcmCalls t, 0 < p.1 ∧ 0 < p.2 ∧
        lcm p.1 p.2 = .ok ((Int.lcm p.1 p.2 : Nat) : Int)) := by
  refine ⟨rows t, rowsToUse_eq t hf, rows_pos t, ?_, ?_, ?_⟩
  · intro h
    cases t with
    | mk v cs tags =>
      simp only [Node.Children] at h
      subst h
      simp [rows]
  · intro h
    have hch := rowsFit_children t hf
    cases t with
    | mk v cs tags =>
      cases cs with
      | nil => simp [Node.Children] at h
      | cons c cs =>
        refine ⟨(c :: cs).map rows, forall2_rowsToUse _ hch, ?_, foldr_lcm_dvd_iff _⟩
        rw [rows, rowsLcm_eq_foldr]
  · intro p hp
    obtain ⟨a, b, e, ha, hb, hab⟩ := lcmCalls_pos_aux.1 t hf p hp
    subst e
    have ha1 : (0 : Int) < (a : Int) := by exact_mod_cast ha
    have hb1 : (0 : Int) < (b : Int) := by exact_mod_cast hb
    refine ⟨ha1, hb1, ?_⟩
    simp only [lcm_pos a b ha hab, Int.lcm, Int.natAbs_ofNat]

/-- C4 (instance): `rowsToUse` stays in range on `{A:a, B:{b:c}}` and is
1 + lcm(2, 3) = 7 there, and the call `lcm(2, 3)` it makes returns 6. -/
theorem C4_rowsToUse_is_one_plus_lcm_witness :
    rowsFit unevenTree = true ∧
    rowsToUse unevenTree = .ok 7 ∧ ((2 : Int), (3 : Int)) ∈ lcmCalls unevenTree ∧
      lcm 2 3 = .ok 6 := by
  obtain ⟨n, h1, _, _, _, h5⟩ := C4_rowsToUse_is_one_plus_lcm unevenTree (by decide)
  have hmem : ((2 : Int), (3 : Int)) ∈ lcmCalls unevenTree := by decide
  have := (h5 _ hmem).2.2
  exact ⟨by decide, rfl, hmem, this⟩

/-- C4 (counterexample to the claim as stated): on the tree of 382 nodes made of chains of
2, 3, 5, ..., 53 nodes, `rowsToUse` makes the call `lcm(614889782588491410, 53)`, whose
product wraps around: the call returns -4304329670229058502, not the least common multiple
32589158477190044730, and `rowsToUse(root)` is negative. On a root over two copies of the
tree whose children have the row counts 3, 5, 17, 257, 641, 65537 and 6700417 (product
2^64 - 1, so that `rowsToUse` is 0 on it), `rowsToUse` calls `lcm(0, 0)`, which divides by
zero. -/
theorem C4_counterexample :
    rowsToUse chainTree16 = .ok (-4304329670229058501) ∧
    ((614889782588491410 : Int), (53 : Int)) ∈ lcmCalls chainTree16 ∧
    lcm 614889782588491410 53 = .ok (-4304329670229058502) ∧
    Int.lcm 614889782588491410 53 = 32589158477190044730 ∧
    rowsToUse zeroTree = .ok 0 ∧
    ((0 : Int), (0 : Int)) ∈ lcmCalls (over [zeroTree, zeroTree]) ∧
    lcm 0 0 = .error Fault.divideByZero ∧
    rowsToUse (over [zeroTree, zeroTree]) = .error Fault.divideByZero := by
  refine ⟨by decide!, by decide!, by decide!, by decide!, by decide!, by decide!, by decide!,
    by decide!⟩

/-- C5 (as amended): for every tree within the range of `int` whose row count is at most
the largest length `make` accepts, every cell emitted by `getCells`, and so every cell of
`TableHeader().Rows` and of `TableHeader().Leafs`, has `RowSpan >= 1` and `ColSpan >= 1`. -/
theorem C5_spans_at_least_one (root : Node) (hr : InRange root)
    (hm : (rows root : Int) ≤ maxSliceLen) :
    ∃ cells st mt, emit root = .ok (cells, st) ∧ root.TableHeader = .ok mt ∧
      (∀ h ∈ cells, 1 ≤ h.RowSpan ∧ 1 ≤ h.ColSpan) ∧
      (∀ row ∈ mt.Rows, ∀ h ∈ row, 1 ≤ h.RowSpan ∧ 1 ≤ h.ColSpan) ∧
      (∀ h ∈ mt.Leafs, 1 ≤ h.RowSpan ∧ 1 ≤ h.ColSpan) := by
  have hall : ∀ h ∈ (rootCall root).cells, 1 ≤ h.RowSpan ∧ 1 ≤ h.ColSpan := by
    intro h hh
    have := (tiles_root root).1 h hh
    omega
  refine ⟨_, _, _, emit_eq root hr, TableHeader_eq root hr hm, hall, ?_, ?_⟩
  · intro row hrow h hh
    have h1 : h ∈ CallTree.cellsList (rootCall root).kids :=
      (published_perm root).subset (List.mem_flatten.mpr ⟨row, hrow, hh⟩)
    apply hall
    rw [rootCall_cells]
    exact List.mem_cons_of_mem _ h1
  · intro h hh
    exact hall h (List.mem_filter.mp hh).1

/-- C5 (instance): the tree of `{A:a, B:{b:c}}` is within range; in its layout the cell of
`a` is emitted with `RowSpan` 3 and `ColSpan` 1. -/
theorem C5_spans_at_least_one_witness :
    InRange unevenTree ∧ (rows unevenTree : Int) ≤ maxSliceLen ∧
    ∃ cells st, emit unevenTree = .ok (cells, st) ∧
      ∃ h ∈ cells, h.Value = "a" ∧ h.RowSpan = 3 ∧ h.ColSpan = 1 ∧
        1 ≤ h.RowSpan ∧ 1 ≤ h.ColSpan := by
  obtain ⟨cells, st, _, h1, _, h3, _, _⟩ :=
    C5_spans_at_least_one unevenTree (by decide) (by decide)
  have hmem : (⟨"a", none, true, 2, 4, 0, 3, 1⟩ : Header) ∈ cells := by
    have he : emit unevenTree = .ok
        ([⟨"", none, false, 0, 0, 0, 1, 2⟩, ⟨"A", none, false, 1, 1, 0, 3, 1⟩,
          ⟨"a", none, true, 2, 4, 0, 3, 1⟩, ⟨"B", none, false, 1, 1, 1, 2, 1⟩,
          ⟨"b", none, false, 2, 3, 1, 2, 1⟩, ⟨"c", none, true, 3, 5, 1, 2, 1⟩],
         ⟨[], 6, [⟨"a", none, true, 2, 4, 0, 3, 1⟩, ⟨"c", none, true, 3, 5, 1, 2, 1⟩]⟩) := rfl
    rw [he] at h1
    have := (Prod.mk.inj (Except.ok.inj h1)).1
    rw [← this]
    exact .tail _ (.tail _ (.head _))
  exact ⟨by decide, by decide, cells, st, h1, _, hmem, rfl, rfl, rfl, (h3 _ hmem).1,
    (h3 _ hmem).2⟩

/-- C5 (counterexample to the claim as stated): on the tree of 173 nodes whose root has two
children with the row count 2^32 + 2 each, the product formed by `lcm` wraps around and
`rowsToUse(root)` is 4 instead of 2^32 + 3. `TableHeader` returns a grid of 3 rows, and the
budget 3 left to each child, divided by its row count 2^32 + 2, gives `RowSpan` 0: the
first published row holds a cell with `RowSpan` 0. -/
theorem C5_counterexample :
    rowsToUse squareTree = .ok 4 ∧ rows squareTree = 4294967299 ∧
    ∃ mt, squareTree.TableHeader = .ok mt ∧ mt.NumRows = 3 ∧
      ∃ row ∈ mt.Rows, ∃ h ∈ row, h.Depth = 1 ∧ h.RowSpan = 0 ∧ ¬ (1 ≤ h.RowSpan) := by
  obtain ⟨mt, hp, hc⟩ := ok_of_check squareTree.TableHeader
    (fun mt => decide (mt.NumRows = 3) &&
      mt.Rows.any (fun row => row.any (fun h => decide (h.Depth = 1 ∧ h.RowSpan = 0))))
    (by decide!)
  obtain ⟨hn, hany⟩ := Bool.and_eq_true_iff.mp hc
  obtain ⟨row, hrow, hany2⟩ := List.any_eq_true.mp hany
  obtain ⟨h, hh, hd⟩ := List.any_eq_true.mp hany2
  have hd2 := of_decide_eq_true hd
  refine ⟨by decide!, by decide!, mt, hp, of_decide_eq_true hn, row, hrow, h, hh, hd2.1,
    hd2.2, ?_⟩
  rw [hd2.2]
  decide

/-- C6 (as amended): on every tree within the range of `int`, in every call of `getCells`
made by `TableHeader` (the records of the call tree, whose cells are the emitted cells),
the calls made for the children are the calls on the node's children in order, and the
cell emitted for the node has `ColSpan` 1 when the node has no children and otherwise the
sum of the `ColSpan` of the cells emitted for its children. -/
theorem C6_colSpan_is_sum_of_children (root : Node) (hr : InRange root) :
    (∃ st, emit root = .ok ((rootCall root).calls.map CallTree.cell, st)) ∧
    (rootCall root).t = root ∧
    ∀ call ∈ (rootCall root).calls,
      (∀ mt, getCells call.cell.Depth call.t call.cell.Row call.cell.Col call.rowsLeft mt
        = .ok (call.cells, stateAfter mt call.cells)) ∧
      call.cell.Value = call.t.Value ∧
      call.cell.ColSpan = width call.t ∧
      call.kids.map CallTree.t = call.t.Children ∧
      (∀ k ∈ call.kids, k ∈ (rootCall root).calls) ∧
      (call.t.Children = [] → call.cell.ColSpan = 1) ∧
      (call.t.Children ≠ [] →
        call.cell.ColSpan = (call.kids.map (fun k => k.cell.ColSpan)).sum) := by
  refine ⟨⟨_, by rw [calls_cells]; exact emit_eq root hr⟩, callTree_t _ _ _ _ _, ?_⟩
  intro call hcall
  obtain ⟨d1, row1, col1, rl1, e⟩ := calls_shape root call hcall
  have hkids : ∀ k ∈ call.kids, k ∈ (rootCall root).calls :=
    CallTree.kids_mem_calls_aux.1 _ call hcall
  have hcols := (calls_fit root hr call hcall).2
  refine ⟨calls_getCells root hr call hcall, ?_⟩
  generalize call.t = t at e hcols
  subst e
  refine ⟨by rw [callTree_cell], by rw [callTree_cell, width_eq t hcols], ?_, hkids, ?_, ?_⟩
  · rw [callTree_kids, callTreeLoop_t]
  · intro h
    cases t with
    | mk v cs tags =>
      simp only [Node.Children] at h
      subst h
      rw [callTree_cell, cols_leaf]
  · intro h
    cases t with
    | mk v cs tags =>
      cases cs with
      | nil => simp [Node.Children] at h
      | cons c cs =>
        rw [callTree_kids, callTreeLoop_colSpan, callTree_cell, cols_cons]
        simp [Node.Children]

/-- C6 (instance): the tree of `{A:a, B:{b:c}}` is within range; in its layout the cell of
the root has `ColSpan` 2, the sum of the `ColSpan` 1 and 1 of the cells of its two
children. -/
theorem C6_colSpan_is_sum_of_children_witness :
    InRange unevenTree ∧
    (rootCall unevenTree).t.Children ≠ [] ∧
    (rootCall unevenTree).cell.ColSpan
      = ((rootCall unevenTree).kids.map (fun k => k.cell.ColSpan)).sum ∧
    (rootCall unevenTree).kids.map (fun k => k.cell.ColSpan) = [1, 1] :=
  ⟨by decide, rootCall_unevenTree_kids_ne,
    ((C6_colSpan_is_sum_of_children unevenTree (by decide)).2.2 (rootCall unevenTree)
      (CallTree.mem_calls_self _)).2.2.2.2.2.2 rootCall_unevenTree_kids_ne, rfl⟩

/-- C6 (counterexample to the claim as stated): on the tree of 164 nodes whose root has
children with the row counts 3, 5, 17, 257, 641, 65537 and 6700417, the last product formed
by `lcm` is 2^64 - 1, which wraps around to -1, so that `rowsToUse(root)` is 0. The
top-level call of `getCells` divides the budget by it and panics: no cell is emitted for
any node of the tree, and `TableHeader` does not return. -/
theorem C6_counterexample :
    zeroTree.Children.map rowsToUse
      = [.ok 3, .ok 5, .ok 17, .ok 257, .ok 641, .ok 65537, .ok 6700417] ∧
    lcm 2753074036095 6700417 = .ok (-1) ∧
    rowsToUse zeroTree = .ok 0 ∧
    emit zeroTree = .error Fault.divideByZero ∧
    zeroTree.TableHeader = .error Fault.divideByZero := by
  refine ⟨by decide!, by decide!, by decide!, error_of_check _ _ (by decide!),
    error_of_check _ _ (by decide!)⟩

/-- C7 (as amended): for every tree within the range of `int` whose root has at least one
child and whose row count is at most the largest length `make` accepts, `width(root)` is
the sum of the widths of the root's children, `TableHeader` returns, a first published
row exists and the sum of `ColSpan` over it is `width(root)`. A tree built without error
by `BuildNode` has one child of the root per element of the literal, so this covers
every literal with at least one element whose tree is within these bounds. -/
theorem C7_width_of_root_with_children :
    (∀ root : Node, InRange root → (rows root : Int) ≤ maxSliceLen → root.Children ≠ [] →
      width root = (root.Children.map width).sum ∧
      ∃ mt row0, root.TableHeader = .ok mt ∧ mt.Rows.head? = some row0 ∧
        (row0.map Header.ColSpan).sum = width root) ∧
    (∀ (conv : String → Decimal × Option String) (vl : parser.ValuesLit) (root : Node),
      BuildNode conv vl = (some root, none) →
      root.Children.length = vl.Elements.length) := by
  refine ⟨?_, BuildNode_length⟩
  intro root hr hm hne
  have hwr := width_eq root hr.2.1
  have hw : cols root = (root.Children.map cols).sum := by
    cases root with
    | mk v cs tags =>
      cases cs with
      | nil => simp [Node.Children] at hne
      | cons c cs => rw [cols_cons]; rfl
  refine ⟨?_, ?_⟩
  · rw [hwr, hw, map_width_eq _ (cols_children_lt root hr.2.1)]
  · obtain ⟨row0, h8, h9⟩ := first_row_children root hne
    exact ⟨_, row0, TableHeader_eq root hr hm, h8, by rw [forall2_colSpan_sum _ _ h9, hwr, hw]⟩

/-- C7 (instance of the amended claim): the tree of the literal of `TestParse`, which has
four elements, is within the bounds and has width 9, the sum of its children's widths and
of the first row's `ColSpan`. -/
theorem C7_width_of_root_with_children_witness :
    InRange testTree ∧ (rows testTree : Int) ≤ maxSliceLen ∧
    testTree.Children ≠ [] ∧
    (width testTree = (testTree.Children.map width).sum ∧
      ∃ mt row0, testTree.TableHeader = .ok mt ∧ mt.Rows.head? = some row0 ∧
        (row0.map Header.ColSpan).sum = width testTree) ∧
    BuildNode noDecimal testLit = (some testTree, none) ∧
    testTree.Children.length = testLit.Elements.length ∧ width testTree = 9 :=
  ⟨by decide, by decide, testTree_children_ne,
    C7_width_of_root_with_children.1 testTree (by decide) (by decide) testTree_children_ne,
    rfl, C7_width_of_root_with_children.2 noDecimal testLit testTree rfl, by decide⟩

/-- C7 (counterexample to the claim as stated): the empty literal `{}` builds without
error into a root without children; `width(root)` is 1 while the sum of the widths of
its children is 0, and the layout publishes no row at all, so there is no first row whose
`ColSpan` could add up to 1. -/
theorem C7_counterexample :
    ∃ root mt, BuildNode noDecimal emptyLit = (some root, none) ∧
      width root = 1 ∧ (root.Children.map width).sum = 0 ∧
      width root ≠ (root.Children.map width).sum ∧
      root.TableHeader = .ok mt ∧ mt.Rows = [] ∧ mt.NumRows = 0 ∧
      (mt.Rows.flatten.map Header.ColSpan).sum = 0 :=
  ⟨.mk "" [] none, ⟨[], 0, [⟨"", none, true, 0, 0, 0, 1, 1⟩]⟩, rfl, rfl, rfl, by decide, rfl, rfl,
    rfl, rfl⟩

/-- C8 (as amended): for every tree within the range of `int` whose row count is at most
the largest length `make` accepts, `TableHeader().Leafs` is the sequence of the emitted
cells with `IsLeaf = true`; it matches, one for one and in order, the childless nodes of
the tree in left-to-right depth-first order, each cell carrying the node's `Value` and
`Tags`; so there are as many leaves as childless nodes and no cell with `IsLeaf = false` is
in `Leafs`. For the tree of `{a[],b:{c,d:{d1,d2:d3,d4},e},f,g:{h,i}}` the leaf values are
a, c, d1, d3, d4, e, f, h, i. -/
theorem C8_leafs_are_the_childless_nodes :
    (∀ root : Node, InRange root → (rows root : Int) ≤ maxSliceLen → ∃ mt cells st,
      root.TableHeader = .ok mt ∧ emit root = .ok (cells, st) ∧
      mt.Leafs = cells.filter (fun h => h.IsLeaf) ∧
      List.Forall₂ (fun (h : Header) (n : Node) =>
          h.Value = n.Value ∧ h.Tags = n.Tags ∧ h.IsLeaf = true ∧ n.Children = [])
        mt.Leafs (leaves root) ∧
      mt.Leafs.length = (leaves root).length ∧
      (∀ h ∈ cells, h.IsLeaf = false → h ∉ mt.Leafs)) ∧
    (BuildNode noDecimal testLit = (some testTree, none) ∧
      ∃ mt, testTree.TableHeader = .ok mt ∧
        mt.Leafs.map Header.Value = ["a", "c", "d1", "d3", "d4", "e", "f", "h", "i"]) := by
  have hgen : ∀ root : Node,
      List.Forall₂ (fun (h : Header) (n : Node) =>
          h.Value = n.Value ∧ h.Tags = n.Tags ∧ h.IsLeaf = true ∧ n.Children = [])
        ((rootCall root).cells.filter (fun h => h.IsLeaf)) (leaves root) :=
    fun root => leafs_forall2_aux.1 root 0 0 0 _
  constructor
  · intro root hr hm
    refine ⟨_, _, _, TableHeader_eq root hr hm, emit_eq root hr, rfl, hgen root,
      (hgen root).length_eq, ?_⟩
    intro h _ hl hmem
    have := (List.mem_filter.mp hmem).2
    rw [hl] at this
    cases this
  · refine ⟨rfl, _, TableHeader_eq testTree (by decide) (by decide), ?_⟩
    rw [forall2_map_value _ _ (hgen testTree)]
    decide

/-- C8 (instance): the tree of `{A:a, B:{b:c}}` is within the bounds; its `Leafs` are the
cells of its two childless nodes `a` and `c`, in this order. -/
theorem C8_leafs_are_the_childless_nodes_witness :
    InRange unevenTree ∧ (rows unevenTree : Int) ≤ maxSliceLen ∧
    ∃ mt, unevenTree.TableHeader = .ok mt ∧ mt.Leafs.map Header.Value = ["a", "c"] ∧
      (leaves unevenTree).map Node.Value = ["a", "c"] ∧
      mt.Leafs.length = (leaves unevenTree).length := by
  obtain ⟨mt, cells, st, h1, _, _, h4, h5, _⟩ :=
    C8_leafs_are_the_childless_nodes.1 unevenTree (by decide) (by decide)
  exact ⟨by decide, by decide, mt, h1, by rw [forall2_map_value _ _ h4]; decide, by decide, h5⟩

/-- C8 (counterexample to the claim as stated): the tree of 329 nodes made of chains of
2, 3, 5, ..., 47 nodes under one root is within the range of `int`, with 15 childless
nodes. `getCells` returns and leaves `NumRows = 601807021256821382`; `make` panics on
that length, so `TableHeader` does not return and there is no `Leafs`. -/
theorem C8_counterexample :
    InRange chainTree15 ∧ (leaves chainTree15).length = 15 ∧
    (∃ cells st, emit chainTree15 = .ok (cells, st) ∧ st.NumRows = 601807021256821382 ∧
      maxSliceLen < st.NumRows) ∧
    chainTree15.TableHeader = .error Fault.lenOutOfRange := by
  obtain ⟨p, hp, hc⟩ := ok_of_check (emit chainTree15)
    (fun p => decide (p.2.NumRows = 601807021256821382)) (by decide!)
  have hn := of_decide_eq_true hc
  refine ⟨by decide!, by decide!, ⟨p.1, p.2, hp, hn, ?_⟩, error_of_check _ _ (by decide!)⟩
  rw [hn]
  decide

/-- C9 (as amended): on every tree within the range of `int`, in every call of `getCells`
made by `TableHeader` on a node with children, the cells emitted for the children all have
`Row` equal to the parent's `Row + RowSpan`; the first child's `Col` is the parent's `Col`,
each next child's `Col` is the previous child's `Col + ColSpan`, and the last child ends
at the parent's `Col + ColSpan`: the children's column intervals, each at least one column
wide, partition the parent's. -/
theorem C9_children_row_and_columns (root : Node) (hr : InRange root) :
    (∃ st, emit root = .ok ((rootCall root).calls.map CallTree.cell, st)) ∧
    (rootCall root).t = root ∧
    ∀ call ∈ (rootCall root).calls, call.t.Children ≠ [] →
      (∀ mt, getCells call.cell.Depth call.t call.cell.Row call.cell.Col call.rowsLeft mt
        = .ok (call.cells, stateAfter mt call.cells)) ∧
      call.kids.map CallTree.t = call.t.Children ∧
      (∀ k ∈ call.kids, k ∈ (rootCall root).calls) ∧
      (∀ k ∈ call.kids, k.cell.Row = call.cell.Row + call.cell.RowSpan) ∧
      (∀ k ∈ call.kids.head?, k.cell.Col = call.cell.Col) ∧
      List.Chain' (fun a b : CallTree => b.cell.Col = a.cell.Col + a.cell.ColSpan) call.kids ∧
      (∀ k ∈ call.kids.getLast?,
        k.cell.Col + k.cell.ColSpan = call.cell.Col + call.cell.ColSpan) ∧
      (∀ k ∈ call.kids, 1 ≤ k.cell.ColSpan) := by
  refine ⟨⟨_, by rw [calls_cells]; exact emit_eq root hr⟩, callTree_t _ _ _ _ _, ?_⟩
  intro call hcall hne
  obtain ⟨d1, row1, col1, rl1, e⟩ := calls_shape root call hcall
  have hkids : ∀ k ∈ call.kids, k ∈ (rootCall root).calls :=
    CallTree.kids_mem_calls_aux.1 _ call hcall
  have hspan : ∀ k ∈ call.kids, 1 ≤ k.cell.ColSpan := by
    intro k hk
    have h1 : k.cell ∈ (rootCall root).cells := by
      rw [← calls_cells]
      exact List.mem_map_of_mem _ (hkids k hk)
    have := (tiles_root root).1 _ h1
    omega
  refine ⟨calls_getCells root hr call hcall, ?_⟩
  generalize call.t = t at e hne
  subst e
  refine ⟨?_, hkids, ?_, ?_, ?_, ?_, hspan⟩
  · rw [callTree_kids, callTreeLoop_t]
  · intro k hk
    rw [callTree_kids] at hk
    rw [(callTreeLoop_row _ _ _ _ _ k hk).1, callTree_cell]
  · intro k hk
    rw [callTree_kids] at hk
    rw [callTreeLoop_head_col _ _ _ _ _ k hk, callTree_cell]
  · rw [callTree_kids]
    exact callTreeLoop_chain _ _ _ _ _
  · intro k hk
    rw [callTree_kids] at hk
    rw [callTreeLoop_last_col _ _ _ _ _ k hk, callTree_cell]
    cases t with
    | mk v cs tags =>
      cases cs with
      | nil => simp [Node.Children] at hne
      | cons c cs => rw [cols_cons]; rfl

/-- C9 (instance): the tree of `{A:a, B:{b:c}}` is within range; in its layout the cells
of the root's children `A` and `B` are in row 1 = 0 + 1, at columns 0 and 1. -/
theorem C9_children_row_and_columns_witness :
    InRange unevenTree ∧
    (rootCall unevenTree).t.Children ≠ [] ∧
    (∀ k ∈ (rootCall unevenTree).kids,
      k.cell.Row = (rootCall unevenTree).cell.Row + (rootCall unevenTree).cell.RowSpan) ∧
    (rootCall unevenTree).kids.map (fun k => (k.cell.Value, k.cell.Row, k.cell.Col, k.cell.ColSpan))
      = [("A", 1, 0, 1), ("B", 1, 1, 1)] :=
  ⟨by decide, rootCall_unevenTree_kids_ne,
    ((C9_children_row_and_columns unevenTree (by decide)).2.2 (rootCall unevenTree)
      (CallTree.mem_calls_self _) rootCall_unevenTree_kids_ne).2.2.2.1, rfl⟩

/-- C9 (counterexample to the claim as stated): take a root whose only child is the tree
of 164 nodes on which `rowsToUse` wraps around to 0. For the root, `rowsToUse` is 1 (the
call `lcm(1, 0)` returns 0) and the top-level call of `getCells` starts; its call on the
child divides the budget by `rowsToUse(child) = 0` and panics: the node with children gets
no cells for its children, and `TableHeader` does not return. -/
theorem C9_counterexample :
    (over [zeroTree]).Children = [zeroTree] ∧ rowsToUse zeroTree = .ok 0 ∧
    lcm 1 0 = .ok 0 ∧ rowsToUse (over [zeroTree]) = .ok 1 ∧
    emit (over [zeroTree]) = .error Fault.divideByZero ∧
    (over [zeroTree]).TableHeader = .error Fault.divideByZero := by
  refine ⟨rfl, by decide!, by decide!, by decide!, error_of_check _ _ (by decide!),
    error_of_check _ _ (by decide!)⟩

/-- C10 (as amended): for every tree within the range of `int` whose row count is at most
the largest length `make` accepts, `TableHeader` returns a result whose `Rows` has exactly
`NumRows` entries; the root cell (the first emitted cell, in row 0) is in none of them; the
row of index `i` consists of exactly the emitted cells with `Row = i + 1` (it is a
permutation of them) in strictly increasing `Col`; and when the root has children the
first row is the list of the cells of the root's direct children, in their original
order. -/
theorem C10_rows_grouped_and_ordered (root : Node) (hr : InRange root)
    (hm : (rows root : Int) ≤ maxSliceLen) :
    ∃ mt rootCell below st,
      root.TableHeader = .ok mt ∧ emit root = .ok (rootCell :: below, st) ∧
      (mt.Rows.length : Int) = mt.NumRows ∧
      rootCell.Row = 0 ∧
      (∀ row ∈ mt.Rows, rootCell ∉ row ∧ ∀ h ∈ row, 1 ≤ h.Row) ∧
      (∀ (i : Nat) (row : List Header), mt.Rows[i]? = some row →
        List.Perm row ((rootCell :: below).filter (fun h => decide (h.Row = (i : Int) + 1))) ∧
        row.Pairwise (fun a b => a.Col < b.Col)) ∧
      (root.Children ≠ [] → ∃ row0, mt.Rows.head? = some row0 ∧
        List.Forall₂
          (fun (h : Header) (c : Node) => h.Value = c.Value ∧ h.Tags = c.Tags ∧
            h.IsLeaf = (c.Children.length == 0) ∧ h.Depth = 0 + 1 ∧ h.Row = 1 ∧
            h.ColSpan = width c)
          row0 root.Children) := by
  obtain ⟨h1, h2, h3, h4⟩ := numRows_bounds root
  have hrow0 : (rootCall root).cell.Row = 0 := by rw [rootCall_cell]
  have hbelow : ∀ row ∈ (groupedBy (sort (rootCall root).cells)
      (numRowsAfter 0 (rootCall root).cells).toNat).drop 1, ∀ h ∈ row, 1 ≤ h.Row := by
    intro row hrow h hh
    have := (tiles_kids root).1 h
      ((published_perm root).subset (List.mem_flatten.mpr ⟨row, hrow, hh⟩))
    omega
  refine ⟨_, _, _, _, TableHeader_eq root hr hm,
    (emit_eq root hr).trans (by rw [rootCall_cells]), ?_, hrow0, ?_, ?_, ?_⟩
  · simp only [groupedBy, List.length_drop, List.length_map, List.length_range]
    omega
  · intro row hrow
    refine ⟨?_, hbelow row hrow⟩
    intro hc
    have := hbelow row hrow _ hc
    omega
  · intro i row hi
    have e := rows_getElem root i row hi
    subst e
    rw [← rootCall_cells]
    exact ⟨(sort_perm _).filter _, sort_filter_row root _⟩
  · intro hne
    obtain ⟨row0, h8, h9⟩ := first_row_children root hne
    exact ⟨row0, h8, forall2_width _ _ (cols_children_lt root hr.2.1) h9⟩

/-- C10 (instance): the tree of `{A:a, B:{b:c}}` is within the bounds; the result has 5
rows, and the first row holds the cells of the root's children `A` and `B`, in this
order. -/
theorem C10_rows_grouped_and_ordered_witness :
    InRange unevenTree ∧ (rows unevenTree : Int) ≤ maxSliceLen ∧
    unevenTree.Children ≠ [] ∧
    ∃ mt row0, unevenTree.TableHeader = .ok mt ∧ (mt.Rows.length : Int) = mt.NumRows ∧
      mt.NumRows = 5 ∧ mt.Rows.head? = some row0 ∧
      row0.map Header.Value = ["A", "B"] ∧ row0.Pairwise (fun a b => a.Col < b.Col) := by
  have hne : unevenTree.Children ≠ [] := by simp [unevenTree, Node.Children]
  obtain ⟨mt, _, _, _, h1, _, h3, _, _, h6, h7⟩ :=
    C10_rows_grouped_and_ordered unevenTree (by decide) (by decide)
  obtain ⟨row0, h8, _⟩ := h7 hne
  have hT : unevenTree.TableHeader = .ok
      ⟨[[⟨"A", none, false, 1, 1, 0, 3, 1⟩, ⟨"B", none, false, 1, 1, 1, 2, 1⟩], [],
        [⟨"b", none, false, 2, 3, 1, 2, 1⟩], [⟨"a", none, true, 2, 4, 0, 3, 1⟩],
        [⟨"c", none, true, 3, 5, 1, 2, 1⟩]], 5,
        [⟨"a", none, true, 2, 4, 0, 3, 1⟩, ⟨"c", none, true, 3, 5, 1, 2, 1⟩]⟩ := rfl
  have hrow := (h6 0 row0 (by rw [← List.head?_eq_getElem?]; exact h8)).2
  rw [hT] at h1
  have hmt := Except.ok.inj h1
  subst hmt
  simp only [List.head?_cons, Option.some.injEq] at h8
  subst h8
  exact ⟨by decide, by decide, hne, _, _, hT, h3, rfl, rfl, rfl, hrow⟩

/-- C10 (counterexample to the claim as stated): on the tree of 173 nodes whose root has
two children with the row count 2^32 + 2 each, `rowsToUse(root)` wraps around to 4 and
`TableHeader` returns a grid of 3 rows. The two children get `RowSpan` 0, so that their
descendants start in the same row: the first row holds 118 cells, not the two cells of the
root's children, and it holds several cells at column 0, so that it is not in strictly
increasing `Col`. -/
theorem C10_counterexample :
    squareTree.Children.length = 2 ∧
    ∃ mt row0, squareTree.TableHeader = .ok mt ∧ mt.NumRows = 3 ∧
      mt.Rows.head? = some row0 ∧ row0.length = 118 ∧
      (row0.filter (fun h => decide (h.Col = 0))).length = 5 ∧
      ¬ row0.Pairwise (fun a b => a.Col < b.Col) := by
  obtain ⟨mt, hp, hc⟩ := ok_of_check squareTree.TableHeader
    (fun mt => decide (mt.NumRows = 3) &&
      (match mt.Rows.head? with
        | some row0 => decide (row0.length = 118) &&
            (decide ((row0.filter (fun h => decide (h.Col = 0))).length = 5) &&
              decide (¬ row0.Pairwise (fun a b => a.Col < b.Col)))
        | none => false))
    (by decide!)
  obtain ⟨hn, h2⟩ := Bool.and_eq_true_iff.mp hc
  cases hrow : mt.Rows.head? with
  | none => rw [hrow] at h2; cases h2
  | some row0 =>
    rw [hrow] at h2
    obtain ⟨h3, h4⟩ := Bool.and_eq_true_iff.mp h2
    obtain ⟨h5, h6⟩ := Bool.and_eq_true_iff.mp h4
    exact ⟨rfl, mt, row0, hp, of_decide_eq_true hn, hrow, of_decide_eq_true h3,
      of_decide_eq_true h5, of_decide_eq_true h6⟩

/-- C11 (as amended): for every tree within the range of `int` whose row count is at most
the largest length `make` accepts, every emitted cell with `IsLeaf = true` has
`Row + RowSpan = rowsToUse(root)`, and so has every cell of the result's `Leafs` and every
leaf cell of its `Rows`; when the root has children, the first row lists their cells in
order and the cell of a childless child has `ColSpan = 1`, `Row = 1` and
`RowSpan = rowsToUse(root) - 1`. In the layout of `{a[],b:{c,d:{d1,d2:d3,d4},e},f,g:{h,i}}`
the first cell of the first row is `a` with `RowSpan = 4`. -/
theorem C11_leaf_cells_span_remaining_depth :
    (∀ root : Node, InRange root → (rows root : Int) ≤ maxSliceLen → ∃ mt cells st R,
      root.TableHeader = .ok mt ∧ emit root = .ok (cells, st) ∧ rowsToUse root = .ok R ∧
      (∀ h ∈ cells, h.IsLeaf = true → h.Row + h.RowSpan = R) ∧
      (∀ h ∈ mt.Leafs, h.Row + h.RowSpan = R) ∧
      (∀ row ∈ mt.Rows, ∀ h ∈ row, h.IsLeaf = true → h.Row + h.RowSpan = R) ∧
      (root.Children ≠ [] → ∃ row0, mt.Rows.head? = some row0 ∧
        List.Forall₂
          (fun (h : Header) (c : Node) => h.Value = c.Value ∧
            (c.Children = [] →
              h.IsLeaf = true ∧ h.ColSpan = 1 ∧ h.Row = 1 ∧ h.RowSpan = R - 1))
          row0 root.Children)) ∧
    (BuildNode noDecimal testLit = (some testTree, none) ∧
      rowsToUse testTree = .ok 5 ∧
      ∃ mt row0 a rest, testTree.TableHeader = .ok mt ∧ mt.Rows.head? = some row0 ∧
        row0 = a :: rest ∧ a.Value = "a" ∧ a.IsLeaf = true ∧ a.ColSpan = 1 ∧ a.Row = 1 ∧
        a.RowSpan = 4) := by
  constructor
  · intro root hr hm
    have hcells : ∀ h ∈ (rootCall root).cells, h.IsLeaf = true →
        h.Row + h.RowSpan = (rows root : Int) := by
      intro h hh hl
      rw [← calls_cells] at hh
      obtain ⟨call, hcall, e⟩ := List.mem_map.mp hh
      subst e
      exact leaf_call_rowSpan root call hcall hl
    refine ⟨_, _, _, _, TableHeader_eq root hr hm, emit_eq root hr, rowsToUse_eq root hr.1,
      hcells, ?_, ?_, ?_⟩
    · intro h hh
      obtain ⟨h1, h2⟩ := List.mem_filter.mp hh
      exact hcells h h1 h2
    · intro row hrow h hh hl
      have hmem : h ∈ ((groupedBy (sort (rootCall root).cells)
          (numRowsAfter 0 (rootCall root).cells).toNat).drop 1).flatten :=
        List.mem_flatten.mpr ⟨row, hrow, hh⟩
      have h1 := (published_perm root).subset hmem
      have h2 : h ∈ (rootCall root).cells := by
        rw [rootCall_cells]
        exact List.mem_cons_of_mem _ h1
      exact hcells h h2 hl
    · intro hne
      refine ⟨_, first_row root hne, ?_⟩
      rw [rootCall_kids]
      exact loop_leaf_cells_forall2 _ _ _ _ _
  · refine ⟨rfl, rfl, ?_⟩
    exact ⟨_, _, ⟨"a", some [], true, 1, 1, 0, 4, 1⟩,
      ((rootCall testTree).kids.map CallTree.cell).tail,
      TableHeader_eq testTree (by decide) (by decide),
      first_row testTree testTree_children_ne, rfl, rfl, rfl, rfl, rfl, rfl⟩

/-- C11 (instance): the tree of `{A:a, B:{b:c}}` is within the bounds and needs 7 rows;
its leaf cells `a` (`Row` 4, `RowSpan` 3) and `c` (`Row` 5, `RowSpan` 2) both end at
row 7. -/
theorem C11_leaf_cells_span_remaining_depth_witness :
    InRange unevenTree ∧ (rows unevenTree : Int) ≤ maxSliceLen ∧
    ∃ mt, unevenTree.TableHeader = .ok mt ∧ rowsToUse unevenTree = .ok 7 ∧
      mt.Leafs.map (fun h => (h.Value, h.Row, h.RowSpan)) = [("a", 4, 3), ("c", 5, 2)] ∧
      ∀ h ∈ mt.Leafs, h.Row + h.RowSpan = 7 := by
  obtain ⟨mt, cells, st, R, h1, _, h3, _, h5, _, _⟩ :=
    C11_leaf_cells_span_remaining_depth.1 unevenTree (by decide) (by decide)
  have hR : rowsToUse unevenTree = .ok 7 := rfl
  rw [hR] at h3
  obtain rfl := Except.ok.inj h3
  have hT : unevenTree.TableHeader = .ok
      ⟨[[⟨"A", none, false, 1, 1, 0, 3, 1⟩, ⟨"B", none, false, 1, 1, 1, 2, 1⟩], [],
        [⟨"b", none, false, 2, 3, 1, 2, 1⟩], [⟨"a", none, true, 2, 4, 0, 3, 1⟩],
        [⟨"c", none, true, 3, 5, 1, 2, 1⟩]], 5,
        [⟨"a", none, true, 2, 4, 0, 3, 1⟩, ⟨"c", none, true, 3, 5, 1, 2, 1⟩]⟩ := rfl
  have hmt : mt.Leafs.map (fun h => (h.Value, h.Row, h.RowSpan))
      = [("a", 4, 3), ("c", 5, 2)] := by
    rw [hT] at h1
    have e := Except.ok.inj h1
    subst e
    rfl
  exact ⟨by decide, by decide, mt, h1, hR, hmt, h5⟩

/-- C11 (counterexample to the claim as stated): on the tree of 382 nodes made of chains
of 2, 3, 5, ..., 53 nodes, `rowsToUse(root)` wraps around to -4304329670229058501.
`getCells` returns cells of which 365 have a negative `Row`, while `NumRows` is 2; the
grouping loop indexes `mt.Rows` with such a row and panics, so that `TableHeader` does not
return: no leaf cell is published. -/
theorem C11_counterexample :
    rowsToUse chainTree16 = .ok (-4304329670229058501) ∧
    (∃ cells st, emit chainTree16 = .ok (cells, st) ∧ st.NumRows = 2 ∧
      (cells.filter (fun h => decide (h.Row < 0))).length = 365) ∧
    chainTree16.TableHeader = .error Fault.indexOutOfRange := by
  obtain ⟨p, hp, hc⟩ := ok_of_check (emit chainTree16)
    (fun p => decide (p.2.NumRows = 2) &&
      decide ((p.1.filter (fun h => decide (h.Row < 0))).length = 365)) (by decide!)
  obtain ⟨h1, h2⟩ := Bool.and_eq_true_iff.mp hc
  exact ⟨by decide!, ⟨p.1, p.2, hp, of_decide_eq_true h1, of_decide_eq_true h2⟩,
    error_of_check _ _ (by decide!)⟩

/-- C12: when `BuildNode` succeeds on a values literal, the returned node (with empty
`Value` and nil `Tags`) has exactly one child per element, in element order, and the
child of an element is: for no value, a childless node whose `Value` is the key; for a
string literal, a childless node whose `Value` is the string's value; for a nested values
literal, the children of the node built from it under the key as `Value`; for an
identifier, a node whose `Value` is the key with one childless, tagless child named after
the identifier. -/
theorem C12_buildNode_children (conv : String → Decimal × Option String)
    (vl : parser.ValuesLit) (root : Node) (h : BuildNode conv vl = (some root, none)) :
    root.Value = "" ∧ root.Tags = none ∧
    root.Children.length = vl.Elements.length ∧
    List.Forall₂ (fun child el => childShape conv el child) root.Children vl.Elements := by
  obtain ⟨h1, h2, h3⟩ := BuildNode_children conv vl root h
  exact ⟨h1, h2, h3.length_eq, h3.imp (fun _ _ hh => hh.1)⟩

/-- C12 (instance): `BuildNode` on the syntax tree of
`{a[],b:{c,d:{d1,d2:d3,d4},e},f,g:{h,i}}` gives the four children `a`, `b`, `f`, `g`. -/
theorem C12_buildNode_children_witness :
    BuildNode noDecimal testLit = (some testTree, none) ∧
    testTree.Children.length = testLit.Elements.length ∧
    List.Forall₂ (fun child el => childShape noDecimal el child)
      testTree.Children testLit.Elements :=
  ⟨rfl, (C12_buildNode_children noDecimal testLit testTree rfl).2.2⟩

/-- C13: `BuildNode` returns a non-nil error if and only if some element of the literal
fails, that is, its tag block fails in `BuildMap`, or its value is neither a string
literal, a values literal nor an identifier, or its value is a values literal holding an
element that fails; and the build stops at such an element: whatever elements follow it,
the result is the result for the literal that ends with it, an error. -/
theorem C13_buildNode_error_iff (conv : String → Decimal × Option String) :
    (∀ vl : parser.ValuesLit,
      (BuildNode conv vl).2 ≠ none ↔ ∃ el ∈ vl.Elements, NodeElementFails conv el) ∧
    (∀ (lb rb : Pos) (bo : Token) (pre post : List parser.ValuesElementLit)
      (e : parser.ValuesElementLit), NodeElementFails conv e →
      BuildNode conv (.mk lb (pre ++ e :: post) rb bo)
        = BuildNode conv (.mk lb (pre ++ [e]) rb bo) ∧
      (BuildNode conv (.mk lb (pre ++ e :: post) rb bo)).2 ≠ none) ∧
    (∃ nd, BuildNode conv (.mk 1 [.mk "k" 2 3 (some (.Number "1" 4)) none,
        .mk "x" 6 0 none none] 7 token.LBrace)
      = (some nd, some "invalid value type *parser.Number") ∧ nd.Children = []) := by
  refine ⟨fun vl => ⟨BuildNode_error_fails conv vl, ?_⟩, ?_, ⟨_, rfl, rfl⟩⟩
  · rintro ⟨el, hel, hf⟩
    rcases vl with ⟨lb, els, rb, bo⟩
    obtain ⟨pre, post, e⟩ := List.append_of_mem hel
    simp only [parser.ValuesLit.Elements] at e
    subst e
    rw [BuildNode]
    exact (BuildNodeLoop_stops conv el hf post pre _).2
  · intro lb rb bo pre post e hf
    rw [BuildNode, BuildNode]
    exact BuildNodeLoop_stops conv e hf post pre _

/-- C14: when `BuildNode` succeeds, the child built from each element has `Tags` equal to
the mapping `BuildMap` makes of that element's own tag block, and nil `Tags` when the
element has no tag block: nothing else enters the child's `Tags`. -/
theorem C14_buildNode_tags_are_own (conv : String → Decimal × Option String)
    (vl : parser.ValuesLit) (root : Node) (h : BuildNode conv vl = (some root, none)) :
    List.Forall₂ (fun child el => childTags conv el child) root.Children vl.Elements := by
  obtain ⟨_, _, h3⟩ := BuildNode_children conv vl root h
  exact h3.imp (fun _ _ hh => hh.2)

/-- C14 (instance): in the tree built from `{a[],b:{c,d:{d1,d2:d3,d4},e},f,g:{h,i}}` the
child `a`, whose element has the empty tag block `[]`, has the empty mapping as `Tags`
and its siblings have nil `Tags`. -/
theorem C14_buildNode_tags_are_own_witness :
    BuildNode noDecimal testLit = (some testTree, none) ∧
    List.Forall₂ (fun child el => childTags noDecimal el child)
      testTree.Children testLit.Elements ∧
    testTree.Children.map Node.Tags = [some [], none, none, none] :=
  ⟨rfl, C14_buildNode_tags_are_own noDecimal testLit testTree rfl, rfl⟩

/-- C15 (amended): when `BuildMap` succeeds on a values literal, the keys of the mapping
are exactly the keys of the elements, every element has a value of a supported kind, and
each key holds the value of the last element that has this key: boolean true for no
value, the string for a string literal, the name for an identifier, the converted decimal
for a Number, the recursively built mapping for a nested values literal. `BuildMap` fails
exactly when some element, at any nesting depth, has a value of another kind or a Number
whose conversion fails, and the error returned is the error of such an element, the
conversion error unchanged for a Number. -/
theorem C15_buildMap_last_element_wins (conv : String → Decimal × Option String) :
    (∀ (vl : parser.ValuesLit) (m : TagMap), BuildMap conv vl = (m, none) →
      (∀ k, (m.get k).isSome ↔ k ∈ vl.Elements.map parser.ValuesElementLit.Key) ∧
      (∀ el ∈ vl.Elements, (mapValue conv el).isSome) ∧
      (∀ k el, lastWithKey vl.Elements k = some el → m.get k = mapValue conv el)) ∧
    (∀ vl : parser.ValuesLit, (BuildMap conv vl).2 ≠ none ↔
      ∃ el ∈ vl.Elements, ∃ err, MapElementFails conv el err) ∧
    (∀ (vl : parser.ValuesLit) (err : String), (BuildMap conv vl).2 = some err →
      ∃ el ∈ vl.Elements, MapElementFails conv el err) := by
  refine ⟨?_, ?_, fun vl err h => BuildMap_error_fails conv vl err h⟩
  · intro vl m h
    rcases vl with ⟨lb, els, rb, bo⟩
    rw [BuildMap] at h
    have hget := BuildMapLoop_get conv els _ _ h
    have hval := BuildMapLoop_values conv els _ _ h
    simp only [parser.ValuesLit.Elements]
    refine ⟨fun k => ?_, hval, fun k el hk => ?_⟩
    · rw [← lastWithKey_isSome, hget k]
      cases hl : lastWithKey els k with
      | none => simp [TagMap.get]
      | some el =>
        have := hval el (lastWithKey_mem els k el hl).1
        simpa using this
    · rw [hget k, hk]
  · intro vl
    constructor
    · intro h
      cases he : (BuildMap conv vl).2 with
      | none => exact absurd he h
      | some err =>
        obtain ⟨el, hel, hf⟩ := BuildMap_error_fails conv vl err he
        exact ⟨el, hel, err, hf⟩
    · rintro ⟨el, hel, err, hf⟩
      rcases vl with ⟨lb, els, rb, bo⟩
      rw [BuildMap]
      exact BuildMapLoop_fails conv el err hf els hel _

/-- C15 (instance): the tag block `[x, x:"y"]` builds the mapping that holds the string
`y` under the key `x`, the value of the last element with this key. -/
theorem C15_buildMap_last_element_wins_witness :
    BuildMap noDecimal twiceLit = ([("x", .str "y")], none) ∧
    TagMap.get [("x", .str "y")] "x"
      = mapValue noDecimal (.mk "x" 5 6 (some (.StringLit "y" 7 "\"y\"")) none) :=
  ⟨rfl, ((C15_buildMap_last_element_wins noDecimal).1 twiceLit _ rfl).2.2 "x" _ rfl⟩

/-- C15 (as stated, refuted): on the tag block `[x, x:"y"]` `BuildMap` succeeds, and the
key `x` of the first element, an element without value, does not hold boolean true. -/
theorem C15_counterexample :
    ∃ m el, BuildMap noDecimal twiceLit = (m, none) ∧ el ∈ twiceLit.Elements ∧
      el.Value = none ∧ m.get el.Key = some (.str "y") ∧
      m.get el.Key ≠ mapValue noDecimal el := by
  refine ⟨[("x", .str "y")], .mk "x" 2 0 none none, rfl, .head _, rfl, rfl, ?_⟩
  intro h
  have h1 : some (TagValue.str "y") = some (TagValue.bool true) := h
  injection h1 with h2
  cases h2

/-- Claim C16: for every list of elements, each written as an identifier key optionally
followed by a colon and an identifier value, the text of the elements joined with commas
inside braces is parsed by `ParseFile` without error into exactly one statement, an
expression statement that holds a values literal with one element per written element in
order, each with the written key, the written value as an identifier or no value, and no
tags. -/
theorem C16_written_elements_parse (U : Unicode) (elements : List (String × Option String))
    (h : ∀ e ∈ elements, parser.IdentText U false (bytes e.1) ∧
      ∀ v, e.2 = some v → parser.IdentText U false (bytes v)) :
    ∃ r, parser.parseSource U (elementsText elements) = some r ∧ r.err = none ∧
      stmtsView r = some [some (elements.map elementView)] := by
  have hplain : parser.ValuesLit.Plain U false
      (.mk 0 (elements.map elementLit) 0 token.LBrace) := by
    rw [parser.ValuesLit.Plain]
    exact ⟨rfl, parser.plain_elements U elements h⟩
  obtain ⟨r, y, h1, h2, h3, h4⟩ := parser.parseSource_written_text U false _ hplain
  rw [parser.written_elements] at h1
  refine ⟨r, h1, h2, ?_⟩
  have hv := parser.ValuesLit.views_of_strip h4
  have hv2 : y.Elements.map (fun e => e.view) = elements.map elementView := by
    rw [hv]
    show (elements.map elementLit).map (fun e => e.view) = _
    rw [List.map_map]
    exact List.map_congr_left (fun e _ => parser.view_elementLit e)
  unfold stmtsView
  cases hf : r.file with
  | none =>
    rw [hf] at h3
    cases h3
  | some f =>
    rw [hf] at h3
    have hs : f.Stmts = [parser.Stmt.ExprStmt (.ValuesLit y)] := Option.some.inj h3
    show some (f.Stmts.map _) = _
    rw [hs]
    show some [some (y.Elements.map fun el => el.view)] = _
    rw [hv2]

/-- C16 (instances): the theorem at the two written elements `foo` and `x:z` for the text
`{foo,x:z}`; and, evaluated, the texts `{foo}`, `{"foo bar"}` and `{"foo bar","x":"z"}`
of the specification, which parse without error to one statement, a values literal with
the elements `foo`; `foo bar`; and `foo bar` and `x`, the last one with a value that is
not an identifier, all without tags. -/
theorem C16_written_elements_parse_witness :
    ((∀ e ∈ [("foo", none), ("x", some "z")],
        parser.IdentText ascii false (bytes e.1) ∧
          ∀ v, e.2 = some v → parser.IdentText ascii false (bytes v)) ∧
      ∃ r, parser.parseSource ascii (elementsText [("foo", none), ("x", some "z")]) = some r ∧
        r.err = none ∧
        stmtsView r = some [some ([("foo", none), ("x", some "z")].map elementView)]) ∧
    (parser.parseSource ascii [123, 102, 111, 111, 125]).map
        (fun r => (stmtsView r, r.err.isSome)) =
      some (some [some [⟨"foo", false, none, none, []⟩]], false) ∧
    (parser.parseSource ascii
        [123, 34, 102, 111, 111, 32, 98, 97, 114, 34, 125]).map
        (fun r => (stmtsView r, r.err.isSome)) =
      some (some [some [⟨"foo bar", false, none, none, []⟩]], false) ∧
    (parser.parseSource ascii
        [123, 34, 102, 111, 111, 32, 98, 97, 114, 34, 44, 34, 120, 34, 58, 34, 122, 34,
          125]).map (fun r => (stmtsView r, r.err.isSome)) =
      some (some [some [⟨"foo bar", false, none, none, []⟩, ⟨"x", true, none, none, []⟩]],
        false) := by
  have hid : ∀ e ∈ [("foo", (none : Option String)), ("x", some "z")],
      parser.IdentText ascii false (bytes e.1) ∧
        ∀ v, e.2 = some v → parser.IdentText ascii false (bytes v) := by
    intro e he
    have hfoo : identKey "foo" := ⟨rfl, by decide⟩
    have hx : identKey "x" := ⟨rfl, by decide⟩
    have hz : identKey "z" := ⟨rfl, by decide⟩
    simp only [List.mem_cons, List.mem_singleton, List.not_mem_nil, or_false] at he
    rcases he with rfl | rfl
    · exact ⟨parser.IdentText.of_identKey ascii hfoo, fun v hv => by cases hv⟩
    · refine ⟨parser.IdentText.of_identKey ascii hx, fun v hv => ?_⟩
      cases hv
      exact parser.IdentText.of_identKey ascii hz
  refine ⟨⟨hid, C16_written_elements_parse ascii _ hid⟩, ?_, ?_, ?_⟩ <;> decide!

/-- C17 (amended): where the parser expects an operand and is at the tokens of a written
values literal in braces (keys and values as the scanner reads them, no tags),
`parseOperand` returns that literal, a `ValuesLit` with `BraceOpen` the token `{`, with
the parser left after the closing brace and no error added. A values literal that
`parseValuesLit` returns with an empty error list was opened by the bracket it was asked
for and closed by the matching closing bracket. At the tokens `[` and `(` `parseOperand`
returns no values literal: it asks for an operand, skips to the end of the input and
returns a `BadExpr`, or panics with `bailout` when more than 10 errors are recorded; the
error list is not empty afterwards, and it starts with `expected operand, found '['` (or
`'('`) when it was empty before, an error on the line of the last recorded one being left
out. The text `{a:{b}}` parses without error to an element whose value is a literal
opened by `{` with the key `b`; without the inner closing brace the parse fails; in
`{@:[b]}` the error for `[` is left out after the error for `@` on the same line; and
`{a[b]}`, `{a(b)}` parse without error with the bracket as a tag block. -/
theorem C17_only_brace_opens_operand :
    (∀ (U : Unicode) (q : Bool) (fuel : Nat) (v : parser.ValuesLit) (p : parser.Parser)
        (rest : List (Token × String)),
      v.Plain U q → 3 * (v.toks q).length ≤ fuel + 1 → rest ≠ [] →
      p.On U (v.toks q ++ rest) →
      ∃ y p1, parser.Parser.parseOperand U (fuel + 1) p = .ok (.ValuesLit y) p1 ∧
        y.strip = v.strip ∧ y.BraceOpen = token.LBrace ∧ p1.On U rest ∧
        p1.errors = p.errors) ∧
    (∀ (U : Unicode) (fuel : Nat) (tokOpen : Token) (p : parser.Parser) (v : parser.ValuesLit)
        (q : parser.Parser),
      p.Inv → 4 * p.mu + 2 ≤ fuel →
      parser.Parser.parseValuesLit U fuel tokOpen p = .ok v q → q.errors = [] →
      p.token = tokOpen ∧
      ∃ els p2, v = .mk p.pos els p2.pos tokOpen ∧ p2.token = tokOpen + 1 ∧
        parser.Parser.next U p2 = .ok () q) ∧
    (∀ (U : Unicode) (fuel : Nat) (p : parser.Parser),
      p.Inv → p.mu ≤ fuel → p.token = token.LBrack ∨ p.token = token.LParen →
      ((∃ q, parser.Parser.parseOperand U (fuel + 1) p = .ok (.BadExpr p.pos q.pos) q ∧
          q.token = token.EOF ∧ q.errors ≠ [] ∧
          (p.errors = [] → ∃ rest, q.errors = ⟨p.file.Position p.pos,
            "expected operand, found \x27" ++ Token.String p.token ++ "\x27"⟩ :: rest)) ∨
        (∃ q, parser.Parser.parseOperand U (fuel + 1) p = .bailout q ∧
          10 < q.errors.length ∧ p.errors ≠ []))) ∧
    (parser.parseSource ascii (bytes "\x7ba:\x7bb\x7d\x7d")).bind (fun r =>
        (firstElement r).map (fun el => (r.err.isSome, el.Key,
          match el.Value with
          | some (.ValuesLit v) => some (v.BraceOpen, v.Elements.map (fun e => e.Key))
          | _ => none)))
      = some (false, "a", some (token.LBrace, ["b"])) ∧
    (parser.parseSource ascii (bytes "\x7ba:\x7bb\x7d")).map (fun r => (r.file.isSome, errorMsgs r))
      = some (false, some ["expected \x27\x7d\x27, found \x27EOF\x27"]) ∧
    (parser.parseSource ascii (bytes "\x7b@:[b]\x7d")).map (fun r => (r.file.isSome, errorMsgs r))
      = some (false, some ["illegal character U+0040 \x27@\x27"]) ∧
    (parser.parseSource ascii (bytes "\x7ba[b]\x7d")).map (fun r => (stmtsView r, r.err.isSome))
      = some (some [some [⟨"a", false, none, some token.LBrack, ["b"]⟩]], false) ∧
    (parser.parseSource ascii (bytes "\x7ba(b)\x7d")).map (fun r => (stmtsView r, r.err.isSome))
      = some (some [some [⟨"a", false, none, some token.LParen, ["b"]⟩]], false) := by
  refine ⟨parser.Parser.parseOperand_written, parser.Parser.parseValuesLit_closed,
    parser.Parser.parseOperand_bracket, ?_, ?_, ?_, ?_, ?_⟩ <;> decide!

/-- C17 (instances): the parser on the text `{a:{b}}` is at the tokens of that literal and
`parseOperand` returns it with no error added; on the text `{a}` `parseValuesLit` returns
with an empty error list a literal closed by `}`; on the text `[b]`, with an empty error
list, `parseOperand` returns a `BadExpr` and records `expected operand, found '['`. -/
theorem C17_only_brace_opens_operand_witness :
    (nestedLit.Plain ascii false ∧ nestedLit.written false = bytes "\x7ba:\x7bb\x7d\x7d" ∧
      ∃ p, parser.NewParser ascii (parser.AddFile 7) (bytes "\x7ba:\x7bb\x7d\x7d") = some p ∧
        p.On ascii (nestedLit.toks false ++ [(token.Semicolon, "\n"), (token.EOF, "")]) ∧
        ∃ y p1, parser.Parser.parseOperand ascii (p.fuel + 1) p = .ok (.ValuesLit y) p1 ∧
          y.strip = nestedLit.strip ∧ y.BraceOpen = token.LBrace ∧
          p1.On ascii [(token.Semicolon, "\n"), (token.EOF, "")] ∧ p1.errors = p.errors) ∧
    (braceParser.Inv ∧ 4 * braceParser.mu + 2 ≤ 40 ∧
      ∃ v q, parser.Parser.parseValuesLit ascii 40 token.LBrace braceParser = .ok v q ∧
        q.errors = [] ∧ braceParser.token = token.LBrace ∧
        ∃ els p2, v = .mk braceParser.pos els p2.pos token.LBrace ∧
          p2.token = token.LBrace + 1 ∧ parser.Parser.next ascii p2 = .ok () q) ∧
    (bracketParser.Inv ∧ bracketParser.mu ≤ 8 ∧ bracketParser.errors = [] ∧
      ((∃ q, parser.Parser.parseOperand ascii (8 + 1) bracketParser
            = .ok (.BadExpr bracketParser.pos q.pos) q ∧
          q.token = token.EOF ∧ q.errors ≠ [] ∧
          (bracketParser.errors = [] → ∃ rest, q.errors = ⟨bracketParser.file.Position
              bracketParser.pos,
            "expected operand, found \x27" ++ Token.String bracketParser.token ++ "\x27"⟩
              :: rest)) ∨
        (∃ q, parser.Parser.parseOperand ascii (8 + 1) bracketParser = .bailout q ∧
          10 < q.errors.length ∧ bracketParser.errors ≠ []))) := by
  have hplain : nestedLit.Plain ascii false := by
    have ha : identKey "a" := ⟨rfl, by decide⟩
    have hb : identKey "b" := ⟨rfl, by decide⟩
    unfold nestedLit
    simp only [parser.ValuesLit.Plain, parser.ValuesElementLit.PlainList,
      parser.ValuesElementLit.Plain, parser.Expr.PlainOpt, parser.Expr.Plain, parser.keyPlain]
    exact ⟨trivial, ⟨trivial,
      ⟨fun h => (by cases h), fun _ => parser.IdentText.of_identKey ascii ha⟩, trivial,
      ⟨trivial, ⟨fun h => (by cases h), fun _ => parser.IdentText.of_identKey ascii hb⟩,
        trivial⟩, trivial⟩, trivial⟩
  have hw : nestedLit.written false = bytes "\x7ba:\x7bb\x7d\x7d" := by decide
  have hinv1 : braceParser.Inv := by
    unfold parser.Parser.Inv parser.Scanner.WF parser.Parser.errors braceParser
    decide
  have hinv2 : bracketParser.Inv := by
    unfold parser.Parser.Inv parser.Scanner.WF parser.Parser.errors bracketParser
    decide
  refine ⟨⟨hplain, hw, ?_⟩, ⟨hinv1, by decide, ?_⟩, ⟨hinv2, by decide, rfl, ?_⟩⟩
  · obtain ⟨p, h1, h2, h3, h4⟩ := parser.NewParser_written ascii false nestedLit hplain
    rw [hw] at h1
    exact ⟨p, h1, h3, C17_only_brace_opens_operand.1 ascii false p.fuel nestedLit p _ hplain (by omega)
      (List.cons_ne_nil _ _) h3⟩
  · obtain ⟨v, q, h1, h2⟩ := Res.ok_of_test
      (parser.Parser.parseValuesLit ascii 40 token.LBrace braceParser)
      (fun _ q => decide (q.errors.length = 0)) (by decide!)
    have he : q.errors = [] := List.length_eq_zero.mp (of_decide_eq_true h2)
    exact ⟨v, q, h1, he, C17_only_brace_opens_operand.2.1 ascii 40 token.LBrace braceParser v q hinv1 (by decide) h1 he⟩
  · exact C17_only_brace_opens_operand.2.2.1 ascii 8 bracketParser hinv2 (by decide) (Or.inl rfl)

/-- C17 (the claim fails): in `{a:[b]}` and in `{a:(b)}` the bracket after the colon is
not accepted as the start of an operand: `ParseFile` returns no file and the error
`expected operand`. -/
theorem C17_counterexample :
    (parser.parseSource ascii (bytes "\x7ba:[b]\x7d")).map (fun r => (r.file.isSome, errorMsgs r))
      = some (false, some ["expected operand, found \x27[\x27"]) ∧
    (parser.parseSource ascii (bytes "\x7ba:(b)\x7d")).map (fun r => (r.file.isSome, errorMsgs r))
      = some (false, some ["expected operand, found \x27(\x27"]) := by
  constructor <;> decide!

/-- C18 (the code at the failing input): the text `;` is scanned as an Illegal token with
literal `;`, the scanner reports an illegal character, and `ParseFile` returns no file and
that error. -/
theorem C18_semicolon_is_illegal :
    scanFirst ascii 0 (bytes ";") 2 = some [(token.Illegal, ";", 1), (token.EOF, "", 2)] ∧
    (parser.parseSource ascii (bytes ";")).map
        (fun r => (r.file.isSome, r.err.map (fun l => l.map (fun e => e.Msg))))
      = some (false, some ["illegal character U+003B \x27;\x27"]) := by
  constructor <;> decide!

/-- C19 (amended): for every input `ParseFile` returns, and the error list of the parser
then holds at most 11 errors more than the scanner reported (`ErrorCount`), all of which
it holds; the error returned is this list, and nil when it is empty. With more than 10
errors in the list, `Parser.error` adds none: it returns (an error on the line of the
last one) or panics with `bailout`. On thirty lines of commas after `{`, where the
scanner reports nothing, the parse is aborted and exactly 11 errors are returned. -/
theorem C19_error_list_bound :
    (∀ (U : Unicode) (src : List Nat), ∃ res, parser.parseSource U src = some res ∧
      (res.p.errors.length : Int) ≤ 11 + res.p.scanner.errorCount ∧
      res.p.scanner.errorCount ≤ res.p.errors.length ∧ 0 ≤ res.p.scanner.errorCount ∧
      (res.err = none ↔ res.p.errors = []) ∧ (∀ l, res.err = some l → l = res.p.errors)) ∧
    (∀ (p : parser.Parser) (pos : Pos) (msg : String), 10 < p.errors.length →
      parser.Parser.error pos msg p = .ok () p ∨ parser.Parser.error pos msg p = .bailout p) ∧
    (parser.parseSource ascii (bytes ("\x7b" ++ String.join (List.replicate 30 ",\n")))).map
        (fun r => (r.file.isSome, r.err.map List.length, r.p.scanner.errorCount))
      = some (false, some 11, 0) := by
  refine ⟨?_, ?_, ?_⟩
  · intro U src
    obtain ⟨res, h1, h2, h3, h4, h5, h6, h7⟩ := parser.parseSource_spec U src
    exact ⟨res, h1, h5, h6, h7, h3, h4⟩
  · intro p pos msg h
    unfold parser.Parser.error
    dsimp only
    by_cases h1 : p.errors.length > 0 ∧
        p.errors.getLast?.map (fun e => e.Pos.Line) = some (p.file.Position pos).Line
    · rw [if_pos h1]
      exact Or.inl rfl
    · rw [if_neg h1, if_pos h]
      exact Or.inr rfl
  · decide!

/-- C19 (the claim fails): on a line with `a` followed by twelve lines that each hold the
one character `@`, which the scanner reports as illegal, `ParseFile` returns an error
list of 12 errors. -/
theorem C19_counterexample :
    (parser.parseSource ascii (bytes ("a\n" ++ String.join (List.replicate 12 "@\n")))).map
        (fun r => (r.file.isSome, r.err.map List.length, r.p.scanner.errorCount))
      = some (false, some 12, 12) ∧ ¬ (12 ≤ 11) := by
  constructor
  · decide!
  · decide

/-- C20: for every input `ParseFile` returns either a file and a nil error, and then no
error is in the error list and the scanner has reported none, or no file and an error,
the error list of the parser, which is not empty. A parse that was aborted by the
`bailout` panic returns no file and the error list, which holds more than 10 errors. -/
theorem C20_file_or_error :
    (∀ (U : Unicode) (src : List Nat), ∃ res, parser.parseSource U src = some res ∧
      ((∃ f, res.file = some f ∧ res.err = none ∧ res.p.errors = [] ∧
          res.p.scanner.errorCount = 0) ∨
        (res.file = none ∧ ∃ l, res.err = some l ∧ l ≠ [] ∧ l = res.p.errors))) ∧
    (∀ (p q : parser.Parser), (parser.Res.bailout q : parser.Res (Option parser.File)).Sat p
        (fun _ _ => True) →
      ∃ res, parser.Parser.deferred (.bailout q) = some res ∧ res.file = none ∧
        ∃ l, res.err = some l ∧ 10 < l.length) := by
  constructor
  · intro U src
    obtain ⟨res, h1, h2, h3, h4, h5, h6, h7⟩ := parser.parseSource_spec U src
    refine ⟨res, h1, ?_⟩
    cases hf : res.file with
    | some f =>
      left
      have he : res.err = none := h2.mp (by rw [hf]; rfl)
      have hl := h3.mp he
      refine ⟨f, rfl, he, hl, ?_⟩
      rw [hl] at h6
      simp only [List.length_nil, Nat.cast_zero] at h6
      omega
    | none =>
      right
      refine ⟨rfl, ?_⟩
      cases he : res.err with
      | none =>
        have := h2.mpr he
        rw [hf] at this
        cases this
      | some l =>
        refine ⟨l, rfl, ?_, h4 l he⟩
        intro hc
        have h8 := h4 l he
        rw [hc] at h8
        have := h3.mpr h8.symm
        rw [he] at this
        cases this
  · intro p q h
    have hlen : 10 < (parser.ErrorList.Sort q.errors).length := by
      rw [parser.ErrorList.Sort_length]
      exact h.2
    refine ⟨_, rfl, rfl, parser.ErrorList.Sort q.errors, ?_, hlen⟩
    show parser.ErrorList.Err (parser.ErrorList.Sort q.errors) = _
    unfold parser.ErrorList.Err
    rw [if_neg (by omega)]

/-- C21: for every input and every integer `c`, a file returned by `ParseFileC(c)` holds
at most `max(c, 0)` statements; and when `ParseFile` returns a file for an input,
`ParseFileC(c)` on a new parser for the same input returns a file and no error, and the
statements of that file are the first `c` statements of the file of `ParseFile` (all of
them when there are fewer, none when `c` is negative). -/
theorem C21_parseFileC_returns_first_statements (U : Unicode) (src : List Nat) (c : Int) :
    (∀ res f, parser.parseSourceC U src c = some res → res.file = some f →
      (f.Stmts.length : Int) ≤ max c 0) ∧
    (∀ res f, parser.parseSource U src = some res → res.file = some f →
      ∃ resC fC, parser.parseSourceC U src c = some resC ∧ resC.file = some fC ∧
        resC.err = none ∧ fC.Stmts = f.Stmts.take c.toNat ∧
        (fC.Stmts.length : Int) = min (max c 0) f.Stmts.length) := by
  obtain ⟨p, h1, h2, _⟩ := parser.NewParser_spec U (parser.AddFile src.length) src
    (parser.AddFile_size _)
  constructor
  · intro res f h hf
    unfold parser.parseSourceC at h
    rw [h1] at h
    exact parser.Parser.ParseFileC_length U c p res f h hf
  · intro res f h hf
    unfold parser.parseSource at h
    rw [h1] at h
    obtain ⟨resC, fC, g1, g2, g3, g4⟩ := parser.Parser.ParseFileC_take U c p h2 res f h hf
    refine ⟨resC, fC, ?_, g2, g3, g4, ?_⟩
    · unfold parser.parseSourceC
      rw [h1]
      exact g1
    · rw [g4, List.length_take]
      omega

/-- Claim C22: round trip for values literals without tags. For every values literal
opened by a brace, without tags, whose keys are plain ASCII identifiers and whose element
values are absent, identifiers, or nested such literals, parsing the text that its method
`String` gives returns, without error, a file with a single expression statement whose
values literal is the original one up to the positions: the same bracket kind, keys,
values and nesting in the same order. -/
theorem C22_values_literal_round_trip (U : Unicode) (vl : parser.ValuesLit)
    (h : vl.Plain U true) :
    ∃ r y, parser.parseSource U (bytes (vl.String U)) = some r ∧ r.err = none ∧
      (r.file.map fun f => f.Stmts) = some [parser.Stmt.ExprStmt (.ValuesLit y)] ∧
      y.strip = vl.strip := by
  rw [(parser.String_written U _).2.1 vl h (le_refl _)]
  exact parser.parseSource_written_text U true vl h

/-- C22 (instance): the literal with the element `a` of value `b` and the element `c`
whose value is the literal with the element `d`, at arbitrary positions; its text is
`{"a":b, "c":{"d"}}`. -/
theorem C22_values_literal_round_trip_witness :
    parser.ValuesLit.Plain ascii true
      (.mk 5 [.mk "a" 1 2 (some (.Ident "b" 3)) none,
        .mk "c" 4 6 (some (.ValuesLit (.mk 7 [.mk "d" 8 0 none none] 9 token.LBrace))) none]
        10 token.LBrace) ∧
    bytes (parser.ValuesLit.String ascii
      (.mk 5 [.mk "a" 1 2 (some (.Ident "b" 3)) none,
        .mk "c" 4 6 (some (.ValuesLit (.mk 7 [.mk "d" 8 0 none none] 9 token.LBrace))) none]
        10 token.LBrace)) =
      [123, 34, 97, 34, 58, 98, 44, 32, 34, 99, 34, 58, 123, 34, 100, 34, 125, 125] ∧
    ∃ r y, parser.parseSource ascii (bytes (parser.ValuesLit.String ascii
        (.mk 5 [.mk "a" 1 2 (some (.Ident "b" 3)) none,
          .mk "c" 4 6 (some (.ValuesLit (.mk 7 [.mk "d" 8 0 none none] 9 token.LBrace))) none]
          10 token.LBrace))) = some r ∧ r.err = none ∧
      (r.file.map fun f => f.Stmts) = some [parser.Stmt.ExprStmt (.ValuesLit y)] ∧
      y.strip = parser.ValuesLit.strip
        (.mk 5 [.mk "a" 1 2 (some (.Ident "b" 3)) none,
          .mk "c" 4 6 (some (.ValuesLit (.mk 7 [.mk "d" 8 0 none none] 9 token.LBrace))) none]
          10 token.LBrace) := by
  have ha : identKey "a" := ⟨rfl, by decide⟩
  have hb : identKey "b" := ⟨rfl, by decide⟩
  have hc : identKey "c" := ⟨rfl, by decide⟩
  have hd : identKey "d" := ⟨rfl, by decide⟩
  have hk : ∀ key, identKey key → parser.keyPlain ascii true key :=
    fun key h => ⟨fun _ => h, fun hq => (by cases hq)⟩
  have hp : parser.ValuesLit.Plain ascii true
      (.mk 5 [.mk "a" 1 2 (some (.Ident "b" 3)) none,
        .mk "c" 4 6 (some (.ValuesLit (.mk 7 [.mk "d" 8 0 none none] 9 token.LBrace))) none]
        10 token.LBrace) := by
    simp only [parser.ValuesLit.Plain, parser.ValuesElementLit.PlainList,
      parser.ValuesElementLit.Plain, parser.Expr.PlainOpt, parser.Expr.Plain, and_true,
      true_and]
    exact ⟨⟨hk _ ha, parser.IdentText.of_identKey ascii hb⟩, hk _ hc, hk _ hd⟩
  exact ⟨hp, by decide, C22_values_literal_round_trip ascii _ hp⟩

/-- C23 (the code at the failing input): the text `foo` is scanned as an identifier, after
which `insertSemi` is not set, so that the end of the input gives `EOF` and no semicolon,
and `ParseFile` returns no file and the error that a semicolon was expected; the same
with a newline after `foo`. After the text `"foo"`, a string, the semicolon is there and
the parse succeeds. -/
theorem C23_identifier_alone_fails :
    scanFirst ascii 0 (bytes "foo") 2 = some [(token.Ident, "foo", 1), (token.EOF, "", 4)] ∧
    (parser.parseSource ascii (bytes "foo")).map (fun r => (r.file.isSome, errorMsgs r))
      = some (false, some ["expected \x27;\x27, found \x27EOF\x27"]) ∧
    (parser.parseSource ascii (bytes "foo\n")).map (fun r => (r.file.isSome, errorMsgs r))
      = some (false, some ["expected \x27;\x27, found \x27EOF\x27"]) ∧
    scanFirst ascii 0 (bytes "\"foo\"") 3
      = some [(token.String, "\"foo\"", 1), (token.Semicolon, "\n", 6), (token.EOF, "", 6)] := by
  refine ⟨?_, ?_, ?_, ?_⟩ <;> decide!

/-- C24 (amended): with `DontInsertSemis` not set, a call of `Scan` on a well-formed
scanner returns a token, and if the token is neither an identifier nor a number then
afterwards `insertSemi` is set when the token is a string, `)`, `]` or `}`; it is set
after an `Illegal` token only if it was set before the call; and it is not set after any
other token. -/
theorem C24_insertSemi_after_scan (U : Unicode) (s : parser.Scanner) (hwf : s.WF)
    (hm : s.mode &&& parser.DontInsertSemis = 0) :
    ∃ tok lit pos t, s.Scan U (s.src.length + 2) = some (tok, lit, pos, t) ∧
      (tok = token.String ∨ tok = token.RParen ∨ tok = token.RBrack ∨ tok = token.RBrace →
        t.insertSemi = true) ∧
      (tok = token.Illegal → t.insertSemi = true → s.insertSemi = true) ∧
      (tok ≠ token.Ident → tok ≠ token.Number → tok ≠ token.String → tok ≠ token.RParen →
        tok ≠ token.RBrack → tok ≠ token.RBrace → tok ≠ token.Illegal →
        t.insertSemi = false) := by
  obtain ⟨r, g1, g2⟩ := parser.Scanner.Scan_spec U (s.src.length + 2) s hwf
    (by have := parser.Scanner.left_le s; omega)
  obtain ⟨tok, lit, pos, t⟩ := r
  obtain ⟨_, _, _, _, _, _, _, b8, _⟩ := g2
  obtain ⟨c1, c2, c3⟩ := b8 hm
  exact ⟨tok, lit, pos, t, g1, c1, c2, fun _ _ h1 h2 h3 h4 h5 => c3 h1 h2 h3 h4 h5⟩

/-- C24 (instance): the scanner at the start of `}@` is well-formed and in mode 0. -/
theorem C24_insertSemi_after_scan_witness :
    braceScanner.WF ∧ braceScanner.mode &&& parser.DontInsertSemis = 0 ∧
    ∃ tok lit pos t, braceScanner.Scan ascii (braceScanner.src.length + 2)
        = some (tok, lit, pos, t) ∧
      (tok = token.String ∨ tok = token.RParen ∨ tok = token.RBrack ∨ tok = token.RBrace →
        t.insertSemi = true) ∧
      (tok = token.Illegal → t.insertSemi = true → braceScanner.insertSemi = true) ∧
      (tok ≠ token.Ident → tok ≠ token.Number → tok ≠ token.String → tok ≠ token.RParen →
        tok ≠ token.RBrack → tok ≠ token.RBrace → tok ≠ token.Illegal →
        t.insertSemi = false) := by
  have hwf : braceScanner.WF := by
    unfold parser.Scanner.WF braceScanner
    decide
  exact ⟨hwf, rfl, C24_insertSemi_after_scan ascii braceScanner hwf rfl⟩

/-- C24 (the claim fails): in the text `}@` the second call of `Scan` returns the token
`Illegal`, which is none of identifier, number, string, `)`, `]` and `}`, and leaves
`insertSemi` set, as it was after the `}`. -/
theorem C24_counterexample :
    parser.NewScanner ascii (parser.AddFile 2) (bytes "\x7d@") true [] 0 = some braceScanner ∧
    (braceScanner.Scan ascii 4).bind
        (fun r1 => (r1.2.2.2.Scan ascii 4).map (fun r2 =>
          (r1.1, r1.2.2.2.insertSemi, r2.1, r2.2.1, r2.2.2.2.insertSemi)))
      = some (token.RBrace, true, token.Illegal, "@", true) := by
  constructor
  · rfl
  · decide!

/-- C25 (amended): for every text, every mode and every `n`, the first `n` calls of `Scan`
on a new scanner for the text all return, and every Number token among the results, at
the position `pos` and so at the offset `i = pos - 1` of the text, has as its literal
exactly the bytes of the text from `i` up to an offset `j`, and these bytes are: a digit
first and so a run of digits that is not empty, or a sign `-` or `+` and then a run of
digits that may be empty; and in both cases then possibly a dot and a run of digits that
may be empty. Each run of digits goes on up to a character that is not a digit. -/
theorem C25_number_literal (U : Unicode) (mode : Nat) (src : List Nat) (n : Nat) :
    ∃ toks, scanFirst U mode src n = some toks ∧ toks.length = n ∧
      ∀ lit pos, (token.Number, lit, pos) ∈ toks →
        ∃ i j : Nat, pos = 1 + (i : Int) ∧ lit = parser.sourceText src i j ∧
          parser.NumberText U src i j ∧ ∀ k, parser.NumberText U src i k → k = j := by
  obtain ⟨s, h1, h2, _⟩ := parser.NewScanner_spec U (parser.AddFile src.length) src mode rfl
  obtain ⟨h3, h4, h5⟩ := parser.NewScanner_rune U _ _ _ _ _ s h1
  obtain ⟨toks, g1, g2, g3⟩ := scanList_numeral U n s h2 h3
  refine ⟨toks, ?_, g2, ?_⟩
  · unfold scanFirst
    rw [h1]
    exact g1
  · intro lit pos hm
    obtain ⟨i, j, a1, a2, a3⟩ := g3 lit pos hm
    rw [h5] at a2 a3
    rw [h4] at a1
    exact ⟨i, j, a1, a2, a3, a3.number_unique⟩

/-- C25 (instance): the text `-1.5` is scanned as one Number token with the literal
`-1.5` at the position 1, the four bytes of the text from the offset 0, and the text `12`
as one Number token with the literal `12`. -/
theorem C25_number_literal_witness :
    scanFirst ascii 0 (bytes "-1.5") 2 = some [(token.Number, "-1.5", 1), (token.EOF, "", 5)] ∧
    scanFirst ascii 0 (bytes "12") 2 = some [(token.Number, "12", 1), (token.EOF, "", 3)] ∧
    parser.NumberText ascii (bytes "-1.5") 0 4 ∧ parser.NumberText ascii (bytes "12") 0 2 ∧
    ∃ toks, scanFirst ascii 0 (bytes "-1.5") 2 = some toks ∧ toks.length = 2 ∧
      ∀ lit pos, (token.Number, lit, pos) ∈ toks →
        ∃ i j : Nat, pos = 1 + (i : Int) ∧ lit = parser.sourceText (bytes "-1.5") i j ∧
          parser.NumberText ascii (bytes "-1.5") i j ∧
          ∀ k, parser.NumberText ascii (bytes "-1.5") i k → k = j := by
  refine ⟨by decide!, by decide!, ?_, ?_, C25_number_literal ascii 0 (bytes "-1.5") 2⟩
  · exact ⟨1, 2, Or.inr ⟨Or.inl (by decide), rfl⟩,
      .step 1 2 (by decide) (.stop 2 (by decide)),
      Or.inr ⟨by decide, .step 3 4 (by decide) (.stop 4 (by decide))⟩⟩
  · exact ⟨0, 2, Or.inl ⟨by decide, rfl⟩,
      .step 0 2 (by decide) (.step 1 2 (by decide) (.stop 2 (by decide))),
      Or.inl ⟨by decide, rfl⟩⟩

/-- C25 (the claim fails): the text `-`, a sign that no digit follows, is scanned as a
Number token with the literal `-`, which holds no digit. -/
theorem C25_counterexample :
    scanFirst ascii 0 (bytes "-") 2 = some [(token.Number, "-", 1), (token.EOF, "", 2)] ∧
    scanFirst ascii 0 (bytes "+.") 2 = some [(token.Number, "+.", 1), (token.EOF, "", 3)] ∧
    ("-".toList.filter Char.isDigit = [] ∧ "+.".toList.filter Char.isDigit = []) := by
  refine ⟨?_, ?_, ?_⟩ <;> decide!

/-- C26: for every byte string `b`, an occurrence of the two bytes `*/` in
`StripCR(b, true)` whose `*` is at output index 2 or later is an occurrence of `*/` in
`b`, after the same bytes other than `'\r'`: a `*` immediately followed by `/` in `b`.
Hence, if `b` starts with `/*` and ends with `*/` and has no other `*/` that starts at
index 2 or later, the same holds of `StripCR(b, true)`. In `/**\r/*/` the `'\r'` stays
and in `/*\r*/` it goes. -/
theorem C26_stripCR_no_premature_terminator :
    (∀ b o1 o2 : List Nat, parser.StripCR b true = o1 ++ 42 :: 47 :: o2 → 2 ≤ o1.length →
      ∃ b1 b2, b = b1 ++ 42 :: 47 :: b2 ∧
        b1.filter (fun x => decide (x ≠ 13)) = o1.filter (fun x => decide (x ≠ 13))) ∧
    (∀ m : List Nat,
      (∀ b1 b2, 47 :: 42 :: (m ++ [42, 47]) = b1 ++ 42 :: 47 :: b2 → 2 ≤ b1.length →
        b2 = []) →
      (∃ o, parser.StripCR (47 :: 42 :: (m ++ [42, 47])) true
        = 47 :: 42 :: (o ++ [42, 47])) ∧
      ∀ o1 o2, parser.StripCR (47 :: 42 :: (m ++ [42, 47])) true = o1 ++ 42 :: 47 :: o2 →
        2 ≤ o1.length → o2 = []) ∧
    parser.StripCR (bytes "/**\r/*/") true = bytes "/**\r/*/" ∧
    parser.StripCR (bytes "/*\r*/") true = bytes "/**/" ∧
    parser.StripCR (bytes "/*\r/\r*\r/*/") true = bytes "/*/*\r/*/" := by
  have key : ∀ b o1 o2 : List Nat, parser.StripCR b true = o1 ++ 42 :: 47 :: o2 →
      2 ≤ o1.length → ∃ b1 b2, b = b1 ++ 42 :: 47 :: b2 ∧
        b1.filter (fun x => decide (x ≠ 13)) = o1.filter (fun x => decide (x ≠ 13)) ∧
        parser.StripCRLoop true b2 (o1 ++ [42, 47]) = o1 ++ 42 :: 47 :: o2 := by
    intro b o1 o2 h h2
    obtain ⟨b1, b2, e1, e2, e3⟩ := StripCRLoop_star_slash b [] o1 o2 h (by simp) h2
    exact ⟨b1, b2, e1, by simpa using e2, e3⟩
  refine ⟨fun b o1 o2 h h2 => ?_, fun m hm => ⟨StripCR_block m true, ?_⟩,
    by decide, by decide, by decide⟩
  · obtain ⟨b1, b2, e1, e2, _⟩ := key b o1 o2 h h2
    exact ⟨b1, b2, e1, e2⟩
  · intro o1 o2 h h2
    obtain ⟨b1, b2, e1, e2, e3⟩ := key _ o1 o2 h h2
    obtain ⟨o, ho⟩ := StripCR_block m true
    have hb1 : 2 ≤ b1.length := by
      rw [ho] at h
      match o1, h2, h with
      | x :: y :: o1', _, h =>
        simp only [List.cons_append, List.cons.injEq] at h
        obtain ⟨hx, hy, _⟩ := h
        subst hx
        subst hy
        have hle : (b1.filter (fun x => decide (x ≠ 13))).length ≤ b1.length :=
          List.length_filter_le _ _
        have hf : ((47 :: 42 :: o1').filter (fun x => decide (x ≠ 13))).length
            = (o1'.filter (fun x => decide (x ≠ 13))).length + 2 := by
          simp [List.filter_cons]
        rw [e2, hf] at hle
        omega
    have hb2 := hm b1 b2 e1 hb1
    subst hb2
    rw [parser.StripCRLoop] at e3
    have := List.append_cancel_left e3
    simpa using this.symm

/-- C27: for every byte string and either flag, the output of `StripCR` is a sublist of
the input that holds, in order, every byte other than `'\r'` (removing the `'\r'` bytes
from input and output gives the same), and with `comment = false` it is the input without
its `'\r'` bytes; `//\r\r\r\n` becomes `//\n`. -/
theorem C27_stripCR_removes_only_cr :
    (∀ (b : List Nat) (comment : Bool),
      List.Sublist (parser.StripCR b comment) b ∧
      (parser.StripCR b comment).filter (fun x => decide (x ≠ 13))
        = b.filter (fun x => decide (x ≠ 13))) ∧
    (∀ b : List Nat, parser.StripCR b false = b.filter (fun x => decide (x ≠ 13))) ∧
    parser.StripCR (bytes "//\r\r\r\n") false = bytes "//\n" ∧
    parser.StripCR (bytes "/**\r/*/") true = bytes "/**\r/*/" := by
  refine ⟨fun b comment => ?_, fun b => ?_, by decide, by decide⟩
  · obtain ⟨t, h1, h2, h3⟩ := StripCRLoop_spec comment b []
    rw [parser.StripCR, h1]
    exact ⟨h2, h3⟩
  · rw [parser.StripCR, StripCRLoop_false]
    rfl

/-- C28 (the code at the failing input): the text `{a}` parses without error to a values
literal with the one element `a`, which has no value; `End` of this element dereferences
the nil `Value`, while its `Pos` is 2. -/
theorem C28_element_without_value_has_no_end :
    (parser.parseSource ascii (bytes "\x7ba\x7d")).bind (fun r =>
        (firstElement r).map (fun el =>
          (r.err.isSome, el.Key, el.Value.isSome, parser.Expr.Pos (.ValuesElementLit el),
            parser.Expr.End (.ValuesElementLit el))))
      = some (false, "a", false, 2, none) := by
  decide!

/-- C29 (amended): for every input byte string `ParseFile` returns, with the fuel that
the model gives its loops; and every call of `Scan` on a well-formed scanner returns a
token and leaves a well-formed scanner with no more left to read: it returns `EOF` at the
end of the input, or it has read on, or it has cleared `insertSemi`, which was set. -/
theorem C29_parse_terminates :
    (∀ (U : Unicode) (src : List Nat), ∃ res, parser.parseSource U src = some res) ∧
    (∀ (U : Unicode) (s : parser.Scanner), s.WF →
      ∃ tok lit pos t, s.Scan U (s.src.length + 2) = some (tok, lit, pos, t) ∧ t.WF ∧
        t.left ≤ s.left ∧ (tok = token.EOF → t.ch = -1) ∧
        (tok ≠ token.EOF →
          t.left < s.left ∨ (s.insertSemi = true ∧ t.insertSemi = false))) := by
  constructor
  · intro U src
    obtain ⟨res, h1, _⟩ := parser.parseSource_spec U src
    exact ⟨res, h1⟩
  · intro U s hwf
    obtain ⟨r, g1, g2⟩ := parser.Scanner.Scan_spec U (s.src.length + 2) s hwf
      (by have := parser.Scanner.left_le s; omega)
    obtain ⟨tok, lit, pos, t⟩ := r
    obtain ⟨b1, b2, b3, b4, b5, _⟩ := g2
    simp only at b1 b2 b3 b4 b5
    unfold parser.Scanner.rank at b3 b4
    refine ⟨tok, lit, pos, t, g1, b1, ?_, fun h => (b5 h).1, fun h => ?_⟩
    · cases hs : s.insertSemi <;> cases ht : t.insertSemi <;> rw [hs, ht] at b3 <;>
        simp at b3 <;> omega
    · have := b4 h
      cases hs : s.insertSemi <;> cases ht : t.insertSemi <;> rw [hs, ht] at this <;>
        simp at this
      · left; omega
      · left; omega
      · by_cases hl : t.left < s.left
        · left; exact hl
        · right; exact ⟨rfl, rfl⟩
      · left; omega

/-- C29 (the claim fails): in the text `}//c` the call of `Scan` after the closing brace
returns a semicolon with the literal of a newline and leaves the scanner where it was,
at the first `/` of the comment, which is not the end of the input. -/
theorem C29_counterexample :
    (parser.NewScanner ascii (parser.AddFile 4) (bytes "\x7d//c") true [] 0).bind
        (fun s0 => (s0.Scan ascii 6).bind (fun r1 => (r1.2.2.2.Scan ascii 6).map (fun r2 =>
          ([r1.1, r1.2.2.2.offset, r1.2.2.2.readOffset, r1.2.2.2.ch],
            [r2.1, r2.2.2.2.offset, r2.2.2.2.readOffset, r2.2.2.2.ch], r2.2.1))))
      = some ([token.RBrace, 1, 2, 47], [token.Semicolon, 1, 2, 47], "\n") := by
  decide!

/-- Claim C30: for every source, every file of its size and either setting of
`DontInsertSemis`, repeated `Scan` up to `EOF` returns in the mode with `ScanComments` and
in the mode without it, and the (token, literal, position) triples of the mode without
`ScanComments` are those of the mode with it after deleting the `Comment` tokens. -/
theorem C30_skipping_comments_filters_them (U : Unicode) (file : parser.SourceFile)
    (src : List Nat) (dont : Bool) (hsize : file.Size = src.length) :
    ∃ l, parser.scanTokens U file src
        (parser.ScanComments ||| (if dont then parser.DontInsertSemis else 0)) = some l ∧
      parser.scanTokens U file src (if dont then parser.DontInsertSemis else 0) =
        some (l.filter fun r => decide (r.1 ≠ token.Comment)) := by
  apply parser.scanTokens_modes U file src _ _ _ _ _ hsize
  · cases dont <;> decide
  · cases dont <;> decide
  · cases dont <;> decide

theorem C30_skipping_comments_filters_them_witness :
    (parser.AddFile 9).Size = ([125, 47, 47, 99, 10, 47, 42, 42, 47] : List Nat).length ∧
    ∃ l, parser.scanTokens ascii (parser.AddFile 9) [125, 47, 47, 99, 10, 47, 42, 42, 47]
        (parser.ScanComments ||| (if false then parser.DontInsertSemis else 0)) = some l ∧
      parser.scanTokens ascii (parser.AddFile 9) [125, 47, 47, 99, 10, 47, 42, 42, 47]
          (if false then parser.DontInsertSemis else 0) =
        some (l.filter fun r => decide (r.1 ≠ token.Comment)) :=
  ⟨by decide, C30_skipping_comments_filters_them ascii (parser.AddFile 9)
    [125, 47, 47, 99, 10, 47, 42, 42, 47] false (by decide)⟩

/-- C31 (as amended): for every tree within the range of `int` whose row count is at most
the largest length `make` accepts, no two cells emitted by `getCells` for `TableHeader`
have the same `(Row, Col)` pair; of two different emitted cells one is less than the
other, and never both; so every arrangement of the emitted cells in which no cell is less
than an earlier one (what `sort.Slice` guarantees, stable or not) is the same list, the
one the grid is built from. -/
theorem C31_sorted_cells_are_unique (root : Node) (hr : InRange root)
    (hm : (rows root : Int) ≤ maxSliceLen) :
    ∃ cells st mt, emit root = .ok (cells, st) ∧ root.TableHeader = .ok mt ∧
      cells.Pairwise (fun a b => ¬ (a.Row = b.Row ∧ a.Col = b.Col)) ∧
      cells.Pairwise (fun a b => (less a b = true ∨ less b a = true) ∧
        ¬ (less a b = true ∧ less b a = true)) ∧
      (∀ sorted : List Header, List.Perm sorted cells →
        sorted.Pairwise (fun a b => less b a = false) → sorted = sort cells) ∧
      mt.Rows = (groupedBy (sort cells) (mt.NumRows + 1).toNat).drop 1 := by
  have hd := tiles_keys_distinct _ _ _ _ _ (tiles_root root)
  refine ⟨_, _, _, emit_eq root hr, TableHeader_eq root hr hm, hd, ?_, ?_, ?_⟩
  · refine hd.imp ?_
    intro a b h
    rw [less_iff, less_iff]
    constructor
    · omega
    · omega
  · intro sorted hp hs
    have hd2 : sorted.Pairwise (fun a b => ¬ (a.Row = b.Row ∧ a.Col = b.Col)) := by
      refine (List.Perm.pairwise_iff ?_ hp).mpr hd
      intro a b h hc
      exact h ⟨hc.1.symm, hc.2.symm⟩
    exact strict_perm_unique _ _ (hp.trans (sort_perm _).symm)
      (strict_of_sorted_distinct _ hs hd2) (sort_strict root)
  · simp

/-- C31 (instance): the tree of `{A:a, B:{b:c}}` is within the bounds; its six emitted
cells have six different `(Row, Col)` pairs. -/
theorem C31_sorted_cells_are_unique_witness :
    InRange unevenTree ∧ (rows unevenTree : Int) ≤ maxSliceLen ∧
    ∃ cells st, emit unevenTree = .ok (cells, st) ∧
      cells.map (fun h => (h.Row, h.Col)) = [(0, 0), (1, 0), (4, 0), (1, 1), (3, 1), (5, 1)] ∧
      cells.Pairwise (fun a b => ¬ (a.Row = b.Row ∧ a.Col = b.Col)) := by
  obtain ⟨cells, st, _, h1, _, h3, _⟩ :=
    C31_sorted_cells_are_unique unevenTree (by decide) (by decide)
  have he : emit unevenTree = .ok
      ([⟨"", none, false, 0, 0, 0, 1, 2⟩, ⟨"A", none, false, 1, 1, 0, 3, 1⟩,
        ⟨"a", none, true, 2, 4, 0, 3, 1⟩, ⟨"B", none, false, 1, 1, 1, 2, 1⟩,
        ⟨"b", none, false, 2, 3, 1, 2, 1⟩, ⟨"c", none, true, 3, 5, 1, 2, 1⟩],
       ⟨[], 6, [⟨"a", none, true, 2, 4, 0, 3, 1⟩, ⟨"c", none, true, 3, 5, 1, 2, 1⟩]⟩) := rfl
  have hk : cells.map (fun h => (h.Row, h.Col))
      = [(0, 0), (1, 0), (4, 0), (1, 1), (3, 1), (5, 1)] := by
    rw [he] at h1
    have e := (Prod.mk.inj (Except.ok.inj h1)).1
    rw [← e]
    rfl
  exact ⟨by decide, by decide, cells, st, h1, hk, h3⟩

/-- C31 (counterexample to the claim as stated): on the tree of 173 nodes whose root has
two children with the row count 2^32 + 2 each, `rowsToUse(root)` wraps around to 4. The
first child gets `RowSpan` 0, so that its own first child is emitted at the same
`(Row, Col) = (1, 0)`: the second and the third emitted cell have the same pair, neither
is less than the other, and the 173 emitted cells have 85 different pairs only. -/
theorem C31_counterexample :
    rowsToUse squareTree = .ok 4 ∧
    ∃ cells st a b, emit squareTree = .ok (cells, st) ∧ cells.length = 173 ∧
      cells[1]? = some a ∧ cells[2]? = some b ∧
      a.Depth = 1 ∧ b.Depth = 2 ∧ a.RowSpan = 0 ∧
      a.Row = 1 ∧ a.Col = 0 ∧ b.Row = 1 ∧ b.Col = 0 ∧
      less a b = false ∧ less b a = false ∧
      ((cells.map (fun h => (h.Row, h.Col))).eraseDups).length = 85 ∧
      ¬ cells.Pairwise (fun a b => ¬ (a.Row = b.Row ∧ a.Col = b.Col)) := by
  obtain ⟨p, hp, hc⟩ := ok_of_check (emit squareTree)
    (fun p => decide (p.1.length = 173) &&
      (match p.1[1]?, p.1[2]? with
        | some a, some b =>
          decide (a.Depth = 1 ∧ b.Depth = 2 ∧ a.RowSpan = 0 ∧
            a.Row = 1 ∧ a.Col = 0 ∧ b.Row = 1 ∧ b.Col = 0 ∧
            less a b = false ∧ less b a = false) &&
          (decide (((p.1.map (fun h => (h.Row, h.Col))).eraseDups).length = 85) &&
            decide (¬ p.1.Pairwise (fun a b => ¬ (a.Row = b.Row ∧ a.Col = b.Col))))
        | _, _ => false))
    (by decide!)
  obtain ⟨h1, h2⟩ := Bool.and_eq_true_iff.mp hc
  cases ha : p.1[1]? with
  | none => rw [ha] at h2; cases h2
  | some a =>
    cases hb : p.1[2]? with
    | none => rw [ha, hb] at h2; cases h2
    | some b =>
      rw [ha, hb] at h2
      obtain ⟨h3, h4⟩ := Bool.and_eq_true_iff.mp h2
      obtain ⟨h5, h6⟩ := Bool.and_eq_true_iff.mp h4
      obtain ⟨q1, q2, q3, q4, q5, q6, q7, q8, q9⟩ := of_decide_eq_true h3
      exact ⟨by decide!, p.1, p.2, a, b, hp, of_decide_eq_true h1, ha, hb, q1, q2, q3, q4, q5,
        q6, q7, q8, q9, of_decide_eq_true h5, of_decide_eq_true h6⟩

/-- C32 (as amended): for every tree within the range of `int` whose row count is at most
the largest length `make` accepts, the number of cells in `Leafs` is `width(root)`, and the
cell of index `i` in `Leafs` is a leaf cell with `Col = i` and `ColSpan = 1`. -/
theorem C32_leafs_enumerate_columns (root : Node) (hr : InRange root)
    (hm : (rows root : Int) ≤ maxSliceLen) :
    ∃ mt, root.TableHeader = .ok mt ∧ (mt.Leafs.length : Int) = width root ∧
      ∀ (i : Nat) (h : Header), mt.Leafs[i]? = some h →
        h.Col = (i : Int) ∧ h.ColSpan = 1 ∧ h.IsLeaf = true := by
  have hc := leaf_cols root
  have hw := cols_pos root
  have hwr := width_eq root hr.2.1
  refine ⟨_, TableHeader_eq root hr hm, ?_, ?_⟩
  · have := congrArg List.length hc
    simp only [List.length_map, List.length_range] at this
    show (((rootCall root).cells.filter (fun h => h.IsLeaf)).length : Int) = width root
    rw [this, hwr]
    omega
  · intro i h hi
    have hi' : ((rootCall root).cells.filter (fun h => h.IsLeaf))[i]? = some h := hi
    have h1 := congrArg (fun l => l[i]?) hc
    simp only [List.getElem?_map, hi', Option.map_some'] at h1
    have hmem : h ∈ (rootCall root).cells.filter (fun h => h.IsLeaf) := by
      rw [List.getElem?_eq_some_iff] at hi'
      obtain ⟨hlt, e⟩ := hi'
      rw [← e]
      exact List.getElem_mem hlt
    have hleaf := (List.mem_filter.mp hmem).2
    cases hr : (List.range (cols root).toNat)[i]? with
    | none =>
      rw [hr] at h1
      simp at h1
    | some j =>
      rw [hr] at h1
      simp only [Option.map_some', Option.some.injEq, Prod.mk.injEq] at h1
      have hj : j = i := by
        rw [List.getElem?_eq_some_iff] at hr
        obtain ⟨_, e⟩ := hr
        simpa using e.symm
      rw [hj] at h1
      exact ⟨h1.1, h1.2, hleaf⟩

/-- C32 (instance): the tree of `{A:a, B:{b:c}}` is within the bounds and has width 2;
its `Leafs` are the cells of `a` at column 0 and of `c` at column 1, each one column
wide. -/
theorem C32_leafs_enumerate_columns_witness :
    InRange unevenTree ∧ (rows unevenTree : Int) ≤ maxSliceLen ∧
    ∃ mt, unevenTree.TableHeader = .ok mt ∧ width unevenTree = 2 ∧
      (mt.Leafs.length : Int) = width unevenTree ∧
      mt.Leafs.map (fun h => (h.Value, h.Col, h.ColSpan)) = [("a", 0, 1), ("c", 1, 1)] := by
  obtain ⟨mt, h1, h2, _⟩ := C32_leafs_enumerate_columns unevenTree (by decide) (by decide)
  have hT : unevenTree.TableHeader = .ok
      ⟨[[⟨"A", none, false, 1, 1, 0, 3, 1⟩, ⟨"B", none, false, 1, 1, 1, 2, 1⟩], [],
        [⟨"b", none, false, 2, 3, 1, 2, 1⟩], [⟨"a", none, true, 2, 4, 0, 3, 1⟩],
        [⟨"c", none, true, 3, 5, 1, 2, 1⟩]], 5,
        [⟨"a", none, true, 2, 4, 0, 3, 1⟩, ⟨"c", none, true, 3, 5, 1, 2, 1⟩]⟩ := rfl
  have hmt : mt.Leafs.map (fun h => (h.Value, h.Col, h.ColSpan))
      = [("a", 0, 1), ("c", 1, 1)] := by
    rw [hT] at h1
    have e := Except.ok.inj h1
    subst e
    rfl
  exact ⟨by decide, by decide, mt, h1, rfl, h2, hmt⟩

/-- C32 (counterexample to the claim as stated): the tree of 239 nodes made of chains of
2, 3, 5, ..., 41 nodes under one root is within the range of `int` and 13 columns wide.
`getCells` returns and collects 13 leaf cells, leaving `NumRows = 296829525392402`;
`make` panics on that length, so `TableHeader` does not return and there is no `Leafs`
to enumerate the columns. -/
theorem C32_counterexample :
    InRange chainTree13 ∧ width chainTree13 = 13 ∧
    (∃ cells st, emit chainTree13 = .ok (cells, st) ∧ st.Leafs.length = 13 ∧
      st.NumRows = 296829525392402 ∧ maxSliceLen < st.NumRows) ∧
    chainTree13.TableHeader = .error Fault.lenOutOfRange := by
  obtain ⟨p, hp, hc⟩ := ok_of_check (emit chainTree13)
    (fun p => decide (p.2.Leafs.length = 13) && decide (p.2.NumRows = 296829525392402))
    (by decide!)
  obtain ⟨h1, h2⟩ := Bool.and_eq_true_iff.mp hc
  have hn := of_decide_eq_true h2
  refine ⟨by decide!, by decide!, ⟨p.1, p.2, hp, of_decide_eq_true h1, hn, ?_⟩,
    error_of_check _ _ (by decide!)⟩
  rw [hn]
  decide

/-- C33: the part of `parseValuesElementLit` after the key reads the chained tag blocks,
one at each bracket that is not of the kind of the enclosing literal, and goes on, where
no tag block follows, as it would with the last block alone: the element returned has as
tags the last of the blocks read after the key, every earlier block being discarded, and
reading the blocks adds no error of its own. At a bracket of the kind of the enclosing
literal the chain is empty: no block is read there, the parser asks for a colon or a
comma and returns, still at the bracket, the element without a value and with the tags
it had, and the error list is not empty afterwards. The text `{key[t1](t2):v}` has after its key the
two blocks `[t1]` and `(t2)` and parses without error to one element with the key `key`,
the value `v` and the tags of the block `(t2)`; with a tag block `{t3}` added, and for
`{a{b}}`, the parse fails. -/
theorem C33_last_tag_block_wins :
    (∀ (U : Unicode) (fuel : Nat) (bo : Token) (p : parser.Parser),
      parser.Parser.parseValuesElementLit U (fuel + 1) bo p
        = ((if p.token = token.Ident then parser.Res.ok p.tokenLit p
            else if p.token = token.String then parser.Res.ok (U.Unquote p.tokenLit) p
            else (parser.Parser.errorExpected p.pos "map key" p).bind
              fun _ p => .ok "_" p).bind fun name p0 =>
          (parser.Parser.next U p0).bind fun _ p1 =>
          (parser.Parser.tagBlocks U bo fuel p1).bind fun r q =>
            parser.Parser.parseValuesElementTry U r.2 bo name p.pos r.1.getLast? q)) ∧
    (∀ (U : Unicode) (fuel : Nat) (bo : Token) (key : String) (kp : Pos)
        (tags : Option parser.ValuesLit) (p : parser.Parser),
      parser.Parser.parseValuesElementTry U fuel bo key kp tags p
        = (parser.Parser.tagBlocks U bo fuel p).bind fun r q =>
            parser.Parser.parseValuesElementTry U r.2 bo key kp (parser.lastTags tags r.1) q) ∧
    (∀ (U : Unicode) (fuel : Nat) (bo : Token) (key : String) (kp : Pos)
        (tags : Option parser.ValuesLit) (p : parser.Parser) (el : parser.ValuesElementLit)
        (p1 : parser.Parser),
      parser.Parser.parseValuesElementTry U fuel bo key kp tags p = .ok el p1 →
      ∃ ts m q, parser.Parser.tagBlocks U bo fuel p = .ok (ts, m) q ∧
        ¬ opensTags bo q.token ∧ el.Key = key ∧ el.Tags = parser.lastTags tags ts ∧
        parser.Parser.parseValuesElementTry U m bo key kp (parser.lastTags tags ts) q
          = .ok el p1) ∧
    (∀ (tags : Option parser.ValuesLit) (ts : List parser.ValuesLit) (t : parser.ValuesLit),
      parser.lastTags tags [] = tags ∧ parser.lastTags tags (ts ++ [t]) = some t) ∧
    (∀ (U : Unicode) (fuel : Nat) (bo : Token) (key : String) (kp : Pos)
        (tags : Option parser.ValuesLit) (p : parser.Parser),
      (bo = token.LParen ∨ bo = token.LBrace ∨ bo = token.LBrack) → p.token = bo →
      parser.Parser.tagBlocks U bo (fuel + 1) p = .ok ([], fuel + 1) p ∧
      (∀ el p1, parser.Parser.parseValuesElementTry U (fuel + 1) bo key kp tags p = .ok el p1 →
        el = .mk key kp 0 none tags ∧ p1.token = bo ∧ p1.pos = p.pos ∧ p1.errors ≠ []) ∧
      (p.errors = [] →
        ∃ p1, parser.Parser.parseValuesElementTry U (fuel + 1) bo key kp tags p
            = .ok (.mk key kp 0 none tags) p1 ∧
          p1.errors = [⟨p.file.Position p.pos,
            "expected \x27:\x27 | \x27,\x27, found \x27" ++ Token.String bo ++ "\x27"⟩])) ∧
    ((parser.NewParser ascii (parser.AddFile 15) (bytes "\x7bkey[t1](t2):v\x7d")).map
        fun p0 =>
          match (parser.Parser.next ascii p0).bind fun _ p1 =>
            (parser.Parser.next ascii p1).bind fun _ p2 =>
              parser.Parser.tagBlocks ascii token.LBrace 16 p2 with
          | .ok r q => some (r.1.map (fun t => (t.BraceOpen, t.Elements.map fun e => e.Key)),
              r.2, q.token, q.errors.length)
          | _ => none)
      = some (some ([(token.LBrack, ["t1"]), (token.LParen, ["t2"])], 14, token.Colon, 0)) ∧
    (parser.parseSource ascii (bytes "\x7bkey[t1](t2):v\x7d")).map
        (fun r => (stmtsView r, r.err.isSome))
      = some (some [some [⟨"key", true, some "v", some token.LParen, ["t2"]⟩]], false) ∧
    (parser.parseSource ascii (bytes "\x7bkey[t1](t2)\x7bt3\x7d:v\x7d")).map
        (fun r => (r.file.isSome, r.err.map (fun l => l.map (fun e => e.Msg))))
      = some (false, some ["expected \x27:\x27 | \x27,\x27, found \x27\x7b\x27"]) ∧
    (parser.parseSource ascii (bytes "\x7ba\x7bb\x7d\x7d")).map
        (fun r => (r.file.isSome, r.err.map (fun l => l.map (fun e => e.Msg))))
      = some (false, some ["expected \x27:\x27 | \x27,\x27, found \x27\x7b\x27"]) := by
  refine ⟨parseValuesElementLit_blocks, fun U fuel bo key kp tags p =>
      parseValuesElementTry_blocks U bo key kp fuel tags p, parseValuesElementTry_last,
    fun tags ts t => ⟨rfl, lastTags_concat tags ts t⟩,
    fun U fuel bo key kp tags p hb h =>
      ⟨tagBlocks_same U fuel bo p h,
        parser.Parser.parseValuesElementTry_sameKind U fuel bo key kp tags p hb h⟩,
    ?_, ?_, ?_, ?_⟩ <;> decide!

/-- C34: when `ParseFile` returns a file and no error, `Parse` returns a nil node and a
nil error if no statement of the file is an expression statement whose expression is a
values literal, and otherwise the results of `BuildNode` on the values literal of the
first such statement, whatever statements follow it. -/
theorem C34_parse_builds_first_values_literal (U : Unicode)
    (conv : String → Decimal × Option String) (input : List Nat) (r : parser.Parsed)
    (actual : parser.File) (h : parser.parseSource U input = some r) (he : r.err = none)
    (hf : r.file = some actual) :
    ((∀ s ∈ actual.Stmts, s.valuesLit = none) → Parse U conv input = some (none, none)) ∧
    (∀ pre vl post, actual.Stmts = pre ++ .ExprStmt (.ValuesLit vl) :: post →
      (∀ s ∈ pre, s.valuesLit = none) →
      Parse U conv input
        = some ((BuildNode conv vl).1, (BuildNode conv vl).2.map ParseErr.build)) := by
  constructor
  · intro hn
    simp only [Parse, h, he, hf, ParseLoop_none conv _ hn, Option.map_none']
  · intro pre vl post hs hn
    simp only [Parse, h, he, hf, hs, ParseLoop_first conv pre vl post hn]

/-- C34 (instances): the text `{a}` followed by a line with `{b}` parses to two
statements, and `Parse` returns the tree of the first, with the one child `a`; the empty
input parses to no statement and `Parse` returns a nil node and a nil error. -/
theorem C34_parse_builds_first_values_literal_witness :
    (∃ r actual vl w,
      parser.parseSource ascii (bytes "\x7ba\x7d\n\x7bb\x7d") = some r ∧ r.err = none ∧
      r.file = some actual ∧
      actual.Stmts = [] ++ .ExprStmt (.ValuesLit vl) :: [.ExprStmt (.ValuesLit w)] ∧
      Parse ascii noDecimal (bytes "\x7ba\x7d\n\x7bb\x7d")
        = some ((BuildNode noDecimal vl).1, (BuildNode noDecimal vl).2.map ParseErr.build) ∧
      ((BuildNode noDecimal vl).1.map (fun n => n.Children.map Node.Value),
        (BuildNode noDecimal vl).2) = (some ["a"], none)) ∧
    (∃ r actual, parser.parseSource ascii [] = some r ∧ r.err = none ∧
      r.file = some actual ∧ actual.Stmts = [] ∧
      Parse ascii noDecimal [] = some (none, none)) := by
  constructor
  · have h1 : (parser.parseSource ascii (bytes "\x7ba\x7d\n\x7bb\x7d")).map
        (fun r => (r.err.isSome, r.file.map (fun f => f.Stmts.map (fun s =>
          s.valuesLit.isSome)))) = some (false, some [true, true]) := by
      decide!
    have h2 : (parser.parseSource ascii (bytes "\x7ba\x7d\n\x7bb\x7d")).bind
        (fun r => r.file.bind (fun f => f.Stmts.head?.bind (fun s =>
          s.valuesLit.map (fun vl =>
            ((BuildNode noDecimal vl).1.map (fun n => n.Children.map Node.Value),
              (BuildNode noDecimal vl).2))))) = some (some ["a"], none) := by
      decide!
    cases hr : parser.parseSource ascii (bytes "\x7ba\x7d\n\x7bb\x7d") with
    | none => rw [hr] at h1; cases h1
    | some r =>
      rw [hr] at h1 h2
      simp only [Option.map_some', Option.some.injEq, Prod.mk.injEq] at h1
      simp only [Option.some_bind] at h2
      obtain ⟨he, hf⟩ := h1
      have he : r.err = none := by
        cases h : r.err with
        | none => rfl
        | some l => rw [h] at he; cases he
      cases hfile : r.file with
      | none => rw [hfile] at hf; cases hf
      | some actual =>
        rw [hfile] at hf h2
        simp only [Option.map_some', Option.some.injEq] at hf
        simp only [Option.some_bind] at h2
        rcases hst : actual.Stmts with _ | ⟨s1, _ | ⟨s2, _ | ⟨s3, rest⟩⟩⟩
        · rw [hst] at hf; simp at hf
        · rw [hst] at hf; simp at hf
        · rw [hst] at hf h2
          simp only [List.map_cons, List.map_nil, List.cons.injEq, and_true] at hf
          obtain ⟨a1, b1⟩ := hf
          obtain ⟨vl, e1⟩ := Stmt.valuesLit_isSome s1 a1
          obtain ⟨w, e2⟩ := Stmt.valuesLit_isSome s2 b1
          subst e1 e2
          refine ⟨r, actual, vl, w, rfl, he, hfile, hst, ?_, ?_⟩
          · exact (C34_parse_builds_first_values_literal ascii noDecimal _ r actual hr he
              hfile).2 [] vl _ hst (by simp)
          · simpa [parser.Stmt.valuesLit] using h2
        · rw [hst] at hf; simp at hf
  · have h1 : (parser.parseSource ascii []).map
        (fun r => (r.err.isSome, r.file.map (fun f => f.Stmts.length))) = some (false, some 0) := by
      decide!
    cases hr : parser.parseSource ascii [] with
    | none => rw [hr] at h1; cases h1
    | some r =>
      rw [hr] at h1
      simp only [Option.map_some', Option.some.injEq, Prod.mk.injEq] at h1
      obtain ⟨he, hf⟩ := h1
      have he : r.err = none := by
        cases h : r.err with
        | none => rfl
        | some l => rw [h] at he; cases he
      cases hfile : r.file with
      | none => rw [hfile] at hf; cases hf
      | some actual =>
        rw [hfile] at hf
        simp only [Option.map_some', Option.some.injEq] at hf
        have hst : actual.Stmts = [] := List.length_eq_zero.mp hf
        refine ⟨r, actual, rfl, he, hfile, hst, ?_⟩
        exact (C34_parse_builds_first_values_literal ascii noDecimal _ r actual hr he
          hfile).1 (by rw [hst]; simp)

end table_header
